import Mathlib

/-!
# dcmjs-stream: a shallow embedding of the streaming DICOM decoder

The development follows the JavaScript sources file by file:

* `DicomReadableBufferStream.js` : the chunked byte reader,
* `TagAsync.js`                  : reading a 32-bit tag,
* `readFrame.js`                 : the frame extractor,
* `StreamValueRepresentation.js` : the value-representation registry,
* `DicomMessageAsync.js`         : the dataset parser and the file orchestrator.

## How the asynchronous reader is modelled

Every `await` of the sources is sequential: the parser runs from one
`readNBytes` to the next without yielding to the event loop, and the file
stream emits its `'data'` and `'end'` events only while a `readNBytes` call
is waiting with its listeners attached.  The underlying `fs.ReadStream` is
therefore the list of events it has still to emit: the chunks, followed by
one `'end'`.  The listener registered in the constructor sets
`isStreamEnded` when `'end'` is emitted, so the flag is true exactly when the
file stream has already emitted `'end'`.

A promise can be resolved, rejected, or never settled (listeners attached to
a stream that has nothing left to emit); `Res` has one constructor for each.
Bytes are natural numbers below 256.
-/

namespace DcmjsStream

/-! ## DicomReadableBufferStream.js -/

/-- What the `fs.ReadStream` has still to emit: `flowing chunks` emits the
chunks in order as `'data'` events and then `'end'`; `ended` has emitted
`'end'` already and will never emit again. -/
inductive FileStream where
  | flowing (chunks : List (List Nat))
  | ended
deriving DecidableEq, Repr

/-- The fields of `class DicomReadableBufferStream`.  `decoder` is the label
given to `new TextDecoder(label)`. -/
structure DicomReadableBufferStream where
  isLittleEndian : Bool
  remainingBuffer : List Nat
  fileStream : FileStream
  decoder : String
deriving DecidableEq, Repr

/-- The errors thrown by the sources (the message of each `Error`). -/
inductive Err where
  /-- Message "Stream ended before reading n bytes" -/
  | streamEnded (n : Nat)
  /-- Message "Item tag not found after undefined binary length" -/
  | itemTagNotFound
  /-- Message "Frame index i out of range ..." -/
  | frameIndexOutOfRange (frameIndex : Int)
  /-- Message "SequenceDelimiterItem tag value was not zero" -/
  | delimiterNotZero
  /-- Message "Invalid tag in sequence" -/
  | invalidTagInSequence
  /-- Message "Unsupported character set: ..." -/
  | unsupportedCharacterSet
  /-- Message "Using multiple character sets is not supported: ..." -/
  | multipleCharacterSets
  /-- Message "Invalid DICOM file, expected header is missing" -/
  | headerMissing
  /-- Message "Invalid DICOM file, meta length tag is malformed or not present." -/
  | metaLengthMalformed
  /-- Message "Deflated Explicit Little Endian is not supported" -/
  | deflatedNotSupported
  /-- A `ReferenceError`: the identifier `log` is not declared in the module. -/
  | referenceError
  /-- A `TypeError` raised by the JavaScript runtime. -/
  | typeError
  /-- A `RangeError` raised by the JavaScript runtime. -/
  | rangeError
  /-- An error thrown inside the external dcmjs library. -/
  | external
deriving DecidableEq, Repr

/-- The outcome of awaiting a promise: resolved with a value and the reader's
new state, rejected with an error and the reader's state at that point, or
never settled.  `outOfFuel` is not an outcome of the program: it marks a loop
of the model that was given fewer iterations than it needs. -/
inductive Res (α : Type) where
  | ok (a : α) (s : DicomReadableBufferStream)
  | error (e : Err) (s : DicomReadableBufferStream)
  | pending
  | outOfFuel
deriving DecidableEq, Repr

/-- Sequencing of awaited calls: `await x` then continue with `f`. -/
def Res.bind {α β : Type} (x : Res α) (f : α → DicomReadableBufferStream → Res β) : Res β :=
  match x with
  | .ok a s => f a s
  | .error e s => .error e s
  | .pending => .pending
  | .outOfFuel => .outOfFuel

/-- The flag `isStreamEnded`, set by the `'end'` listener of the constructor. -/
def DicomReadableBufferStream.isStreamEnded (s : DicomReadableBufferStream) : Bool :=
  match s.fileStream with
  | .ended => true
  | .flowing _ => false

/-- The chunks the file stream has still to deliver. -/
def FileStream.chunks : FileStream → List (List Nat)
  | .flowing cs => cs
  | .ended => []

/-- Every byte received or still to be received that no caller has been
given yet: the buffered remainder followed by the undelivered chunks. -/
def DicomReadableBufferStream.unread (s : DicomReadableBufferStream) : List Nat :=
  s.remainingBuffer ++ s.fileStream.chunks.flatten

/-- The `onData` listener of `readNBytes`, run over the chunks the stream
emits: `acc` is `Buffer.concat(chunks)` so far.  The result is the
concatenated buffer at the moment `bytesRead >= n`, with the chunks not yet
emitted, or `none` when `'end'` comes first. -/
def onData (n : Nat) : List Nat → List (List Nat) → Option (List Nat × List (List Nat))
  | _, [] => none
  | acc, chunk :: rest =>
    if n ≤ (acc ++ chunk).length then some (acc ++ chunk, rest)
    else onData n (acc ++ chunk) rest

/-- JavaScript `async readNBytes(n)`. -/
def DicomReadableBufferStream.readNBytes (s : DicomReadableBufferStream) (n : Nat) :
    Res (List Nat) :=
  if n ≤ s.remainingBuffer.length then
    .ok (s.remainingBuffer.take n) { s with remainingBuffer := s.remainingBuffer.drop n }
  else
    match s.fileStream with
    | .ended => .pending
    | .flowing chunks =>
      match onData n s.remainingBuffer chunks with
      | some (buffer, rest) =>
        .ok (buffer.take n)
          { s with remainingBuffer := buffer.drop n, fileStream := .flowing rest }
      | none => .error (.streamEnded n) { s with fileStream := .ended }

/-- The byte at index `i` of a buffer (`buffer[i]`). -/
def byteAt (b : List Nat) (i : Nat) : Nat := (b.getD i 0) % 256

/-- JavaScript `DataView.getUint16(0, littleEndian)` on a two-byte buffer. -/
def getUint16 (b : List Nat) (littleEndian : Bool) : Nat :=
  if littleEndian then byteAt b 0 + 256 * byteAt b 1
  else 256 * byteAt b 0 + byteAt b 1

/-- JavaScript `DataView.getUint32(0, littleEndian)` on a four-byte buffer. -/
def getUint32 (b : List Nat) (littleEndian : Bool) : Nat :=
  if littleEndian then
    byteAt b 0 + 256 * byteAt b 1 + 65536 * byteAt b 2 + 16777216 * byteAt b 3
  else
    16777216 * byteAt b 0 + 65536 * byteAt b 1 + 256 * byteAt b 2 + byteAt b 3

/-- JavaScript `DataView.getInt16`: the two's-complement reading of the same bytes. -/
def getInt16 (b : List Nat) (littleEndian : Bool) : Int :=
  let u := getUint16 b littleEndian
  if u < 32768 then (u : Int) else (u : Int) - 65536

/-- JavaScript `DataView.getInt32`: the two's-complement reading of the same bytes. -/
def getInt32 (b : List Nat) (littleEndian : Bool) : Int :=
  let u := getUint32 b littleEndian
  if u < 2147483648 then (u : Int) else (u : Int) - 4294967296

/-- JavaScript `async readUint16()`. -/
def DicomReadableBufferStream.readUint16 (s : DicomReadableBufferStream) : Res Nat :=
  (s.readNBytes 2).bind fun buffer s1 => .ok (getUint16 buffer s1.isLittleEndian) s1

/-- JavaScript `async readUint32()`. -/
def DicomReadableBufferStream.readUint32 (s : DicomReadableBufferStream) : Res Nat :=
  (s.readNBytes 4).bind fun buffer s1 => .ok (getUint32 buffer s1.isLittleEndian) s1

/-- JavaScript `async readInt16()`. -/
def DicomReadableBufferStream.readInt16 (s : DicomReadableBufferStream) : Res Int :=
  (s.readNBytes 2).bind fun buffer s1 => .ok (getInt16 buffer s1.isLittleEndian) s1

/-- JavaScript `async readInt32()`. -/
def DicomReadableBufferStream.readInt32 (s : DicomReadableBufferStream) : Res Int :=
  (s.readNBytes 4).bind fun buffer s1 => .ok (getInt32 buffer s1.isLittleEndian) s1

/-- JavaScript `async readFloat()`: the float is kept as the 32-bit pattern it is decoded from. -/
def DicomReadableBufferStream.readFloat (s : DicomReadableBufferStream) : Res Nat :=
  (s.readNBytes 4).bind fun buffer s1 => .ok (getUint32 buffer s1.isLittleEndian) s1

/-- JavaScript `async readDouble()`: the double is kept as the bytes it is decoded from,
most significant first. -/
def DicomReadableBufferStream.readDouble (s : DicomReadableBufferStream) : Res (List Nat) :=
  (s.readNBytes 8).bind fun buffer s1 =>
    .ok (if s1.isLittleEndian then buffer.reverse else buffer) s1

/-- JavaScript `buffer.toString('ascii')`: each byte with its high bit cleared. -/
def toAscii (b : List Nat) : String :=
  String.mk (b.map fun x => Char.ofNat (x % 128))

/-- JavaScript `async readVR()`. -/
def DicomReadableBufferStream.readVR (s : DicomReadableBufferStream) : Res String :=
  (s.readNBytes 2).bind fun buffer s1 => .ok (toAscii buffer) s1

/-- JavaScript `async readAsciiString(length)`. -/
def DicomReadableBufferStream.readAsciiString (s : DicomReadableBufferStream) (length : Nat) :
    Res String :=
  (s.readNBytes length).bind fun buffer s1 => .ok (toAscii buffer) s1

/-- JavaScript `async readEncodedString(length)`; `decode label bytes` is
`new TextDecoder(label).decode(bytes)`, an external function. -/
def DicomReadableBufferStream.readEncodedString (decode : String → List Nat → String)
    (s : DicomReadableBufferStream) (length : Nat) : Res String :=
  (s.readNBytes length).bind fun buffer s1 => .ok (decode s1.decoder buffer) s1

/-- JavaScript `setEndian(littleEndian)`. -/
def DicomReadableBufferStream.setEndian (s : DicomReadableBufferStream) (littleEndian : Bool) :
    DicomReadableBufferStream :=
  { s with isLittleEndian := littleEndian }

/-- JavaScript `setDecoder(decoder)`. -/
def DicomReadableBufferStream.setDecoder (s : DicomReadableBufferStream) (decoder : String) :
    DicomReadableBufferStream :=
  { s with decoder := decoder }

/-- JavaScript `async increment(n)`. -/
def DicomReadableBufferStream.increment (s : DicomReadableBufferStream) (n : Nat) : Res Unit :=
  (s.readNBytes n).bind fun _ s1 => .ok () s1

/-- The method `end()`. -/
def DicomReadableBufferStream.streamEnd (s : DicomReadableBufferStream) : Bool :=
  s.isStreamEnded && s.remainingBuffer.length == 0

/-- JavaScript `async peekUint8(offset = 0)`. -/
def DicomReadableBufferStream.peekUint8 (s : DicomReadableBufferStream) (offset : Nat) :
    Res Nat :=
  if offset < s.remainingBuffer.length then
    .ok (byteAt s.remainingBuffer offset) s
  else
    (s.readNBytes (offset + 1)).bind fun buffer s1 =>
      .ok (byteAt buffer offset) { s1 with remainingBuffer := buffer }

/-- A sequence of `readNBytes` calls, each awaited before the next; the
results in call order. -/
def readAll : DicomReadableBufferStream → List Nat → Res (List (List Nat))
  | s, [] => .ok [] s
  | s, n :: ns =>
    (s.readNBytes n).bind fun b s1 =>
      (readAll s1 ns).bind fun bs s2 => .ok (b :: bs) s2

/-! ## Values -/

/-- A number as `Number(...)` makes it of a decimal literal: `NaN`, or the
value `(-1)^negative * mantissa * 10^exponent` that the literal denotes, in
normal form: the mantissa does not end in the digit 0, and zero has the
mantissa 0 and the exponent 0.  The runtime rounds this value to the nearest
double, to an infinity beyond the range of the doubles; the rounding is not
part of the model. -/
inductive JsNumber where
  | nan
  | decimal (negative : Bool) (mantissa : Nat) (exponent : Int)
deriving DecidableEq, Repr

/-- The JavaScript values that occur as element values.  Two of them are
results of code outside the repository and are kept as the call that
produces them: `personName str` is
`dicomJson.pnConvertToJsonObject(str, false)`, and `item syntax le bytes` is
`DicomMessage._read(new ReadBufferStream(bytes, le), syntax)`.  The atom
`numberOf x` is the number `x` that `Number(...)` returns.  A float is kept
as the bytes it is decoded from. -/
inductive JsAtom where
  | undefined
  | null
  | number (n : Int)
  | float32 (bits : Nat)
  | float64 (bytes : List Nat)
  | string (str : String)
  | buffer (b : List Nat)
  | numberOf (x : JsNumber)
  | personName (str : String)
  | item (transferSyntax : String) (littleEndian : Bool) (bytes : List Nat)
deriving DecidableEq, Repr

/-- A value is a single JavaScript value or an array of them. -/
inductive JsVal where
  | one (a : JsAtom)
  | array (xs : List JsAtom)
deriving DecidableEq, Repr

/-! ## TagAsync.js -/

/-- JavaScript `TagAsync.fromNumbers(group, element)`: `((group << 16) | element) >>> 0`. -/
def TagAsync.fromNumbers (group element : Nat) : Nat :=
  (((group % 4294967296) <<< 16) % 4294967296 ||| (element % 4294967296)) % 4294967296

/-- JavaScript `TagAsync.readTag(stream)`; the result is the tag's `value`. -/
def TagAsync.readTag (s : DicomReadableBufferStream) : Res Nat :=
  s.readUint16.bind fun group s1 =>
    s1.readUint16.bind fun element s2 => .ok (TagAsync.fromNumbers group element) s2

/-! ## The value-representation registry (StreamValueRepresentation.js) -/

/-- The keys of `VRinstances`, one per class of the registry. -/
inductive VRCode where
  | AE | AS | AT | CS | DA | DS | DT | FL | FD | IS | LO | LT | OB | OD | OF | OW
  | PN | SH | SL | SQ | SS | ST | TM | UC | UI | UL | UN | UR | US | UT
deriving DecidableEq, Repr

/-- The `type` string given to `super(...)` by each class. -/
def VRCode.type : VRCode → String
  | .AE => "AE" | .AS => "AS" | .AT => "AT" | .CS => "CS" | .DA => "DA" | .DS => "DS"
  | .DT => "DT" | .FL => "FL" | .FD => "FD" | .IS => "IS" | .LO => "LO" | .LT => "LT"
  | .OB => "OB" | .OD => "OD" | .OF => "OF" | .OW => "OW" | .PN => "PN" | .SH => "SH"
  | .SL => "SL" | .SQ => "SQ" | .SS => "SS" | .ST => "ST" | .TM => "TM" | .UC => "UC"
  | .UI => "UI" | .UL => "UL" | .UN => "UN" | .UR => "UR" | .US => "US" | .UT => "UT"

/-- JavaScript `VRinstances[type]`, `none` when the key is absent. -/
def VRinstances (type : String) : Option VRCode :=
  [VRCode.AE, .AS, .AT, .CS, .DA, .DS, .DT, .FL, .FD, .IS, .LO, .LT, .OB, .OD, .OF, .OW,
    .PN, .SH, .SL, .SQ, .SS, .ST, .TM, .UC, .UI, .UL, .UN, .UR, .US, .UT].find?
      fun c => c.type == type

/-- JavaScript `StreamValueRepresentation.createByTypeString(type)`. -/
def createByTypeString (type : String) : VRCode :=
  match VRinstances type with
  | some vr => vr
  | none =>
    if type == "ox" then .OW
    else if type == "xs" then .US
    else .UN

/-- The field `maxLength` set by each constructor; `none` when it is `null`
or left unset. -/
def VRCode.maxLength : VRCode → Option Nat
  | .AE => some 16 | .AS => some 4 | .AT => some 4 | .CS => some 16 | .DA => some 8
  | .DS => some 16 | .DT => some 26 | .FL => some 4 | .FD => some 8 | .IS => some 12
  | .SL => some 4 | .SS => some 2 | .TM => some 14 | .UI => some 64 | .UL => some 4
  | .US => some 2
  | _ => none

/-- The field `fixed`. -/
def VRCode.fixed : VRCode → Bool
  | .AS | .AT | .FL | .FD | .SL | .SS | .UL | .US => true
  | _ => false

/-- The field `noMultiple`. -/
def VRCode.noMultiple : VRCode → Bool
  | .SQ | .UN | .OW | .OB | .OD | .OF => true
  | _ => false

/-- The field `defaultValue`; `undefined` when the constructor does not set it. -/
def VRCode.defaultValue : VRCode → JsAtom
  | .AS => .string ""
  | .DA => .string ""
  | .FL => .float32 0
  | .FD => .float64 [0, 0, 0, 0, 0, 0, 0, 0]
  | .SL => .number 0
  | .SS => .number 0
  | .US => .number 0
  | .UL => .number 0
  | _ => .undefined

/-- Modelled from the spec: `PADDING_SPACE` and `PADDING_NULL` of the absent
`constants/dicom.js`, the pad bytes "space or NUL per type". -/
def PADDING_SPACE : Nat := 32

/-- Modelled from the spec: see `PADDING_SPACE`. -/
def PADDING_NULL : Nat := 0

/-- Modelled from the spec: `VM_DELIMITER` of the absent `constants/dicom.js`,
the backslash on which multi-valued text is split. -/
def VM_DELIMITER : Nat := 92

/-- The field `padByte`. -/
def VRCode.padByte : VRCode → Nat
  | .AT | .FL | .FD | .SL | .SQ | .SS | .US | .UL | .UI | .UN | .OW | .OB | .OD | .OF =>
    PADDING_NULL
  | _ => PADDING_SPACE

/-- Modelled from the spec: `isExplicit()` of the dcmjs base class, true for
the "long-form" VRs SQ, OB, OW, OF, OD, UN, UT, UC, UR, whose explicit header
has two reserved bytes and a 4-byte length. -/
def VRCode.isExplicit : VRCode → Bool
  | .SQ | .OB | .OW | .OF | .OD | .UN | .UT | .UC | .UR => true
  | _ => false

/-- Modelled from the spec: `isBinary()` of the dcmjs base class, true for the
binary scalar types FL, FD, SL, SS, UL, US, AT. -/
def VRCode.isBinary : VRCode → Bool
  | .FL | .FD | .SL | .SS | .UL | .US | .AT => true
  | _ => false

/-! ## Encapsulated items (readFrame.js and BinaryRepresentation.readBytes) -/

/-- The tag (FFFE,E000) that starts an item. -/
def SequenceItemTag : Nat := 0xfffee000

/-- The tag (FFFE,E0DD) that ends a sequence. -/
def SequenceDelimiterTag : Nat := 0xfffee0dd

/-- JavaScript `getNextSequenceItemData(stream)`, the same function in `readFrame.js` and
in `BinaryRepresentation.readBytes`; `none` is the `null` returned at the
sequence delimiter. -/
def getNextSequenceItemData (s : DicomReadableBufferStream) : Res (Option (List Nat)) :=
  (TagAsync.readTag s).bind fun nextTag s1 =>
    if nextTag = SequenceItemTag then
      s1.readUint32.bind fun itemLength s2 =>
        (s2.readNBytes itemLength).bind fun buffer s3 => .ok (some buffer) s3
    else if nextTag = SequenceDelimiterTag then
      s1.readUint32.bind fun v s2 =>
        if v ≠ 0 then .error .delimiterNotZero s2 else .ok none s2
    else .error .invalidTagInSequence s1

/-- The loop `for (let i = 0; i < numberOfFrames; i++) offsets.push(await
stream.readUint32())`, for `count` iterations. -/
def readOffsets : Nat → DicomReadableBufferStream → List Nat → Res (List Nat)
  | 0, s, offsets => .ok offsets s
  | count + 1, s, offsets =>
    s.readUint32.bind fun v s1 => readOffsets count s1 (offsets ++ [v])

/-- The number of integers `i >= 0` with `i < itemLength / 4`: how often the
offset loop runs for `numberOfFrames = itemLength / 4`. -/
def offsetCount (itemLength : Nat) : Nat := (itemLength + 3) / 4

/-- The loop of `readFrame` over a non-empty offset table,
`for (let i = 1; i < offsets.length; i++)`, entered with `i` and the offsets
from index `i - 1` on: it stops at `i === frameIndex + 1` and reads and drops
one item whenever `offsets[i] - offsets[i - 1] > 0`. -/
def skipToFrame (frameIndex : Int) :
    Nat → List Nat → DicomReadableBufferStream → Res Unit
  | i, prev :: cur :: rest, s =>
    if (i : Int) = frameIndex + 1 then .ok () s
    else if prev < cur then
      (getNextSequenceItemData s).bind fun _ s1 =>
        skipToFrame frameIndex (i + 1) (cur :: rest) s1
    else skipToFrame frameIndex (i + 1) (cur :: rest) s
  | _, _, s => .ok () s

/-- The loop of `readFrame` without offset table,
`while (currentFrame < frameIndex)`, with `todo` iterations left. -/
def skipItems (frameIndex : Int) :
    Nat → Nat → DicomReadableBufferStream → Res Unit
  | 0, _, s => .ok () s
  | todo + 1, currentFrame, s =>
    (getNextSequenceItemData s).bind fun buffer s1 =>
      match buffer with
      | none => .error (.frameIndexOutOfRange frameIndex) s1
      | some _ => skipItems frameIndex todo (currentFrame + 1) s1

/-- The first lines of `readFrame`, after `readVR`: the rest of the VR-length
header, two reserved bytes and a 4-byte length for an explicit VR, a 2-byte
length otherwise.  The VR descriptor comes from dcmjs's own
`ValueRepresentation.createByTypeString`, which has the codes and fallbacks of
this repository's registry. -/
def readFrame.header (s1 : DicomReadableBufferStream) (vrType : String) : Res Unit :=
  let vr := createByTypeString vrType
  if vr.isExplicit then
    (s1.increment 2).bind fun _ s2 => s2.readUint32.bind fun _ s3 => .ok () s3
  else s1.readUint16.bind fun _ s2 => .ok () s2

/-- The last lines of `readFrame`, from `if (offsets.length > 0)` on. -/
def readFrame.select (frameIndex : Int) (offsets : List Nat) (s5 : DicomReadableBufferStream) :
    Res (Option (List Nat)) :=
  if offsets.length > 0 then
    if offsets.length = 1 ∧ frameIndex = 0 then getNextSequenceItemData s5
    else if offsets.length = 1 ∧ frameIndex ≠ 0 then
      .error (.frameIndexOutOfRange frameIndex) s5
    else
      (skipToFrame frameIndex 1 offsets s5).bind fun _ s6 => getNextSequenceItemData s6
  else
    (skipItems frameIndex frameIndex.toNat 0 s5).bind fun _ s6 => getNextSequenceItemData s6

/-- JavaScript `async function readFrame(stream, frameIndex = 0)`. -/
def readFrame (s : DicomReadableBufferStream) (frameIndex : Int) :
    Res (Option (List Nat)) :=
  s.readVR.bind fun vrType s1 =>
    (readFrame.header s1 vrType).bind fun _ s2 =>
      (TagAsync.readTag s2).bind fun itemTagValue s3 =>
        if itemTagValue ≠ 0xfffee000 then .error .itemTagNotFound s3
        else
          s3.readUint32.bind fun itemLength s4 =>
            let table : Res (List Nat) :=
              if itemLength > 0 then
                if frameIndex < 0 ∨ (itemLength : Int) ≤ 4 * frameIndex then
                  .error (.frameIndexOutOfRange frameIndex) s4
                else readOffsets (offsetCount itemLength) s4 []
              else .ok [] s4
            table.bind fun offsets s5 => readFrame.select frameIndex offsets s5

/-- The loop of `BinaryRepresentation.readBytes` over an offset table with
more than one entry, `for (let i = 1; i < offsets.length; i++)`, entered with
the offsets from index `i - 1` on: one item is read and pushed whenever
`offsets[i] - offsets[i - 1] > 0`. -/
def readFramesByTable :
    List Nat → DicomReadableBufferStream → List (Option (List Nat)) →
      Res (List (Option (List Nat)))
  | prev :: cur :: rest, s, frames =>
    if prev < cur then
      (getNextSequenceItemData s).bind fun buffer s1 =>
        readFramesByTable (cur :: rest) s1 (frames ++ [buffer])
    else readFramesByTable (cur :: rest) s frames
  | _, s, frames => .ok frames s

/-- The loop of `BinaryRepresentation.readBytes` without offset table,
`while (!stream.end())`, for at most `fuel` iterations. -/
def readFramesToDelimiter :
    Nat → DicomReadableBufferStream → List (Option (List Nat)) →
      Res (List (Option (List Nat)))
  | 0, _, _ => .outOfFuel
  | fuel + 1, s, frames =>
    if s.streamEnd then .ok frames s
    else
      (getNextSequenceItemData s).bind fun buffer s1 =>
        match buffer with
        | none => .ok frames s1
        | some b => readFramesToDelimiter fuel s1 (frames ++ [some b])

/-- The part of `BinaryRepresentation.readBytes` that follows the offset
table, from `if (offsets.length === 1)` on.  Each round of the last loop
consumes at least 8 bytes, so the number of unread bytes bounds it. -/
def BinaryRepresentation.readFrames (offsets : List Nat) (s3 : DicomReadableBufferStream) :
    Res (List (Option (List Nat))) :=
  if offsets.length = 1 then
    (getNextSequenceItemData s3).bind fun buffer s4 => .ok [buffer] s4
  else if offsets.length > 0 then
    (readFramesByTable offsets s3 []).bind fun frames s4 =>
      (getNextSequenceItemData s4).bind fun buffer s5 => .ok (frames ++ [buffer]) s5
  else readFramesToDelimiter (s3.unread.length + 1) s3 []

/-- JavaScript `BinaryRepresentation.readBytes(stream, length)`; `length` is `none` when
the caller passes `null`, which `readNBytes` takes as 0.  A frame is `none`
where the array holds `null`. -/
def BinaryRepresentation.readBytes (s : DicomReadableBufferStream) (length : Option Nat) :
    Res (List (Option (List Nat))) :=
  if length = some 0xffffffff then
    (TagAsync.readTag s).bind fun itemTagValue s1 =>
      if itemTagValue = 0xfffee000 then
        s1.readUint32.bind fun itemLength s2 =>
          let table : Res (List Nat) :=
            if itemLength > 0 then readOffsets (offsetCount itemLength) s2 [] else .ok [] s2
          table.bind fun offsets s3 => BinaryRepresentation.readFrames offsets s3
      else .ok [] s1
  else
    (s.readNBytes (length.getD 0)).bind fun bytes s1 => .ok [some bytes] s1

/-! ## StreamValueRepresentation.js: reading a value -/

/-- The collaborators that live outside the repository (the dcmjs library and
the JavaScript runtime).  Every definition below takes them as a parameter
and every theorem holds for all of them. -/
structure Dcmjs where
  /-- JavaScript `DicomMessage.lookupTag(tag)`: the `vr` of the dictionary entry of the
  tag, `none` when the dictionary has no entry. -/
  lookupTag : Nat → Option String
  /-- JavaScript `tag.isPrivateCreator()`. -/
  isPrivateCreator : Nat → Bool
  /-- JavaScript `new TextDecoder(label).decode(bytes)`. -/
  decode : String → List Nat → String
  /-- JavaScript `vr.dropPadByte(values)` on an array of strings. -/
  dropPadByte : VRCode → List String → List String
  /-- JavaScript `vr.storeRaw()`. -/
  storeRaw : VRCode → Bool
  /-- Whether `DicomMessage._read(new ReadBufferStream(bytes, le), syntax)`
  throws on the bytes of a sequence item. -/
  itemThrows : String → Bool → List Nat → Bool
  /-- JavaScript `ParsedUnknownValue.read` when the `readBytes` it starts without
  awaiting cannot finish at once (the value is not buffered yet, or the length
  is undefined): that read then races with the reads that follow; the outcome
  is not described by sequential state passing and is left to this
  parameter. -/
  parsedUnknownRead : String → DicomReadableBufferStream → Option Nat →
    Res (JsVal × JsVal)
  /-- The lines of `ParsedUnknownValue.read` behind its `await`, followed by the
  destructuring in `_readTag`: the library's `createByTypeString(type)` and
  its synchronous `read` on `new ReadBufferStream(undefined, true)`, a reader
  without bytes, for the declared length, the syntax and `forceStoreRaw`;
  `none` when this throws. -/
  parsedUnknownOnEmpty : String → Option Nat → String → Bool → Option (JsVal × JsVal)
  /-- JavaScript `metaHeader["00020010"].Value[0]` for
  `metaHeader = DicomMessage._read(metaStream, useSyntax, options)` on the
  bytes of the meta group; `none` when that expression throws. -/
  metaTransferSyntax : List Nat → Option String
  /-- JavaScript `DicomMessage._normalizeSyntax(syntax)`. -/
  normalizeSyntax : String → String
  /-- JavaScript `String.prototype.toLowerCase`. -/
  toLowerCase : String → String
  /-- The constant `IMPLICIT_LITTLE_ENDIAN` of the absent `constants/dicom.js`. -/
  IMPLICIT_LITTLE_ENDIAN : String
  /-- The constant `EXPLICIT_LITTLE_ENDIAN` of the absent `constants/dicom.js`. -/
  EXPLICIT_LITTLE_ENDIAN : String
  /-- The constant `DEFLATED_EXPLICIT_LITTLE_ENDIAN` of the absent
  `constants/dicom.js`. -/
  DEFLATED_EXPLICIT_LITTLE_ENDIAN : String

/-- The white space removed by `String.prototype.trim` and matched by `\s`. -/
def isJsSpace (c : Char) : Bool :=
  let n := c.toNat
  n = 9 || n = 10 || n = 11 || n = 12 || n = 13 || n = 32 || n = 160 || n = 5760 ||
    (8192 ≤ n && n ≤ 8202) || n = 8232 || n = 8233 || n = 8239 || n = 8287 || n = 12288 ||
    n = 65279

/-- The function `rtrim`: `str.replace(/\s*$/g, "")`. -/
def rtrim (str : String) : String :=
  String.mk (str.data.reverse.dropWhile isJsSpace).reverse

/-- JavaScript `str.trim()`. -/
def jsTrim (str : String) : String :=
  String.mk ((str.data.dropWhile isJsSpace).reverse.dropWhile isJsSpace).reverse

/-- JavaScript `str.split(delimiter)` on a list of characters. -/
def splitChars (d : Char) : List Char → List (List Char)
  | [] => [[]]
  | c :: cs =>
    if c = d then [] :: splitChars d cs
    else
      match splitChars d cs with
      | [] => [[c]]
      | w :: ws => (c :: w) :: ws

/-- JavaScript `str.split(String.fromCharCode(VM_DELIMITER))`. -/
def splitVM (str : String) : List String :=
  (splitChars (Char.ofNat VM_DELIMITER) str.data).map String.mk

/-- The value of a row of decimal digits. -/
def digitsValue (digits : List Char) : Nat :=
  digits.foldl (fun acc c => 10 * acc + (c.toNat - 48)) 0

/-- The number with the given sign, digits and decimal exponent,
`(-1)^negative * digits * 10^exponent`, in the normal form of `JsNumber`: the
zero digits at the end go to the exponent. -/
def JsNumber.ofDigits (negative : Bool) (digits : List Char) (exponent : Int) : JsNumber :=
  let kept := (digits.reverse.dropWhile fun c => c = '0').reverse
  if kept = [] then .decimal negative 0 0
  else .decimal negative (digitsValue kept) (exponent + ((digits.length - kept.length : Nat) : Int))

/-- The characters after the sign of a literal, if it has one. -/
def dropSign : List Char → List Char
  | [] => []
  | c :: r => if c = '+' ∨ c = '-' then r else c :: r

/-- Whether a literal starts with the minus sign. -/
def startsWithMinus : List Char → Bool
  | [] => false
  | c :: _ => c = '-'

/-- The `SignedInteger` of an exponent part: an optional sign, then at least
one digit and nothing else; `none` when the characters are not of that
form. -/
def signedInteger (cs : List Char) : Option Int :=
  if dropSign cs ≠ [] ∧ (dropSign cs).all Char.isDigit = true then
    some (if startsWithMinus cs then -((digitsValue (dropSign cs) : Nat) : Int)
      else ((digitsValue (dropSign cs) : Nat) : Int))
  else none

/-- JavaScript `Number(str)` for a string of the characters that `formatNumber`
keeps (digits, `.`, `-`, `+`, `e`, `E`).  Such a string holds no white space,
no `Infinity` and no radix prefix, so it is a number exactly when it is a
`StrDecimalLiteral`: an optional sign, digits with an optional point and
fraction digits, at least one digit in all, and an optional exponent part;
every other string gives `NaN`, and the empty string gives 0. -/
def jsNumber (str : String) : JsNumber :=
  if str = "" then .decimal false 0 0
  else
    let negative := startsWithMinus str.data
    let body := dropSign str.data
    let integer := body.takeWhile Char.isDigit
    let afterInteger := body.dropWhile Char.isDigit
    let fraction := (afterInteger.drop 1).takeWhile Char.isDigit
    let hasPoint := afterInteger.head? = some '.'
    let afterFraction :=
      if hasPoint then (afterInteger.drop 1).dropWhile Char.isDigit else afterInteger
    if integer = [] ∧ (¬ hasPoint ∨ fraction = []) then .nan
    else
      let digits := if hasPoint then integer ++ fraction else integer
      let scale : Int := if hasPoint then ((fraction.length : Nat) : Int) else 0
      match afterFraction with
      | [] => JsNumber.ofDigits negative digits (-scale)
      | c :: r =>
        if c = 'e' ∨ c = 'E' then
          match signedInteger r with
          | some e => JsNumber.ofDigits negative digits (e - scale)
          | none => .nan
        else .nan

/-- JavaScript `formatNumber` of `DecimalString` and `IntegerString`: trim, delete every
character outside `[0-9.\\\-+e]` (case-insensitive), then `null` for the
empty string and `Number(...)` otherwise. -/
def formatNumber (numberStr : String) : JsAtom :=
  let returnVal := String.mk ((jsTrim numberStr).data.filter fun c =>
    c.isDigit || c = '.' || c = '\\' || c = '-' || c = '+' || c = 'e' || c = 'E')
  if returnVal = "" then .null else .numberOf (jsNumber returnVal)

/-- JavaScript `removeInvalidUidChars`: `uidStr.replace(/[^0-9.]/g, "")`. -/
def removeInvalidUidChars (uidStr : String) : String :=
  String.mk (uidStr.data.filter fun c => c.isDigit || c = '.')

/-- JavaScript `readPaddedAsciiString(stream, length)`. -/
def readPaddedAsciiString (vr : VRCode) (s : DicomReadableBufferStream) (length : Option Nat) :
    Res String :=
  match length with
  | none => .ok "" s
  | some 0 => .ok "" s
  | some (n + 1) =>
    (s.peekUint8 n).bind fun b s1 =>
      if b ≠ vr.padByte then s1.readAsciiString (n + 1)
      else
        (s1.readAsciiString n).bind fun val s2 =>
          (s2.increment 1).bind fun _ s3 => .ok val s3

/-- JavaScript `readPaddedEncodedString(stream, length)`. -/
def readPaddedEncodedString (d : Dcmjs) (vr : VRCode) (s : DicomReadableBufferStream)
    (length : Option Nat) : Res String :=
  match length with
  | none => .ok "" s
  | some 0 => .ok "" s
  | some n =>
    (s.readEncodedString d.decode n).bind fun val s1 =>
      if val.data ≠ [] ∧ val.data.getLast? ≠ some (Char.ofNat vr.padByte) then .ok val s1
      else .ok (String.mk val.data.dropLast) s1

/-- The words `[w & 0xff, w >> 8]` pushed to `tempBuffer` for a 16-bit word. -/
def wordBytes (w : Nat) : List Nat := [w % 256, (w / 256) % 256]

/-- JavaScript `ToInt32` of a non-negative integer, the conversion `&` and `>>` apply
to their left operand: the number modulo 2^32, read as a signed 32-bit
integer. -/
def toInt32 (n : Nat) : Int :=
  if n % 4294967296 < 2147483648 then ((n % 4294967296 : Nat) : Int)
  else ((n % 4294967296 : Nat) : Int) - 4294967296

/-- The four bytes pushed to `tempBuffer` for an item length:
`[itemLength & 0xff, (itemLength >> 8) & 0xff, (itemLength >> 16) & 0xff,
(itemLength >> 24) & 0xff]`.  The shift `>>` is the sign-propagating shift of
the signed 32-bit number (the floor of the division by a power of two), and
`& 0xff` keeps its residue modulo 256. -/
def lengthBytes (n : Nat) : List Nat :=
  [(toInt32 n % 256).toNat, (toInt32 n / 256 % 256).toNat, (toInt32 n / 65536 % 256).toNat,
    (toInt32 n / 16777216 % 256).toNat]

/-- The inner `while (true)` of `SequenceOfItems.readBytes`: the scan of an
undefined-length item, for at most `fuel` rounds.  The result is
`(tempBuffer, toRead)` at the `break`. -/
def scanItem : Nat → DicomReadableBufferStream → Int → List Nat → Res (List Nat × Nat)
  | 0, _, _, _ => .outOfFuel
  | fuel + 1, s, stack, tempBuffer =>
    s.readUint16.bind fun g s1 =>
      if g = 0xfffe then
        s1.readUint16.bind fun ge s2 =>
          s2.readUint32.bind fun itemLength s3 =>
            let tempBuffer := tempBuffer ++ [0xfe, 0xff] ++ wordBytes ge ++ lengthBytes itemLength
            if ge = 0xe00d then
              if itemLength = 0 then
                if stack - 1 < 0 then .ok (tempBuffer, tempBuffer.length - 8) s3
                else scanItem fuel s3 (stack - 1) tempBuffer
              else scanItem fuel s3 stack tempBuffer
            else if ge = 0xe000 then
              if itemLength = 0xffffffff then scanItem fuel s3 (stack + 1) tempBuffer
              else scanItem fuel s3 stack tempBuffer
            else scanItem fuel s3 stack tempBuffer
      else scanItem fuel s1 stack (tempBuffer ++ wordBytes g)

/-- Whether `read == sqlength`; `sqlength` is `none` when it is `null`. -/
def readEquals (read : Nat) (sqlength : Option Nat) : Bool :=
  match sqlength with
  | some n => read = n
  | none => false

/-- The outer `while (true)` of `SequenceOfItems.readBytes`, for at most
`fuel` rounds. -/
def readItems (d : Dcmjs) (transferSyntax : String) (sqlength : Option Nat) (undefLength : Bool) :
    Nat → DicomReadableBufferStream → Nat → List JsAtom → Res (List JsAtom)
  | 0, _, _, _ => .outOfFuel
  | fuel + 1, s, read, elements =>
    (TagAsync.readTag s).bind fun tag s1 =>
      let read := read + 4
      if tag = 0xfffee0dd then
        s1.readUint32.bind fun _ s2 => .ok elements s2
      else if !undefLength && readEquals read sqlength then .ok elements s1
      else if tag = 0xfffee000 then
        s1.readUint32.bind fun length s2 =>
          let read := read + 4
          let item : Res (Nat × List JsAtom) :=
            if length = 0xffffffff then
              (scanItem (s2.unread.length + 1) s2 0 []).bind fun (tempBuffer, toRead) s3 =>
                if toRead > 0 then
                  if d.itemThrows transferSyntax s3.isLittleEndian (tempBuffer.take toRead) then
                    .error .external s3
                  else
                    .ok (read + (toRead + 8),
                      elements ++ [.item transferSyntax s3.isLittleEndian
                        (tempBuffer.take toRead)]) s3
                else .ok (read, elements) s3
            else
              if length > 0 then
                (s2.readNBytes length).bind fun itemData s3 =>
                  if d.itemThrows transferSyntax s3.isLittleEndian itemData then
                    .error .external s3
                  else
                    .ok (read + length,
                      elements ++ [.item transferSyntax s3.isLittleEndian itemData]) s3
              else .ok (read, elements) s2
          item.bind fun (read, elements) s3 =>
            if !undefLength && readEquals read sqlength then .ok elements s3
            else readItems d transferSyntax sqlength undefLength fuel s3 read elements
      else readItems d transferSyntax sqlength undefLength fuel s1 read elements

/-- JavaScript `SequenceOfItems.readBytes(stream, sqlength, syntax)`; `sqlength` is
`none` when it is `null`.  Every round of either loop consumes at least 2
bytes, so the number of unread bytes bounds them. -/
def SequenceOfItems.readBytes (d : Dcmjs) (s : DicomReadableBufferStream)
    (sqlength : Option Nat) (transferSyntax : String) : Res (List JsAtom) :=
  if sqlength = some 0 then .ok [] s
  else
    readItems d transferSyntax sqlength (sqlength = some 0xffffffff) (s.unread.length + 1) s 0 []

/-- A frame of `BinaryRepresentation.readBytes` as a JavaScript value. -/
def frameValue : Option (List Nat) → JsAtom
  | some b => .buffer b
  | none => .null

/-- The method `readBytes` of the class registered for each code. -/
def VRCode.readBytes (d : Dcmjs) (vr : VRCode) (s : DicomReadableBufferStream)
    (length : Option Nat) (transferSyntax : String) : Res JsVal :=
  match vr with
  | .AE | .AS | .DA | .DT | .TM | .UR =>
    (s.readAsciiString (length.getD 0)).bind fun str s1 => .ok (.one (.string str)) s1
  | .CS | .DS | .IS =>
    (s.readAsciiString (length.getD 0)).bind fun str s1 =>
      .ok (.array ((d.dropPadByte vr (splitVM str)).map .string)) s1
  | .AT => (TagAsync.readTag s).bind fun tag s1 => .ok (.one (.number tag)) s1
  | .FL => s.readFloat.bind fun bits s1 => .ok (.one (.float32 bits)) s1
  | .FD => s.readDouble.bind fun bytes s1 => .ok (.one (.float64 bytes)) s1
  | .SL => s.readInt32.bind fun v s1 => .ok (.one (.number v)) s1
  | .SS => s.readInt16.bind fun v s1 => .ok (.one (.number v)) s1
  | .UL => s.readUint32.bind fun v s1 => .ok (.one (.number v)) s1
  | .US => s.readUint16.bind fun v s1 => .ok (.one (.number v)) s1
  | .LO | .LT | .SH | .ST | .UC | .UT =>
    (s.readEncodedString d.decode (length.getD 0)).bind fun str s1 =>
      .ok (.one (.string str)) s1
  | .PN =>
    (readPaddedEncodedString d vr s length).bind fun paddedString s1 =>
      .ok (.array ((splitVM paddedString).map .string)) s1
  | .UI =>
    (readPaddedAsciiString vr s length).bind fun result s1 =>
      if (Char.ofNat VM_DELIMITER) ∉ result.data then .ok (.one (.string result)) s1
      else .ok (.array ((d.dropPadByte vr (splitVM result)).map .string)) s1
  | .OB | .OD | .OF | .OW | .UN =>
    (BinaryRepresentation.readBytes s length).bind fun frames s1 =>
      .ok (.array (frames.map frameValue)) s1
  | .SQ =>
    (SequenceOfItems.readBytes d s length transferSyntax).bind fun elements s1 =>
      .ok (.array elements) s1

/-- A formatting function applied to a string, or to each string of an array. -/
def mapStrings (f : String → JsAtom) : JsVal → JsVal
  | .one (.string str) => .one (f str)
  | .array xs => .array (xs.map fun a =>
      match a with
      | .string str => f str
      | other => other)
  | other => other

/-- The method `applyFormatting` of each class; the classes that do not
override it inherit the base method, which returns the value unchanged. -/
def VRCode.applyFormatting (vr : VRCode) (value : JsVal) : JsVal :=
  match vr with
  | .AE | .LO | .SH | .CS => mapStrings (fun str => .string (jsTrim str)) value
  | .LT | .ST | .TM | .UC | .UT => mapStrings (fun str => .string (rtrim str)) value
  | .DS | .IS => mapStrings formatNumber value
  | .PN => mapStrings .personName value
  | .UI => mapStrings (fun str => .string (removeInvalidUidChars str)) value
  | _ => value

/-- What `read` returns: the object `{ rawValue, value }`, or the bare
`defaultValue` of a fixed-length VR. -/
inductive ReadResult where
  | object (rawValue value : JsVal)
  | bare (defaultValue : JsAtom)
deriving DecidableEq, Repr

/-- JavaScript `StreamValueRepresentation.read(stream, length, syntax, readOptions)`.
The identifier `log` is not declared or imported in
`StreamValueRepresentation.js`, so evaluating `log.error(...)` throws. -/
def VRCode.read (d : Dcmjs) (vr : VRCode) (s : DicomReadableBufferStream)
    (length : Option Nat) (transferSyntax : String) (forceStoreRaw : Bool) : Res ReadResult :=
  let fixedCheck : Option (Res ReadResult) :=
    if vr.fixed ∧ vr.maxLength.getD 0 ≠ 0 then
      if length.getD 0 = 0 then some (.ok (.bare vr.defaultValue) s)
      else if vr.maxLength ≠ length then some (.error .referenceError s)
      else none
    else none
  match fixedCheck with
  | some r => r
  | none =>
    (vr.readBytes d s length transferSyntax).bind fun rawValue s1 =>
      let value := vr.applyFormatting rawValue
      let rawValue := if !d.storeRaw vr && !forceStoreRaw then JsVal.one .undefined else rawValue
      .ok (.object rawValue value) s1

/-! ## DicomMessageAsync.js -/

/-- The hexadecimal digit of a number below 16, in upper case. -/
def hexDigit (n : Nat) : Char :=
  if n < 10 then Char.ofNat (48 + n) else Char.ofNat (55 + n)

/-- Modelled from the spec: `tag.toCleanString()` of the dcmjs class `Tag`,
the "canonical 8-hex-digit string" of the 32-bit tag, in upper case as in the
keys "00080005", "00020000" and "7FE00010" that the sources compare it with. -/
def toCleanString (tag : Nat) : String :=
  String.mk ((List.range 8).map fun i => hexDigit (tag / 16 ^ (7 - i) % 16))

/-- Modelled from the spec: `tag.isPixelDataTag()` of the dcmjs class `Tag`;
the pixel-data element is (7FE0,0010). -/
def isPixelDataTag (tag : Nat) : Bool := tag = 0x7fe00010

/-- The constant `singleVRs` of `DicomMessageAsync.js`. -/
def singleVRs : List String := ["SQ", "OF", "OW", "OB", "UN", "LT"]

/-- The constant `encodingMapping` of `DicomMessageAsync.js`. -/
def encodingMapping : List (String × String) :=
  [("", "iso-8859-1"), ("iso-ir-6", "iso-8859-1"), ("iso-ir-13", "shift-jis"),
    ("iso-ir-100", "latin1"), ("iso-ir-101", "iso-8859-2"), ("iso-ir-109", "iso-8859-3"),
    ("iso-ir-110", "iso-8859-4"), ("iso-ir-126", "iso-ir-126"), ("iso-ir-127", "iso-ir-127"),
    ("iso-ir-138", "iso-ir-138"), ("iso-ir-144", "iso-ir-144"), ("iso-ir-148", "iso-ir-148"),
    ("iso-ir-166", "tis-620"), ("iso-2022-ir-6", "iso-8859-1"),
    ("iso-2022-ir-13", "shift-jis"), ("iso-2022-ir-87", "iso-2022-jp"),
    ("iso-2022-ir-100", "latin1"), ("iso-2022-ir-101", "iso-8859-2"),
    ("iso-2022-ir-109", "iso-8859-3"), ("iso-2022-ir-110", "iso-8859-4"),
    ("iso-2022-ir-126", "iso-ir-126"), ("iso-2022-ir-127", "iso-ir-127"),
    ("iso-2022-ir-138", "iso-ir-138"), ("iso-2022-ir-144", "iso-ir-144"),
    ("iso-2022-ir-148", "iso-ir-148"), ("iso-2022-ir-149", "euc-kr"),
    ("iso-2022-ir-159", "iso-2022-jp"), ("iso-2022-ir-166", "tis-620"),
    ("iso-2022-ir-58", "iso-ir-58"), ("iso-ir-192", "utf-8"), ("gb18030", "gb18030"),
    ("iso-2022-gbk", "gbk"), ("iso-2022-58", "gb2312"), ("gbk", "gbk")]

/-- The options object of `_readTag`, `_read` and `readFile`; `untilTag` is
`none` when it is `null` or missing. -/
structure Options where
  ignoreErrors : Bool
  untilTag : Option String
  includeUntilTagValue : Bool
  forceStoreRaw : Bool
deriving DecidableEq, Repr

/-- The descriptor `vr` chosen by `_readTag`: an instance of the registry, or
`new ParsedUnknownValue(type)`. -/
inductive VRInst where
  | registered (vr : VRCode)
  | parsedUnknown (type : String)
deriving DecidableEq, Repr

/-- The field `type` of the descriptor. -/
def VRInst.type : VRInst → String
  | .registered vr => vr.type
  | .parsedUnknown type => type

/-- JavaScript `isExplicit()` of the descriptor; `ParsedUnknownValue` sets `_isExplicit`. -/
def VRInst.isExplicit : VRInst → Bool
  | .registered vr => vr.isExplicit
  | .parsedUnknown _ => true

/-- JavaScript `isBinary()` of the descriptor; `ParsedUnknownValue` sets `_isBinary`. -/
def VRInst.isBinary : VRInst → Bool
  | .registered vr => vr.isBinary
  | .parsedUnknown _ => true

/-- The field `noMultiple` of the descriptor. -/
def VRInst.noMultiple : VRInst → Bool
  | .registered vr => vr.noMultiple
  | .parsedUnknown _ => true

/-- The field `maxLength` of the descriptor. -/
def VRInst.maxLength : VRInst → Option Nat
  | .registered vr => vr.maxLength
  | .parsedUnknown _ => none

/-- What `_readTag` returns; `vr` is `none` for the `vr: 0` of the stop-tag
placeholder. -/
structure ReadInfo where
  tag : Nat
  vr : Option VRInst
  values : JsVal
  rawValues : JsVal
deriving DecidableEq, Repr

/-- JavaScript `const { rawValue, value } = await vr.read(...)`: destructuring
`undefined` throws, destructuring another bare value gives two `undefined`. -/
def destructure (r : ReadResult) (s : DicomReadableBufferStream) : Res (JsVal × JsVal) :=
  match r with
  | .object rawValue value => .ok (rawValue, value) s
  | .bare .undefined => .error .typeError s
  | .bare _ => .ok (.one .undefined, .one .undefined) s

/-- JavaScript `ParsedUnknownValue.read(stream, length, syntax, readOptions)` followed by
the destructuring.  In `await this.readBytes(stream, length, syntax)[0]` the
index is applied to the promise, so `arrayBuffer` is `undefined` and the
sub-reader `new ReadBufferStream(arrayBuffer, true)` holds no bytes, while
the call of `readBytes` has started: when the length is defined and the value
is buffered, its `readNBytes` has taken the value out of the buffer before
the `await` resumes, and its result is dropped. -/
def ParsedUnknownValue.read (d : Dcmjs) (type : String) (s : DicomReadableBufferStream)
    (length : Option Nat) (transferSyntax : String) (forceStoreRaw : Bool) :
    Res (JsVal × JsVal) :=
  if length ≠ some 0xffffffff ∧ length.getD 0 ≤ s.remainingBuffer.length then
    match d.parsedUnknownOnEmpty type length transferSyntax forceStoreRaw with
    | some r => .ok r { s with remainingBuffer := s.remainingBuffer.drop (length.getD 0) }
    | none =>
      .error .external { s with remainingBuffer := s.remainingBuffer.drop (length.getD 0) }
  else d.parsedUnknownRead type s length

/-- JavaScript `vr.read(stream, length, syntax, options)` followed by the destructuring. -/
def VRInst.read (d : Dcmjs) (vr : VRInst) (s : DicomReadableBufferStream)
    (length : Option Nat) (transferSyntax : String) (options : Options) :
    Res (JsVal × JsVal) :=
  match vr with
  | .registered c =>
    (c.read d s length transferSyntax options.forceStoreRaw).bind fun r s1 => destructure r s1
  | .parsedUnknown type =>
    ParsedUnknownValue.read d type s length transferSyntax options.forceStoreRaw

/-- JavaScript `values.push(value)`.  A value that is itself an array does not occur
where this is used (a binary scalar VR decodes to one number); the model
appends its entries. -/
def pushValue (values : List JsAtom) (value : JsVal) : List JsAtom :=
  match value with
  | .one a => values ++ [a]
  | .array xs => values ++ xs

/-- The loop `while (i++ < times)` of `_readTag`, with `todo` rounds left. -/
def readBlocks (d : Dcmjs) (vr : VRInst) (transferSyntax : String) (options : Options) :
    Nat → DicomReadableBufferStream → List JsAtom → List JsAtom →
      Res (List JsAtom × List JsAtom)
  | 0, s, rawValues, values => .ok (rawValues, values) s
  | todo + 1, s, rawValues, values =>
    (vr.read d s vr.maxLength transferSyntax options).bind fun (rawValue, value) s1 =>
      readBlocks d vr transferSyntax options todo s1 (pushValue rawValues rawValue)
        (pushValue values value)

/-- The number of integers `i >= 0` with `i < length / maxLength`. -/
def blockCount (length maxLength : Nat) : Nat := (length + maxLength - 1) / maxLength

/-- JavaScript `Array.isArray(value) ? (values = value) : values.push(value)` on the
empty array `values`. -/
def asArray (value : JsVal) : JsVal :=
  match value with
  | .array xs => .array xs
  | .one a => .array [a]

/-- The lines of `_readTag` that turn `{ rawValue, value }` into
`rawValues` and `values` when the value is read in one piece.  Calling
`split` on a raw value that is not a string throws.  A `ParsedUnknownValue`
is binary and never takes the first branch. -/
def assemble (d : Dcmjs) (vr : VRInst) (rawValue value : JsVal)
    (s : DicomReadableBufferStream) : Res (JsVal × JsVal) :=
  if !vr.isBinary && !(singleVRs.contains vr.type) then
    match value with
    | .one (.string str) =>
      match rawValue with
      | .one (.string raw) =>
        match vr with
        | .registered c =>
          .ok (.array ((d.dropPadByte c (splitVM raw)).map .string),
            .array ((d.dropPadByte c (splitVM str)).map .string)) s
        | .parsedUnknown _ => .ok (rawValue, value) s
      | _ => .error .typeError s
    | _ => .ok (rawValue, value) s
  else if vr.type = "SQ" then .ok (rawValue, value) s
  else if vr.type = "OW" ∨ vr.type = "OB" then .ok (rawValue, value) s
  else .ok (asArray rawValue, asArray value) s

/-- The length and VR of `_readTag` in explicit syntax, after `readVR`: the
`try` block with its `catch`, which swallows every error and leaves `length`
at `null`. -/
def readExplicitLength (vr : VRInst) (s2 : DicomReadableBufferStream) : Res (Option Nat) :=
  let attempt : Res Nat :=
    if vr.isExplicit then (s2.increment 2).bind fun _ s3 => s3.readUint32
    else s2.readUint16
  match attempt with
  | .ok length s3 => .ok (some length) s3
  | .error _ s3 => .ok none s3
  | .pending => .pending
  | .outOfFuel => .outOfFuel

/-- The chain `if (length == 0xffffffff) ... else` of `_readTag` for a tag the
dictionary does not know; `vrType` is the value the variable of that name
holds when the chain is entered, `none` for `undefined`. -/
def unknownTagVrType (d : Dcmjs) (tag length : Nat) (vrType : Option String) : String :=
  if length = 0xffffffff then "SQ"
  else if isPixelDataTag tag then "OW"
  else if vrType = some "xs" then "US"
  else if d.isPrivateCreator tag then "LO"
  else "UN"

/-- The `vrType` of `_readTag` in implicit syntax: the dictionary's VR, or
the fallbacks for an unknown tag, entered with the variable `vrType` declared
by `let length = null, vr = null, vrType;` and not yet assigned. -/
def implicitVrType (d : Dcmjs) (tag length : Nat) : String :=
  match d.lookupTag tag with
  | some vr => vr
  | none => unknownTagVrType d tag length none

/-- The descriptor `vr` of `_readTag` in explicit syntax, for the VR code
read from the stream. -/
def explicitVr (d : Dcmjs) (tag : Nat) (vrType : String) : VRInst :=
  match d.lookupTag tag with
  | some dictVr =>
    if vrType = "UN" ∧ dictVr ≠ "" then .parsedUnknown dictVr
    else .registered (createByTypeString vrType)
  | none => .registered (createByTypeString vrType)

/-- The VR and length of `_readTag`, from `if (implicit)` to the end of the
`try`/`catch`. -/
def readVrAndLength (d : Dcmjs) (implicit : Bool) (tag : Nat)
    (s1 : DicomReadableBufferStream) : Res (VRInst × Option Nat) :=
  if implicit then
    s1.readUint32.bind fun length s2 =>
      .ok (.registered (createByTypeString (implicitVrType d tag length)), some length) s2
  else
    s1.readVR.bind fun vrType s2 =>
      (readExplicitLength (explicitVr d tag vrType) s2).bind fun length s3 =>
        .ok (explicitVr d tag vrType, length) s3

/-- Whether `length > vr.maxLength`, with `null` counting as 0 on both sides. -/
def exceedsMaxLength (length maxLength : Option Nat) : Bool :=
  length.getD 0 > maxLength.getD 0

/-- The variable `implicit` of `_readTag`. -/
def Dcmjs.implicit (d : Dcmjs) (transferSyntax : String) : Bool :=
  transferSyntax == d.IMPLICIT_LITTLE_ENDIAN

/-- The variable `isLittleEndian` of `_readTag`. -/
def Dcmjs.littleEndian (d : Dcmjs) (transferSyntax : String) : Bool :=
  transferSyntax == d.IMPLICIT_LITTLE_ENDIAN || transferSyntax == d.EXPLICIT_LITTLE_ENDIAN

/-- The value of `_readTag`, from `let values = []` to the last `}` before
`stream.setEndian(oldEndian)`. -/
def readValues (d : Dcmjs) (vr : VRInst) (length : Option Nat) (transferSyntax : String)
    (options : Options) (s3 : DicomReadableBufferStream) : Res (JsVal × JsVal) :=
  if vr.isBinary && exceedsMaxLength length vr.maxLength && !vr.noMultiple then
    (readBlocks d vr transferSyntax options
        (blockCount (length.getD 0) (vr.maxLength.getD 0)) s3 [] []).bind
      fun (rawValues, values) s4 => .ok (.array rawValues, .array values) s4
  else
    (vr.read d s3 length transferSyntax options).bind fun (rawValue, value) s4 =>
      assemble d vr rawValue value s4

/-- JavaScript `static async _readTag(stream, syntax, options)`. -/
def DicomMessageAsync._readTag (d : Dcmjs) (s : DicomReadableBufferStream)
    (transferSyntax : String) (options : Options) : Res ReadInfo :=
  let oldEndian := s.isLittleEndian
  (TagAsync.readTag (s.setEndian (d.littleEndian transferSyntax))).bind fun tag s1 =>
    if options.untilTag = some (toCleanString tag) ∧ options.includeUntilTagValue = false then
      .ok { tag := tag, vr := none, values := .one (.number 0), rawValues := .one .undefined } s1
    else
      (readVrAndLength d (d.implicit transferSyntax) tag s1).bind fun (vr, length) s3 =>
        (readValues d vr length transferSyntax options s3).bind fun (rawValues, values) s4 =>
          .ok { tag := tag, vr := some vr, values := values, rawValues := rawValues }
            (s4.setEndian oldEndian)

/-- An entry of the dataset: `{ vr, Value, _rawValue }`. -/
structure Element where
  vr : Option String
  Value : JsVal
  rawValue : JsVal
deriving DecidableEq, Repr

/-- JavaScript `dict[key] = element` on an object kept as the list of its properties. -/
def setKey (dict : List (String × Element)) (key : String) (element : Element) :
    List (String × Element) :=
  if dict.any (fun p => p.1 == key) then
    dict.map fun p => if p.1 == key then (key, element) else p
  else dict ++ [(key, element)]

/-- JavaScript `values.length`: `none` when reading the property throws (`undefined`,
`null`), `some none` when the property is `undefined`. -/
def jsLength : JsVal → Option (Option Nat)
  | .array xs => some (some xs.length)
  | .one .undefined => none
  | .one .null => none
  | .one (.string str) => some (some str.length)
  | .one (.buffer b) => some (some b.length)
  | .one _ => some none

/-- JavaScript `coding.replace(/[_ ]/g, "-")`. -/
def dashes (coding : String) : String :=
  String.mk (coding.data.map fun c => if c = '_' ∨ c = ' ' then '-' else c)

/-- The block `if (cleanTagString === "00080005") { ... }` of `_read`, up to
the assignment of `readInfo.values`: the reader with its decoder possibly
switched, or the error thrown.  The identifier `log` is not declared or
imported in `DicomMessageAsync.js`, so evaluating `log.warn(...)` throws.
`"constructor" in encodingMapping` holds through the prototype, and the
`TextDecoder` built from that property throws. -/
def applyCharacterSet (d : Dcmjs) (options : Options) (values : JsVal)
    (s : DicomReadableBufferStream) : Res Unit :=
  match jsLength values with
  | none => .error .typeError s
  | some len =>
    let first : Res Unit :=
      if len.getD 0 > 0 then
        match values with
        | .array (.string coding :: _) =>
          let coding := d.toLowerCase (dashes coding)
          match encodingMapping.lookup coding with
          | some label => .ok () (s.setDecoder label)
          | none =>
            if coding = "constructor" then .error .rangeError s
            else if options.ignoreErrors then .error .referenceError s
            else .error .unsupportedCharacterSet s
        | _ => .error .typeError s
      else .ok () s
    first.bind fun _ s1 =>
      if len.getD 0 > 1 then
        if options.ignoreErrors then .error .referenceError s1
        else .error .multipleCharacterSets s1
      else .ok () s1

/-- The block `if (cleanTagString === "00080005") { ... }` of `_read` as a
whole: the value the element is stored with. -/
def characterSetStep (d : Dcmjs) (options : Options) (readInfo : ReadInfo)
    (s1 : DicomReadableBufferStream) : Res JsVal :=
  if toCleanString readInfo.tag = "00080005" then
    (applyCharacterSet d options readInfo.values s1).bind fun _ s2 =>
      .ok (.array [.string "ISO_IR 192"]) s2
  else .ok readInfo.values s1

/-- The loop `while (!stream.end())` of `_read`, for at most `fuel` rounds. -/
def readElements (d : Dcmjs) (transferSyntax : String) (options : Options) :
    Nat → DicomReadableBufferStream → List (String × Element) →
      Res (List (String × Element))
  | 0, _, _ => .outOfFuel
  | fuel + 1, s, dict =>
    if s.streamEnd then .ok dict s
    else
      (DicomMessageAsync._readTag d s transferSyntax options).bind fun readInfo s1 =>
        let cleanTagString := toCleanString readInfo.tag
        (characterSetStep d options readInfo s1).bind fun values s2 =>
          let dict := setKey dict cleanTagString
            { vr := readInfo.vr.map VRInst.type, Value := values,
              rawValue := readInfo.rawValues }
          if options.untilTag.getD "" ≠ "" ∧ options.untilTag = some cleanTagString then
            .ok dict s2
          else readElements d transferSyntax options fuel s2 dict

/-- JavaScript `static async _read(stream, syntax, options)`.  Every round of the loop
reads a tag of 4 bytes, so the number of unread bytes bounds the loop. -/
def DicomMessageAsync._read (d : Dcmjs) (s : DicomReadableBufferStream)
    (transferSyntax : String) (options : Options) : Res (List (String × Element)) :=
  readElements d transferSyntax options (s.unread.length + 1) s []

/-- The options `_readTag` and `_read` take when none are passed. -/
def defaultOptions : Options :=
  { ignoreErrors := false, untilTag := none, includeUntilTagValue := false,
    forceStoreRaw := false }

/-- The document `readFile` returns: the bytes dcmjs decodes the meta dataset
from, and the main dataset. -/
structure DicomDict where
  metaBytes : List Nat
  dict : List (String × Element)
deriving DecidableEq, Repr

/-- JavaScript `new DicomReadableBufferStream(filename, null)` on a file whose stream
delivers the given chunks. -/
def openFile (chunks : List (List Nat)) : DicomReadableBufferStream :=
  { isLittleEndian := false, remainingBuffer := [], fileStream := .flowing chunks,
    decoder := "latin1" }

/-- JavaScript `static async readFile(filename, options)` on a file whose stream delivers
the given chunks.  `el.values[0]` is taken as the meta length when it is a
number that is not negative; with any other value the model rejects the
file. -/
def DicomMessageAsync.readFile (d : Dcmjs) (chunks : List (List Nat)) (options : Options) :
    Res DicomDict :=
  let useSyntax := d.EXPLICIT_LITTLE_ENDIAN
  ((openFile chunks).increment 128).bind fun _ s1 =>
    (s1.readAsciiString 4).bind fun magic s2 =>
      if magic ≠ "DICM" then .error .headerMissing s2
      else
        (DicomMessageAsync._readTag d s2 useSyntax defaultOptions).bind fun el s3 =>
          if toCleanString el.tag ≠ "00020000" then .error .metaLengthMalformed s3
          else
            match el.values with
            | .array (.number metaLength :: _) =>
              if metaLength < 0 then .error .typeError s3
              else
                (s3.readNBytes metaLength.toNat).bind fun metaBytes s4 =>
                  match d.metaTransferSyntax metaBytes with
                  | none => .error .external s4
                  | some mainSyntax =>
                    if mainSyntax = d.DEFLATED_EXPLICIT_LITTLE_ENDIAN then
                      .error .deflatedNotSupported s4
                    else
                      (DicomMessageAsync._read d s4 (d.normalizeSyntax mainSyntax)
                          options).bind fun objects s5 =>
                        .ok { metaBytes := metaBytes, dict := objects } s5
            | _ => .error .typeError s3

/-! ## Byte layouts used to state the theorems -/

/-- The two bytes of the 16-bit value `v` in the byte order `littleEndian`. -/
def enc16 (littleEndian : Bool) (v : Nat) : List Nat :=
  if littleEndian then [v % 256, v / 256 % 256] else [v / 256 % 256, v % 256]

/-- The four bytes of the 32-bit value `v` in the byte order `littleEndian`. -/
def enc32 (littleEndian : Bool) (v : Nat) : List Nat :=
  if littleEndian then [v % 256, v / 256 % 256, v / 65536 % 256, v / 16777216 % 256]
  else [v / 16777216 % 256, v / 65536 % 256, v / 256 % 256, v % 256]

/-- The four bytes of a tag: group, then element. -/
def encTag (littleEndian : Bool) (tag : Nat) : List Nat :=
  enc16 littleEndian (tag / 65536) ++ enc16 littleEndian (tag % 65536)

/-- An item: the item-start tag (FFFE,E000), the 4-byte length of the
payload, the payload. -/
def itemLayout (littleEndian : Bool) (payload : List Nat) : List Nat :=
  encTag littleEndian SequenceItemTag ++ enc32 littleEndian payload.length ++ payload

/-- The sequence delimiter: the tag (FFFE,E0DD) and a 4-byte zero length. -/
def delimiterLayout (littleEndian : Bool) : List Nat :=
  encTag littleEndian SequenceDelimiterTag ++ enc32 littleEndian 0

/-- The offset-table item holding the given offsets. -/
def offsetTableLayout (littleEndian : Bool) (offsets : List Nat) : List Nat :=
  encTag littleEndian SequenceItemTag ++ enc32 littleEndian (4 * offsets.length) ++
    (offsets.map (enc32 littleEndian)).flatten

/-- An encapsulated pixel-data value: offset-table item, the items, the
sequence delimiter. -/
def encapsulatedLayout (littleEndian : Bool) (offsets : List Nat) (items : List (List Nat)) :
    List Nat :=
  offsetTableLayout littleEndian offsets ++ (items.map (itemLayout littleEndian)).flatten ++
    delimiterLayout littleEndian

/-- The relation `Same s s1`: the reader's endianness, decoder and end flag are the same
in both states. -/
def Same (s s1 : DicomReadableBufferStream) : Prop :=
  s1.isLittleEndian = s.isLittleEndian ∧ s1.decoder = s.decoder ∧
    s1.isStreamEnded = s.isStreamEnded

/-- A little-endian reader that has buffered nothing yet and whose file
stream delivers `bytes` as one chunk. -/
def readerOf (bytes : List Nat) : DicomReadableBufferStream :=
  { isLittleEndian := true, remainingBuffer := [], fileStream := .flowing [bytes],
    decoder := "latin1" }

/-- The explicit VR-length header of an encapsulated element: the VR code
"OB", two reserved bytes, the undefined length 0xFFFFFFFF. -/
def obUndefinedHeader : List Nat := [79, 66, 0, 0, 255, 255, 255, 255]

/-- The header of an element: the tag, then in implicit syntax a 4-byte
length, in explicit syntax the two bytes of the VR code followed by two
reserved bytes and a 4-byte length for a long-form VR, or by a 2-byte length. -/
def elementHeader (implicit littleEndian : Bool) (tag : Nat) (vrBytes reserved : List Nat)
    (longForm : Bool) (length : Nat) : List Nat :=
  encTag littleEndian tag ++
    (if implicit then enc32 littleEndian length
      else vrBytes ++
        (if longForm then reserved ++ enc32 littleEndian length
          else enc16 littleEndian length))

/-- The declared lengths for which the amended consumption theorem is stated:
every length for the text and blob VRs; a multiple of the width for the
binary scalar VRs (not 0 for AT, which has no default value); 0 or 4 for AS.
SQ and UI are left out. -/
def lengthAccepted (vr : VRCode) (length : Nat) : Prop :=
  match vr with
  | .SQ | .UI => False
  | .AS => length = 0 ∨ length = 4
  | .AT => 0 < length ∧ length % 4 = 0
  | .FL | .SL | .UL => length % 4 = 0
  | .FD => length % 8 = 0
  | .SS | .US => length % 2 = 0
  | _ => True

instance lengthAccepted.decidable (vr : VRCode) (length : Nat) :
    Decidable (lengthAccepted vr length) :=
  match vr with
  | .SQ | .UI => isFalse id
  | .AS => inferInstanceAs (Decidable (length = 0 ∨ length = 4))
  | .AT => inferInstanceAs (Decidable (0 < length ∧ length % 4 = 0))
  | .FL | .SL | .UL => inferInstanceAs (Decidable (length % 4 = 0))
  | .FD => inferInstanceAs (Decidable (length % 8 = 0))
  | .SS | .US => inferInstanceAs (Decidable (length % 2 = 0))
  | .AE | .CS | .DA | .DS | .DT | .IS | .LO | .LT | .OB | .OD | .OF | .OW | .PN | .SH | .ST
  | .TM | .UC | .UN | .UR | .UT => isTrue trivial

/-- The assertion `r.Returns P`: the awaited call resolves, with a value and a reader state
that satisfy `P`. -/
def Res.Returns {α : Type} (r : Res α) (P : α → DicomReadableBufferStream → Prop) : Prop :=
  ∃ a s1, r = .ok a s1 ∧ P a s1

/-- The VR codes whose `readBytes`, for a defined length, is one
`readNBytes(length)`. -/
def VRCode.plain : VRCode → Bool
  | .AE | .AS | .DA | .DT | .TM | .UR | .CS | .DS | .IS | .LO | .LT | .SH | .ST | .UC | .UT
  | .PN | .OB | .OD | .OF | .OW | .UN => true
  | _ => false

/-- An instance of the external collaborators for the examples: an empty
dictionary, Latin-1 decoding, no pad stripping, raw values kept for every VR
but SQ, and a meta group that declares Explicit VR Little Endian, as the
meta group of every example file does. -/
def exampleDcmjs : Dcmjs :=
  { lookupTag := fun _ => none
    isPrivateCreator := fun _ => false
    decode := fun _ b => String.mk (b.map Char.ofNat)
    dropPadByte := fun _ xs => xs
    storeRaw := fun c => c ≠ .SQ
    itemThrows := fun _ _ _ => false
    parsedUnknownRead := fun _ _ _ => .pending
    parsedUnknownOnEmpty := fun _ _ _ _ => none
    metaTransferSyntax := fun _ => some "1.2.840.10008.1.2.1"
    normalizeSyntax := fun x => x
    toLowerCase := fun x => String.mk (x.data.map Char.toLower)
    IMPLICIT_LITTLE_ENDIAN := "1.2.840.10008.1.2"
    EXPLICIT_LITTLE_ENDIAN := "1.2.840.10008.1.2.1"
    DEFLATED_EXPLICIT_LITTLE_ENDIAN := "1.2.840.10008.1.2.1.99" }

/-- The bytes of an ASCII string. -/
def asciiBytes (str : String) : List Nat := str.data.map Char.toNat

/-- An explicit little-endian element with the given tag, VR code and value. -/
def explicitElement (tag : Nat) (vr : String) (value : List Nat) : List Nat :=
  elementHeader false true tag (asciiBytes vr) [0, 0] (createByTypeString vr).isExplicit
    value.length ++ value

/-- The entry `_read` stores for an element it has read: the key and the
element, with the value as left by the character-set block. -/
def entryOf (readInfo : ReadInfo) (values : JsVal) : String × Element :=
  (toCleanString readInfo.tag,
    { vr := readInfo.vr.map VRInst.type, Value := values, rawValue := readInfo.rawValues })

/-- The dataset after storing the given elements in order. -/
def storeAll (dict : List (String × Element)) (trace : List (ReadInfo × JsVal)) :
    List (String × Element) :=
  trace.foldl (fun dict e => setKey dict (entryOf e.1 e.2).1 (entryOf e.1 e.2).2) dict

/-- The relation `Precede d transferSyntax options stop trace s sk`: starting from `s`,
`_readTag` decodes the elements of `trace` one after the other, none of them
with the clean tag `stop`, each stored with the value the character-set block
leaves and each leaving fewer unread bytes, and the reader is then at `sk`. -/
def Precede (d : Dcmjs) (transferSyntax : String) (options : Options) (stop : String) :
    List (ReadInfo × JsVal) → DicomReadableBufferStream → DicomReadableBufferStream → Prop
  | [], s, sk => sk = s
  | e :: trace, s, sk =>
    ∃ s1 s2, DicomMessageAsync._readTag d s transferSyntax options = .ok e.1 s1 ∧
      toCleanString e.1.tag ≠ stop ∧
      characterSetStep d options e.1 s1 = .ok e.2 s2 ∧
      s2.unread.length < s.unread.length ∧
      Precede d transferSyntax options stop trace s2 sk

/-- The main dataset of the examples: a CS element (0008,0060) "MR", a US
element (0028,0010) with the value 512, and an OW pixel-data element
(7FE0,0010) of 4 bytes, in explicit little-endian syntax. -/
def exampleBody : List Nat :=
  explicitElement 0x00080060 "CS" [77, 82] ++ explicitElement 0x00280010 "US" [0, 2] ++
    explicitElement 0x7fe00010 "OW" [1, 2, 3, 4]

/-- The options `{ untilTag: "7FE00010" }`. -/
def untilPixelData : Options :=
  { ignoreErrors := false, untilTag := some "7FE00010", includeUntilTagValue := false,
    forceStoreRaw := false }

/-- A Part-10 file around a main dataset: the 128-byte preamble, "DICM", the
meta group length element (0002,0000) with the value 28, the meta group made
of the transfer syntax element (0002,0010) = "1.2.840.10008.1.2.1" (Explicit
VR Little Endian, padded with NUL to 20 bytes), then the main dataset. -/
def exampleFile (body : List Nat) : List Nat :=
  List.replicate 128 0 ++ asciiBytes "DICM" ++
    explicitElement 0x00020000 "UL" (enc32 true 28) ++
    explicitElement 0x00020010 "UI" (asciiBytes "1.2.840.10008.1.2.1" ++ [0]) ++ body

/-- A main dataset with encapsulated pixel data: the CS element (0008,0060)
"MR", then the element (7FE0,0010) OB of undefined length holding the given
offset table and items. -/
def encapsulatedBody (offsets : List Nat) (items : List (List Nat)) : List Nat :=
  explicitElement 0x00080060 "CS" [77, 82] ++ encTag true 0x7fe00010 ++ obUndefinedHeader ++
    encapsulatedLayout true offsets items

/-- The value a binary scalar VR decodes from one block of its width in the
byte order `littleEndian`: what its `readBytes` returns through the typed
reader of the VR (`readUint16` for US, `readTag` for AT, ...). -/
def decodeBlock (vr : VRCode) (littleEndian : Bool) (block : List Nat) : JsAtom :=
  match vr with
  | .AT => .number (TagAsync.fromNumbers (getUint16 (block.take 2) littleEndian)
      (getUint16 (block.drop 2) littleEndian))
  | .FL => .float32 (getUint32 block littleEndian)
  | .FD => .float64 (if littleEndian then block.reverse else block)
  | .SL => .number (getInt32 block littleEndian)
  | .SS => .number (getInt16 block littleEndian)
  | .UL => .number (getUint32 block littleEndian)
  | .US => .number (getUint16 block littleEndian)
  | _ => .undefined

/-- The relation `BlockReads d c transferSyntax options blocks s sk`: starting from `s`,
one call `vr.read(stream, vr.maxLength, syntax, options)` per block resolves
with the value decoded from that block and has consumed exactly that block,
and the reader is then at `sk`. -/
def BlockReads (d : Dcmjs) (c : VRCode) (transferSyntax : String) (options : Options) :
    List (List Nat) → DicomReadableBufferStream → DicomReadableBufferStream → Prop
  | [], s, sk => sk = s
  | b :: blocks, s, sk =>
    ∃ raw s1, (VRInst.registered c).read d s c.maxLength transferSyntax options
        = .ok (raw, .one (decodeBlock c s.isLittleEndian b)) s1 ∧
      s.unread = b ++ s1.unread ∧ Same s s1 ∧
      BlockReads d c transferSyntax options blocks s1 sk

/-- The example collaborators with a meta group that declares Deflated
Explicit VR Little Endian. -/
def deflatedDcmjs : Dcmjs :=
  { exampleDcmjs with metaTransferSyntax := fun _ => some "1.2.840.10008.1.2.1.99" }

/-- The item delimiter: the tag (FFFE,E00D) and a 4-byte zero length. -/
def itemDelimiterLayout (littleEndian : Bool) : List Nat :=
  encTag littleEndian 0xfffee00d ++ enc32 littleEndian 0

/-- An item of undefined length: the item-start tag (FFFE,E000), the length
0xFFFFFFFF, the content, the item delimiter. -/
def undefinedItemLayout (littleEndian : Bool) (content : List Nat) : List Nat :=
  encTag littleEndian SequenceItemTag ++ enc32 littleEndian 0xffffffff ++ content ++
    itemDelimiterLayout littleEndian

/-- The header of an explicit little-endian SQ element of undefined length:
the tag, the VR code "SQ", two reserved bytes, the length 0xFFFFFFFF. -/
def sqUndefinedHeader (tag : Nat) : List Nat :=
  encTag true tag ++ [83, 81, 0, 0, 255, 255, 255, 255]

/-- What one round of the scan of an undefined-length item reads: a 16-bit
word other than 0xFFFE, or the word 0xFFFE together with the 16-bit word and
the 32-bit length read behind it. -/
inductive ScanToken where
  | word (g : Nat)
  | control (ge itemLength : Nat)
deriving DecidableEq, Repr

/-- The bytes of a token in the byte order `littleEndian`. -/
def ScanToken.bytes (littleEndian : Bool) : ScanToken → List Nat
  | .word g => enc16 littleEndian g
  | .control ge itemLength =>
    enc16 littleEndian 0xfffe ++ enc16 littleEndian ge ++ enc32 littleEndian itemLength

/-- The numbers of a token fit their fields, and a plain word is not 0xFFFE. -/
def ScanToken.wellFormed : ScanToken → Bool
  | .word g => decide (g < 65536) && decide (g ≠ 0xfffe)
  | .control ge itemLength => decide (ge < 65536) && decide (itemLength < 4294967296)

/-- The nesting depth after the tokens, starting at depth `stack`: an item
header of undefined length opens a level, a zero-length item delimiter closes
one; `none` when an item delimiter comes at depth 0. -/
def scanDepth : Nat → List ScanToken → Option Nat
  | stack, [] => some stack
  | stack, .word _ :: tokens => scanDepth stack tokens
  | stack, .control ge itemLength :: tokens =>
    if ge = 0xe00d ∧ itemLength = 0 then
      if stack = 0 then none else scanDepth (stack - 1) tokens
    else if ge = 0xe000 ∧ itemLength = 0xffffffff then scanDepth (stack + 1) tokens
    else scanDepth stack tokens

/-- An item of a sequence: of explicit length with the given content, or of
undefined length with the content given as the tokens the scan reads. -/
inductive SeqItem where
  | defined (content : List Nat)
  | undefined (tokens : List ScanToken)
deriving DecidableEq, Repr

/-- The bytes of an item in the byte order `littleEndian`, header and
delimiter included. -/
def SeqItem.bytes (littleEndian : Bool) : SeqItem → List Nat
  | .defined content => itemLayout littleEndian content
  | .undefined tokens =>
    undefinedItemLayout littleEndian (tokens.map (ScanToken.bytes littleEndian)).flatten

/-- The content of an item as the scan stores it: the bytes themselves for an
item of explicit length, the words in little-endian order for an item of
undefined length. -/
def SeqItem.captured : SeqItem → List Nat
  | .defined content => content
  | .undefined tokens => (tokens.map (ScanToken.bytes true)).flatten

/-- An item of explicit length declares a length other than 0xFFFFFFFF; the
tokens of an item of undefined length are well formed and every level they
open is closed again. -/
def SeqItem.wellFormed : SeqItem → Bool
  | .defined content => decide (content.length < 0xffffffff)
  | .undefined tokens => tokens.all ScanToken.wellFormed && scanDepth 0 tokens == some 0

/-- What `SequenceOfItems.readBytes` adds to `read` for an item. -/
def SeqItem.counted : SeqItem → Nat
  | .defined content => 8 + content.length
  | .undefined tokens =>
    if tokens = [] then 8 else 16 + (tokens.map (ScanToken.bytes true)).flatten.length

/-- The datasets of the items whose content is not empty, in item order. -/
def itemDatasets (transferSyntax : String) (littleEndian : Bool) (items : List SeqItem) :
    List JsAtom :=
  (items.filter fun i => decide (i.captured ≠ [])).map fun i =>
    .item transferSyntax littleEndian i.captured

/-- The text a multi-valued text VR decodes from the bytes of a value, before
the text is split: the ASCII or decoded string, for PN without one trailing
pad character, for UI without the trailing NUL byte. -/
def textOf (d : Dcmjs) (c : VRCode) (decoder : String) (value : List Nat) : String :=
  match c with
  | .LO | .SH | .UC => d.decode decoder value
  | .PN =>
    if value = [] then ""
    else if (d.decode decoder value).data ≠ [] ∧
        (d.decode decoder value).data.getLast? ≠ some (Char.ofNat VRCode.PN.padByte) then
      d.decode decoder value
    else String.mk (d.decode decoder value).data.dropLast
  | .UI =>
    if value = [] then ""
    else if byteAt value (value.length - 1) ≠ VRCode.UI.padByte then toAscii value
    else toAscii (value.take (value.length - 1))
  | _ => toAscii value

/-- The components a multi-valued text VR hands on for a text: where each VR
trims, splits on the backslash and drops the pad byte. -/
def textComponents (d : Dcmjs) (c : VRCode) (str : String) : List JsAtom :=
  match c with
  | .AE | .LO | .SH => (d.dropPadByte c (splitVM (jsTrim str))).map .string
  | .TM | .UC => (d.dropPadByte c (splitVM (rtrim str))).map .string
  | .DA | .DT => (d.dropPadByte c (splitVM str)).map .string
  | .CS => (d.dropPadByte c (splitVM str)).map fun x => .string (jsTrim x)
  | .DS | .IS => (d.dropPadByte c (splitVM str)).map formatNumber
  | .PN => (splitVM str).map .personName
  | .UI =>
    if Char.ofNat VM_DELIMITER ∈ str.data then
      (d.dropPadByte c (splitVM str)).map fun x => .string (removeInvalidUidChars x)
    else (d.dropPadByte c (splitVM (removeInvalidUidChars str))).map .string
  | _ => []

/-- The example collaborators with a dictionary that knows (0028,0010) as US
and (0010,0020) as LO, and a library that decodes the empty string from a
reader without bytes for a text VR and throws for every other one. -/
def dictDcmjs : Dcmjs :=
  { exampleDcmjs with
    lookupTag := fun tag =>
      if tag = 0x00280010 then some "US" else if tag = 0x00100020 then some "LO" else none
    parsedUnknownOnEmpty := fun type _ _ _ =>
      if type = "LO" then some (.one (.string ""), .one (.string "")) else none }

/-- A little-endian reader that has buffered `bytes` and whose file stream
has delivered everything. -/
def bufferedReaderOf (bytes : List Nat) : DicomReadableBufferStream :=
  { isLittleEndian := true, remainingBuffer := bytes, fileStream := .flowing [],
    decoder := "latin1" }

/-- A little-endian reader whose file stream has ended, with `bytes` left in
its buffer. -/
def endedReaderOf (bytes : List Nat) : DicomReadableBufferStream :=
  { isLittleEndian := true, remainingBuffer := bytes, fileStream := .ended,
    decoder := "latin1" }

/-- The rational value of a number; `none` for `NaN`. -/
def JsNumber.value : JsNumber → Option ℚ
  | .nan => none
  | .decimal negative mantissa exponent =>
    some ((if negative then -1 else 1) * (mantissa : ℚ) * (10 : ℚ) ^ exponent)

/-- A decimal literal in its parts: sign, integer digits, point, fraction
digits, exponent mark, exponent sign and exponent digits, each as the
characters written; a part that is not written is empty. -/
structure Numeral where
  sign : List Char
  integer : List Char
  point : List Char
  fraction : List Char
  exponentMark : List Char
  exponentSign : List Char
  exponent : List Char

/-- A well-formed decimal literal: an optional sign `+` or `-`; digits, with
an optional point that fraction digits may follow, and at least one digit
before or after the point; optionally an exponent mark `e` or `E` with an
optional sign and at least one digit. -/
def Numeral.wellFormed (n : Numeral) : Prop :=
  (n.sign = [] ∨ n.sign = ['+'] ∨ n.sign = ['-']) ∧
  (∀ c ∈ n.integer, c.isDigit = true) ∧
  (n.point = [] ∨ n.point = ['.']) ∧
  (∀ c ∈ n.fraction, c.isDigit = true) ∧
  (n.point = [] → n.fraction = []) ∧
  (n.integer ≠ [] ∨ n.fraction ≠ []) ∧
  (n.exponentMark = [] ∨ n.exponentMark = ['e'] ∨ n.exponentMark = ['E']) ∧
  (n.exponentSign = [] ∨ n.exponentSign = ['+'] ∨ n.exponentSign = ['-']) ∧
  (∀ c ∈ n.exponent, c.isDigit = true) ∧
  (n.exponentMark = [] → n.exponentSign = [] ∧ n.exponent = []) ∧
  (n.exponentMark ≠ [] → n.exponent ≠ [])

instance Numeral.decidableWellFormed (n : Numeral) : Decidable n.wellFormed := by
  unfold Numeral.wellFormed
  infer_instance

/-- The characters of a literal, its parts in the order written. -/
def Numeral.text (n : Numeral) : List Char :=
  n.sign ++ (n.integer ++ (n.point ++ (n.fraction ++
    (n.exponentMark ++ (n.exponentSign ++ n.exponent)))))

/-- The number a literal denotes: the integer digits plus the fraction
digits as a decimal fraction, times the power of ten of the exponent, with
the sign written. -/
def Numeral.value (n : Numeral) : ℚ :=
  (if n.sign = ['-'] then -1 else 1) *
    ((digitsValue n.integer : ℚ) + (digitsValue n.fraction : ℚ) / 10 ^ n.fraction.length) *
    (10 : ℚ) ^ (if n.exponentSign = ['-'] then -((digitsValue n.exponent : ℕ) : ℤ)
      else ((digitsValue n.exponent : ℕ) : ℤ))

/-- The relation `Consumes s xs s1`: going from `s` to `s1` the reader has handed out
exactly the bytes `xs`, the next unread ones, and has left the endianness,
the decoder and the end flag as they were. -/
def Consumes (s : DicomReadableBufferStream) (xs : List Nat)
    (s1 : DicomReadableBufferStream) : Prop :=
  s.unread = xs ++ s1.unread ∧ s1.isLittleEndian = s.isLittleEndian ∧
    s1.decoder = s.decoder ∧ s1.isStreamEnded = s.isStreamEnded

/-! # Theorems -/

/-! ## The byte reader -/

theorem consumes_refl (s : DicomReadableBufferStream) : Consumes s [] s :=
  ⟨rfl, rfl, rfl, rfl⟩

theorem consumes_trans {s s1 s2 : DicomReadableBufferStream} {xs ys : List Nat}
    (h1 : Consumes s xs s1) (h2 : Consumes s1 ys s2) : Consumes s (xs ++ ys) s2 := by
  obtain ⟨a1, b1, c1, d1⟩ := h1
  obtain ⟨a2, b2, c2, d2⟩ := h2
  refine ⟨?_, ?_, ?_, ?_⟩
  · rw [a1, a2, List.append_assoc]
  · rw [b2, b1]
  · rw [c2, c1]
  · rw [d2, d1]

theorem onData_some (n : Nat) :
    ∀ (chunks : List (List Nat)) (acc : List Nat), n ≤ (acc ++ chunks.flatten).length →
      acc.length < n →
      ∃ buffer rest, onData n acc chunks = some (buffer, rest) ∧
        buffer ++ rest.flatten = acc ++ chunks.flatten ∧ n ≤ buffer.length := by
  intro chunks
  induction chunks with
  | nil =>
    intro acc h1 h2
    simp at h1
    omega
  | cons c cs ih =>
    intro acc h1 h2
    unfold onData
    by_cases hc : n ≤ (acc ++ c).length
    · rw [if_pos hc]
      exact ⟨acc ++ c, cs, rfl, by simp, hc⟩
    · rw [if_neg hc]
      have h3 : n ≤ ((acc ++ c) ++ cs.flatten).length := by
        simpa [List.append_assoc] using h1
      obtain ⟨buffer, rest, e1, e2, e3⟩ := ih (acc ++ c) h3 (by omega)
      exact ⟨buffer, rest, e1, by rw [e2]; simp, e3⟩

theorem onData_none (n : Nat) :
    ∀ (chunks : List (List Nat)) (acc : List Nat), (acc ++ chunks.flatten).length < n →
      onData n acc chunks = none := by
  intro chunks
  induction chunks with
  | nil => intro acc _; rfl
  | cons c cs ih =>
    intro acc h
    unfold onData
    have hc : ¬ n ≤ (acc ++ c).length := by
      simp at h ⊢
      omega
    rw [if_neg hc]
    exact ih (acc ++ c) (by simpa [List.append_assoc] using h)

/-- With at least `n` unread bytes `readNBytes n` resolves with the first `n`
of them and leaves the others unread. -/
theorem readNBytes_take (s : DicomReadableBufferStream) (n : Nat)
    (h : n ≤ s.unread.length) :
    ∃ s1, s.readNBytes n = .ok (s.unread.take n) s1 ∧
      Consumes s (s.unread.take n) s1 := by
  unfold DicomReadableBufferStream.readNBytes
  by_cases hb : n ≤ s.remainingBuffer.length
  · rw [if_pos hb]
    have e : s.unread.take n = s.remainingBuffer.take n := by
      unfold DicomReadableBufferStream.unread
      rw [List.take_append_of_le_length hb]
    rw [e]
    refine ⟨{ s with remainingBuffer := s.remainingBuffer.drop n }, rfl, ?_, rfl, rfl, rfl⟩
    show s.remainingBuffer ++ s.fileStream.chunks.flatten
      = List.take n s.remainingBuffer ++ (List.drop n s.remainingBuffer ++ s.fileStream.chunks.flatten)
    rw [← List.append_assoc, List.take_append_drop]
  · rw [if_neg hb]
    rcases hfs : s.fileStream with chunks | _
    · have hu : s.unread = s.remainingBuffer ++ chunks.flatten := by
        unfold DicomReadableBufferStream.unread
        rw [hfs]; rfl
      obtain ⟨buffer, rest, e1, e2, e3⟩ :=
        onData_some n chunks s.remainingBuffer (by rw [← hu]; exact h) (by omega)
      simp only [e1]
      have e : s.unread.take n = buffer.take n := by
        rw [hu, ← e2, List.take_append_of_le_length e3]
      rw [e]
      refine ⟨{ s with remainingBuffer := buffer.drop n, fileStream := .flowing rest },
        rfl, ?_, rfl, rfl, ?_⟩
      · rw [hu, ← e2]
        show buffer ++ rest.flatten = List.take n buffer ++ (List.drop n buffer ++ rest.flatten)
        rw [← List.append_assoc, List.take_append_drop]
      · simp [DicomReadableBufferStream.isStreamEnded, hfs]
    · exfalso
      have hu : s.unread = s.remainingBuffer := by
        unfold DicomReadableBufferStream.unread
        rw [hfs]; simp [FileStream.chunks]
      rw [hu] at h
      exact hb h

/-- When the unread bytes start with `xs`, `readNBytes xs.length` resolves
with `xs` and leaves what follows. -/
theorem readNBytes_prefix (s : DicomReadableBufferStream) (xs r : List Nat)
    (h : s.unread = xs ++ r) :
    ∃ s1, s.readNBytes xs.length = .ok xs s1 ∧ Consumes s xs s1 ∧ s1.unread = r := by
  obtain ⟨s1, e1, e2⟩ := readNBytes_take s xs.length (by rw [h]; simp)
  have ht : s.unread.take xs.length = xs := by rw [h]; simp
  rw [ht] at e1 e2
  refine ⟨s1, e1, e2, ?_⟩
  have := e2.1
  rw [h] at this
  exact (List.append_cancel_left this).symm

theorem same_refl (s : DicomReadableBufferStream) : Same s s := ⟨rfl, rfl, rfl⟩

theorem same_trans {s s1 s2 : DicomReadableBufferStream} (h1 : Same s s1) (h2 : Same s1 s2) :
    Same s s2 :=
  ⟨h2.1.trans h1.1, h2.2.1.trans h1.2.1, h2.2.2.trans h1.2.2⟩

/-- The form of `readNBytes_prefix` used to run the parsers over a layout. -/
theorem readNBytes_layout (s : DicomReadableBufferStream) (xs r : List Nat) (n : Nat)
    (h : s.unread = xs ++ r) (hn : xs.length = n) :
    ∃ s1, s.readNBytes n = .ok xs s1 ∧ s1.unread = r ∧ Same s s1 := by
  subst hn
  obtain ⟨s1, e1, c, e2⟩ := readNBytes_prefix s xs r h
  exact ⟨s1, e1, e2, c.2.1, c.2.2.1, c.2.2.2⟩

theorem enc16_length (le : Bool) (v : Nat) : (enc16 le v).length = 2 := by
  cases le <;> rfl

theorem enc32_length (le : Bool) (v : Nat) : (enc32 le v).length = 4 := by
  cases le <;> rfl

theorem encTag_length (le : Bool) (v : Nat) : (encTag le v).length = 4 := by
  simp [encTag, enc16_length]

theorem getUint16_enc16 (le : Bool) (v : Nat) (h : v < 65536) :
    getUint16 (enc16 le v) le = v := by
  cases le <;> simp [getUint16, enc16, byteAt] <;> omega

theorem getUint32_enc32 (le : Bool) (v : Nat) (h : v < 4294967296) :
    getUint32 (enc32 le v) le = v := by
  cases le <;> simp [getUint32, enc32, byteAt] <;> omega

theorem readUint16_layout (s : DicomReadableBufferStream) (v : Nat) (r : List Nat)
    (h : s.unread = enc16 s.isLittleEndian v ++ r) (hv : v < 65536) :
    ∃ s1, s.readUint16 = .ok v s1 ∧ s1.unread = r ∧ Same s s1 := by
  obtain ⟨s1, e1, e2, e3⟩ := readNBytes_layout s _ r 2 h (enc16_length _ _)
  refine ⟨s1, ?_, e2, e3⟩
  simp only [DicomReadableBufferStream.readUint16, e1, Res.bind, e3.1]
  rw [getUint16_enc16 _ _ hv]

theorem readUint32_layout (s : DicomReadableBufferStream) (v : Nat) (r : List Nat)
    (h : s.unread = enc32 s.isLittleEndian v ++ r) (hv : v < 4294967296) :
    ∃ s1, s.readUint32 = .ok v s1 ∧ s1.unread = r ∧ Same s s1 := by
  obtain ⟨s1, e1, e2, e3⟩ := readNBytes_layout s _ r 4 h (enc32_length _ _)
  refine ⟨s1, ?_, e2, e3⟩
  simp only [DicomReadableBufferStream.readUint32, e1, Res.bind, e3.1]
  rw [getUint32_enc32 _ _ hv]

theorem fromNumbers_split (tag : Nat) (h : tag < 4294967296) :
    TagAsync.fromNumbers (tag / 65536) (tag % 65536) = tag := by
  unfold TagAsync.fromNumbers
  have h1 : tag / 65536 < 65536 := by omega
  have h2 : tag % 65536 < 65536 := by omega
  have e1 : tag / 65536 % 4294967296 = tag / 65536 := Nat.mod_eq_of_lt (by omega)
  have e2 : tag % 65536 % 4294967296 = tag % 65536 := Nat.mod_eq_of_lt (by omega)
  rw [e1, e2, Nat.shiftLeft_eq]
  have e3 : tag / 65536 * 2 ^ 16 % 4294967296 = tag / 65536 * 2 ^ 16 :=
    Nat.mod_eq_of_lt (by omega)
  rw [e3]
  have e4 : tag / 65536 * 2 ^ 16 ||| tag % 65536 = tag / 65536 * 2 ^ 16 + tag % 65536 := by
    rw [Nat.mul_comm]
    exact (Nat.mul_add_lt_is_or (by omega) _).symm
  rw [e4]
  omega

theorem readTag_layout (s : DicomReadableBufferStream) (tag : Nat) (r : List Nat)
    (h : s.unread = encTag s.isLittleEndian tag ++ r) (hv : tag < 4294967296) :
    ∃ s1, TagAsync.readTag s = .ok tag s1 ∧ s1.unread = r ∧ Same s s1 := by
  unfold encTag at h
  rw [List.append_assoc] at h
  obtain ⟨s1, e1, e2, e3⟩ := readUint16_layout s _ _ h (by omega)
  rw [← e3.1] at e2
  obtain ⟨s2, f1, f2, f3⟩ := readUint16_layout s1 _ _ e2 (by omega)
  refine ⟨s2, ?_, f2, same_trans e3 f3⟩
  simp only [TagAsync.readTag, e1, Res.bind, f1]
  rw [fromNumbers_split tag hv]

theorem readUint16_any (s : DicomReadableBufferStream) (xs r : List Nat)
    (h : s.unread = xs ++ r) (hx : xs.length = 2) :
    ∃ v s1, s.readUint16 = .ok v s1 ∧ s1.unread = r ∧ Same s s1 := by
  obtain ⟨s1, e1, e2, e3⟩ := readNBytes_layout s xs r 2 h hx
  exact ⟨getUint16 xs s1.isLittleEndian, s1,
    by simp only [DicomReadableBufferStream.readUint16, e1, Res.bind], e2, e3⟩

theorem readUint32_any (s : DicomReadableBufferStream) (xs r : List Nat)
    (h : s.unread = xs ++ r) (hx : xs.length = 4) :
    ∃ v s1, s.readUint32 = .ok v s1 ∧ s1.unread = r ∧ Same s s1 := by
  obtain ⟨s1, e1, e2, e3⟩ := readNBytes_layout s xs r 4 h hx
  exact ⟨getUint32 xs s1.isLittleEndian, s1,
    by simp only [DicomReadableBufferStream.readUint32, e1, Res.bind], e2, e3⟩

theorem increment_layout (s : DicomReadableBufferStream) (xs r : List Nat) (n : Nat)
    (h : s.unread = xs ++ r) (hx : xs.length = n) :
    ∃ s1, s.increment n = .ok () s1 ∧ s1.unread = r ∧ Same s s1 := by
  obtain ⟨s1, e1, e2, e3⟩ := readNBytes_layout s xs r n h hx
  exact ⟨s1, by simp only [DicomReadableBufferStream.increment, e1, Res.bind], e2, e3⟩

theorem streamEnd_of_unread (s : DicomReadableBufferStream) (h : s.unread ≠ []) :
    s.streamEnd = false := by
  unfold DicomReadableBufferStream.streamEnd DicomReadableBufferStream.isStreamEnded
  rcases hfs : s.fileStream with chunks | _
  · simp
  · have hu : s.unread = s.remainingBuffer := by
      unfold DicomReadableBufferStream.unread
      rw [hfs]; simp [FileStream.chunks]
    rw [hu] at h
    cases hb : s.remainingBuffer with
    | nil => exact absurd hb h
    | cons a l => simp

theorem getNextSequenceItemData_item (s : DicomReadableBufferStream) (p r : List Nat)
    (h : s.unread = itemLayout s.isLittleEndian p ++ r) (hp : p.length < 4294967296) :
    ∃ s1, getNextSequenceItemData s = .ok (some p) s1 ∧ s1.unread = r ∧ Same s s1 := by
  unfold itemLayout at h
  rw [List.append_assoc, List.append_assoc] at h
  obtain ⟨s1, e1, e2, e3⟩ := readTag_layout s _ _ h (by decide)
  rw [← e3.1] at e2
  obtain ⟨s2, f1, f2, f3⟩ := readUint32_layout s1 _ _ e2 hp
  obtain ⟨s3, g1, g2, g3⟩ := readNBytes_layout s2 p r p.length f2 rfl
  refine ⟨s3, ?_, g2, (same_trans (same_trans e3 f3) g3)⟩
  simp only [getNextSequenceItemData, e1, Res.bind, f1, g1, if_true]

theorem getNextSequenceItemData_delimiter (s : DicomReadableBufferStream) (r : List Nat)
    (h : s.unread = delimiterLayout s.isLittleEndian ++ r) :
    ∃ s1, getNextSequenceItemData s = .ok none s1 ∧ s1.unread = r ∧ Same s s1 := by
  unfold delimiterLayout at h
  rw [List.append_assoc] at h
  obtain ⟨s1, e1, e2, e3⟩ := readTag_layout s _ _ h (by decide)
  rw [← e3.1] at e2
  obtain ⟨s2, f1, f2, f3⟩ := readUint32_layout s1 _ _ e2 (by decide)
  refine ⟨s2, ?_, f2, same_trans e3 f3⟩
  have hne : SequenceDelimiterTag ≠ SequenceItemTag := by decide
  simp only [getNextSequenceItemData, e1, Res.bind, f1, if_neg hne, if_true]
  simp

theorem offsetCount_mul (n : Nat) : offsetCount (4 * n) = n := by
  unfold offsetCount
  omega

theorem readOffsets_layout (le : Bool) :
    ∀ (offs acc : List Nat) (s : DicomReadableBufferStream) (r : List Nat),
      s.isLittleEndian = le →
      s.unread = (offs.map (enc32 le)).flatten ++ r →
      (∀ o ∈ offs, o < 4294967296) →
      ∃ s1, readOffsets offs.length s acc = .ok (acc ++ offs) s1 ∧ s1.unread = r ∧
        Same s s1 := by
  intro offs
  induction offs with
  | nil =>
    intro acc s r _ h _
    exact ⟨s, by simp [readOffsets], by simpa using h, same_refl s⟩
  | cons o os ih =>
    intro acc s r hle h hb
    simp only [List.map_cons, List.flatten_cons, List.append_assoc] at h
    rw [← hle] at h
    obtain ⟨s1, e1, e2, e3⟩ := readUint32_layout s o _ h (hb o (by simp))
    obtain ⟨s2, f1, f2, f3⟩ := ih (acc ++ [o]) s1 r (by rw [e3.1, hle])
      (by rw [e2, hle]) (fun x hx => hb x (by simp [hx]))
    refine ⟨s2, ?_, f2, same_trans e3 f3⟩
    simp only [List.length_cons, readOffsets, e1, Res.bind, f1, List.append_assoc,
      List.singleton_append]

theorem skipToFrame_layout (le : Bool) (i : Nat) :
    ∀ (offs : List Nat) (j : Nat) (items : List (List Nat)) (s : DicomReadableBufferStream)
      (r : List Nat),
      s.isLittleEndian = le → offs.Chain' (· < ·) → j ≤ i + 1 →
      items.length = i + 1 - j → i + 2 ≤ offs.length + j →
      (∀ p ∈ items, p.length < 4294967296) →
      s.unread = (items.map (itemLayout le)).flatten ++ r →
      ∃ s1, skipToFrame (i : Int) j offs s = .ok () s1 ∧ s1.unread = r ∧ Same s s1 := by
  intro offs
  induction offs with
  | nil =>
    intro j items s r _ _ hj hl hlen _ h
    have : items = [] := List.length_eq_zero.mp (by simp at hlen; omega)
    subst this
    exact ⟨s, by simp [skipToFrame], by simpa using h, same_refl s⟩
  | cons prev rest ih =>
    intro j items s r hle hch hj hl hlen hb h
    cases rest with
    | nil =>
      have : items = [] := List.length_eq_zero.mp (by simp at hlen; omega)
      subst this
      exact ⟨s, by simp [skipToFrame], by simpa using h, same_refl s⟩
    | cons cur rest =>
      by_cases hji : j = i + 1
      · have : items = [] := List.length_eq_zero.mp (by omega)
        subst this
        refine ⟨s, ?_, by simpa using h, same_refl s⟩
        simp [skipToFrame, hji]
      · have hlt : prev < cur := by
          simp only [List.chain'_cons] at hch
          exact hch.1
        have hch2 : (cur :: rest).Chain' (· < ·) := by
          simp only [List.chain'_cons] at hch
          exact hch.2
        cases items with
        | nil => simp at hl; omega
        | cons p ps =>
          simp only [List.map_cons, List.flatten_cons, List.append_assoc] at h
          rw [← hle] at h
          obtain ⟨s1, e1, e2, e3⟩ := getNextSequenceItemData_item s p _ h (hb p (by simp))
          obtain ⟨s2, f1, f2, f3⟩ := ih (j + 1) ps s1 r (by rw [e3.1, hle]) hch2 (by omega)
            (by simp at hl; omega) (by simp at hlen ⊢; omega)
            (fun x hx => hb x (by simp [hx])) (by rw [e2, hle])
          refine ⟨s2, ?_, f2, same_trans e3 f3⟩
          have hne : ¬ ((j : Int) = (i : Int) + 1) := by omega
          simp only [skipToFrame, if_neg hne, if_pos hlt, e1, Res.bind, f1]

theorem skipItems_layout (le : Bool) (fi : Int) :
    ∀ (items : List (List Nat)) (cur : Nat) (s : DicomReadableBufferStream) (r : List Nat),
      s.isLittleEndian = le →
      (∀ p ∈ items, p.length < 4294967296) →
      s.unread = (items.map (itemLayout le)).flatten ++ r →
      ∃ s1, skipItems fi items.length cur s = .ok () s1 ∧ s1.unread = r ∧ Same s s1 := by
  intro items
  induction items with
  | nil =>
    intro cur s r _ _ h
    exact ⟨s, by simp [skipItems], by simpa using h, same_refl s⟩
  | cons p ps ih =>
    intro cur s r hle hb h
    simp only [List.map_cons, List.flatten_cons, List.append_assoc] at h
    rw [← hle] at h
    obtain ⟨s1, e1, e2, e3⟩ := getNextSequenceItemData_item s p _ h (hb p (by simp))
    obtain ⟨s2, f1, f2, f3⟩ := ih (cur + 1) s1 r (by rw [e3.1, hle])
      (fun x hx => hb x (by simp [hx])) (by rw [e2, hle])
    refine ⟨s2, ?_, f2, same_trans e3 f3⟩
    simp only [List.length_cons, skipItems, e1, Res.bind, f1]

theorem readFramesByTable_layout (le : Bool) :
    ∀ (offs : List Nat) (items : List (List Nat)) (frames : List (Option (List Nat)))
      (s : DicomReadableBufferStream) (r : List Nat),
      s.isLittleEndian = le → offs.Chain' (· < ·) →
      items.length + 1 = offs.length →
      (∀ p ∈ items, p.length < 4294967296) →
      s.unread = (items.map (itemLayout le)).flatten ++ r →
      ∃ s1, readFramesByTable offs s frames = .ok (frames ++ items.map some) s1 ∧
        s1.unread = r ∧ Same s s1 := by
  intro offs
  induction offs with
  | nil =>
    intro items frames s r _ _ hl _ _
    simp at hl
  | cons prev rest ih =>
    intro items frames s r hle hch hl hb h
    cases rest with
    | nil =>
      have : items = [] := by simpa using hl
      subst this
      exact ⟨s, by simp [readFramesByTable], by simpa using h, same_refl s⟩
    | cons cur rest =>
      have hlt : prev < cur := by
        simp only [List.chain'_cons] at hch
        exact hch.1
      have hch2 : (cur :: rest).Chain' (· < ·) := by
        simp only [List.chain'_cons] at hch
        exact hch.2
      cases items with
      | nil => simp at hl
      | cons p ps =>
        simp only [List.map_cons, List.flatten_cons, List.append_assoc] at h
        rw [← hle] at h
        obtain ⟨s1, e1, e2, e3⟩ := getNextSequenceItemData_item s p _ h (hb p (by simp))
        obtain ⟨s2, f1, f2, f3⟩ := ih ps (frames ++ [some p]) s1 r (by rw [e3.1, hle]) hch2
          (by simp at hl ⊢; omega) (fun x hx => hb x (by simp [hx])) (by rw [e2, hle])
        refine ⟨s2, ?_, f2, same_trans e3 f3⟩
        simp only [readFramesByTable, if_pos hlt, e1, Res.bind, f1, List.map_cons,
          List.append_assoc, List.singleton_append]

theorem readFramesToDelimiter_layout (le : Bool) :
    ∀ (items : List (List Nat)) (fuel : Nat) (frames : List (Option (List Nat)))
      (s : DicomReadableBufferStream) (r : List Nat),
      s.isLittleEndian = le → items.length < fuel →
      (∀ p ∈ items, p.length < 4294967296) →
      s.unread = (items.map (itemLayout le)).flatten ++ delimiterLayout le ++ r →
      ∃ s1, readFramesToDelimiter fuel s frames = .ok (frames ++ items.map some) s1 ∧
        s1.unread = r ∧ Same s s1 := by
  intro items
  induction items with
  | nil =>
    intro fuel frames s r hle hf _ h
    cases fuel with
    | zero => simp at hf
    | succ fuel =>
      simp only [List.map_nil, List.flatten_nil, List.nil_append] at h
      have hne : s.unread ≠ [] := by
        rw [h]; cases le <;> simp [delimiterLayout, encTag, enc16]
      rw [← hle] at h
      obtain ⟨s1, e1, e2, e3⟩ := getNextSequenceItemData_delimiter s r h
      refine ⟨s1, ?_, e2, e3⟩
      simp [readFramesToDelimiter, streamEnd_of_unread s hne, e1, Res.bind]
  | cons p ps ih =>
    intro fuel frames s r hle hf hb h
    cases fuel with
    | zero => simp at hf
    | succ fuel =>
      simp only [List.map_cons, List.flatten_cons, List.append_assoc] at h
      have hne : s.unread ≠ [] := by
        rw [h]; cases le <;> simp [itemLayout, encTag, enc16]
      rw [← hle] at h
      obtain ⟨s1, e1, e2, e3⟩ := getNextSequenceItemData_item s p _ h (hb p (by simp))
      obtain ⟨s2, f1, f2, f3⟩ := ih fuel (frames ++ [some p]) s1 r (by rw [e3.1, hle])
        (by simp at hf; omega) (fun x hx => hb x (by simp [hx]))
        (by rw [e2, hle]; simp)
      refine ⟨s2, ?_, f2, same_trans e3 f3⟩
      simp [readFramesToDelimiter, streamEnd_of_unread s hne, e1, Res.bind, f1]

theorem flatten_itemLayout_length (le : Bool) (items : List (List Nat)) :
    items.length ≤ ((items.map (itemLayout le)).flatten).length := by
  induction items with
  | nil => simp
  | cons p ps ih =>
    simp only [List.map_cons, List.flatten_cons, List.length_append, List.length_cons]
    have : 1 ≤ (itemLayout le p).length := by
      cases le <;> simp [itemLayout, encTag, enc16]
    omega

/-- The function `readFrame` up to the end of the offset table. -/
theorem readFrame_table (s : DicomReadableBufferStream) (vr lenField offs r : List Nat)
    (fi : Int) (hvr : vr.length = 2)
    (hlen : lenField.length = if (createByTypeString (toAscii vr)).isExplicit then 6 else 2)
    (hs : s.unread = vr ++ lenField ++ offsetTableLayout s.isLittleEndian offs ++ r)
    (hb : ∀ o ∈ offs, o < 4294967296) (hn : 4 * offs.length < 4294967296)
    (hfi : offs ≠ [] → 0 ≤ fi ∧ fi < offs.length) :
    ∃ s5, readFrame s fi = readFrame.select fi offs s5 ∧ s5.unread = r ∧ Same s s5 := by
  simp only [List.append_assoc] at hs
  obtain ⟨s1, e1, e2, e3⟩ := readNBytes_layout s vr _ 2 hs hvr
  have hhead : ∃ s2, readFrame.header s1 (toAscii vr) = .ok () s2 ∧
      s2.unread = offsetTableLayout s.isLittleEndian offs ++ r ∧ Same s1 s2 := by
    unfold readFrame.header
    by_cases hx : (createByTypeString (toAscii vr)).isExplicit = true
    · rw [if_pos hx] at hlen
      simp only [hx, if_true]
      have hsplit : lenField = lenField.take 2 ++ lenField.drop 2 :=
        (List.take_append_drop 2 lenField).symm
      rw [hsplit, List.append_assoc] at e2
      obtain ⟨s2, f1, f2, f3⟩ := increment_layout s1 _ _ 2 e2 (by simp [hlen])
      obtain ⟨v, s3, g1, g2, g3⟩ := readUint32_any s2 _ _ f2 (by simp [hlen])
      exact ⟨s3, by simp only [f1, Res.bind, g1], g2, same_trans f3 g3⟩
    · rw [if_neg hx] at hlen
      simp only [hx]
      obtain ⟨v, s2, f1, f2, f3⟩ := readUint16_any s1 _ _ e2 hlen
      exact ⟨s2, by simp [f1, Res.bind], f2, f3⟩
  obtain ⟨s2, h1, h2, h3⟩ := hhead
  have hle2 : s2.isLittleEndian = s.isLittleEndian := (same_trans e3 h3).1
  unfold offsetTableLayout at h2
  rw [List.append_assoc, List.append_assoc, ← hle2] at h2
  obtain ⟨s3, i1, i2, i3⟩ := readTag_layout s2 _ _ h2 (by decide)
  rw [← i3.1] at i2
  obtain ⟨s4, j1, j2, j3⟩ := readUint32_layout s3 _ _ i2 hn
  obtain ⟨s5, k1, k2, k3⟩ := readOffsets_layout s2.isLittleEndian offs [] s4 r
    (by rw [j3.1, i3.1]) (by rw [j2, i3.1]) hb
  refine ⟨s5, ?_, k2, (same_trans ((same_trans (same_trans (same_trans e3 h3) i3) j3)) k3)⟩
  simp only [readFrame, DicomReadableBufferStream.readVR, e1, Res.bind, h1, i1, j1,
    SequenceItemTag]
  simp only [ne_eq, not_true_eq_false, if_false]
  cases offs with
  | nil =>
    simp only [List.length_nil, Nat.mul_zero, gt_iff_lt, Nat.lt_irrefl, if_false]
    simp only [readOffsets, List.length_nil] at k1
    cases k1
    rfl
  | cons o os =>
    obtain ⟨hf1, hf2⟩ := hfi (by simp)
    have hpos : 4 * (o :: os).length > 0 := by simp
    have hrange : ¬ (fi < 0 ∨ ((4 * (o :: os).length : Nat) : Int) ≤ 4 * fi) := by
      push_cast
      omega
    simp only [if_pos hpos, if_neg hrange, offsetCount_mul, k1, List.nil_append]

/-- The method `BinaryRepresentation.readBytes` with undefined length, up to the end of
the offset table. -/
theorem readBytes_table (t : DicomReadableBufferStream) (offs r : List Nat)
    (ht : t.unread = offsetTableLayout t.isLittleEndian offs ++ r)
    (hb : ∀ o ∈ offs, o < 4294967296) (hn : 4 * offs.length < 4294967296) :
    ∃ t3, BinaryRepresentation.readBytes t (some 0xffffffff)
        = BinaryRepresentation.readFrames offs t3 ∧ t3.unread = r ∧ Same t t3 := by
  unfold offsetTableLayout at ht
  rw [List.append_assoc, List.append_assoc] at ht
  obtain ⟨s3, i1, i2, i3⟩ := readTag_layout t _ _ ht (by decide)
  rw [← i3.1] at i2
  obtain ⟨s4, j1, j2, j3⟩ := readUint32_layout s3 _ _ i2 hn
  obtain ⟨s5, k1, k2, k3⟩ := readOffsets_layout t.isLittleEndian offs [] s4 r
    (by rw [j3.1, i3.1]) (by rw [j2, i3.1]) hb
  refine ⟨s5, ?_, k2, (same_trans (same_trans i3 j3) k3)⟩
  simp only [BinaryRepresentation.readBytes, if_true, i1, Res.bind, j1, SequenceItemTag]
  cases offs with
  | nil =>
    simp only [List.length_nil, Nat.mul_zero, gt_iff_lt, Nat.lt_irrefl, if_false]
    simp only [readOffsets, List.length_nil] at k1
    cases k1
    rfl
  | cons o os =>
    have hpos : 4 * (o :: os).length > 0 := by simp
    simp only [if_pos hpos, offsetCount_mul, k1, List.nil_append]

theorem flatten_split (f : List Nat → List Nat) (items : List (List Nat)) (i : Nat)
    (hi : i < items.length) :
    (items.map f).flatten
      = ((items.take i).map f).flatten ++ (f items[i] ++ ((items.drop (i + 1)).map f).flatten) := by
  have h1 : items = items.take i ++ items[i] :: items.drop (i + 1) := by
    rw [← List.drop_eq_getElem_cons hi, List.take_append_drop]
  have h2 := congrArg (fun l => (l.map f).flatten) h1
  simp only [List.map_append, List.map_cons, List.flatten_append, List.flatten_cons] at h2
  exact h2

/-- The function `readFrame` on a well-formed value without offset table. -/
theorem readFrame_no_table (s : DicomReadableBufferStream) (vr lenField : List Nat)
    (items : List (List Nat)) (r : List Nat) (i : Nat) (hvr : vr.length = 2)
    (hlen : lenField.length = if (createByTypeString (toAscii vr)).isExplicit then 6 else 2)
    (hs : s.unread = vr ++ lenField ++ offsetTableLayout s.isLittleEndian [] ++
      ((items.map (itemLayout s.isLittleEndian)).flatten ++ r))
    (hp : ∀ p ∈ items, p.length < 4294967296) (hi : i < items.length) :
    ∃ s1, readFrame s i = .ok (some items[i]) s1 ∧
      s1.unread = ((items.drop (i + 1)).map (itemLayout s.isLittleEndian)).flatten ++ r ∧
      Same s s1 := by
  obtain ⟨s5, e1, e2, e3⟩ := readFrame_table s vr lenField [] _ i hvr hlen hs
    (by simp) (by simp) (by simp)
  rw [flatten_split _ items i hi, List.append_assoc, ← e3.1] at e2
  obtain ⟨s6, f1, f2, f3⟩ := skipItems_layout s5.isLittleEndian i (items.take i) 0 s5 _ rfl
    (fun p hp2 => hp p (List.mem_of_mem_take hp2)) e2
  rw [List.append_assoc, ← f3.1] at f2
  obtain ⟨s7, g1, g2, g3⟩ := getNextSequenceItemData_item s6 _ _ f2
    (hp _ (List.getElem_mem _))
  have hlt : (items.take i).length = i := by
    rw [List.length_take]; omega
  rw [hlt] at f1
  refine ⟨s7, ?_, by rw [g2, f3.1, e3.1], (same_trans (same_trans e3 f3) g3)⟩
  rw [e1]
  simp only [readFrame.select, List.length_nil, gt_iff_lt, Nat.lt_irrefl, if_false,
    Int.toNat_ofNat, f1, Res.bind, g1]

/-- The function `readFrame` on a well-formed value whose offset table is strictly
increasing. -/
theorem readFrame_with_table (s : DicomReadableBufferStream) (vr lenField offs : List Nat)
    (items : List (List Nat)) (r : List Nat) (i : Nat) (hvr : vr.length = 2)
    (hlen : lenField.length = if (createByTypeString (toAscii vr)).isExplicit then 6 else 2)
    (hs : s.unread = vr ++ lenField ++ offsetTableLayout s.isLittleEndian offs ++
      ((items.map (itemLayout s.isLittleEndian)).flatten ++ r))
    (hne : offs ≠ []) (hinc : offs.Chain' (· < ·)) (hcount : items.length = offs.length)
    (hb : ∀ o ∈ offs, o < 4294967296) (hn : 4 * offs.length < 4294967296)
    (hp : ∀ p ∈ items, p.length < 4294967296) (hi : i < items.length) :
    ∃ s1, readFrame s i = .ok (some items[i]) s1 ∧
      s1.unread = ((items.drop (i + 1)).map (itemLayout s.isLittleEndian)).flatten ++ r ∧
      Same s s1 := by
  obtain ⟨s5, e1, e2, e3⟩ := readFrame_table s vr lenField offs _ i hvr hlen hs hb hn
    (fun _ => ⟨by omega, by omega⟩)
  rw [flatten_split _ items i hi, List.append_assoc, ← e3.1] at e2
  have hlt : (items.take i).length = i := by
    rw [List.length_take]; omega
  obtain ⟨s6, f1, f2, f3⟩ := skipToFrame_layout s5.isLittleEndian i offs 1 (items.take i) s5 _
    rfl hinc (by omega) (by rw [hlt]; omega) (by omega)
    (fun p hp2 => hp p (List.mem_of_mem_take hp2)) e2
  rw [List.append_assoc, ← f3.1] at f2
  obtain ⟨s7, g1, g2, g3⟩ := getNextSequenceItemData_item s6 _ _ f2
    (hp _ (List.getElem_mem _))
  refine ⟨s7, ?_, by rw [g2, f3.1, e3.1], (same_trans (same_trans e3 f3) g3)⟩
  rw [e1]
  have hpos : offs.length > 0 := by omega
  unfold readFrame.select
  rw [if_pos hpos]
  by_cases h1 : offs.length = 1
  · have hi0 : i = 0 := by omega
    subst hi0
    have hc : offs.length = 1 ∧ ((0 : Nat) : Int) = 0 := ⟨h1, rfl⟩
    rw [if_pos hc]
    cases offs with
    | nil => simp at h1
    | cons o os =>
      cases os with
      | nil =>
        simp only [skipToFrame] at f1
        cases f1
        exact g1
      | cons o2 os => simp at h1
  · have hc1 : ¬ (offs.length = 1 ∧ (i : Int) = 0) := fun h => h1 h.1
    have hc2 : ¬ (offs.length = 1 ∧ (i : Int) ≠ 0) := fun h => h1 h.1
    rw [if_neg hc1, if_neg hc2]
    simp only [f1, Res.bind, g1]

/-- The full decode of a well-formed value: one frame per item. -/
theorem readBytes_frames (t : DicomReadableBufferStream) (offs : List Nat)
    (items : List (List Nat)) (rest : List Nat)
    (ht : t.unread = encapsulatedLayout t.isLittleEndian offs items ++ rest)
    (hinc : offs.Chain' (· < ·)) (hcount : offs ≠ [] → items.length = offs.length)
    (hb : ∀ o ∈ offs, o < 4294967296) (hn : 4 * offs.length < 4294967296)
    (hp : ∀ p ∈ items, p.length < 4294967296) :
    ∃ t1, BinaryRepresentation.readBytes t (some 0xffffffff) = .ok (items.map some) t1 ∧
      t1.unread = (if offs = [] then rest else delimiterLayout t.isLittleEndian ++ rest) ∧
      Same t t1 := by
  unfold encapsulatedLayout at ht
  rw [List.append_assoc, List.append_assoc] at ht
  obtain ⟨t3, e1, e2, e3⟩ := readBytes_table t offs _ ht hb hn
  rw [e1]
  unfold BinaryRepresentation.readFrames
  cases offs with
  | nil =>
    rw [← List.append_assoc, ← e3.1] at e2
    obtain ⟨t4, f1, f2, f3⟩ := readFramesToDelimiter_layout t3.isLittleEndian items
      (t3.unread.length + 1) [] t3 rest rfl
      (by
        have := flatten_itemLayout_length t3.isLittleEndian items
        rw [e2]
        simp only [List.length_append]
        omega) hp e2
    refine ⟨t4, ?_, by simpa using f2, same_trans e3 f3⟩
    simpa using f1
  | cons o os =>
    have hlen := hcount (by simp)
    cases os with
    | nil =>
      cases items with
      | nil => simp at hlen
      | cons p ps =>
        have : ps = [] := by simpa using hlen
        subst this
        simp only [List.map_cons, List.map_nil, List.flatten_cons, List.flatten_nil,
          List.append_nil] at e2
        rw [← e3.1] at e2
        obtain ⟨t4, f1, f2, f3⟩ := getNextSequenceItemData_item t3 p _ e2 (hp p (by simp))
        refine ⟨t4, ?_, by simpa [e3.1] using f2, same_trans e3 f3⟩
        simp [f1, Res.bind]
    | cons o2 os =>
      have hne : items ≠ [] := by
        intro h; subst h; simp at hlen
      have hsplit : items = items.dropLast ++ [items.getLast hne] :=
        (List.dropLast_append_getLast hne).symm
      have hdl : items.dropLast.length + 1 = (o :: o2 :: os).length := by
        rw [List.length_dropLast]
        have : 0 < items.length := List.length_pos.mpr hne
        omega
      have e2b : t3.unread = ((items.dropLast).map (itemLayout t3.isLittleEndian)).flatten ++
          (itemLayout t3.isLittleEndian (items.getLast hne) ++
            (delimiterLayout t.isLittleEndian ++ rest)) := by
        rw [e2]
        conv => lhs; rw [hsplit]
        simp [e3.1]
      obtain ⟨t4, f1, f2, f3⟩ := readFramesByTable_layout t3.isLittleEndian (o :: o2 :: os)
        items.dropLast [] t3 _ rfl hinc hdl
        (fun p hp2 => hp p (List.mem_of_mem_dropLast hp2)) e2b
      rw [← f3.1] at f2
      obtain ⟨t5, g1, g2, g3⟩ := getNextSequenceItemData_item t4 _ _ f2
        (hp _ (List.getLast_mem hne))
      refine ⟨t5, ?_, by simpa using g2, (same_trans (same_trans e3 f3) g3)⟩
      have h1 : ¬ ((o :: o2 :: os).length = 1) := by simp
      have h2 : (o :: o2 :: os).length > 0 := by simp
      rw [if_neg h1, if_pos h2]
      simp only [f1, Res.bind, g1, List.nil_append]
      conv => rhs; rw [hsplit]
      simp

theorem readAll_slices :
    ∀ (ns : List Nat) (s t : DicomReadableBufferStream), t.unread = s.unread →
      ns.sum ≤ s.unread.length →
      ∃ rs s1 t1, readAll s ns = .ok rs s1 ∧ readAll t ns = .ok rs t1 ∧
        t1.unread = s1.unread ∧ rs.flatten = s.unread.take ns.sum := by
  intro ns
  induction ns with
  | nil =>
    intro s t h _
    exact ⟨[], s, t, rfl, rfl, h, by simp⟩
  | cons n ns ih =>
    intro s t h hs
    simp only [List.sum_cons] at hs
    obtain ⟨s1, e1, c1⟩ := readNBytes_take s n (by omega)
    obtain ⟨t1, f1, d1⟩ := readNBytes_take t n (by rw [h]; omega)
    have hs1 : s1.unread = s.unread.drop n := by
      have := c1.1
      conv at this => lhs; rw [← List.take_append_drop n s.unread]
      exact (List.append_cancel_left this).symm
    have ht1 : t1.unread = t.unread.drop n := by
      have := d1.1
      conv at this => lhs; rw [← List.take_append_drop n t.unread]
      exact (List.append_cancel_left this).symm
    obtain ⟨rs, s2, t2, g1, g2, g3, g4⟩ :=
      ih s1 t1 (by rw [hs1, ht1, h]) (by rw [hs1]; simp; omega)
    refine ⟨s.unread.take n :: rs, s2, t2, ?_, ?_, g3, ?_⟩
    · simp only [readAll, e1, Res.bind, g1]
    · simp only [readAll, f1, Res.bind, g2, h]
    · simp only [List.flatten_cons, List.sum_cons, g4, hs1]
      rw [List.take_add]

/-- C5. With at least `n` bytes left in the remainder and the undelivered
chunks together, `readNBytes n` returns the first `n` bytes of their
concatenation and the bytes obtainable afterwards are the rest of it; hence
two readers holding the same bytes in different chunkings answer every
sequence of reads that fits with the same results. -/
theorem readNBytes_independent_of_chunking (s t : DicomReadableBufferStream) (n : Nat)
    (ns : List Nat) (hn : n ≤ s.unread.length) (ht : t.unread = s.unread)
    (hns : ns.sum ≤ s.unread.length) :
    (∃ s1, s.readNBytes n = .ok (s.unread.take n) s1 ∧ s1.unread = s.unread.drop n) ∧
    (∃ rs s1 t1, readAll s ns = .ok rs s1 ∧ readAll t ns = .ok rs t1 ∧
        t1.unread = s1.unread ∧ rs.flatten = s.unread.take ns.sum) := by
  refine ⟨?_, readAll_slices ns s t ht hns⟩
  obtain ⟨s1, e1, c1⟩ := readNBytes_take s n hn
  refine ⟨s1, e1, ?_⟩
  have := c1.1
  conv at this => lhs; rw [← List.take_append_drop n s.unread]
  exact (List.append_cancel_left this).symm

theorem readNBytes_independent_of_chunking_witness :
    (∃ s1, (DicomReadableBufferStream.mk true [1] (.flowing [[2, 3], [4]]) "latin1").readNBytes 3
        = .ok [1, 2, 3] s1 ∧ s1.unread = [4]) ∧
    (∃ rs s1 t1,
      readAll (DicomReadableBufferStream.mk true [1] (.flowing [[2, 3], [4]]) "latin1") [2, 1]
        = .ok rs s1 ∧
      readAll (DicomReadableBufferStream.mk true [] (.flowing [[1, 2, 3, 4]]) "latin1") [2, 1]
        = .ok rs t1 ∧
      t1.unread = s1.unread ∧ rs.flatten = [1, 2, 3]) :=
  readNBytes_independent_of_chunking
    (DicomReadableBufferStream.mk true [1] (.flowing [[2, 3], [4]]) "latin1")
    (DicomReadableBufferStream.mk true [] (.flowing [[1, 2, 3, 4]]) "latin1")
    3 [2, 1] (by decide) (by decide) (by decide)

/-- While the file stream has not yet emitted `'end'`, `readNBytes n` is
rejected exactly when the remainder and the chunks still to come hold fewer
than `n` bytes, and it never stays unsettled. -/
theorem readNBytes_error_iff_flowing (s : DicomReadableBufferStream) (n : Nat)
    (chunks : List (List Nat)) (hfs : s.fileStream = .flowing chunks) :
    ((∃ s1, s.readNBytes n = .error (.streamEnded n) s1) ↔ s.unread.length < n) ∧
      s.readNBytes n ≠ .pending := by
  by_cases h : n ≤ s.unread.length
  · obtain ⟨s1, e1, _⟩ := readNBytes_take s n h
    rw [e1]
    refine ⟨Iff.intro (fun h3 => ?_) (fun h2 => by omega), by simp⟩
    obtain ⟨_, h2⟩ := h3
    cases h2
  · have hu : s.unread = s.remainingBuffer ++ chunks.flatten := by
      unfold DicomReadableBufferStream.unread
      rw [hfs]; rfl
    have hb : ¬ n ≤ s.remainingBuffer.length := by
      rw [hu] at h; simp at h ⊢; omega
    have hnone := onData_none n chunks s.remainingBuffer (by rw [← hu]; omega)
    unfold DicomReadableBufferStream.readNBytes
    rw [if_neg hb]
    simp only [hfs, hnone]
    exact ⟨Iff.intro (fun _ => by omega) (fun _ => ⟨_, rfl⟩), by simp⟩

/-- Whenever `readNBytes n` resolves, the result has exactly `n` bytes. -/
theorem readNBytes_length (s s1 : DicomReadableBufferStream) (n : Nat) (b : List Nat)
    (h : s.readNBytes n = .ok b s1) : b.length = n := by
  unfold DicomReadableBufferStream.readNBytes at h
  by_cases hb : n ≤ s.remainingBuffer.length
  · rw [if_pos hb] at h
    cases h
    simp [hb]
  · rw [if_neg hb] at h
    rcases hfs : s.fileStream with chunks | _
    · rw [hfs] at h
      simp only at h
      cases hod : onData n s.remainingBuffer chunks with
      | none => rw [hod] at h; cases h
      | some p =>
        obtain ⟨buffer, rest⟩ := p
        rw [hod] at h
        simp only at h
        by_cases ht : n ≤ (s.remainingBuffer ++ chunks.flatten).length
        · obtain ⟨b2, r2, e1, _, e3⟩ := onData_some n chunks s.remainingBuffer ht (by omega)
          rw [hod] at e1
          cases e1
          cases h
          simp [e3]
        · rw [onData_none n chunks s.remainingBuffer (by omega)] at hod
          cases hod
    · rw [hfs] at h
      cases h

/-- C6. A reader whose file stream has already emitted `'end'` and that
buffers fewer than `n` bytes: `readNBytes n` is neither rejected nor
resolved, its promise never settles.  The state is the one a rejected read
leaves behind: the second of two reads of 5 bytes on a 3-byte stream. -/
theorem readNBytes_after_end_never_settles :
    (DicomReadableBufferStream.mk true [] (.flowing [[1, 2, 3]]) "latin1").readNBytes 5
      = .error (.streamEnded 5) (DicomReadableBufferStream.mk true [] .ended "latin1") ∧
    (DicomReadableBufferStream.mk true [] .ended "latin1").unread.length < 5 ∧
    (DicomReadableBufferStream.mk true [] .ended "latin1").readNBytes 5 = .pending := by
  decide

/-- C7 (as stated, refuted). A read of 5 bytes on a reader that buffers `[1]`
and receives the chunk `[2]` before the end is rejected, and afterwards the
buffer holds `[1]` only, not `[1, 2]`. -/
theorem readNBytes_failure_drops_chunks :
    ∃ s1, (DicomReadableBufferStream.mk true [1] (.flowing [[2]]) "latin1").readNBytes 5
        = .error (.streamEnded 5) s1 ∧
      s1.remainingBuffer ≠ [1] ++ [[2]].flatten ∧ s1.unread ≠ [1] ++ [[2]].flatten :=
  ⟨DicomReadableBufferStream.mk true [1] .ended "latin1", by decide, by decide, by decide⟩

/-- C7 (amended). When `readNBytes n` is rejected, the error is the
end-of-stream error, the reader's buffer is the remainder it held before the
call, unchanged, and the file stream has ended: the chunks that arrived
during the rejected call are in no buffer and no later read returns them. -/
theorem readNBytes_failure_keeps_remainder (s s1 : DicomReadableBufferStream) (n : Nat)
    (e : Err) (h : s.readNBytes n = .error e s1) :
    e = .streamEnded n ∧ s1.remainingBuffer = s.remainingBuffer ∧
      s1.fileStream = .ended ∧ s1.unread = s.remainingBuffer := by
  unfold DicomReadableBufferStream.readNBytes at h
  by_cases hb : n ≤ s.remainingBuffer.length
  · rw [if_pos hb] at h
    cases h
  · rw [if_neg hb] at h
    rcases hfs : s.fileStream with chunks | _
    · rw [hfs] at h
      simp only at h
      cases hod : onData n s.remainingBuffer chunks with
      | none =>
        rw [hod] at h
        cases h
        simp [DicomReadableBufferStream.unread, FileStream.chunks]
      | some p =>
        rw [hod] at h
        cases h
    · rw [hfs] at h
      cases h

theorem readNBytes_failure_keeps_remainder_witness :
    (DicomReadableBufferStream.mk true [1] (.flowing [[2]]) "latin1").readNBytes 5
        = .error (.streamEnded 5) (DicomReadableBufferStream.mk true [1] .ended "latin1") ∧
    (Err.streamEnded 5 = .streamEnded 5 ∧
      (DicomReadableBufferStream.mk true [1] .ended "latin1").remainingBuffer = [1] ∧
      (DicomReadableBufferStream.mk true [1] .ended "latin1").fileStream = .ended ∧
      (DicomReadableBufferStream.mk true [1] .ended "latin1").unread = [1]) :=
  ⟨by decide, readNBytes_failure_keeps_remainder
    (DicomReadableBufferStream.mk true [1] (.flowing [[2]]) "latin1")
    (DicomReadableBufferStream.mk true [1] .ended "latin1") 5 (.streamEnded 5) (by decide)⟩

/-- C8. A peek that has to pull a chunk: the reader buffers nothing and the
stream delivers `[10, 20, 30]`.  `peekUint8 0` returns 10 and leaves `[10]`
as the whole buffer, so the bytes 20 and 30 are gone: the next read of 3
bytes is rejected, whereas without the peek it returns `[10, 20, 30]`. -/
theorem peekUint8_pull_loses_bytes :
    (DicomReadableBufferStream.mk true [] (.flowing [[10, 20, 30]]) "latin1").peekUint8 0
      = .ok 10 (DicomReadableBufferStream.mk true [10] (.flowing []) "latin1") ∧
    (DicomReadableBufferStream.mk true [10] (.flowing []) "latin1").readNBytes 3
      = .error (.streamEnded 3) (DicomReadableBufferStream.mk true [10] .ended "latin1") ∧
    (DicomReadableBufferStream.mk true [] (.flowing [[10, 20, 30]]) "latin1").readNBytes 3
      = .ok [10, 20, 30] (DicomReadableBufferStream.mk true [] (.flowing []) "latin1") := by
  decide

/-! ## The frame extractor -/

/-- C2 (as stated, refuted). An offset table with a repeated offset,
`[0, 0, 11]`, followed by the items `[1, 2, 3]` and `[4, 5]`: the full decode
returns the two frames `[1, 2, 3]`, `[4, 5]`, and `readFrame` at index 1
returns `[1, 2, 3]`, which is frame 0 and not frame 1 of the full decode. -/
theorem readFrame_repeated_offsets_differs :
    (∃ t1, BinaryRepresentation.readBytes
        (readerOf (encapsulatedLayout true [0, 0, 11] [[1, 2, 3], [4, 5]])) (some 0xffffffff)
        = .ok [some [1, 2, 3], some [4, 5]] t1) ∧
    (∃ s1, readFrame
        (readerOf (obUndefinedHeader ++ encapsulatedLayout true [0, 0, 11] [[1, 2, 3], [4, 5]])) 1
        = .ok (some [1, 2, 3]) s1) ∧
    some [1, 2, 3] ≠ [some [1, 2, 3], some [4, 5]].getD 1 none :=
  ⟨⟨_, rfl⟩, ⟨_, rfl⟩, by decide⟩

/-- What `getNextSequenceItemData` returns in front of the items of a value:
the first item, or `null` at the delimiter when there is none. -/
theorem getNextSequenceItemData_head (s : DicomReadableBufferStream) (items : List (List Nat))
    (r : List Nat)
    (h : s.unread = (items.map (itemLayout s.isLittleEndian)).flatten ++
      (delimiterLayout s.isLittleEndian ++ r))
    (hp : ∀ p ∈ items, p.length < 4294967296) :
    ∃ s1, getNextSequenceItemData s = .ok items.head? s1 ∧ Same s s1 := by
  cases items with
  | nil =>
    simp only [List.map_nil, List.flatten_nil, List.nil_append] at h
    obtain ⟨s1, e1, _, e3⟩ := getNextSequenceItemData_delimiter s r h
    exact ⟨s1, e1, e3⟩
  | cons p ps =>
    simp only [List.map_cons, List.flatten_cons, List.append_assoc] at h
    obtain ⟨s1, e1, _, e3⟩ := getNextSequenceItemData_item s p _ h (hp p (by simp))
    exact ⟨s1, e1, e3⟩

/-- C2 (amended). For a well-formed encapsulated value (offset-table item,
items, sequence delimiter) whose offset table is empty, or has one entry, or
has two or more strictly increasing entries, one per item: the full decode
of those bytes returns one frame per item, or for a one-entry table the
single frame it reads, which is the first item whatever the number of items;
and for every index `i` below the number of frames of the full decode,
`readFrame`, on a reader at the element's VR with the same bytes after the
VR-length header, returns the `i`-th frame of the full decode, byte for
byte. -/
theorem readFrame_eq_full_decode (s t : DicomReadableBufferStream)
    (vr lenField offs : List Nat) (items : List (List Nat)) (rest : List Nat)
    (hvr : vr.length = 2)
    (hlen : lenField.length = if (createByTypeString (toAscii vr)).isExplicit then 6 else 2)
    (hs : s.unread = vr ++ lenField ++ encapsulatedLayout s.isLittleEndian offs items ++ rest)
    (hte : t.isLittleEndian = s.isLittleEndian)
    (ht : t.unread = encapsulatedLayout s.isLittleEndian offs items ++ rest)
    (hinc : offs.Chain' (· < ·)) (hcount : 2 ≤ offs.length → items.length = offs.length)
    (hb : ∀ o ∈ offs, o < 4294967296) (hn : 4 * offs.length < 4294967296)
    (hp : ∀ p ∈ items, p.length < 4294967296) :
    ∃ frames t1,
      BinaryRepresentation.readBytes t (some 0xffffffff) = .ok frames t1 ∧
      frames = (if offs.length = 1 then [items.head?] else items.map some) ∧
      ∀ i : Nat, i < frames.length →
        (∃ s1, readFrame s i = .ok (frames.getD i none) s1) ∧
        (∀ hi : i < items.length, frames.getD i none = some items[i]) := by
  rw [← hte] at ht
  have hs2 : s.unread = vr ++ lenField ++ offsetTableLayout s.isLittleEndian offs ++
      ((items.map (itemLayout s.isLittleEndian)).flatten ++
        (delimiterLayout s.isLittleEndian ++ rest)) := by
    rw [hs]
    simp [encapsulatedLayout]
  by_cases h1 : offs.length = 1
  · rw [if_pos h1]
    have ht2 : t.unread = offsetTableLayout t.isLittleEndian offs ++
        ((items.map (itemLayout t.isLittleEndian)).flatten ++
          (delimiterLayout t.isLittleEndian ++ rest)) := by
      rw [ht]
      simp [encapsulatedLayout]
    obtain ⟨t3, e1, e2, e3⟩ := readBytes_table t offs _ ht2 hb hn
    rw [← e3.1] at e2
    obtain ⟨t4, f1, _⟩ := getNextSequenceItemData_head t3 items rest e2 hp
    refine ⟨[items.head?], t4, ?_, rfl, fun i hi => ?_⟩
    · rw [e1]
      simp only [BinaryRepresentation.readFrames, if_pos h1, f1, Res.bind]
    · have hi0 : i = 0 := by simpa using hi
      subst hi0
      obtain ⟨s5, g1, g2, g3⟩ := readFrame_table s vr lenField offs _ ((0 : Nat) : Int) hvr hlen
        hs2 hb hn (fun _ => ⟨by simp, by rw [h1]; simp⟩)
      rw [← g3.1] at g2
      obtain ⟨s6, k1, _⟩ := getNextSequenceItemData_head s5 items rest g2 hp
      refine ⟨⟨s6, ?_⟩, fun hi2 => ?_⟩
      · rw [g1]
        have hpos : offs.length > 0 := by omega
        have hc : offs.length = 1 ∧ (((0 : Nat) : Int)) = 0 := ⟨h1, rfl⟩
        simp only [readFrame.select, if_pos hpos, if_pos hc, k1]
        rfl
      · cases items with
        | nil => simp at hi2
        | cons p ps => rfl
  · rw [if_neg h1]
    have hcount2 : offs ≠ [] → items.length = offs.length := by
      intro hne
      have : 0 < offs.length := List.length_pos.mpr hne
      exact hcount (by omega)
    obtain ⟨t1, e1, _, _⟩ := readBytes_frames t offs items rest ht hinc hcount2 hb hn hp
    refine ⟨items.map some, t1, e1, rfl, fun i hi => ?_⟩
    have hi2 : i < items.length := by simpa using hi
    have hget : (items.map some).getD i none = some items[i] := by
      simp [List.getD, hi2]
    refine ⟨?_, fun _ => hget⟩
    by_cases hne : offs = []
    · subst hne
      obtain ⟨s1, f1, _, _⟩ := readFrame_no_table s vr lenField items _ i hvr hlen hs2 hp hi2
      exact ⟨s1, by rw [hget]; exact f1⟩
    · obtain ⟨s1, f1, _, _⟩ := readFrame_with_table s vr lenField offs items _ i hvr hlen hs2
        hne hinc (hcount2 hne) hb hn hp hi2
      exact ⟨s1, by rw [hget]; exact f1⟩

theorem readFrame_eq_full_decode_witness :
    (∃ frames t1,
      BinaryRepresentation.readBytes
        (readerOf (encapsulatedLayout true [0] [[1, 2, 3], [4, 5]] ++ [9]))
        (some 0xffffffff) = .ok frames t1 ∧
      frames = (if [0].length = 1 then [[[1, 2, 3], [4, 5]].head?]
        else [[1, 2, 3], [4, 5]].map some) ∧
      ∀ i : Nat, i < frames.length →
        (∃ s1, readFrame
          (readerOf (obUndefinedHeader ++ encapsulatedLayout true [0] [[1, 2, 3], [4, 5]]
            ++ [9])) i = .ok (frames.getD i none) s1) ∧
        (∀ hi : i < [[1, 2, 3], [4, 5]].length,
          frames.getD i none = some ([[1, 2, 3], [4, 5]].get ⟨i, hi⟩))) ∧
    (∃ frames t1,
      BinaryRepresentation.readBytes
        (readerOf (encapsulatedLayout true [0, 11] [[1, 2, 3], [4, 5]] ++ [9]))
        (some 0xffffffff) = .ok frames t1 ∧
      frames = (if [0, 11].length = 1 then [[[1, 2, 3], [4, 5]].head?]
        else [[1, 2, 3], [4, 5]].map some) ∧
      ∀ i : Nat, i < frames.length →
        (∃ s1, readFrame
          (readerOf (obUndefinedHeader ++ encapsulatedLayout true [0, 11] [[1, 2, 3], [4, 5]]
            ++ [9])) i = .ok (frames.getD i none) s1) ∧
        (∀ hi : i < [[1, 2, 3], [4, 5]].length,
          frames.getD i none = some ([[1, 2, 3], [4, 5]].get ⟨i, hi⟩))) ∧
    BinaryRepresentation.readBytes
        (readerOf (encapsulatedLayout true [0] [[1, 2, 3], [4, 5]] ++ [9])) (some 0xffffffff)
      = .ok [some [1, 2, 3]] (bufferedReaderOf (itemLayout true [4, 5] ++ delimiterLayout true ++
          [9])) ∧
    readFrame
        (readerOf (obUndefinedHeader ++ encapsulatedLayout true [0] [[1, 2, 3], [4, 5]] ++ [9])) 0
      = .ok (some [1, 2, 3]) (bufferedReaderOf (itemLayout true [4, 5] ++ delimiterLayout true ++
          [9])) :=
  ⟨readFrame_eq_full_decode
    (readerOf (obUndefinedHeader ++ encapsulatedLayout true [0] [[1, 2, 3], [4, 5]] ++ [9]))
    (readerOf (encapsulatedLayout true [0] [[1, 2, 3], [4, 5]] ++ [9]))
    [79, 66] [0, 0, 255, 255, 255, 255] [0] [[1, 2, 3], [4, 5]] [9]
    (by decide) (by decide) (by decide) rfl (by decide) (by simp) (by decide) (by decide)
    (by decide) (by decide),
   readFrame_eq_full_decode
    (readerOf (obUndefinedHeader ++ encapsulatedLayout true [0, 11] [[1, 2, 3], [4, 5]] ++ [9]))
    (readerOf (encapsulatedLayout true [0, 11] [[1, 2, 3], [4, 5]] ++ [9]))
    [79, 66] [0, 0, 255, 255, 255, 255] [0, 11] [[1, 2, 3], [4, 5]] [9]
    (by decide) (by decide) (by decide) rfl (by decide) (by simp) (by decide) (by decide)
    (by decide) (by decide), by decide, by decide⟩

/-- C3. Without offset table and with two items before the delimiter
(`frameCount = 2`): `readFrame` at index -1 returns the bytes of frame 0, and
`readFrame` at index 2 resolves with `null` after consuming the delimiter;
neither call fails.  Index 3 fails. -/
theorem readFrame_no_table_out_of_range_returns :
    (∃ s1, readFrame
        (readerOf (obUndefinedHeader ++ encapsulatedLayout true [] [[1, 2, 3], [4, 5]])) (-1)
        = .ok (some [1, 2, 3]) s1) ∧
    (∃ s1, readFrame
        (readerOf (obUndefinedHeader ++ encapsulatedLayout true [] [[1, 2, 3], [4, 5]])) 2
        = .ok none s1) ∧
    (∃ s1, readFrame
        (readerOf (obUndefinedHeader ++ encapsulatedLayout true [] [[1, 2, 3], [4, 5]])) 3
        = .error (.frameIndexOutOfRange 3) s1) :=
  ⟨⟨_, rfl⟩, ⟨_, rfl⟩, ⟨_, rfl⟩⟩

/-- C4. A reader at the VR of an encapsulated element whose offset table
holds one offset and is followed by one item of declared length `n`:
`readFrame` at index 0 returns the `n` payload bytes of that item, and it has
consumed the VR-length header, the offset-table item and that item, nothing
of what follows. -/
theorem readFrame_single_offset (s : DicomReadableBufferStream)
    (vr lenField payload rest : List Nat) (o n : Nat) (hvr : vr.length = 2)
    (hlen : lenField.length = if (createByTypeString (toAscii vr)).isExplicit then 6 else 2)
    (hn : payload.length = n)
    (hs : s.unread = vr ++ lenField ++ offsetTableLayout s.isLittleEndian [o] ++
      itemLayout s.isLittleEndian payload ++ rest)
    (ho : o < 4294967296) (hp : n < 4294967296) :
    ∃ result s1, readFrame s 0 = .ok (some result) s1 ∧ result = payload ∧
      result.length = n ∧ s1.unread = rest ∧ Same s s1 := by
  have hs2 : s.unread = vr ++ lenField ++ offsetTableLayout s.isLittleEndian [o] ++
      (([payload].map (itemLayout s.isLittleEndian)).flatten ++ rest) := by
    rw [hs]; simp
  obtain ⟨s1, e1, e2, e3⟩ := readFrame_with_table s vr lenField [o] [payload] rest 0 hvr hlen
    hs2 (by simp) (by simp) rfl (by simpa using ho) (by simp)
    (by intro p hp2; simp at hp2; subst hp2; omega) (by simp)
  exact ⟨payload, s1, by simpa using e1, rfl, hn, by simpa using e2, e3⟩

theorem readFrame_single_offset_witness :
    ∃ result s1,
      readFrame (readerOf (obUndefinedHeader ++ offsetTableLayout true [0] ++
        itemLayout true (List.replicate 136 7) ++ delimiterLayout true)) 0
        = .ok (some result) s1 ∧
      result = List.replicate 136 7 ∧ result.length = 136 ∧
      s1.unread = delimiterLayout true ∧
      Same (readerOf (obUndefinedHeader ++ offsetTableLayout true [0] ++
        itemLayout true (List.replicate 136 7) ++ delimiterLayout true)) s1 :=
  readFrame_single_offset
    (readerOf (obUndefinedHeader ++ offsetTableLayout true [0] ++
      itemLayout true (List.replicate 136 7) ++ delimiterLayout true))
    [79, 66] [0, 0, 255, 255, 255, 255] (List.replicate 136 7) (delimiterLayout true) 0 136
    (by decide) (by decide) (List.length_replicate 136 7) rfl (by decide) (by decide)

/-! ## The element reader -/

theorem returns_bind {α β : Type} {r : Res α}
    {f : α → DicomReadableBufferStream → Res β}
    {P : α → DicomReadableBufferStream → Prop} {Q : β → DicomReadableBufferStream → Prop}
    (h : r.Returns P) (hf : ∀ a s1, P a s1 → (f a s1).Returns Q) : (r.bind f).Returns Q := by
  obtain ⟨a, s1, e, hp⟩ := h
  rw [e]
  exact hf a s1 hp

theorem returns_mono {α : Type} {r : Res α}
    {P Q : α → DicomReadableBufferStream → Prop}
    (h : r.Returns P) (hpq : ∀ a s1, P a s1 → Q a s1) : r.Returns Q := by
  obtain ⟨a, s1, e, hp⟩ := h
  exact ⟨a, s1, e, hpq a s1 hp⟩

theorem returns_ok {α : Type} {a : α} {s : DicomReadableBufferStream}
    {P : α → DicomReadableBufferStream → Prop} (h : P a s) : (Res.ok a s).Returns P :=
  ⟨a, s, rfl, h⟩

/-- A call followed by a computation on its result keeps what is known of
the reader's state. -/
theorem returns_map {α β : Type} {r : Res α} {Q : DicomReadableBufferStream → Prop}
    (g : α → DicomReadableBufferStream → β) (h : r.Returns fun _ s1 => Q s1) :
    (r.bind fun a s1 => Res.ok (g a s1) s1).Returns fun _ s1 => Q s1 :=
  returns_bind h fun _ _ hq => returns_ok hq

theorem readNBytes_returns (s : DicomReadableBufferStream) (xs r : List Nat) (n : Nat)
    (h : s.unread = xs ++ r) (hn : xs.length = n) :
    (s.readNBytes n).Returns fun _ s1 => s1.unread = r ∧ Same s s1 := by
  obtain ⟨s1, e1, e2, e3⟩ := readNBytes_layout s xs r n h hn
  exact ⟨xs, s1, e1, e2, e3⟩

/-- The `readBytes` of a text or blob VR consumes the declared length. -/
theorem readBytes_plain (d : Dcmjs) (c : VRCode) (s : DicomReadableBufferStream)
    (value rest : List Nat) (L : Nat) (transferSyntax : String) (hplain : c.plain = true)
    (hL : L ≠ 0xffffffff) (hs : s.unread = value ++ rest) (hval : value.length = L) :
    (c.readBytes d s (some L) transferSyntax).Returns fun _ s1 =>
      s1.unread = rest ∧ Same s s1 := by
  have hread := readNBytes_returns s value rest L hs hval
  have hL2 : ¬ (some L = some 4294967295) := by
    intro h; injection h with h; exact hL h
  cases c <;> first
    | (simp [VRCode.plain] at hplain; done)
    | (simp only [VRCode.readBytes, DicomReadableBufferStream.readAsciiString,
        DicomReadableBufferStream.readEncodedString, Option.getD_some,
        BinaryRepresentation.readBytes, if_neg hL2]
       exact returns_map _ (returns_map _ hread))
    | skip
  -- PN
  simp only [VRCode.readBytes]
  apply returns_map
  cases L with
  | zero =>
    have : value = [] := List.length_eq_zero.mp hval
    subst this
    simp only [readPaddedEncodedString]
    exact returns_ok ⟨by simpa using hs, same_refl s⟩
  | succ n =>
    simp only [readPaddedEncodedString, DicomReadableBufferStream.readEncodedString]
    refine returns_bind (returns_map _ hread) fun val s1 h1 => ?_
    split
    · exact returns_ok h1
    · exact returns_ok h1

/-- The `readBytes` of a binary scalar VR consumes the width of the VR. -/
theorem readBytes_binary (d : Dcmjs) (c : VRCode) (s : DicomReadableBufferStream)
    (xs rest : List Nat) (length : Option Nat) (transferSyntax : String)
    (hbin : c.isBinary = true) (hs : s.unread = xs ++ rest)
    (hx : xs.length = c.maxLength.getD 0) :
    (c.readBytes d s length transferSyntax).Returns fun _ s1 =>
      s1.unread = rest ∧ Same s s1 := by
  cases c <;> first
    | (simp [VRCode.isBinary] at hbin; done)
    | (simp only [VRCode.readBytes, DicomReadableBufferStream.readFloat,
        DicomReadableBufferStream.readDouble, DicomReadableBufferStream.readInt32,
        DicomReadableBufferStream.readInt16, DicomReadableBufferStream.readUint32,
        DicomReadableBufferStream.readUint16]
       exact returns_map _ (returns_map _ (readNBytes_returns s xs rest _ hs hx)))
    | skip
  -- AT
  simp only [VRCode.readBytes, TagAsync.readTag]
  apply returns_map
  have hsplit : xs = xs.take 2 ++ xs.drop 2 := (List.take_append_drop 2 xs).symm
  have hx4 : xs.length = 4 := hx
  rw [hsplit, List.append_assoc] at hs
  obtain ⟨v, s1, e1, e2, e3⟩ := readUint16_any s _ _ hs (by simp [hx4])
  obtain ⟨w, s2, f1, f2, f3⟩ := readUint16_any s1 _ _ e2 (by simp [hx4])
  rw [e1]
  simp only [Res.bind, f1]
  exact returns_ok ⟨f2, same_trans e3 f3⟩

theorem mapStrings_string (f : String → JsAtom) (raw : JsVal) (str : String)
    (h : mapStrings f raw = .one (.string str)) : ∃ r, raw = .one (.string r) := by
  cases raw with
  | array xs => simp [mapStrings] at h
  | one a => cases a <;> simp [mapStrings] at h ⊢

theorem applyFormatting_string (c : VRCode) (raw : JsVal) (str : String)
    (h : c.applyFormatting raw = .one (.string str)) : ∃ r, raw = .one (.string r) := by
  cases c <;> first
    | exact mapStrings_string _ raw str h
    | exact ⟨str, h⟩

theorem assemble_returns (d : Dcmjs) (vr : VRInst) (rawValue value : JsVal)
    (s : DicomReadableBufferStream)
    (h : ∀ str, value = .one (.string str) → ∃ r, rawValue = .one (.string r)) :
    (assemble d vr rawValue value s).Returns fun _ s1 => s1 = s := by
  unfold assemble
  split
  · cases value with
    | array xs => exact returns_ok rfl
    | one a =>
      cases a <;> try exact returns_ok rfl
      rename_i str
      obtain ⟨r, hr⟩ := h str rfl
      subst hr
      cases vr <;> exact returns_ok rfl
  · split
    · exact returns_ok rfl
    · split <;> exact returns_ok rfl

theorem read_not_fixed (d : Dcmjs) (c : VRCode) (s : DicomReadableBufferStream)
    (length : Option Nat) (transferSyntax : String) (force : Bool)
    (h : c.fixed = false ∨ (length.getD 0 ≠ 0 ∧ c.maxLength = length)) :
    c.read d s length transferSyntax force
      = (c.readBytes d s length transferSyntax).bind fun rawValue s1 =>
          .ok (.object (if !d.storeRaw c && !force then JsVal.one .undefined else rawValue)
            (c.applyFormatting rawValue)) s1 := by
  unfold VRCode.read
  rcases h with h | ⟨h1, h2⟩
  · simp [h]
  · by_cases hf : c.fixed = true ∧ c.maxLength.getD 0 ≠ 0
    · simp [hf, h1, h2]
    · simp [hf]

/-- One call of `vr.read` with destructuring, for a length the VR reads in one
piece: it resolves, having consumed the declared length, and when the value is
a string so is the raw value. -/
theorem read_single (d : Dcmjs) (c : VRCode) (s : DicomReadableBufferStream)
    (value rest : List Nat) (L : Nat) (transferSyntax : String) (options : Options)
    (hacc : lengthAccepted c L) (hL : L ≠ 0xffffffff)
    (hone : c.isBinary = true → L ≤ c.maxLength.getD 0)
    (hraw : d.storeRaw c = true ∨ options.forceStoreRaw = true)
    (hs : s.unread = value ++ rest) (hval : value.length = L) :
    ∃ rawValue val s1,
      (VRInst.registered c).read d s (some L) transferSyntax options = .ok (rawValue, val) s1 ∧
      (∀ str, val = .one (.string str) → ∃ r, rawValue = .one (.string r)) ∧
      s1.unread = rest ∧ Same s s1 := by
  have hkeep : (!d.storeRaw c && !options.forceStoreRaw) = false := by
    rcases hraw with h | h <;> simp [h]
  -- the read through `readBytes`
  have hvia : ∀ (_ : (c.readBytes d s (some L) transferSyntax).Returns fun _ s1 =>
        s1.unread = rest ∧ Same s s1)
      (_ : c.fixed = false ∨ ((some L).getD 0 ≠ 0 ∧ c.maxLength = some L)),
      ∃ rawValue val s1,
        (VRInst.registered c).read d s (some L) transferSyntax options
          = .ok (rawValue, val) s1 ∧
        (∀ str, val = .one (.string str) → ∃ r, rawValue = .one (.string r)) ∧
        s1.unread = rest ∧ Same s s1 := by
    intro hb hnf
    simp only [VRInst.read]
    rw [read_not_fixed d c s (some L) transferSyntax options.forceStoreRaw hnf]
    obtain ⟨raw, s1, e1, h1⟩ := hb
    rw [e1]
    simp only [Res.bind, hkeep, destructure]
    exact ⟨raw, c.applyFormatting raw, s1, by simp,
      fun str hstr => applyFormatting_string c raw str hstr, h1⟩
  -- the bare default of a fixed VR with length 0
  have hzero : L = 0 → c.fixed = true → c.maxLength.getD 0 ≠ 0 →
      c.defaultValue ≠ .undefined →
      ∃ rawValue val s1,
        (VRInst.registered c).read d s (some L) transferSyntax options
          = .ok (rawValue, val) s1 ∧
        (∀ str, val = .one (.string str) → ∃ r, rawValue = .one (.string r)) ∧
        s1.unread = rest ∧ Same s s1 := by
    intro h0 hf hm hd
    subst h0
    have hv : value = [] := List.length_eq_zero.mp hval
    subst hv
    have hread : c.read d s (some 0) transferSyntax options.forceStoreRaw
        = .ok (.bare c.defaultValue) s := by
      simp [VRCode.read, hf, hm]
    have hdes : destructure (.bare c.defaultValue) s
        = .ok (.one .undefined, .one .undefined) s := by
      cases hdv : c.defaultValue <;> first | exact absurd hdv hd | rfl
    refine ⟨.one .undefined, .one .undefined, s, ?_, (fun str h => by cases h),
      by simpa using hs, same_refl s⟩
    simp only [VRInst.read, hread, Res.bind, hdes]
  by_cases hplain : c.plain = true
  · have hb := readBytes_plain d c s value rest L transferSyntax hplain hL hs hval
    by_cases hAS : c = .AS
    · subst hAS
      rcases hacc with h0 | h4
      · exact hzero h0 rfl (by decide) (by decide)
      · exact hvia hb (Or.inr ⟨by simp [h4], by rw [h4]; rfl⟩)
    · refine hvia hb (Or.inl ?_)
      cases c <;> first | rfl | exact absurd rfl hAS | exact absurd hplain (by decide)
  · have hbin : c.isBinary = true := by
      cases c <;> first | rfl | exact False.elim hacc | exact absurd rfl hplain
    have hle := hone hbin
    have hfix : c.fixed = true := by
      cases c <;> first | rfl | exact absurd hbin (by decide)
    have hmax : c.maxLength.getD 0 ≠ 0 := by
      cases c <;> first | exact absurd hbin (by decide) | decide
    have hsome : c.maxLength = some (c.maxLength.getD 0) := by
      cases c <;> first | exact absurd hbin (by decide) | rfl
    have hmod : L % (c.maxLength.getD 0) = 0 := by
      cases c <;> first | exact absurd hbin (by decide) | exact hacc | exact hacc.2
    have hcases : L = 0 ∨ L = c.maxLength.getD 0 := by
      rcases Nat.eq_zero_or_pos L with h | h
      · exact Or.inl h
      · right
        have := Nat.le_of_dvd h (Nat.dvd_of_mod_eq_zero hmod)
        omega
    rcases hcases with h0 | hw
    · refine hzero h0 hfix hmax ?_
      cases c <;> first
        | exact absurd hbin (by decide)
        | (exfalso; exact absurd hacc.1 (by omega))
        | decide
    · have hb := readBytes_binary d c s value rest (some L) transferSyntax hbin hs
        (by rw [hval, hw])
      refine hvia hb (Or.inr ⟨?_, ?_⟩)
      · simp only [Option.getD_some]
        omega
      · rw [hsome, ← hw]

theorem blockCount_mul (k w : Nat) (hw : 0 < w) : blockCount (k * w) w = k := by
  unfold blockCount
  have h1 : k * w + w - 1 = w * k + (w - 1) := by
    rw [Nat.mul_comm]; omega
  rw [h1, Nat.mul_add_div hw, Nat.div_eq_of_lt (by omega)]
  rfl

/-- The loop of `_readTag` over the blocks of a binary scalar VR consumes one
width per round. -/
theorem readBlocks_consumes (d : Dcmjs) (c : VRCode) (transferSyntax : String)
    (options : Options) (rest : List Nat) (hbin : c.isBinary = true)
    (hraw : d.storeRaw c = true ∨ options.forceStoreRaw = true) :
    ∀ (k : Nat) (s : DicomReadableBufferStream) (rawValues values : List JsAtom)
      (value : List Nat), s.unread = value ++ rest →
      value.length = k * c.maxLength.getD 0 →
      ∃ p s1, readBlocks d (.registered c) transferSyntax options k s rawValues values
          = .ok p s1 ∧ s1.unread = rest ∧ Same s s1 := by
  have hsome : c.maxLength = some (c.maxLength.getD 0) := by
    cases c <;> first | exact absurd hbin (by decide) | rfl
  have hw : 0 < c.maxLength.getD 0 := by
    cases c <;> first | exact absurd hbin (by decide) | decide
  have hw2 : c.maxLength.getD 0 ≠ 0xffffffff := by
    cases c <;> first | exact absurd hbin (by decide) | decide
  have hacc : lengthAccepted c (c.maxLength.getD 0) := by
    cases c <;> first | exact absurd hbin (by decide) | decide
  intro k
  induction k with
  | zero =>
    intro s rawValues values value hs hval
    have hv : value = [] := List.length_eq_zero.mp (by simpa using hval)
    subst hv
    exact ⟨_, s, rfl, by simpa using hs, same_refl s⟩
  | succ k ih =>
    intro s rawValues values value hs hval
    have hsplit : value = value.take (c.maxLength.getD 0) ++ value.drop (c.maxLength.getD 0) :=
      (List.take_append_drop _ value).symm
    have hlen : value.length = k * c.maxLength.getD 0 + c.maxLength.getD 0 := by
      rw [hval, Nat.succ_mul]
    rw [hsplit, List.append_assoc] at hs
    obtain ⟨raw, val, s1, e1, _, e2, e3⟩ := read_single d c s _ _ (c.maxLength.getD 0)
      transferSyntax options hacc hw2 (fun _ => Nat.le_refl _) hraw hs
      (by rw [List.length_take]; omega)
    obtain ⟨p, s2, f1, f2, f3⟩ := ih s1 (pushValue rawValues raw) (pushValue values val)
      (value.drop (c.maxLength.getD 0)) e2 (by rw [List.length_drop]; omega)
    refine ⟨p, s2, ?_, f2, same_trans e3 f3⟩
    simp only [readBlocks, VRInst.maxLength]
    rw [hsome, e1]
    simp only [Res.bind, f1]

/-- The value part of `_readTag` consumes the declared length. -/
theorem readValues_consumes (d : Dcmjs) (c : VRCode) (s : DicomReadableBufferStream)
    (value rest : List Nat) (L : Nat) (transferSyntax : String) (options : Options)
    (hacc : lengthAccepted c L) (hL : L ≠ 0xffffffff)
    (hraw : d.storeRaw c = true ∨ options.forceStoreRaw = true)
    (hs : s.unread = value ++ rest) (hval : value.length = L) :
    ∃ p s1, readValues d (.registered c) (some L) transferSyntax options s = .ok p s1 ∧
      s1.unread = rest ∧ Same s s1 := by
  unfold readValues
  by_cases hmulti : c.isBinary = true ∧ L > c.maxLength.getD 0
  · obtain ⟨hbin, hgt⟩ := hmulti
    have hnm : c.noMultiple = false := by
      cases c <;> first | exact absurd hbin (by decide) | rfl
    have hmod : L % (c.maxLength.getD 0) = 0 := by
      cases c <;> first | exact absurd hbin (by decide) | exact hacc | exact hacc.2
    have hw : 0 < c.maxLength.getD 0 := by
      cases c <;> first | exact absurd hbin (by decide) | decide
    obtain ⟨k, hk⟩ := Nat.dvd_of_mod_eq_zero hmod
    have hk2 : L = k * c.maxLength.getD 0 := by rw [hk, Nat.mul_comm]
    obtain ⟨p, s1, e1, e2, e3⟩ := readBlocks_consumes d c transferSyntax options rest hbin hraw
      k s [] [] value hs (by rw [hval, hk2])
    have hcond : (VRInst.isBinary (.registered c) &&
        exceedsMaxLength (some L) (VRInst.maxLength (.registered c)) &&
        !VRInst.noMultiple (.registered c)) = true := by
      simp [VRInst.isBinary, VRInst.maxLength, VRInst.noMultiple, exceedsMaxLength, hbin, hnm,
        hgt]
    rw [if_pos hcond]
    simp only [VRInst.maxLength, Option.getD_some]
    rw [hk2, blockCount_mul k _ hw, e1]
    exact ⟨_, s1, rfl, e2, e3⟩
  · have hcond : ¬ ((VRInst.isBinary (.registered c) &&
        exceedsMaxLength (some L) (VRInst.maxLength (.registered c)) &&
        !VRInst.noMultiple (.registered c)) = true) := by
      intro h
      simp only [VRInst.isBinary, VRInst.maxLength, exceedsMaxLength, Option.getD_some,
        Bool.and_eq_true, decide_eq_true_eq] at h
      exact hmulti ⟨h.1.1, h.1.2⟩
    rw [if_neg hcond]
    obtain ⟨raw, val, s1, e1, hstr, e2, e3⟩ := read_single d c s value rest L transferSyntax
      options hacc hL (fun hb => Nat.le_of_not_gt fun hgt => hmulti ⟨hb, hgt⟩) hraw hs hval
    rw [e1]
    simp only [Res.bind]
    obtain ⟨p, s2, f1, f2⟩ := assemble_returns d (.registered c) raw val s1 hstr
    subst f2
    exact ⟨p, s2, f1, e2, e3⟩

/-- The header part of `_readTag`, after the tag: it resolves with the
registered descriptor and the declared length, having consumed the rest of
the header. -/
theorem readVrAndLength_layout (d : Dcmjs) (implicit : Bool) (s1 : DicomReadableBufferStream)
    (tag L : Nat) (vrBytes reserved r : List Nat) (c : VRCode)
    (hvr : vrBytes.length = 2) (hres : reserved.length = 2)
    (hinst : (if implicit then VRInst.registered (createByTypeString (implicitVrType d tag L))
      else explicitVr d tag (toAscii vrBytes)) = .registered c)
    (hLb : L < 4294967296) (hshort : implicit = false → c.isExplicit = false → L < 65536)
    (hs : s1.unread = (if implicit then enc32 s1.isLittleEndian L
      else vrBytes ++ (if c.isExplicit then reserved ++ enc32 s1.isLittleEndian L
        else enc16 s1.isLittleEndian L)) ++ r) :
    ∃ s3, readVrAndLength d implicit tag s1 = .ok (.registered c, some L) s3 ∧
      s3.unread = r ∧ Same s1 s3 := by
  unfold readVrAndLength
  cases implicit with
  | true =>
    simp only [if_true] at hs hinst ⊢
    obtain ⟨s2, e1, e2, e3⟩ := readUint32_layout s1 L r hs hLb
    rw [e1]
    simp only [Res.bind, hinst]
    exact ⟨s2, rfl, e2, e3⟩
  | false =>
    simp only [Bool.false_eq_true, if_false] at hs hinst ⊢
    rw [List.append_assoc] at hs
    obtain ⟨s2, e1, e2, e3⟩ := readNBytes_layout s1 vrBytes _ 2 hs hvr
    simp only [DicomReadableBufferStream.readVR, e1, Res.bind, hinst]
    have hlen : ∃ s3, readExplicitLength (.registered c) s2 = .ok (some L) s3 ∧
        s3.unread = r ∧ Same s2 s3 := by
      unfold readExplicitLength
      by_cases hx : c.isExplicit = true
      · simp only [hx, if_true] at e2
        rw [List.append_assoc] at e2
        obtain ⟨s3, f1, f2, f3⟩ := increment_layout s2 reserved _ 2 e2 hres
        rw [← e3.1, ← f3.1] at f2
        obtain ⟨s4, g1, g2, g3⟩ := readUint32_layout s3 L r f2 hLb
        refine ⟨s4, ?_, g2, same_trans f3 g3⟩
        simp only [VRInst.isExplicit, hx, if_true, f1, Res.bind, g1]
      · have hx2 : c.isExplicit = false := by simpa using hx
        simp only [hx2, Bool.false_eq_true, if_false] at e2
        rw [← e3.1] at e2
        obtain ⟨s3, f1, f2, f3⟩ := readUint16_layout s2 L r e2 (hshort rfl hx2)
        refine ⟨s3, ?_, f2, f3⟩
        simp only [VRInst.isExplicit, hx2, Bool.false_eq_true, if_false, f1]
    obtain ⟨s3, f1, f2, f3⟩ := hlen
    rw [f1]
    exact ⟨s3, rfl, f2, same_trans e3 f3⟩

/-- C9 (amended). For an element whose descriptor is a registered VR other
than SQ and UI and whose declared length `L` is defined and accepted by the VR
(any `L` for the text and blob VRs, a multiple of the width for the binary
scalar VRs, not 0 for AT, 0 or 4 for AS), `_readTag` returns the element and
has consumed exactly the header and `L` value bytes: the reader is at the byte
that follows the value, with its endianness and decoder as before the call. -/
theorem readTag_consumes_declared_length (d : Dcmjs) (s : DicomReadableBufferStream)
    (transferSyntax : String) (options : Options) (tag L : Nat)
    (vrBytes reserved value rest : List Nat) (c : VRCode)
    (htag : tag < 4294967296) (hvr : vrBytes.length = 2) (hres : reserved.length = 2)
    (hinst : (if d.implicit transferSyntax
        then VRInst.registered (createByTypeString (implicitVrType d tag L))
        else explicitVr d tag (toAscii vrBytes)) = .registered c)
    (hstop : ¬ (options.untilTag = some (toCleanString tag) ∧
      options.includeUntilTagValue = false))
    (hL : L ≠ 0xffffffff) (hLb : L < 4294967296)
    (hshort : d.implicit transferSyntax = false → c.isExplicit = false → L < 65536)
    (hacc : lengthAccepted c L)
    (hraw : d.storeRaw c = true ∨ options.forceStoreRaw = true)
    (hval : value.length = L)
    (hs : s.unread = elementHeader (d.implicit transferSyntax) (d.littleEndian transferSyntax)
      tag vrBytes reserved c.isExplicit L ++ value ++ rest) :
    ∃ info s1, DicomMessageAsync._readTag d s transferSyntax options = .ok info s1 ∧
      info.tag = tag ∧ info.vr = some (.registered c) ∧ s1.unread = rest ∧
      s1.isLittleEndian = s.isLittleEndian ∧ s1.decoder = s.decoder := by
  have h0 : (s.setEndian (d.littleEndian transferSyntax)).unread
      = encTag (s.setEndian (d.littleEndian transferSyntax)).isLittleEndian tag ++
        ((if d.implicit transferSyntax then enc32 (d.littleEndian transferSyntax) L
          else vrBytes ++ (if c.isExplicit then reserved ++ enc32 (d.littleEndian transferSyntax) L
            else enc16 (d.littleEndian transferSyntax) L)) ++ (value ++ rest)) := by
    have : (s.setEndian (d.littleEndian transferSyntax)).unread = s.unread := rfl
    rw [this, hs]
    simp only [elementHeader, DicomReadableBufferStream.setEndian, List.append_assoc]
  obtain ⟨s1, e1, e2, e3⟩ := readTag_layout _ tag _ h0 htag
  have hle1 : s1.isLittleEndian = d.littleEndian transferSyntax := e3.1
  rw [← hle1] at e2
  obtain ⟨s3, f1, f2, f3⟩ := readVrAndLength_layout d (d.implicit transferSyntax) s1 tag L
    vrBytes reserved (value ++ rest) c hvr hres hinst hLb hshort e2
  obtain ⟨p, s4, g1, g2, g3⟩ := readValues_consumes d c s3 value rest L transferSyntax options
    hacc hL hraw f2 hval
  refine ⟨{ tag := tag, vr := some (.registered c), values := p.2, rawValues := p.1 },
    s4.setEndian s.isLittleEndian, ?_, rfl, rfl, g2, rfl, ?_⟩
  · simp only [DicomMessageAsync._readTag, e1, Res.bind, if_neg hstop, f1, g1]
  · have := (same_trans (same_trans e3 f3) g3).2.1
    exact this

theorem readTag_consumes_declared_length_witness :
    ∃ info s1,
      DicomMessageAsync._readTag exampleDcmjs
        (readerOf (explicitElement 0x00280010 "US" [0, 1, 2, 3] ++ [9, 9, 9]))
        "1.2.840.10008.1.2.1" defaultOptions = .ok info s1 ∧
      info.tag = 0x00280010 ∧ info.vr = some (.registered .US) ∧ s1.unread = [9, 9, 9] ∧
      s1.isLittleEndian = true ∧ s1.decoder = "latin1" :=
  readTag_consumes_declared_length exampleDcmjs
    (readerOf (explicitElement 0x00280010 "US" [0, 1, 2, 3] ++ [9, 9, 9]))
    "1.2.840.10008.1.2.1" defaultOptions 0x00280010 4 [85, 83] [0, 0] [0, 1, 2, 3] [9, 9, 9] .US
    (by decide) (by decide) (by decide) rfl (by decide) (by decide) (by decide)
    (fun _ _ => by decide) (by decide) (Or.inl rfl) rfl rfl

/-- C9 (as stated, refuted). An explicit little-endian US element with the
declared length 3, followed by the bytes 9, 9, 9: `_readTag` returns two
values and has consumed the 8 header bytes and 4 bytes, one more than the
declared length, so that only 9, 9 are left. -/
theorem readTag_odd_length_overreads :
    ∃ info s1,
      DicomMessageAsync._readTag exampleDcmjs
        (readerOf (explicitElement 0x00280010 "US" [0, 1, 2] ++ [9, 9, 9]))
        "1.2.840.10008.1.2.1" defaultOptions = .ok info s1 ∧
      info.values = .array [.number 256, .number 2306] ∧
      s1.unread = [9, 9] ∧ s1.unread ≠ [9, 9, 9] :=
  ⟨_, _, rfl, rfl, rfl, by decide⟩


/-! ## The dataset loop -/

theorem readNBytes_ok_inv (s s1 : DicomReadableBufferStream) (n : Nat) (b : List Nat)
    (h : s.readNBytes n = .ok b s1) :
    n ≤ s.unread.length ∧ s1.unread = s.unread.drop n := by
  have hle : n ≤ s.unread.length := by
    by_contra hlt
    unfold DicomReadableBufferStream.readNBytes at h
    have hb : ¬ n ≤ s.remainingBuffer.length := by
      intro hb
      apply hlt
      unfold DicomReadableBufferStream.unread
      simp only [List.length_append]
      omega
    rw [if_neg hb] at h
    rcases hfs : s.fileStream with chunks | _
    · rw [hfs] at h
      have hu : s.unread = s.remainingBuffer ++ chunks.flatten := by
        unfold DicomReadableBufferStream.unread
        rw [hfs]; rfl
      simp only at h
      rw [onData_none n chunks s.remainingBuffer (by rw [← hu]; omega)] at h
      cases h
    · rw [hfs] at h
      cases h
  obtain ⟨s2, e1, c1⟩ := readNBytes_take s n hle
  rw [e1] at h
  cases h
  refine ⟨hle, ?_⟩
  have := c1.1
  conv at this => lhs; rw [← List.take_append_drop n s.unread]
  exact (List.append_cancel_left this).symm

theorem readUint16_ok_inv (s s1 : DicomReadableBufferStream) (v : Nat)
    (h : s.readUint16 = .ok v s1) :
    2 ≤ s.unread.length ∧ s1.unread = s.unread.drop 2 := by
  unfold DicomReadableBufferStream.readUint16 at h
  cases hr : s.readNBytes 2 with
  | ok b s2 =>
    rw [hr] at h
    simp only [Res.bind] at h
    cases h
    exact readNBytes_ok_inv s s1 2 b hr
  | error e s2 => rw [hr] at h; cases h
  | pending => rw [hr] at h; cases h
  | outOfFuel => rw [hr] at h; cases h

theorem readTag_ok_inv (s s1 : DicomReadableBufferStream) (tag : Nat)
    (h : TagAsync.readTag s = .ok tag s1) :
    4 ≤ s.unread.length ∧ s1.unread = s.unread.drop 4 := by
  unfold TagAsync.readTag at h
  cases hr : s.readUint16 with
  | ok g sa =>
    rw [hr] at h
    simp only [Res.bind] at h
    cases hr2 : sa.readUint16 with
    | ok e sb =>
      rw [hr2] at h
      simp only at h
      cases h
      obtain ⟨a1, a2⟩ := readUint16_ok_inv s sa g hr
      obtain ⟨b1, b2⟩ := readUint16_ok_inv sa s1 e hr2
      rw [a2] at b1 b2
      simp only [List.length_drop] at b1
      refine ⟨by omega, ?_⟩
      rw [b2, List.drop_drop]
    | error e s2 => rw [hr2] at h; cases h
    | pending => rw [hr2] at h; cases h
    | outOfFuel => rw [hr2] at h; cases h
  | error e s2 => rw [hr] at h; cases h
  | pending => rw [hr] at h; cases h
  | outOfFuel => rw [hr] at h; cases h

/-- What `_readTag` does first: it reads the tag, and at the stop tag whose
value is not requested it returns the placeholder at once. -/
theorem readTag_ok_cases (d : Dcmjs) (s s1 : DicomReadableBufferStream)
    (transferSyntax : String) (options : Options) (info : ReadInfo)
    (h : DicomMessageAsync._readTag d s transferSyntax options = .ok info s1) :
    ∃ st, TagAsync.readTag (s.setEndian (d.littleEndian transferSyntax)) = .ok info.tag st ∧
      ((options.untilTag = some (toCleanString info.tag) ∧ options.includeUntilTagValue = false) →
        s1 = st ∧ info.vr = none ∧ info.values = .one (.number 0)) ∧
      (¬ (options.untilTag = some (toCleanString info.tag) ∧
          options.includeUntilTagValue = false) → info.vr ≠ none) := by
  unfold DicomMessageAsync._readTag at h
  simp only at h
  cases hr : TagAsync.readTag (s.setEndian (d.littleEndian transferSyntax)) with
  | ok tag st =>
    rw [hr] at h
    simp only [Res.bind] at h
    by_cases hstop : options.untilTag = some (toCleanString tag) ∧
        options.includeUntilTagValue = false
    · rw [if_pos hstop] at h
      cases h
      exact ⟨s1, rfl, fun _ => ⟨rfl, rfl, rfl⟩, fun hn => absurd hstop hn⟩
    · rw [if_neg hstop] at h
      cases hv : readVrAndLength d (d.implicit transferSyntax) tag st with
      | ok p s3 =>
        rw [hv] at h
        simp only at h
        cases hw : readValues d p.1 p.2 transferSyntax options s3 with
        | ok q s4 =>
          rw [hw] at h
          simp only at h
          cases h
          exact ⟨st, rfl, fun hy => absurd hy hstop, fun _ => by simp⟩
        | error e s2 => rw [hw] at h; cases h
        | pending => rw [hw] at h; cases h
        | outOfFuel => rw [hw] at h; cases h
      | error e s2 => rw [hv] at h; cases h
      | pending => rw [hv] at h; cases h
      | outOfFuel => rw [hv] at h; cases h
  | error e s2 => rw [hr] at h; cases h
  | pending => rw [hr] at h; cases h
  | outOfFuel => rw [hr] at h; cases h

theorem readTag_ok_not_at_end (d : Dcmjs) (s s1 : DicomReadableBufferStream)
    (transferSyntax : String) (options : Options) (info : ReadInfo)
    (h : DicomMessageAsync._readTag d s transferSyntax options = .ok info s1) :
    s.streamEnd = false := by
  obtain ⟨st, e, _, _⟩ := readTag_ok_cases d s s1 transferSyntax options info h
  have h4 := (readTag_ok_inv _ st info.tag e).1
  apply streamEnd_of_unread
  have hu : (s.setEndian (d.littleEndian transferSyntax)).unread = s.unread := rfl
  rw [hu] at h4
  intro hnil
  rw [hnil] at h4
  simp at h4

theorem toCleanString_ne_empty (tag : Nat) : toCleanString tag ≠ "" := by
  unfold toCleanString
  intro h
  have := congrArg String.length h
  simp at this

theorem setKey_keys (dict : List (String × Element)) (key : String) (element : Element)
    (k : String) :
    k ∈ (setKey dict key element).map Prod.fst ↔ k ∈ dict.map Prod.fst ∨ k = key := by
  unfold setKey
  by_cases hany : dict.any (fun p => p.1 == key) = true
  · rw [if_pos hany]
    simp only [List.any_eq_true, beq_iff_eq] at hany
    obtain ⟨p, hp, hpk⟩ := hany
    simp only [List.mem_map, Prod.exists, exists_and_right, exists_eq_right]
    constructor
    · rintro ⟨e, a, b, hab, heq⟩
      by_cases hk : a = key
      · simp only [hk, beq_self_eq_true, if_true, Prod.mk.injEq] at heq
        exact Or.inr heq.1.symm
      · have : (a == key) = false := by simpa using hk
        simp only [this, Bool.false_eq_true, if_false, Prod.mk.injEq] at heq
        exact Or.inl ⟨e, by rw [← heq.1, ← heq.2]; exact hab⟩
    · rintro (⟨e, he⟩ | hk)
      · by_cases hk : k = key
        · exact ⟨element, p.1, p.2, hp, by simp [hpk, hk]⟩
        · have : (k == key) = false := by simpa using hk
          exact ⟨e, k, e, he, by simp [this]⟩
      · exact ⟨element, p.1, p.2, hp, by simp [hpk, hk]⟩
  · rw [if_neg hany]
    simp only [List.map_append, List.map_cons, List.map_nil, List.mem_append,
      List.mem_singleton]

theorem lookup_setKey (dict : List (String × Element)) (key : String) (element : Element) :
    (setKey dict key element).lookup key = some element := by
  unfold setKey
  induction dict with
  | nil => simp [List.lookup]
  | cons p ps ih =>
    by_cases hp : p.1 = key
    · have hany : (p :: ps).any (fun p => p.1 == key) = true := by simp [hp]
      have hpt : (p.1 == key) = true := by simpa using hp
      rw [if_pos hany]
      simp only [List.map_cons, hpt, if_true]
      rw [List.lookup_cons]
      simp
    · have hpf : (p.1 == key) = false := by simpa using hp
      have hkp : (key == p.1) = false := by
        simpa using fun h => hp h.symm
      by_cases hany : ps.any (fun p => p.1 == key) = true
      · have hany2 : (p :: ps).any (fun p => p.1 == key) = true := by simp [hany]
        rw [if_pos hany2]
        rw [if_pos hany] at ih
        simp only [List.map_cons, hpf, Bool.false_eq_true, if_false]
        rw [show p = (p.1, p.2) from rfl, List.lookup_cons, hkp]
        exact ih
      · have hany2 : ¬ (p :: ps).any (fun p => p.1 == key) = true := by
          simp only [List.any_cons, hpf, Bool.false_or]
          exact hany
        rw [if_neg hany2]
        rw [if_neg hany] at ih
        rw [List.cons_append, show p = (p.1, p.2) from rfl, List.lookup_cons, hkp]
        exact ih

theorem storeAll_keys (trace : List (ReadInfo × JsVal)) :
    ∀ (dict : List (String × Element)) (k : String),
      k ∈ (storeAll dict trace).map Prod.fst ↔
        k ∈ dict.map Prod.fst ∨ k ∈ trace.map (fun e => toCleanString e.1.tag) := by
  induction trace with
  | nil => intro dict k; simp [storeAll]
  | cons e trace ih =>
    intro dict k
    have : storeAll dict (e :: trace)
        = storeAll (setKey dict (entryOf e.1 e.2).1 (entryOf e.1 e.2).2) trace := rfl
    rw [this, ih, setKey_keys]
    simp only [entryOf, List.map_cons, List.mem_cons]
    tauto

theorem precede_length (d : Dcmjs) (transferSyntax : String) (options : Options)
    (stop : String) (sk : DicomReadableBufferStream) :
    ∀ (trace : List (ReadInfo × JsVal)) (s : DicomReadableBufferStream),
      Precede d transferSyntax options stop trace s sk →
      trace.length + sk.unread.length ≤ s.unread.length := by
  intro trace
  induction trace with
  | nil =>
    intro s h
    simp only [Precede] at h
    subst h
    simp
  | cons e trace ih =>
    intro s h
    simp only [Precede] at h
    obtain ⟨s1, s2, _, _, _, hlt, hrest⟩ := h
    have := ih s2 hrest
    simp only [List.length_cons]
    omega

/-- The loop of `_read` along a trace that ends at the stop tag. -/
theorem readElements_trace (d : Dcmjs) (transferSyntax : String) (options : Options)
    (stop : String) (sk s1 s2 : DicomReadableBufferStream) (infoT : ReadInfo)
    (valuesT : JsVal) (huntil : options.untilTag = some stop)
    (hT : DicomMessageAsync._readTag d sk transferSyntax options = .ok infoT s1)
    (hclean : toCleanString infoT.tag = stop)
    (hcs : characterSetStep d options infoT s1 = .ok valuesT s2) :
    ∀ (trace : List (ReadInfo × JsVal)) (s : DicomReadableBufferStream)
      (dict : List (String × Element)) (fuel : Nat),
      Precede d transferSyntax options stop trace s sk → trace.length < fuel →
      readElements d transferSyntax options fuel s dict
        = .ok (setKey (storeAll dict trace) stop (entryOf infoT valuesT).2) s2 := by
  have hne : stop ≠ "" := by
    rw [← hclean]; exact toCleanString_ne_empty _
  intro trace
  induction trace with
  | nil =>
    intro s dict fuel hpre hfuel
    simp only [Precede] at hpre
    subst hpre
    cases fuel with
    | zero => simp at hfuel
    | succ fuel =>
      have hend := readTag_ok_not_at_end d sk s1 transferSyntax options infoT hT
      have hcond : options.untilTag.getD "" ≠ "" ∧ options.untilTag = some stop := by
        rw [huntil]
        exact ⟨by simpa using hne, rfl⟩
      simp only [readElements, hend, Bool.false_eq_true, if_false, hT, Res.bind, hcs,
        storeAll, List.foldl_nil, entryOf, hclean]
      rw [if_pos hcond]
  | cons e trace ih =>
    intro s dict fuel hpre hfuel
    simp only [Precede] at hpre
    obtain ⟨sa, sb, hread, hnot, hstep, _, hrest⟩ := hpre
    cases fuel with
    | zero => simp at hfuel
    | succ fuel =>
      have hend := readTag_ok_not_at_end d s sa transferSyntax options e.1 hread
      have hcond : ¬ (options.untilTag.getD "" ≠ "" ∧
          options.untilTag = some (toCleanString e.1.tag)) := by
        rw [huntil]
        intro h
        exact hnot (Option.some.inj h.2).symm
      have hih := ih sb (setKey dict (entryOf e.1 e.2).1 (entryOf e.1 e.2).2) fuel hrest
        (by simp only [List.length_cons] at hfuel; omega)
      simp only [readElements, hend, Bool.false_eq_true, if_false, hread, Res.bind, hstep,
        if_neg hcond]
      exact hih

/-- C10. Let the dataset loop decode the elements of `trace` from `s`, none of
them with the stop tag, and let `_readTag` then return the element `infoT`
whose tag is the stop tag.  `_read` with that `untilTag` returns the dataset
whose keys are the tags of `trace` and the stop tag, the stop tag's entry
being the last one stored, and the reader is where `_readTag` left it: nothing
after that element is decoded.  When its value is not requested, the entry is
the placeholder (`vr` undefined, `values` 0) and the reader has consumed the 4
tag bytes of that element and nothing more; when it is requested, the element
was decoded through its VR. -/
theorem read_stops_at_until_tag (d : Dcmjs) (transferSyntax : String) (options : Options)
    (stop : String) (s sk s1 s2 : DicomReadableBufferStream)
    (trace : List (ReadInfo × JsVal)) (infoT : ReadInfo) (valuesT : JsVal)
    (huntil : options.untilTag = some stop)
    (hpre : Precede d transferSyntax options stop trace s sk)
    (hT : DicomMessageAsync._readTag d sk transferSyntax options = .ok infoT s1)
    (hclean : toCleanString infoT.tag = stop)
    (hcs : characterSetStep d options infoT s1 = .ok valuesT s2) :
    ∃ dict, DicomMessageAsync._read d s transferSyntax options = .ok dict s2 ∧
      (∀ k, k ∈ dict.map Prod.fst ↔
        k ∈ trace.map (fun e => toCleanString e.1.tag) ∨ k = stop) ∧
      dict.lookup stop = some (entryOf infoT valuesT).2 ∧
      (options.includeUntilTagValue = false →
        infoT.vr = none ∧ infoT.values = .one (.number 0) ∧
        4 ≤ sk.unread.length ∧ s1.unread = sk.unread.drop 4 ∧ s2.unread = s1.unread) ∧
      (options.includeUntilTagValue = true → infoT.vr ≠ none) := by
  have hlen := precede_length d transferSyntax options stop sk trace s hpre
  have hrun := readElements_trace d transferSyntax options stop sk s1 s2 infoT valuesT huntil
    hT hclean hcs trace s [] (s.unread.length + 1) hpre (by omega)
  refine ⟨_, hrun, ?_, lookup_setKey _ _ _, ?_, ?_⟩
  · intro k
    rw [setKey_keys, storeAll_keys]
    simp
  · intro hinc
    obtain ⟨st, e, hstop, _⟩ := readTag_ok_cases d sk s1 transferSyntax options infoT hT
    obtain ⟨h1, h2, h3⟩ := hstop ⟨by rw [huntil, hclean], hinc⟩
    subst h1
    obtain ⟨h4, h5⟩ := readTag_ok_inv _ _ _ e
    have hu : (sk.setEndian (d.littleEndian transferSyntax)).unread = sk.unread := rfl
    rw [hu] at h4 h5
    refine ⟨h2, h3, h4, h5, ?_⟩
    unfold characterSetStep at hcs
    by_cases hc : toCleanString infoT.tag = "00080005"
    · rw [if_pos hc, h3] at hcs
      simp [applyCharacterSet, jsLength, Res.bind] at hcs
      rw [← hcs.2]
    · rw [if_neg hc] at hcs
      cases hcs
      rfl
  · intro hinc
    obtain ⟨st, e, _, hnot⟩ := readTag_ok_cases d sk s1 transferSyntax options infoT hT
    exact hnot (by rw [hinc]; simp)

theorem read_stops_at_until_tag_witness :
    ∃ dict,
      DicomMessageAsync._read exampleDcmjs (readerOf exampleBody) "1.2.840.10008.1.2.1"
        untilPixelData
        = .ok dict
          { isLittleEndian := true, remainingBuffer := [79, 87, 0, 0, 4, 0, 0, 0, 1, 2, 3, 4],
            fileStream := .flowing [], decoder := "latin1" } ∧
      (∀ k, k ∈ dict.map Prod.fst ↔ k ∈ ["00080060", "00280010"] ∨ k = "7FE00010") ∧
      dict.lookup "7FE00010"
        = some { vr := none, Value := .one (.number 0), rawValue := .one .undefined } ∧
      (untilPixelData.includeUntilTagValue = false →
        (none : Option VRInst) = none ∧ JsVal.one (.number 0) = .one (.number 0) ∧
        4 ≤ [224, 127, 16, 0, 79, 87, 0, 0, 4, 0, 0, 0, 1, 2, 3, 4].length ∧
        [79, 87, 0, 0, 4, 0, 0, 0, 1, 2, 3, 4]
          = [224, 127, 16, 0, 79, 87, 0, 0, 4, 0, 0, 0, 1, 2, 3, 4].drop 4 ∧
        [79, 87, 0, 0, 4, 0, 0, 0, 1, 2, 3, 4] = [79, 87, 0, 0, 4, 0, 0, 0, 1, 2, 3, 4]) ∧
      (untilPixelData.includeUntilTagValue = true → (none : Option VRInst) ≠ none) :=
  read_stops_at_until_tag exampleDcmjs "1.2.840.10008.1.2.1" untilPixelData "7FE00010"
    (readerOf exampleBody)
    { isLittleEndian := true,
      remainingBuffer := [224, 127, 16, 0, 79, 87, 0, 0, 4, 0, 0, 0, 1, 2, 3, 4],
      fileStream := .flowing [], decoder := "latin1" }
    { isLittleEndian := true, remainingBuffer := [79, 87, 0, 0, 4, 0, 0, 0, 1, 2, 3, 4],
      fileStream := .flowing [], decoder := "latin1" }
    { isLittleEndian := true, remainingBuffer := [79, 87, 0, 0, 4, 0, 0, 0, 1, 2, 3, 4],
      fileStream := .flowing [], decoder := "latin1" }
    [({ tag := 0x00080060, vr := some (.registered .CS), values := .array [.string "MR"],
        rawValues := .array [.string "MR"] }, .array [.string "MR"]),
     ({ tag := 0x00280010, vr := some (.registered .US), values := .array [.number 512],
        rawValues := .array [.number 512] }, .array [.number 512])]
    { tag := 0x7fe00010, vr := none, values := .one (.number 0), rawValues := .one .undefined }
    (.one (.number 0)) rfl
    ⟨_, _, rfl, by decide, rfl, by decide, _, _, rfl, by decide, rfl, by decide, rfl⟩
    rfl rfl rfl


/-- A truncated file: the stream ends inside the 4-byte length of an explicit
OB element.  `_readTag` swallows the rejected length read and returns an
element; the loop of `_read` then finds the 2 bytes of the length still
buffered, reads them as half a tag, and the next `readNBytes`, on a stream
that has already ended, never settles. -/
theorem read_truncated_never_settles :
    DicomMessageAsync._read exampleDcmjs
      (readerOf (encTag true 0x00080060 ++ [79, 66, 0, 0, 4, 0])) "1.2.840.10008.1.2.1"
      defaultOptions = .pending :=
  rfl

/-! ## The file orchestrator -/

set_option maxRecDepth 100000

/-- C1. Three valid files in Explicit VR Little Endian on which `readFile`
with `untilTag = null` returns no document.  With native pixel data as the
last element, and with encapsulated pixel data whose offset table is empty,
the loop of `_read` finds `end()` false after the last byte (the stream has
not yet emitted `'end'`), reads one more tag and is rejected with "Stream
ended before reading 2 bytes".  With one frame stored in two fragments behind
a one-entry offset table only the first fragment is read as the frame, the
second is decoded as an element and the parse is rejected. -/
theorem readFile_rejects_valid_files :
    DicomMessageAsync.readFile exampleDcmjs [exampleFile exampleBody] defaultOptions
      = .error (.streamEnded 2)
        { isLittleEndian := true, remainingBuffer := [], fileStream := .ended,
          decoder := "latin1" } ∧
    DicomMessageAsync.readFile exampleDcmjs [exampleFile (encapsulatedBody [] [[1, 2, 3, 4]])]
        defaultOptions
      = .error (.streamEnded 2)
        { isLittleEndian := true, remainingBuffer := [], fileStream := .ended,
          decoder := "latin1" } ∧
    DicomMessageAsync.readFile exampleDcmjs
        [exampleFile (encapsulatedBody [0] [[1, 2], [3, 4]])] defaultOptions
      = .error (.streamEnded 4294837251)
        { isLittleEndian := true, remainingBuffer := [221, 224, 0, 0, 0, 0],
          fileStream := .ended, decoder := "latin1" } :=
  ⟨rfl, rfl, rfl⟩

/-! ## The blocks of a binary scalar value -/

/-- On one block of its width the `readBytes` of a binary scalar VR returns
the value decoded from that block. -/
theorem readBytes_block (d : Dcmjs) (c : VRCode) (s : DicomReadableBufferStream)
    (block rest : List Nat) (length : Option Nat) (transferSyntax : String)
    (hbin : c.isBinary = true) (hs : s.unread = block ++ rest)
    (hb : block.length = c.maxLength.getD 0) :
    ∃ s1, c.readBytes d s length transferSyntax
        = .ok (.one (decodeBlock c s.isLittleEndian block)) s1 ∧ s1.unread = rest ∧
      Same s s1 := by
  obtain ⟨s1, e1, e2, e3⟩ := readNBytes_layout s block rest _ hs hb
  have hle : s1.isLittleEndian = s.isLittleEndian := e3.1
  cases c <;> first
    | (simp [VRCode.isBinary] at hbin; done)
    | (refine ⟨s1, ?_, e2, e3⟩
       simp only [VRCode.maxLength, Option.getD_some] at e1
       simp only [VRCode.readBytes, DicomReadableBufferStream.readFloat,
        DicomReadableBufferStream.readDouble, DicomReadableBufferStream.readInt32,
        DicomReadableBufferStream.readInt16, DicomReadableBufferStream.readUint32,
        DicomReadableBufferStream.readUint16, e1, Res.bind, hle, decodeBlock]
       done)
    | skip
  -- AT
  have hb4 : block.length = 4 := hb
  have hsplit : block = block.take 2 ++ block.drop 2 := (List.take_append_drop 2 block).symm
  have hs2 := hs
  rw [hsplit, List.append_assoc] at hs2
  obtain ⟨t1, f1, f2, f3⟩ := readNBytes_layout s (block.take 2) _ 2 hs2 (by simp [hb4])
  obtain ⟨t2, g1, g2, g3⟩ := readNBytes_layout t1 (block.drop 2) rest 2 f2 (by simp [hb4])
  refine ⟨t2, ?_, g2, same_trans f3 g3⟩
  simp only [VRCode.readBytes, TagAsync.readTag, DicomReadableBufferStream.readUint16, f1,
    Res.bind, g1, f3.1, g3.1, decodeBlock]

/-- One call `vr.read(stream, vr.maxLength, ...)` of a binary scalar VR
resolves with the value of the next block and consumes that block. -/
theorem read_block (d : Dcmjs) (c : VRCode) (s : DicomReadableBufferStream)
    (block rest : List Nat) (transferSyntax : String) (options : Options)
    (hbin : c.isBinary = true) (hs : s.unread = block ++ rest)
    (hb : block.length = c.maxLength.getD 0) :
    ∃ raw s1, (VRInst.registered c).read d s c.maxLength transferSyntax options
        = .ok (raw, .one (decodeBlock c s.isLittleEndian block)) s1 ∧ s1.unread = rest ∧
      Same s s1 := by
  have hnf : c.fixed = false ∨ (c.maxLength.getD 0 ≠ 0 ∧ c.maxLength = c.maxLength) := by
    right
    cases c <;> first | exact absurd hbin (by decide) | exact ⟨by decide, rfl⟩
  have hfmt : ∀ v, c.applyFormatting v = v := by
    intro v
    cases c <;> first | exact absurd hbin (by decide) | rfl
  obtain ⟨s1, e1, e2, e3⟩ := readBytes_block d c s block rest c.maxLength transferSyntax hbin hs hb
  refine ⟨if !d.storeRaw c && !options.forceStoreRaw then JsVal.one .undefined
    else .one (decodeBlock c s.isLittleEndian block), s1, ?_, e2, e3⟩
  simp only [VRInst.read]
  rw [read_not_fixed d c s c.maxLength transferSyntax options.forceStoreRaw hnf, e1]
  simp only [Res.bind, destructure, hfmt]

/-- A value laid out as blocks of the width of the VR is read block by block. -/
theorem blockReads_of_layout (d : Dcmjs) (c : VRCode) (transferSyntax : String)
    (options : Options) (rest : List Nat) (hbin : c.isBinary = true) :
    ∀ (blocks : List (List Nat)) (s : DicomReadableBufferStream),
      (∀ b ∈ blocks, b.length = c.maxLength.getD 0) →
      s.unread = blocks.flatten ++ rest →
      ∃ sk, BlockReads d c transferSyntax options blocks s sk ∧ sk.unread = rest ∧
        Same s sk := by
  intro blocks
  induction blocks with
  | nil =>
    intro s _ hs
    exact ⟨s, rfl, by simpa using hs, same_refl s⟩
  | cons b blocks ih =>
    intro s hlen hs
    rw [List.flatten_cons, List.append_assoc] at hs
    obtain ⟨raw, s1, e1, e2, e3⟩ := read_block d c s b _ transferSyntax options hbin hs
      (hlen b (List.mem_cons_self _ _))
    obtain ⟨sk, f1, f2, f3⟩ := ih s1 (fun x hx => hlen x (List.mem_cons_of_mem _ hx)) e2
    refine ⟨sk, ⟨raw, s1, e1, ?_, e3, f1⟩, f2, same_trans e3 f3⟩
    rw [hs, e2]

/-- The loop of `_readTag` over the blocks pushes the value of each block. -/
theorem readBlocks_of_blockReads (d : Dcmjs) (c : VRCode) (transferSyntax : String)
    (options : Options) (le : Bool) (sk : DicomReadableBufferStream) :
    ∀ (blocks : List (List Nat)) (s : DicomReadableBufferStream) (rawValues values : List JsAtom),
      s.isLittleEndian = le →
      BlockReads d c transferSyntax options blocks s sk →
      ∃ raws, readBlocks d (.registered c) transferSyntax options blocks.length s rawValues values
        = .ok (raws, values ++ blocks.map (decodeBlock c le)) sk := by
  intro blocks
  induction blocks with
  | nil =>
    intro s rawValues values _ h
    simp only [BlockReads] at h
    subst h
    exact ⟨rawValues, by simp [readBlocks]⟩
  | cons b blocks ih =>
    intro s rawValues values hle h
    obtain ⟨raw, s1, e1, _, e2, e3⟩ := h
    obtain ⟨raws, f1⟩ := ih s1 (pushValue rawValues raw)
      (pushValue values (.one (decodeBlock c s.isLittleEndian b))) (by rw [e2.1, hle]) e3
    refine ⟨raws, ?_⟩
    simp only [List.length_cons, readBlocks, VRInst.maxLength, e1, Res.bind]
    rw [f1, hle]
    simp [pushValue]

/-- C15. For a binary scalar VR (FL, FD, SL, SS, UL, US, AT) of width `m` and
a declared length `L = k * m` with `k >= 2` blocks, `_readTag` returns exactly
`k` values, the i-th being the value decoded from the i-th `m`-byte block of
the value field, and leaves the reader right behind the value.  The value is
read by one `vr.read(stream, vr.maxLength, ...)` per block, each of which
consumes exactly its block of `m` bytes (`BlockReads`), so no read goes beyond
`m` bytes. -/
theorem readTag_splits_binary_blocks (d : Dcmjs) (s : DicomReadableBufferStream)
    (transferSyntax : String) (options : Options) (tag : Nat)
    (vrBytes reserved : List Nat) (blocks : List (List Nat)) (rest : List Nat) (c : VRCode)
    (hbin : c.isBinary = true) (hk : 2 ≤ blocks.length)
    (hblock : ∀ b ∈ blocks, b.length = c.maxLength.getD 0)
    (htag : tag < 4294967296) (hvr : vrBytes.length = 2) (hres : reserved.length = 2)
    (hinst : (if d.implicit transferSyntax
        then VRInst.registered (createByTypeString
          (implicitVrType d tag (blocks.length * c.maxLength.getD 0)))
        else explicitVr d tag (toAscii vrBytes)) = .registered c)
    (hstop : ¬ (options.untilTag = some (toCleanString tag) ∧
      options.includeUntilTagValue = false))
    (hLb : blocks.length * c.maxLength.getD 0 < 4294967296)
    (hshort : d.implicit transferSyntax = false → blocks.length * c.maxLength.getD 0 < 65536)
    (hs : s.unread = elementHeader (d.implicit transferSyntax) (d.littleEndian transferSyntax)
      tag vrBytes reserved false (blocks.length * c.maxLength.getD 0) ++ blocks.flatten ++ rest) :
    ∃ info s3 s4, DicomMessageAsync._readTag d s transferSyntax options
        = .ok info (s4.setEndian s.isLittleEndian) ∧
      info.tag = tag ∧ info.vr = some (.registered c) ∧
      info.values = .array (blocks.map (decodeBlock c (d.littleEndian transferSyntax))) ∧
      (blocks.map (decodeBlock c (d.littleEndian transferSyntax))).length = blocks.length ∧
      s3.unread = blocks.flatten ++ rest ∧
      BlockReads d c transferSyntax options blocks s3 s4 ∧ s4.unread = rest := by
  have hx : c.isExplicit = false := by
    cases c <;> first | exact absurd hbin (by decide) | rfl
  have hnm : c.noMultiple = false := by
    cases c <;> first | exact absurd hbin (by decide) | rfl
  have hw : 0 < c.maxLength.getD 0 := by
    cases c <;> first | exact absurd hbin (by decide) | decide
  have h0 : (s.setEndian (d.littleEndian transferSyntax)).unread
      = encTag (s.setEndian (d.littleEndian transferSyntax)).isLittleEndian tag ++
        ((if d.implicit transferSyntax
            then enc32 (d.littleEndian transferSyntax) (blocks.length * c.maxLength.getD 0)
          else vrBytes ++ (if c.isExplicit
            then reserved ++ enc32 (d.littleEndian transferSyntax)
              (blocks.length * c.maxLength.getD 0)
            else enc16 (d.littleEndian transferSyntax) (blocks.length * c.maxLength.getD 0))) ++
          (blocks.flatten ++ rest)) := by
    have : (s.setEndian (d.littleEndian transferSyntax)).unread = s.unread := rfl
    rw [this, hs, hx]
    simp only [elementHeader, DicomReadableBufferStream.setEndian, List.append_assoc]
  obtain ⟨s1, e1, e2, e3⟩ := readTag_layout _ tag _ h0 htag
  have hle1 : s1.isLittleEndian = d.littleEndian transferSyntax := e3.1
  rw [← hle1] at e2
  obtain ⟨s3, f1, f2, f3⟩ := readVrAndLength_layout d (d.implicit transferSyntax) s1 tag
    (blocks.length * c.maxLength.getD 0) vrBytes reserved (blocks.flatten ++ rest) c hvr hres
    hinst hLb (fun h _ => hshort h) e2
  have hle3 : s3.isLittleEndian = d.littleEndian transferSyntax := by rw [f3.1, hle1]
  obtain ⟨s4, g1, g2, _⟩ := blockReads_of_layout d c transferSyntax options rest hbin blocks s3
    hblock f2
  obtain ⟨raws, k1⟩ := readBlocks_of_blockReads d c transferSyntax options
    (d.littleEndian transferSyntax) s4 blocks s3 [] [] hle3 g1
  have hgt : blocks.length * c.maxLength.getD 0 > c.maxLength.getD 0 := by
    have : 2 * c.maxLength.getD 0 ≤ blocks.length * c.maxLength.getD 0 :=
      Nat.mul_le_mul_right _ hk
    omega
  have hcond : (VRInst.isBinary (.registered c) &&
      exceedsMaxLength (some (blocks.length * c.maxLength.getD 0))
        (VRInst.maxLength (.registered c)) &&
      !VRInst.noMultiple (.registered c)) = true := by
    simp [VRInst.isBinary, VRInst.maxLength, VRInst.noMultiple, exceedsMaxLength, hbin, hnm,
      hgt]
  have hrv : readValues d (.registered c) (some (blocks.length * c.maxLength.getD 0))
      transferSyntax options s3
      = .ok (.array raws,
          .array (blocks.map (decodeBlock c (d.littleEndian transferSyntax)))) s4 := by
    unfold readValues
    rw [if_pos hcond]
    simp only [VRInst.maxLength, Option.getD_some]
    rw [blockCount_mul _ _ hw, k1]
    simp [Res.bind]
  refine ⟨{ tag := tag
            vr := some (.registered c)
            values := .array (blocks.map (decodeBlock c (d.littleEndian transferSyntax)))
            rawValues := .array raws }, s3, s4, ?_, rfl, rfl, rfl, by simp, f2, g1, g2⟩
  simp only [DicomMessageAsync._readTag, e1, Res.bind, if_neg hstop, f1, hrv]

theorem readTag_splits_binary_blocks_witness :
    ∃ info s3 s4,
      DicomMessageAsync._readTag exampleDcmjs
        (readerOf (explicitElement 0x00280010 "UL" [1, 0, 0, 0, 2, 0, 0, 0, 3, 0, 0, 0]
          ++ [9, 9])) "1.2.840.10008.1.2.1" defaultOptions
        = .ok info (s4.setEndian true) ∧
      info.tag = 0x00280010 ∧ info.vr = some (.registered .UL) ∧
      info.values = .array [.number 1, .number 2, .number 3] ∧
      [JsAtom.number 1, .number 2, .number 3].length = 3 ∧
      s3.unread = [1, 0, 0, 0, 2, 0, 0, 0, 3, 0, 0, 0] ++ [9, 9] ∧
      BlockReads exampleDcmjs .UL "1.2.840.10008.1.2.1" defaultOptions
        [[1, 0, 0, 0], [2, 0, 0, 0], [3, 0, 0, 0]] s3 s4 ∧
      s4.unread = [9, 9] :=
  readTag_splits_binary_blocks exampleDcmjs
    (readerOf (explicitElement 0x00280010 "UL" [1, 0, 0, 0, 2, 0, 0, 0, 3, 0, 0, 0] ++ [9, 9]))
    "1.2.840.10008.1.2.1" defaultOptions 0x00280010 [85, 76] [0, 0]
    [[1, 0, 0, 0], [2, 0, 0, 0], [3, 0, 0, 0]] [9, 9] .UL rfl (by decide) (by decide)
    (by decide) rfl rfl rfl (by decide) (by decide) (fun _ => by decide) rfl

/-! ## The header of an element -/

/-- The length field of an explicit element, for any descriptor. -/
theorem readExplicitLength_layout (vr : VRInst) (s2 : DicomReadableBufferStream) (L : Nat)
    (reserved r : List Nat) (hres : reserved.length = 2) (hLb : L < 4294967296)
    (hshort : vr.isExplicit = false → L < 65536)
    (hs : s2.unread = (if vr.isExplicit then reserved ++ enc32 s2.isLittleEndian L
      else enc16 s2.isLittleEndian L) ++ r) :
    ∃ s3, readExplicitLength vr s2 = .ok (some L) s3 ∧ s3.unread = r ∧ Same s2 s3 := by
  unfold readExplicitLength
  by_cases hx : vr.isExplicit = true
  · simp only [hx, if_true] at hs
    rw [List.append_assoc] at hs
    obtain ⟨s3, f1, f2, f3⟩ := increment_layout s2 reserved _ 2 hs hres
    rw [← f3.1] at f2
    obtain ⟨s4, g1, g2, g3⟩ := readUint32_layout s3 L r f2 hLb
    refine ⟨s4, ?_, g2, same_trans f3 g3⟩
    simp only [hx, if_true, f1, Res.bind, g1]
  · have hx2 : vr.isExplicit = false := by simpa using hx
    simp only [hx2, Bool.false_eq_true, if_false] at hs
    obtain ⟨s3, f1, f2, f3⟩ := readUint16_layout s2 L r hs (hshort hx2)
    refine ⟨s3, ?_, f2, f3⟩
    simp only [hx2, Bool.false_eq_true, if_false, f1]

/-- Every code of the registry is found under its own type string. -/
theorem createByTypeString_type (c : VRCode) : createByTypeString c.type = c := by
  cases c <;> rfl

/-- The descriptor chosen for a VR code read from the stream has the header
form of that code. -/
theorem explicitVr_isExplicit (d : Dcmjs) (tag : Nat) (c : VRCode) :
    (explicitVr d tag c.type).isExplicit = c.isExplicit := by
  unfold explicitVr
  cases d.lookupTag tag with
  | none => simp only [createByTypeString_type, VRInst.isExplicit]
  | some dictVr =>
    simp only
    split
    · rename_i h
      have hc : c = .UN := by
        have h1 := h.1
        cases c <;> first | rfl | (exact absurd h1 (by decide))
      subst hc
      rfl
    · simp only [createByTypeString_type, VRInst.isExplicit]

/-- The header of an element is 12 bytes long in the long explicit form and 8
bytes long otherwise. -/
theorem elementHeader_length (implicit littleEndian : Bool) (tag : Nat)
    (vrBytes reserved : List Nat) (longForm : Bool) (length : Nat)
    (hvr : vrBytes.length = 2) (hres : reserved.length = 2) :
    (elementHeader implicit littleEndian tag vrBytes reserved longForm length).length
      = if implicit then 8 else if longForm then 12 else 8 := by
  unfold elementHeader
  cases implicit <;> cases longForm <;>
    simp [encTag_length, enc32_length, enc16_length, hvr, hres]

/-- C14. In explicit syntax `_readTag` reads the 4-byte tag, the 2-byte VR
code and then two reserved bytes and a 4-byte length when the code is one of
SQ, OB, OW, OF, OD, UN, UT, UC, UR, or a 2-byte length for every other code of
the registry: the value is read from the reader `s3`, which stands 12 bytes
(resp. 8 bytes) behind the start of the element.  In implicit syntax it reads
a 4-byte length right behind the tag, the value is read 8 bytes behind the
start of the element, and the descriptor is the one of the dictionary entry
(or of the fallbacks), whatever bytes follow.  In all cases `_readTag` is the
value read from `s3` with the declared length. -/
theorem readTag_header_layout (d : Dcmjs) (s : DicomReadableBufferStream)
    (transferSyntax : String) (options : Options) (tag L : Nat)
    (vrBytes reserved rest : List Nat) (c : VRCode)
    (htag : tag < 4294967296) (hLb : L < 4294967296)
    (hvr : vrBytes.length = 2) (hres : reserved.length = 2) (hc : toAscii vrBytes = c.type)
    (hshort : d.implicit transferSyntax = false →
      c ∉ [VRCode.SQ, .OB, .OW, .OF, .OD, .UN, .UT, .UC, .UR] → L < 65536)
    (hstop : ¬ (options.untilTag = some (toCleanString tag) ∧
      options.includeUntilTagValue = false))
    (hs : s.unread = elementHeader (d.implicit transferSyntax) (d.littleEndian transferSyntax)
      tag vrBytes reserved (decide (c ∈ [VRCode.SQ, .OB, .OW, .OF, .OD, .UN, .UT, .UC, .UR])) L ++
      rest) :
    ∃ s1 s3, TagAsync.readTag (s.setEndian (d.littleEndian transferSyntax)) = .ok tag s1 ∧
      s1.unread = s.unread.drop 4 ∧
      readVrAndLength d (d.implicit transferSyntax) tag s1
        = .ok (if d.implicit transferSyntax
            then VRInst.registered (createByTypeString (implicitVrType d tag L))
            else explicitVr d tag (toAscii vrBytes), some L) s3 ∧
      s3.unread = rest ∧
      s3.unread = s.unread.drop (if d.implicit transferSyntax then 8
        else if c ∈ [VRCode.SQ, .OB, .OW, .OF, .OD, .UN, .UT, .UC, .UR] then 12 else 8) ∧
      DicomMessageAsync._readTag d s transferSyntax options
        = (readValues d (if d.implicit transferSyntax
              then VRInst.registered (createByTypeString (implicitVrType d tag L))
              else explicitVr d tag (toAscii vrBytes)) (some L) transferSyntax options s3).bind
            fun p s4 => .ok { tag := tag
                              vr := some (if d.implicit transferSyntax
                                then VRInst.registered
                                  (createByTypeString (implicitVrType d tag L))
                                else explicitVr d tag (toAscii vrBytes))
                              values := p.2
                              rawValues := p.1 } (s4.setEndian s.isLittleEndian) := by
  have hlong : decide (c ∈ [VRCode.SQ, .OB, .OW, .OF, .OD, .UN, .UT, .UC, .UR]) = c.isExplicit := by
    cases c <;> rfl
  have hlen := elementHeader_length (d.implicit transferSyntax) (d.littleEndian transferSyntax)
    tag vrBytes reserved (decide (c ∈ [VRCode.SQ, .OB, .OW, .OF, .OD, .UN, .UT, .UC, .UR])) L
    hvr hres
  have hdrop : s.unread.drop (elementHeader (d.implicit transferSyntax)
      (d.littleEndian transferSyntax) tag vrBytes reserved
      (decide (c ∈ [VRCode.SQ, .OB, .OW, .OF, .OD, .UN, .UT, .UC, .UR])) L).length = rest := by
    rw [hs, List.drop_left]
  have h0 : (s.setEndian (d.littleEndian transferSyntax)).unread
      = encTag (s.setEndian (d.littleEndian transferSyntax)).isLittleEndian tag ++
        ((if d.implicit transferSyntax then enc32 (d.littleEndian transferSyntax) L
          else vrBytes ++ (if c.isExplicit then reserved ++ enc32 (d.littleEndian transferSyntax) L
            else enc16 (d.littleEndian transferSyntax) L)) ++ rest) := by
    have : (s.setEndian (d.littleEndian transferSyntax)).unread = s.unread := rfl
    rw [this, hs, hlong]
    simp only [elementHeader, DicomReadableBufferStream.setEndian, List.append_assoc]
  obtain ⟨s1, e1, e2, e3⟩ := readTag_layout _ tag _ h0 htag
  have hle1 : s1.isLittleEndian = d.littleEndian transferSyntax := e3.1
  have hd4 : s1.unread = s.unread.drop 4 := by
    have h4 : (encTag (s.setEndian (d.littleEndian transferSyntax)).isLittleEndian tag).length
        = 4 := encTag_length _ _
    have : (s.setEndian (d.littleEndian transferSyntax)).unread = s.unread := rfl
    rw [e2, ← this, h0, ← h4, List.drop_left]
  have hva : ∃ s3, readVrAndLength d (d.implicit transferSyntax) tag s1
      = .ok (if d.implicit transferSyntax
          then VRInst.registered (createByTypeString (implicitVrType d tag L))
          else explicitVr d tag (toAscii vrBytes), some L) s3 ∧ s3.unread = rest := by
    unfold readVrAndLength
    cases himp : d.implicit transferSyntax with
    | true =>
      simp only [himp, if_true] at e2 ⊢
      rw [← hle1] at e2
      obtain ⟨s2, f1, f2, _⟩ := readUint32_layout s1 L rest e2 hLb
      exact ⟨s2, by simp only [f1, Res.bind], f2⟩
    | false =>
      simp only [himp, Bool.false_eq_true, if_false] at e2 ⊢
      rw [List.append_assoc] at e2
      obtain ⟨s2, f1, f2, f3⟩ := readNBytes_layout s1 vrBytes _ 2 e2 hvr
      have hix : (explicitVr d tag (toAscii vrBytes)).isExplicit = c.isExplicit := by
        rw [hc]; exact explicitVr_isExplicit d tag c
      rw [← hix, ← hle1, ← f3.1] at f2
      obtain ⟨s3, g1, g2, _⟩ := readExplicitLength_layout (explicitVr d tag (toAscii vrBytes)) s2
        L reserved rest hres hLb
        (fun hne => hshort himp (by
          rw [hix, ← hlong] at hne
          simpa using hne)) f2
      exact ⟨s3, by simp only [DicomReadableBufferStream.readVR, f1, Res.bind, g1], g2⟩
  obtain ⟨s3, f1, f2⟩ := hva
  refine ⟨s1, s3, e1, hd4, f1, f2, ?_, ?_⟩
  · simp only [decide_eq_true_eq] at hlen
    rw [f2, ← hdrop, hlen]
  · simp only [DicomMessageAsync._readTag, e1, Res.bind, if_neg hstop, f1]

/-- The element (7FE0,0010) OB of length 4 in explicit little endian: the value
is read 12 bytes behind the start of the element. -/
theorem readTag_header_layout_witness :
    ∃ s1 s3,
      TagAsync.readTag ((readerOf (explicitElement 0x7fe00010 "OB" [1, 2, 3, 4])).setEndian true)
        = .ok 0x7fe00010 s1 ∧
      s1.unread = (explicitElement 0x7fe00010 "OB" [1, 2, 3, 4]).drop 4 ∧
      readVrAndLength exampleDcmjs false 0x7fe00010 s1 = .ok (.registered .OB, some 4) s3 ∧
      s3.unread = [1, 2, 3, 4] ∧
      s3.unread = (explicitElement 0x7fe00010 "OB" [1, 2, 3, 4]).drop 12 ∧
      DicomMessageAsync._readTag exampleDcmjs
          (readerOf (explicitElement 0x7fe00010 "OB" [1, 2, 3, 4])) "1.2.840.10008.1.2.1"
          defaultOptions
        = (readValues exampleDcmjs (.registered .OB) (some 4) "1.2.840.10008.1.2.1"
            defaultOptions s3).bind
            fun p s4 => .ok { tag := 0x7fe00010
                              vr := some (.registered .OB)
                              values := p.2
                              rawValues := p.1 } (s4.setEndian true) :=
  readTag_header_layout exampleDcmjs (readerOf (explicitElement 0x7fe00010 "OB" [1, 2, 3, 4]))
    "1.2.840.10008.1.2.1" defaultOptions 0x7fe00010 4 [79, 66] [0, 0] [1, 2, 3, 4] .OB
    (by decide) (by decide) rfl rfl rfl (fun _ h => absurd (by decide) h) (by decide) rfl

/-! ## The file header -/

/-- The first two reads of `readFile`: the 128 bytes of the preamble are
skipped and the four bytes that follow are decoded as 7-bit ASCII. -/
theorem openFile_magic (chunks : List (List Nat)) (preamble magic tail : List Nat)
    (hfile : chunks.flatten = preamble ++ magic ++ tail) (hpre : preamble.length = 128)
    (hmag : magic.length = 4) :
    ∃ s1 s2, (openFile chunks).increment 128 = .ok () s1 ∧
      s1.readAsciiString 4 = .ok (toAscii magic) s2 ∧ s2.unread = tail ∧
      s2.isLittleEndian = false ∧ s2.decoder = "latin1" := by
  have h0 : (openFile chunks).unread = preamble ++ (magic ++ tail) := by
    simp [openFile, DicomReadableBufferStream.unread, FileStream.chunks, hfile]
  obtain ⟨s1, e1, e2, e3⟩ := increment_layout (openFile chunks) preamble _ 128 h0 hpre
  obtain ⟨s2, f1, f2, f3⟩ := readNBytes_layout s1 magic tail 4 e2 hmag
  refine ⟨s1, s2, e1, ?_, f2, ?_, ?_⟩
  · simp only [DicomReadableBufferStream.readAsciiString, f1, Res.bind]
  · rw [f3.1, e3.1]; rfl
  · rw [f3.2.1, e3.2.1]; rfl

/-- Only the digit 0 is written as the character 0. -/
theorem hexDigit_zero : ∀ n, n < 16 → hexDigit n = '0' → n = 0 := by decide

/-- Only the digit 2 is written as the character 2. -/
theorem hexDigit_two : ∀ n, n < 16 → hexDigit n = '2' → n = 2 := by decide

/-- Only the tag (0002,0000) has the clean string "00020000". -/
theorem toCleanString_metaLength (tag : Nat) (h : tag < 4294967296)
    (hc : toCleanString tag = "00020000") : tag = 0x00020000 := by
  have hd : (toCleanString tag).data = "00020000".data := by rw [hc]
  simp only [toCleanString, List.range, List.range.loop, List.map] at hd
  simp only [List.cons.injEq, and_true] at hd
  obtain ⟨h0, h1, h2, h3, h4, h5, h6, h7⟩ := hd
  have k0 := hexDigit_zero _ (Nat.mod_lt _ (by decide)) h0
  have k1 := hexDigit_zero _ (Nat.mod_lt _ (by decide)) h1
  have k2 := hexDigit_zero _ (Nat.mod_lt _ (by decide)) h2
  have k3 := hexDigit_two _ (Nat.mod_lt _ (by decide)) h3
  have k4 := hexDigit_zero _ (Nat.mod_lt _ (by decide)) h4
  have k5 := hexDigit_zero _ (Nat.mod_lt _ (by decide)) h5
  have k6 := hexDigit_zero _ (Nat.mod_lt _ (by decide)) h6
  have k7 := hexDigit_zero _ (Nat.mod_lt _ (by decide)) h7
  norm_num at k0 k1 k2 k3 k4 k5 k6 k7
  omega

/-- A tag read from the stream is a 32-bit value. -/
theorem readTag_lt (s s1 : DicomReadableBufferStream) (tag : Nat)
    (h : TagAsync.readTag s = .ok tag s1) : tag < 4294967296 := by
  unfold TagAsync.readTag at h
  cases h1 : s.readUint16 with
  | ok g t =>
    rw [h1] at h
    simp only [Res.bind] at h
    cases h2 : t.readUint16 with
    | ok e t2 =>
      rw [h2] at h
      simp only [Res.bind, Res.ok.injEq] at h
      rw [← h.1]
      unfold TagAsync.fromNumbers
      exact Nat.mod_lt _ (by decide)
    | error e t2 => rw [h2] at h; simp [Res.bind] at h
    | pending => rw [h2] at h; simp [Res.bind] at h
    | outOfFuel => rw [h2] at h; simp [Res.bind] at h
  | error e t => rw [h1] at h; simp [Res.bind] at h
  | pending => rw [h1] at h; simp [Res.bind] at h
  | outOfFuel => rw [h1] at h; simp [Res.bind] at h


/-- The shape of `_readTag` on a well-formed element of a registered VR. -/
theorem readTag_element (d : Dcmjs) (s : DicomReadableBufferStream)
    (transferSyntax : String) (options : Options) (tag L : Nat)
    (vrBytes reserved value rest : List Nat) (c : VRCode)
    (htag : tag < 4294967296) (hvr : vrBytes.length = 2) (hres : reserved.length = 2)
    (hinst : (if d.implicit transferSyntax
        then VRInst.registered (createByTypeString (implicitVrType d tag L))
        else explicitVr d tag (toAscii vrBytes)) = .registered c)
    (hstop : ¬ (options.untilTag = some (toCleanString tag) ∧
      options.includeUntilTagValue = false))
    (hL : L ≠ 0xffffffff) (hLb : L < 4294967296)
    (hshort : d.implicit transferSyntax = false → c.isExplicit = false → L < 65536)
    (hacc : lengthAccepted c L)
    (hraw : d.storeRaw c = true ∨ options.forceStoreRaw = true)
    (hval : value.length = L)
    (hs : s.unread = elementHeader (d.implicit transferSyntax) (d.littleEndian transferSyntax)
      tag vrBytes reserved c.isExplicit L ++ value ++ rest) :
    ∃ (p : JsVal × JsVal) (s4 : DicomReadableBufferStream),
      DicomMessageAsync._readTag d s transferSyntax options
        = .ok { tag := tag, vr := some (.registered c), values := p.2, rawValues := p.1 }
          (s4.setEndian s.isLittleEndian) ∧
      s4.unread = rest ∧ s4.decoder = s.decoder := by
  have h0 : (s.setEndian (d.littleEndian transferSyntax)).unread
      = encTag (s.setEndian (d.littleEndian transferSyntax)).isLittleEndian tag ++
        ((if d.implicit transferSyntax then enc32 (d.littleEndian transferSyntax) L
          else vrBytes ++ (if c.isExplicit then reserved ++ enc32 (d.littleEndian transferSyntax) L
            else enc16 (d.littleEndian transferSyntax) L)) ++ (value ++ rest)) := by
    have : (s.setEndian (d.littleEndian transferSyntax)).unread = s.unread := rfl
    rw [this, hs]
    simp only [elementHeader, DicomReadableBufferStream.setEndian, List.append_assoc]
  obtain ⟨s1, e1, e2, e3⟩ := readTag_layout _ tag _ h0 htag
  have hle1 : s1.isLittleEndian = d.littleEndian transferSyntax := e3.1
  rw [← hle1] at e2
  obtain ⟨s3, f1, f2, f3⟩ := readVrAndLength_layout d (d.implicit transferSyntax) s1 tag L
    vrBytes reserved (value ++ rest) c hvr hres hinst hLb hshort e2
  obtain ⟨p, s4, g1, g2, g3⟩ := readValues_consumes d c s3 value rest L transferSyntax options
    hacc hL hraw f2 hval
  refine ⟨p, s4, ?_, g2, (same_trans (same_trans e3 f3) g3).2.1⟩
  simp only [DicomMessageAsync._readTag, e1, Res.bind, if_neg hstop, f1, g1]

/-- Whatever `_readTag` returns carries the tag that stands at the reader. -/
theorem readTag_tag_of_layout (d : Dcmjs) (s s1 : DicomReadableBufferStream)
    (transferSyntax : String) (options : Options) (info : ReadInfo) (tag : Nat) (rest : List Nat)
    (htag : tag < 4294967296)
    (hs : s.unread = encTag (d.littleEndian transferSyntax) tag ++ rest)
    (h : DicomMessageAsync._readTag d s transferSyntax options = .ok info s1) :
    info.tag = tag := by
  obtain ⟨st, e1, _⟩ := readTag_ok_cases d s s1 transferSyntax options info h
  obtain ⟨t1, f1, _⟩ := readTag_layout (s.setEndian (d.littleEndian transferSyntax)) tag rest
    hs htag
  rw [f1] at e1
  injection e1 with e1 _
  exact e1.symm

/-- Explicit VR Little Endian is read in little-endian byte order. -/
theorem littleEndian_explicit (d : Dcmjs) : d.littleEndian d.EXPLICIT_LITTLE_ENDIAN = true := by
  simp [Dcmjs.littleEndian]

/-- C11 (amended). For a file of at least 132 bytes: when the four bytes at
offsets 128..131, decoded as 7-bit ASCII (each byte with its high bit
cleared), are not "DICM", `readFile` fails with "Invalid DICOM file, expected
header is missing".  When they are and the tag at offset 132 is not
(0002,0000), the outcome of `readFile` is the outcome of `_readTag` on the
first element with every returned element replaced by the failure "Invalid
DICOM file, meta length tag is malformed or not present.": no document is
returned, and the failure is that one whenever the element can be decoded, as
it is for a well-formed element of a registered VR other than SQ and UI whose
raw value is kept. -/
theorem readFile_invalid_container (d : Dcmjs) (chunks : List (List Nat)) (options : Options)
    (preamble magic tail : List Nat) (hfile : chunks.flatten = preamble ++ magic ++ tail)
    (hpre : preamble.length = 128) (hmag : magic.length = 4) :
    (toAscii magic ≠ "DICM" →
      ∃ s2, DicomMessageAsync.readFile d chunks options = .error .headerMissing s2 ∧
        s2.unread = tail) ∧
    (toAscii magic = "DICM" →
      ∀ tag rest, tag < 4294967296 → tag ≠ 0x00020000 → tail = encTag true tag ++ rest →
        (∃ s2, s2.unread = tail ∧
          DicomMessageAsync.readFile d chunks options
            = (DicomMessageAsync._readTag d s2 d.EXPLICIT_LITTLE_ENDIAN defaultOptions).bind
                fun _ s3 => .error .metaLengthMalformed s3) ∧
        (∀ L vrBytes reserved value rest1 c, vrBytes.length = 2 → reserved.length = 2 →
          (if d.implicit d.EXPLICIT_LITTLE_ENDIAN
            then VRInst.registered (createByTypeString (implicitVrType d tag L))
            else explicitVr d tag (toAscii vrBytes)) = .registered c →
          L ≠ 0xffffffff → L < 4294967296 →
          (d.implicit d.EXPLICIT_LITTLE_ENDIAN = false → c.isExplicit = false → L < 65536) →
          lengthAccepted c L → d.storeRaw c = true → value.length = L →
          tail = elementHeader (d.implicit d.EXPLICIT_LITTLE_ENDIAN) true tag vrBytes reserved
            c.isExplicit L ++ value ++ rest1 →
          ∃ s3, DicomMessageAsync.readFile d chunks options = .error .metaLengthMalformed s3 ∧
            s3.unread = rest1)) := by
  obtain ⟨s1, s2, e1, e2, e3, e4, e5⟩ := openFile_magic chunks preamble magic tail hfile hpre hmag
  refine ⟨fun hbad => ⟨s2, ?_, e3⟩, fun hok tag rest htag hne htail => ?_⟩
  · simp only [DicomMessageAsync.readFile, e1, Res.bind, e2]
    rw [if_pos hbad]
  · have hrf : DicomMessageAsync.readFile d chunks options
        = (DicomMessageAsync._readTag d s2 d.EXPLICIT_LITTLE_ENDIAN defaultOptions).bind
            fun _ s3 => .error .metaLengthMalformed s3 := by
      simp only [DicomMessageAsync.readFile, e1, Res.bind, e2]
      rw [if_neg (by simpa using hok)]
      cases hrt : DicomMessageAsync._readTag d s2 d.EXPLICIT_LITTLE_ENDIAN defaultOptions with
      | ok el s3 =>
        have htg : el.tag = tag :=
          readTag_tag_of_layout d s2 s3 _ defaultOptions el tag rest htag
            (by rw [littleEndian_explicit, e3, htail]) hrt
        have hcl : toCleanString el.tag ≠ "00020000" := by
          intro hc
          rw [htg] at hc
          exact hne (toCleanString_metaLength tag htag hc)
        simp only [if_pos hcl]
      | error e s3 => rfl
      | pending => rfl
      | outOfFuel => rfl
    refine ⟨⟨s2, e3, hrf⟩, ?_⟩
    intro L vrBytes reserved value rest1 c hvr hres hinst hL hLb hshort hacc hraw hval hlay
    have hs2 : s2.unread = elementHeader (d.implicit d.EXPLICIT_LITTLE_ENDIAN)
        (d.littleEndian d.EXPLICIT_LITTLE_ENDIAN) tag vrBytes reserved c.isExplicit L ++
        value ++ rest1 := by
      rw [littleEndian_explicit, e3, hlay]
    obtain ⟨p, s4, f1, f2, _⟩ := readTag_element d s2 d.EXPLICIT_LITTLE_ENDIAN defaultOptions tag L
      vrBytes reserved value rest1 c htag hvr hres hinst (by simp [defaultOptions]) hL hLb hshort
      hacc (Or.inl hraw) hval hs2
    refine ⟨s4.setEndian s2.isLittleEndian, ?_, f2⟩
    rw [hrf, f1]
    rfl


/-- Explicit VR Little Endian is not the implicit syntax, the two UIDs being
different. -/
theorem implicit_explicit (d : Dcmjs)
    (hdist : d.IMPLICIT_LITTLE_ENDIAN ≠ d.EXPLICIT_LITTLE_ENDIAN) :
    d.implicit d.EXPLICIT_LITTLE_ENDIAN = false := by
  simp only [Dcmjs.implicit, beq_eq_false_iff_ne, ne_eq]
  exact fun h => hdist h.symm

/-- The meta group length element: `_readTag` returns the value `L` in an array. -/
theorem readTag_metaLength (d : Dcmjs) (s2 : DicomReadableBufferStream) (L : Nat)
    (tail : List Nat) (hdist : d.IMPLICIT_LITTLE_ENDIAN ≠ d.EXPLICIT_LITTLE_ENDIAN)
    (hL : L < 4294967296)
    (hs : s2.unread = explicitElement 0x00020000 "UL" (enc32 true L) ++ tail) :
    ∃ raw s3, DicomMessageAsync._readTag d s2 d.EXPLICIT_LITTLE_ENDIAN defaultOptions
        = .ok { tag := 0x00020000, vr := some (.registered .UL), values := .array [.number L],
                rawValues := raw } s3 ∧
      s3.unread = tail ∧ s3.isLittleEndian = s2.isLittleEndian ∧ s3.decoder = s2.decoder := by
  have himp := implicit_explicit d hdist
  have hle := littleEndian_explicit d
  have h0 : (s2.setEndian (d.littleEndian d.EXPLICIT_LITTLE_ENDIAN)).unread
      = encTag (s2.setEndian (d.littleEndian d.EXPLICIT_LITTLE_ENDIAN)).isLittleEndian 0x00020000
        ++ ((if d.implicit d.EXPLICIT_LITTLE_ENDIAN
              then enc32 (d.littleEndian d.EXPLICIT_LITTLE_ENDIAN) 4
            else [85, 76] ++ (if VRCode.UL.isExplicit
              then [0, 0] ++ enc32 (d.littleEndian d.EXPLICIT_LITTLE_ENDIAN) 4
              else enc16 (d.littleEndian d.EXPLICIT_LITTLE_ENDIAN) 4)) ++ (enc32 true L ++ tail)) := by
    have : (s2.setEndian (d.littleEndian d.EXPLICIT_LITTLE_ENDIAN)).unread = s2.unread := rfl
    rw [this, hs, himp, hle]
    simp [explicitElement, elementHeader, DicomReadableBufferStream.setEndian, enc32_length,
      asciiBytes, VRCode.isExplicit, createByTypeString, VRinstances, VRCode.type]
  obtain ⟨s1, e1, e2, e3⟩ := readTag_layout _ 0x00020000 _ h0 (by decide)
  have hle1 : s1.isLittleEndian = true := by rw [e3.1]; exact hle
  have hinst : (if d.implicit d.EXPLICIT_LITTLE_ENDIAN
      then VRInst.registered (createByTypeString (implicitVrType d 0x00020000 4))
      else explicitVr d 0x00020000 (toAscii [85, 76])) = .registered .UL := by
    rw [himp]
    simp only [Bool.false_eq_true, if_false, explicitVr]
    have hul : toAscii [85, 76] = "UL" := by decide
    cases d.lookupTag 0x00020000 <;> simp [hul] <;> rfl
  have e2k : s1.unread = (if d.implicit d.EXPLICIT_LITTLE_ENDIAN then enc32 s1.isLittleEndian 4
      else [85, 76] ++ (if VRCode.UL.isExplicit then [0, 0] ++ enc32 s1.isLittleEndian 4
        else enc16 s1.isLittleEndian 4)) ++ (enc32 true L ++ tail) := by
    rw [hle1]
    rw [hle] at e2
    exact e2
  obtain ⟨s3, f1, f2, f3⟩ := readVrAndLength_layout d (d.implicit d.EXPLICIT_LITTLE_ENDIAN) s1
    0x00020000 4 [85, 76] [0, 0] (enc32 true L ++ tail) .UL rfl rfl hinst (by decide)
    (fun _ _ => by decide) e2k
  have hle3 : s3.isLittleEndian = true := by rw [f3.1, hle1]
  obtain ⟨raw, s4, g1, g2, g3⟩ := read_block d .UL s3 (enc32 true L) tail
    d.EXPLICIT_LITTLE_ENDIAN defaultOptions rfl f2 (by simp [enc32_length, VRCode.maxLength])
  have hval : decodeBlock .UL s3.isLittleEndian (enc32 true L) = .number L := by
    rw [hle3]
    simp only [decodeBlock, getUint32_enc32 true L hL]
  rw [hval] at g1
  refine ⟨asArray raw, s4.setEndian s2.isLittleEndian, ?_, g2, rfl, ?_⟩
  · simp only [DicomMessageAsync._readTag, e1, Res.bind, f1]
    rw [if_neg (by simp [defaultOptions])]
    have hrv : readValues d (.registered .UL) (some 4) d.EXPLICIT_LITTLE_ENDIAN defaultOptions s3
        = .ok (asArray raw, .array [.number L]) s4 := by
      unfold readValues
      rw [if_neg (by simp [VRInst.isBinary, VRInst.maxLength, exceedsMaxLength, VRCode.maxLength])]
      have : (VRInst.registered VRCode.UL).read d s3 (some 4) d.EXPLICIT_LITTLE_ENDIAN
          defaultOptions = .ok (raw, .one (.number L)) s4 := g1
      rw [this]
      simp [Res.bind, assemble, VRInst.isBinary, VRCode.isBinary, VRInst.type, VRCode.type,
        asArray]
    rw [hrv]
  · exact (same_trans (same_trans e3 f3) g3).2.1

/-- A magic that does not decode to "DICM" makes `readFile` fail. -/
theorem readFile_bad_magic (d : Dcmjs) (chunks : List (List Nat)) (options : Options)
    (preamble magic tail : List Nat) (hfile : chunks.flatten = preamble ++ magic ++ tail)
    (hpre : preamble.length = 128) (hmag : magic.length = 4) (hbad : toAscii magic ≠ "DICM") :
    ∃ s2, DicomMessageAsync.readFile d chunks options = .error .headerMissing s2 ∧
      s2.unread = tail := by
  obtain ⟨s1, s2, e1, e2, e3, _, _⟩ := openFile_magic chunks preamble magic tail hfile hpre hmag
  refine ⟨s2, ?_, e3⟩
  simp only [DicomMessageAsync.readFile, e1, Res.bind, e2]
  rw [if_pos hbad]

/-- The file header up to the meta group length element: `readFile` goes on
with a read of `L` bytes from a reader that stands behind that element. -/
theorem readFile_after_metaLength (d : Dcmjs) (chunks : List (List Nat)) (options : Options)
    (preamble magic tail : List Nat) (L : Nat)
    (hdist : d.IMPLICIT_LITTLE_ENDIAN ≠ d.EXPLICIT_LITTLE_ENDIAN)
    (hfile : chunks.flatten = preamble ++ magic ++
      explicitElement 0x00020000 "UL" (enc32 true L) ++ tail)
    (hpre : preamble.length = 128) (hmag : magic.length = 4) (hmagic : toAscii magic = "DICM")
    (hL : L < 4294967296) :
    ∃ s3 : DicomReadableBufferStream,
      s3.unread = tail ∧ s3.isLittleEndian = false ∧ s3.decoder = "latin1" ∧
      DicomMessageAsync.readFile d chunks options
        = (s3.readNBytes L).bind fun metaBytes s4 =>
            match d.metaTransferSyntax metaBytes with
            | none => .error .external s4
            | some mainSyntax =>
              if mainSyntax = d.DEFLATED_EXPLICIT_LITTLE_ENDIAN then
                .error .deflatedNotSupported s4
              else
                (DicomMessageAsync._read d s4 (d.normalizeSyntax mainSyntax) options).bind
                  fun objects s5 => .ok { metaBytes := metaBytes, dict := objects } s5 := by
  obtain ⟨s1, s2, e1, e2, e3, e4, e5⟩ := openFile_magic chunks preamble magic
    (explicitElement 0x00020000 "UL" (enc32 true L) ++ tail)
    (by rw [hfile]; simp only [List.append_assoc]) hpre hmag
  obtain ⟨raw, s3, f1, f2, f3, f4⟩ := readTag_metaLength d s2 L tail hdist hL e3
  refine ⟨s3, f2, by rw [f3, e4], by rw [f4, e5], ?_⟩
  simp only [DicomMessageAsync.readFile, e1, Res.bind, e2, hmagic, f1]
  have hcl : toCleanString 0x00020000 = "00020000" := by decide
  simp [hcl]

/-- The file header up to the meta group: after the preamble, the magic, the
meta group length element with the value `L` and the `L` bytes of the meta
group, `readFile` goes on from a reader that stands at the main body. -/
theorem readFile_meta_layout (d : Dcmjs) (chunks : List (List Nat)) (options : Options)
    (preamble magic meta body : List Nat) (L : Nat)
    (hdist : d.IMPLICIT_LITTLE_ENDIAN ≠ d.EXPLICIT_LITTLE_ENDIAN)
    (hfile : chunks.flatten = preamble ++ magic ++
      explicitElement 0x00020000 "UL" (enc32 true L) ++ meta ++ body)
    (hpre : preamble.length = 128) (hmag : magic.length = 4) (hmagic : toAscii magic = "DICM")
    (hL : L < 4294967296) (hmeta : meta.length = L) :
    ∃ s4, s4.unread = body ∧ s4.isLittleEndian = false ∧ s4.decoder = "latin1" ∧
      (d.metaTransferSyntax meta = none →
        DicomMessageAsync.readFile d chunks options = .error .external s4) ∧
      (d.metaTransferSyntax meta = some d.DEFLATED_EXPLICIT_LITTLE_ENDIAN →
        DicomMessageAsync.readFile d chunks options = .error .deflatedNotSupported s4) ∧
      (∀ syn, d.metaTransferSyntax meta = some syn → syn ≠ d.DEFLATED_EXPLICIT_LITTLE_ENDIAN →
        DicomMessageAsync.readFile d chunks options
          = (DicomMessageAsync._read d s4 (d.normalizeSyntax syn) options).bind
              fun objects s5 => .ok { metaBytes := meta, dict := objects } s5) := by
  obtain ⟨s3, f2, f3, f4, hrf⟩ := readFile_after_metaLength d chunks options preamble magic
    (meta ++ body) L hdist (by rw [hfile]; simp only [List.append_assoc]) hpre hmag hmagic hL
  obtain ⟨s4, g1, g2, g3⟩ := readNBytes_layout s3 meta body L f2 hmeta
  rw [g1] at hrf
  simp only [Res.bind] at hrf
  refine ⟨s4, g2, by rw [g3.1, f3], by rw [g3.2.1, f4], ?_, ?_, ?_⟩
  · intro h; rw [hrf, h]
  · intro h; rw [hrf, h]; simp
  · intro syn h hne
    rw [hrf, h]
    simp only [if_neg hne]
    rfl

/-- The meta group length element takes 12 bytes. -/
theorem metaLength_element_length (L : Nat) :
    (explicitElement 0x00020000 "UL" (enc32 true L)).length = 12 := by
  simp [explicitElement, elementHeader, encTag_length, enc16_length, enc32_length, asciiBytes,
    createByTypeString, VRinstances, VRCode.type, VRCode.isExplicit]

/-- C12. For every file that `readFile` accepts and whose meta group length
element, the 12-byte explicit little-endian UL element at offset 132, holds
the value `L`: the file has at least `144 + L` bytes, the meta dataset is
decoded from exactly the `L` bytes at offsets 144 .. 144+L-1, and the main
dataset is the result of `_read` on a reader whose unread bytes are the file
from offset `144 + L` on. -/
theorem readFile_meta_group_bytes (d : Dcmjs) (chunks : List (List Nat)) (options : Options)
    (preamble magic tail : List Nat) (L : Nat) (doc : DicomDict) (s5 : DicomReadableBufferStream)
    (hdist : d.IMPLICIT_LITTLE_ENDIAN ≠ d.EXPLICIT_LITTLE_ENDIAN)
    (hfile : chunks.flatten = preamble ++ magic ++
      explicitElement 0x00020000 "UL" (enc32 true L) ++ tail)
    (hpre : preamble.length = 128) (hmag : magic.length = 4) (hL : L < 4294967296)
    (hacc : DicomMessageAsync.readFile d chunks options = .ok doc s5) :
    144 + L ≤ chunks.flatten.length ∧
    doc.metaBytes = (chunks.flatten.drop 144).take L ∧
    ∃ s4 syn, s4.unread = chunks.flatten.drop (144 + L) ∧
      d.metaTransferSyntax ((chunks.flatten.drop 144).take L) = some syn ∧
      DicomMessageAsync._read d s4 (d.normalizeSyntax syn) options = .ok doc.dict s5 := by
  have hmagic : toAscii magic = "DICM" := by
    by_contra hbad
    obtain ⟨s2, e, _⟩ := readFile_bad_magic d chunks options preamble magic
      (explicitElement 0x00020000 "UL" (enc32 true L) ++ tail)
      (by rw [hfile]; simp only [List.append_assoc]) hpre hmag hbad
    rw [e] at hacc
    cases hacc
  have hlen := metaLength_element_length L
  have htail : chunks.flatten.drop 144 = tail := by
    have h144 : (preamble ++ magic ++ explicitElement 0x00020000 "UL" (enc32 true L)).length
        = 144 := by
      simp only [List.length_append, hpre, hmag, hlen]
    rw [hfile, ← h144, List.drop_left]
  have hflen : chunks.flatten.length = 144 + tail.length := by
    rw [hfile]
    simp only [List.length_append, hpre, hmag, hlen]
  obtain ⟨s3, f2, _, _, hrf⟩ := readFile_after_metaLength d chunks options preamble magic tail L
    hdist hfile hpre hmag hmagic hL
  rw [hrf] at hacc
  cases hrd : s3.readNBytes L with
  | ok metaBytes s4 =>
    obtain ⟨hle, hdrop⟩ := readNBytes_ok_inv s3 s4 L metaBytes hrd
    obtain ⟨t, ht, _⟩ := readNBytes_take s3 L hle
    rw [hrd] at ht
    injection ht with hmb _
    rw [f2] at hle hdrop hmb
    rw [hrd] at hacc
    simp only [Res.bind] at hacc
    cases hsyn : d.metaTransferSyntax metaBytes with
    | none => rw [hsyn] at hacc; cases hacc
    | some syn =>
      rw [hsyn] at hacc
      simp only at hacc
      by_cases hd : syn = d.DEFLATED_EXPLICIT_LITTLE_ENDIAN
      · rw [if_pos hd] at hacc; cases hacc
      · rw [if_neg hd] at hacc
        cases hread : DicomMessageAsync._read d s4 (d.normalizeSyntax syn) options with
        | ok objects s5k =>
          rw [hread] at hacc
          simp only [Res.bind, Res.ok.injEq] at hacc
          obtain ⟨hdoc, hs5⟩ := hacc
          subst hdoc
          subst hs5
          refine ⟨by omega, by rw [htail]; exact hmb, s4, syn, ?_, ?_, hread⟩
          · rw [hdrop, ← htail, List.drop_drop]
          · rw [htail, ← hmb]; exact hsyn
        | error e s5k => rw [hread] at hacc; cases hacc
        | pending => rw [hread] at hacc; cases hacc
        | outOfFuel => rw [hread] at hacc; cases hacc
  | error e s4 => rw [hrd] at hacc; cases hacc
  | pending => rw [hrd] at hacc; cases hacc
  | outOfFuel => rw [hrd] at hacc; cases hacc

/-- The example file read up to the pixel data: its meta group has 28 bytes. -/
theorem readFile_meta_group_bytes_witness :
    ∃ doc s5,
      DicomMessageAsync.readFile exampleDcmjs [exampleFile exampleBody] untilPixelData
        = .ok doc s5 ∧
      144 + 28 ≤ [exampleFile exampleBody].flatten.length ∧
      doc.metaBytes = ([exampleFile exampleBody].flatten.drop 144).take 28 ∧
      ∃ s4 syn, s4.unread = [exampleFile exampleBody].flatten.drop (144 + 28) ∧
        exampleDcmjs.metaTransferSyntax (([exampleFile exampleBody].flatten.drop 144).take 28)
          = some syn ∧
        DicomMessageAsync._read exampleDcmjs s4 (exampleDcmjs.normalizeSyntax syn) untilPixelData
          = .ok doc.dict s5 :=
  ⟨_, _, rfl,
    readFile_meta_group_bytes exampleDcmjs [exampleFile exampleBody] untilPixelData
      (List.replicate 128 0) (asciiBytes "DICM")
      (explicitElement 0x00020010 "UI" (asciiBytes "1.2.840.10008.1.2.1" ++ [0]) ++ exampleBody)
      28 _ _ (by decide) (by simp [exampleFile]) rfl rfl (by decide) rfl⟩

/-- C13. When the transfer syntax UID decoded from the meta group is the
Deflated Explicit VR Little Endian UID, `readFile` fails with "Deflated
Explicit Little Endian is not supported": no document is returned and no byte
of the main body has been read. -/
theorem readFile_rejects_deflated (d : Dcmjs) (chunks : List (List Nat)) (options : Options)
    (preamble magic meta body : List Nat) (L : Nat)
    (hdist : d.IMPLICIT_LITTLE_ENDIAN ≠ d.EXPLICIT_LITTLE_ENDIAN)
    (hfile : chunks.flatten = preamble ++ magic ++
      explicitElement 0x00020000 "UL" (enc32 true L) ++ meta ++ body)
    (hpre : preamble.length = 128) (hmag : magic.length = 4) (hmagic : toAscii magic = "DICM")
    (hL : L < 4294967296) (hmeta : meta.length = L)
    (hdefl : d.metaTransferSyntax meta = some d.DEFLATED_EXPLICIT_LITTLE_ENDIAN) :
    ∃ s4, DicomMessageAsync.readFile d chunks options = .error .deflatedNotSupported s4 ∧
      s4.unread = body ∧ ∀ doc s5, DicomMessageAsync.readFile d chunks options ≠ .ok doc s5 := by
  obtain ⟨s4, h1, _, _, _, h2, _⟩ := readFile_meta_layout d chunks options preamble magic meta
    body L hdist hfile hpre hmag hmagic hL hmeta
  refine ⟨s4, h2 hdefl, h1, fun doc s5 h => ?_⟩
  rw [h2 hdefl] at h
  cases h

/-- The example file with a meta group that declares the deflated syntax. -/
theorem readFile_rejects_deflated_witness :
    ∃ s4, DicomMessageAsync.readFile deflatedDcmjs [exampleFile exampleBody] defaultOptions
        = .error .deflatedNotSupported s4 ∧
      s4.unread = exampleBody ∧
      ∀ doc s5, DicomMessageAsync.readFile deflatedDcmjs [exampleFile exampleBody] defaultOptions
        ≠ .ok doc s5 :=
  readFile_rejects_deflated deflatedDcmjs [exampleFile exampleBody] defaultOptions
    (List.replicate 128 0) (asciiBytes "DICM")
    (explicitElement 0x00020010 "UI" (asciiBytes "1.2.840.10008.1.2.1" ++ [0])) exampleBody 28
    (by decide) (by simp [exampleFile]) rfl rfl (by decide) (by decide) (by decide) rfl


/-- C11 (as stated, refuted). A file whose bytes at offsets 128..131 are
0xC4 0x49 0x43 0x4D, not 0x44 0x49 0x43 0x4D: `buffer.toString('ascii')`
clears the high bit of every byte, the magic is read as "DICM", and `readFile`
with `untilTag = "7FE00010"` returns a document.  And a file whose first
element after the magic has the tag (0008,0060) and declares 10 value bytes
of which 2 are present: `readFile` fails with "Stream ended before reading 10
bytes", not with an "Invalid DICOM file" error. -/
theorem readFile_accepts_high_bit_magic :
    ((List.replicate 128 0 ++ [196, 73, 67, 77] ++ (exampleFile exampleBody).drop 132).drop
      128).take 4 ≠ [68, 73, 67, 77] ∧
    (∃ doc s5, DicomMessageAsync.readFile exampleDcmjs
        [List.replicate 128 0 ++ [196, 73, 67, 77] ++ (exampleFile exampleBody).drop 132]
        untilPixelData = .ok doc s5) ∧
    DicomMessageAsync.readFile exampleDcmjs
        [List.replicate 128 0 ++ asciiBytes "DICM" ++ encTag true 0x00080060 ++ [67, 83, 10, 0] ++
          [77, 82]] defaultOptions
      = .error (.streamEnded 10)
        { isLittleEndian := true, remainingBuffer := [77, 82], fileStream := .ended,
          decoder := "latin1" } :=
  ⟨by decide, ⟨_, _, rfl⟩, rfl⟩

/-- A file with the magic "DICX", and a file whose first element after the
magic is (0008,0060) CS "MR". -/
theorem readFile_invalid_container_witness :
    (∃ s2, DicomMessageAsync.readFile exampleDcmjs
        [List.replicate 128 0 ++ asciiBytes "DICX" ++ [1, 2, 3]] defaultOptions
        = .error .headerMissing s2 ∧ s2.unread = [1, 2, 3]) ∧
    (∃ s3, DicomMessageAsync.readFile exampleDcmjs
        [List.replicate 128 0 ++ asciiBytes "DICM" ++
          (explicitElement 0x00080060 "CS" [77, 82] ++ [1, 2, 3])] defaultOptions
        = .error .metaLengthMalformed s3 ∧ s3.unread = [1, 2, 3]) :=
  ⟨(readFile_invalid_container exampleDcmjs
      [List.replicate 128 0 ++ asciiBytes "DICX" ++ [1, 2, 3]] defaultOptions
      (List.replicate 128 0) (asciiBytes "DICX") [1, 2, 3] (by simp) rfl rfl).1 (by decide),
   ((readFile_invalid_container exampleDcmjs
      [List.replicate 128 0 ++ asciiBytes "DICM" ++
        (explicitElement 0x00080060 "CS" [77, 82] ++ [1, 2, 3])] defaultOptions
      (List.replicate 128 0) (asciiBytes "DICM")
      (explicitElement 0x00080060 "CS" [77, 82] ++ [1, 2, 3]) (by simp) rfl rfl).2 (by decide)
      0x00080060 ([67, 83, 2, 0, 77, 82] ++ [1, 2, 3]) (by decide) (by decide) (by decide)).2
      2 [67, 83] [0, 0] [77, 82] [1, 2, 3] .CS rfl rfl rfl (by decide) (by decide)
      (fun _ _ => by decide) trivial rfl rfl (by decide)⟩

/-! ## Values as arrays -/

/-- C16. An AS element with the declared length 0: `read` returns the bare
default value "", the destructuring `const { rawValue, value } = ""` gives
two `undefined`, and the element that `_readTag` returns holds `undefined` as
its values, which is not an array; `_read` stores it so.  A US element of
length 0 holds the array `[undefined]`, and an AT element of length 0, which
has no default value, makes `_readTag` throw a TypeError. -/
theorem readTag_zero_length_not_array :
    DicomMessageAsync._readTag exampleDcmjs
        (readerOf (explicitElement 0x00101010 "AS" [] ++ [9, 9])) "1.2.840.10008.1.2.1"
        defaultOptions
      = .ok { tag := 0x00101010, vr := some (.registered .AS), values := .one .undefined,
              rawValues := .one .undefined }
          { isLittleEndian := true, remainingBuffer := [9, 9], fileStream := .flowing [],
            decoder := "latin1" } ∧
    (∀ xs, JsVal.one .undefined ≠ .array xs) ∧
    DicomMessageAsync._readTag exampleDcmjs
        (readerOf (explicitElement 0x00280010 "US" [] ++ [9, 9])) "1.2.840.10008.1.2.1"
        defaultOptions
      = .ok { tag := 0x00280010, vr := some (.registered .US), values := .array [.undefined],
              rawValues := .array [.undefined] }
          { isLittleEndian := true, remainingBuffer := [9, 9], fileStream := .flowing [],
            decoder := "latin1" } ∧
    DicomMessageAsync._readTag exampleDcmjs
        (readerOf (explicitElement 0x00280009 "AT" [] ++ [9, 9])) "1.2.840.10008.1.2.1"
        defaultOptions
      = .error .typeError
          { isLittleEndian := true, remainingBuffer := [9, 9], fileStream := .flowing [],
            decoder := "latin1" } ∧
    (∃ dict s1,
      DicomMessageAsync._read exampleDcmjs
        (readerOf (explicitElement 0x00101010 "AS" [] ++ explicitElement 0x00080060 "CS" [77, 82]))
        "1.2.840.10008.1.2.1"
        { ignoreErrors := false, untilTag := some "00080060", includeUntilTagValue := true,
          forceStoreRaw := false } = .ok dict s1 ∧
      dict.lookup "00101010"
        = some { vr := some "AS", Value := .one .undefined, rawValue := .one .undefined }) :=
  ⟨rfl, (fun xs h => by cases h), rfl, rfl, ⟨_, _, rfl, rfl⟩⟩

/-! ## Encapsulated values -/

/-- C17 (as stated, refuted). Behind an offset table with the one entry 0 the
full decode reads one item: of the two items `[1, 2]` and `[3, 4]` it returns
the first and leaves the second unread, so the result has 1 entry for 2 items;
and with no item at all it reads the sequence delimiter as the frame and
returns `[null]`, 1 entry for 0 items. -/
theorem readBytes_one_entry_table_reads_one_item :
    (∃ t1, BinaryRepresentation.readBytes
        (readerOf (encapsulatedLayout true [0] [[1, 2], [3, 4]])) (some 0xffffffff)
        = .ok [some [1, 2]] t1 ∧
      t1.unread = itemLayout true [3, 4] ++ delimiterLayout true) ∧
    [some [1, 2]].length ≠ [[1, 2], [3, 4]].length ∧
    (∃ t1, BinaryRepresentation.readBytes
        (readerOf (encapsulatedLayout true [0] [])) (some 0xffffffff) = .ok [none] t1) ∧
    [(none : Option (List Nat))].length ≠ ([] : List (List Nat)).length :=
  ⟨⟨_, rfl, rfl⟩, by decide, ⟨_, rfl⟩, by decide⟩

/-- C17 (amended). For an undefined-length value made of an offset-table
item, `N` items and a sequence delimiter, whose offset table is empty or holds
exactly `N` strictly increasing offsets, `BinaryRepresentation.readBytes`
returns exactly `N` frames, the i-th being the payload of the i-th item. -/
theorem readBytes_frame_per_item (t : DicomReadableBufferStream) (offs : List Nat)
    (items : List (List Nat)) (rest : List Nat)
    (ht : t.unread = encapsulatedLayout t.isLittleEndian offs items ++ rest)
    (hinc : offs.Chain' (· < ·)) (hcount : offs ≠ [] → items.length = offs.length)
    (hb : ∀ o ∈ offs, o < 4294967296) (hn : 4 * offs.length < 4294967296)
    (hp : ∀ p ∈ items, p.length < 4294967296) :
    ∃ frames t1, BinaryRepresentation.readBytes t (some 0xffffffff) = .ok frames t1 ∧
      frames.length = items.length ∧
      ∀ i (hi : i < items.length), frames[i]? = some (some items[i]) := by
  obtain ⟨t1, e1, _, _⟩ := readBytes_frames t offs items rest ht hinc hcount hb hn hp
  refine ⟨items.map some, t1, e1, by simp, fun i hi => ?_⟩
  simp [List.getElem?_map, List.getElem?_eq_getElem hi]

/-- Three items behind the offset table `[0, 12, 22]`. -/
theorem readBytes_frame_per_item_witness :
    ∃ frames t1, BinaryRepresentation.readBytes
        (readerOf (encapsulatedLayout true [0, 12, 22] [[1, 2, 3, 4], [5, 6], [7, 8]] ++ [9]))
        (some 0xffffffff) = .ok frames t1 ∧
      frames.length = 3 ∧
      ∀ i (hi : i < [[1, 2, 3, 4], [5, 6], [7, 8]].length),
        frames[i]? = some (some [[1, 2, 3, 4], [5, 6], [7, 8]][i]) :=
  readBytes_frame_per_item
    (readerOf (encapsulatedLayout true [0, 12, 22] [[1, 2, 3, 4], [5, 6], [7, 8]] ++ [9]))
    [0, 12, 22] [[1, 2, 3, 4], [5, 6], [7, 8]] [9] rfl (by simp) (fun _ => rfl)
    (by decide) (by decide) (by decide)

/-- C18. An undefined-length value with the offset table `[0]`, the item
`[1, 2, 3, 4]` and the sequence delimiter, followed by the element
(FFFC,FFFC): the full decode returns the frame and leaves the 8 bytes of the
sequence delimiter unread, where the same value with an empty offset table
leaves the reader at the element that follows.  The dataset loop then decodes
the delimiter as an element: at the end of the stream the dataset gets the
key "FFFEE0DD", and before the element (FFFC,FFFC) the bogus element swallows
that element's bytes as its header and the parse is rejected. -/
theorem readBytes_leaves_delimiter_unread :
    (∃ t1, BinaryRepresentation.readBytes
        (readerOf (encapsulatedLayout true [0] [[1, 2, 3, 4]] ++
          explicitElement 0xfffcfffc "OB" [0, 0])) (some 0xffffffff)
        = .ok [some [1, 2, 3, 4]] t1 ∧
      t1.unread = delimiterLayout true ++ explicitElement 0xfffcfffc "OB" [0, 0]) ∧
    (∃ t1, BinaryRepresentation.readBytes
        (readerOf (encapsulatedLayout true [] [[1, 2, 3, 4]] ++
          explicitElement 0xfffcfffc "OB" [0, 0])) (some 0xffffffff)
        = .ok [some [1, 2, 3, 4]] t1 ∧
      t1.unread = explicitElement 0xfffcfffc "OB" [0, 0]) ∧
    (∃ dict s1, DicomMessageAsync._read exampleDcmjs
        (readerOf (encTag true 0x7fe00010 ++ obUndefinedHeader ++
          encapsulatedLayout true [0] [[1, 2, 3, 4]])) "1.2.840.10008.1.2.1" defaultOptions
        = .ok dict s1 ∧
      dict.map Prod.fst = ["7FE00010", "FFFEE0DD"]) ∧
    (∃ s1, DicomMessageAsync._read exampleDcmjs
        (readerOf (encTag true 0x7fe00010 ++ obUndefinedHeader ++
          encapsulatedLayout true [0] [[1, 2, 3, 4]] ++ explicitElement 0xfffcfffc "OB" [0, 0]))
        "1.2.840.10008.1.2.1" defaultOptions = .error (.streamEnded 4294770684) s1) :=
  ⟨⟨_, rfl, rfl⟩, ⟨_, rfl, rfl⟩, ⟨_, _, rfl, rfl⟩, ⟨_, rfl⟩⟩

/-- C19. An undefined-length value whose first tag is (0008,0060), not the
item tag: `BinaryRepresentation.readBytes` resolves with the empty list of
frames after reading the 4 bytes of the tag, where `readFrame` fails with "Item
tag not found after undefined binary length" on the same value.  A tag that is
neither item nor delimiter where a frame is expected, and a delimiter with a
length that is not zero, do make `readBytes` fail. -/
theorem readBytes_missing_item_tag_returns_empty :
    (∃ t1, BinaryRepresentation.readBytes
        (readerOf (encTag true 0x00080060 ++ [1, 2, 3, 4, 5, 6])) (some 0xffffffff)
        = .ok [] t1 ∧ t1.unread = [1, 2, 3, 4, 5, 6]) ∧
    (∃ s1, readFrame (readerOf (obUndefinedHeader ++ encTag true 0x00080060 ++
        [1, 2, 3, 4, 5, 6])) 0 = .error .itemTagNotFound s1) ∧
    (∃ t1, BinaryRepresentation.readBytes
        (readerOf (offsetTableLayout true [] ++ encTag true 0x00080060 ++ [1, 2, 3, 4, 5, 6]))
        (some 0xffffffff) = .error .invalidTagInSequence t1) ∧
    (∃ t1, BinaryRepresentation.readBytes
        (readerOf (offsetTableLayout true [] ++ encTag true 0xfffee0dd ++ [1, 0, 0, 0, 5, 6]))
        (some 0xffffffff) = .error .delimiterNotZero t1) :=
  ⟨⟨_, rfl, rfl⟩, ⟨_, rfl⟩, ⟨_, rfl⟩, ⟨_, rfl⟩⟩

/-! ## Sequences of explicit length -/

/-- C20. A sequence of the declared length 16 whose 16 bytes are one empty
item of undefined length (item tag, length 0xFFFFFFFF, item delimiter with
length 0), followed by the element (0008,0060) CS "MR" and three more bytes:
the running count stands at 8 after the item, `SequenceOfItems.readBytes`
reads on, and it returns after 24 bytes, 8 of them from the element behind the
sequence.  With the element (0008,0060) inside the item, a sequence of the
declared length 26, exactly 26 bytes are consumed. -/
theorem readBytes_empty_undefined_item_overruns :
    (encTag true 0xfffee000 ++ enc32 true 0xffffffff ++ encTag true 0xfffee00d ++
      enc32 true 0).length = 16 ∧
    (∃ s1, SequenceOfItems.readBytes exampleDcmjs
        (readerOf (encTag true 0xfffee000 ++ enc32 true 0xffffffff ++ encTag true 0xfffee00d ++
          enc32 true 0 ++ explicitElement 0x00080060 "CS" [77, 82] ++ [5, 5, 5]))
        (some 16) "1.2.840.10008.1.2.1" = .ok [] s1 ∧
      s1.unread = [77, 82, 5, 5, 5] ∧
      s1.unread ≠ explicitElement 0x00080060 "CS" [77, 82] ++ [5, 5, 5]) ∧
    (∃ item s1, SequenceOfItems.readBytes exampleDcmjs
        (readerOf (encTag true 0xfffee000 ++ enc32 true 0xffffffff ++
          explicitElement 0x00080060 "CS" [77, 82] ++ encTag true 0xfffee00d ++ enc32 true 0 ++
          explicitElement 0x00080060 "CS" [77, 82] ++ [5, 5, 5]))
        (some 26) "1.2.840.10008.1.2.1" = .ok [item] s1 ∧
      s1.unread = explicitElement 0x00080060 "CS" [77, 82] ++ [5, 5, 5]) :=
  ⟨rfl, ⟨_, rfl, rfl, by decide⟩, ⟨_, _, rfl, rfl⟩⟩

/-! ## The registry of value representations -/

/-- C30. `createByTypeString` is a total function of the code: for a
two-character code it returns the registered descriptor whose `type` is that
code when there is one, the OW descriptor for "ox", the US descriptor for
"xs", and the UN descriptor for every other code.  (The registry is a plain
object; the names it inherits, such as "constructor", all have more than two
characters.) -/
theorem createByTypeString_fallbacks (type : String) (h2 : type.length = 2) :
    (∀ c : VRCode, type = c.type → createByTypeString type = c ∧
      (createByTypeString type).type = type) ∧
    (type = "ox" → createByTypeString type = .OW) ∧
    (type = "xs" → createByTypeString type = .US) ∧
    ((∀ c : VRCode, type ≠ c.type) → type ≠ "ox" → type ≠ "xs" →
      createByTypeString type = .UN) := by
  refine ⟨fun c hc => ?_, fun h => ?_, fun h => ?_, fun hall hox hxs => ?_⟩
  · subst hc
    rw [createByTypeString_type]
    exact ⟨rfl, rfl⟩
  · subst h; rfl
  · subst h; rfl
  · have hnone : VRinstances type = none := by
      unfold VRinstances
      rw [List.find?_eq_none]
      intro c _
      simp only [beq_iff_eq]
      exact fun h => hall c h.symm
    unfold createByTypeString
    rw [hnone]
    simp [hox, hxs]

/-- The code "ZZ" is not registered and gets the UN descriptor; "US" gets its
own descriptor. -/
theorem createByTypeString_fallbacks_witness :
    createByTypeString "ZZ" = .UN ∧
    (createByTypeString "US" = .US ∧ (createByTypeString "US").type = "US") :=
  ⟨(createByTypeString_fallbacks "ZZ" (by decide)).2.2.2
      (fun c => by cases c <;> decide) (by decide) (by decide),
    (createByTypeString_fallbacks "US" (by decide)).1 .US rfl⟩

/-! ## The specific character set -/

theorem mem_setKey (dict : List (String × Element)) (key : String) (element : Element)
    (p : String × Element) (hp : p ∈ setKey dict key element) :
    p = (key, element) ∨ (p ∈ dict ∧ p.1 ≠ key) := by
  unfold setKey at hp
  split at hp
  · rw [List.mem_map] at hp
    obtain ⟨q, hq, hqp⟩ := hp
    by_cases hk : (q.1 == key) = true
    · rw [if_pos hk] at hqp
      exact Or.inl hqp.symm
    · rw [if_neg hk] at hqp
      subst hqp
      exact Or.inr ⟨hq, by simpa using hk⟩
  · rw [List.mem_append, List.mem_singleton] at hp
    rcases hp with hp | hp
    · rename_i hany
      refine Or.inr ⟨hp, fun hk => hany ?_⟩
      rw [List.any_eq_true]
      exact ⟨p, hp, by simpa using hk⟩
    · exact Or.inl hp

theorem characterSetStep_value (d : Dcmjs) (options : Options) (readInfo : ReadInfo)
    (s1 s2 : DicomReadableBufferStream) (values : JsVal)
    (h : characterSetStep d options readInfo s1 = .ok values s2)
    (htag : toCleanString readInfo.tag = "00080005") :
    values = .array [.string "ISO_IR 192"] := by
  unfold characterSetStep at h
  rw [if_pos htag] at h
  cases hc : applyCharacterSet d options readInfo.values s1 with
  | ok u s3 =>
    rw [hc] at h
    simp only [Res.bind, Res.ok.injEq] at h
    exact h.1.symm
  | error e s3 => rw [hc] at h; cases h
  | pending => rw [hc] at h; cases h
  | outOfFuel => rw [hc] at h; cases h

/-- The loop of `_read` keeps the invariant that an entry stored under the key
"00080005" has the rewritten value. -/
theorem readElements_character_set (d : Dcmjs) (transferSyntax : String) (options : Options) :
    ∀ (fuel : Nat) (s s1 : DicomReadableBufferStream) (dict0 dict : List (String × Element)),
      (∀ p ∈ dict0, p.1 = "00080005" → p.2.Value = .array [.string "ISO_IR 192"]) →
      readElements d transferSyntax options fuel s dict0 = .ok dict s1 →
      ∀ p ∈ dict, p.1 = "00080005" → p.2.Value = .array [.string "ISO_IR 192"] := by
  intro fuel
  induction fuel with
  | zero => intro s s1 dict0 dict _ h; cases h
  | succ fuel ih =>
    intro s s1 dict0 dict h0 h
    unfold readElements at h
    split at h
    · injection h with hd _
      subst hd
      exact h0
    · cases hrt : DicomMessageAsync._readTag d s transferSyntax options with
      | ok readInfo t1 =>
        rw [hrt] at h
        simp only [Res.bind] at h
        cases hcs : characterSetStep d options readInfo t1 with
        | ok values t2 =>
          rw [hcs] at h
          simp only at h
          have hnew : ∀ p ∈ setKey dict0 (toCleanString readInfo.tag)
              { vr := readInfo.vr.map VRInst.type, Value := values,
                rawValue := readInfo.rawValues },
              p.1 = "00080005" → p.2.Value = .array [.string "ISO_IR 192"] := by
            intro p hp hk
            rcases mem_setKey _ _ _ p hp with hp | ⟨hp, _⟩
            · subst hp
              exact characterSetStep_value d options readInfo t1 t2 values hcs hk
            · exact h0 p hp hk
          split at h
          · injection h with hd _
            subst hd
            exact hnew
          · exact ih t2 s1 _ dict hnew h
        | error e t2 => rw [hcs] at h; cases h
        | pending => rw [hcs] at h; cases h
        | outOfFuel => rw [hcs] at h; cases h
      | error e t1 => rw [hrt] at h; cases h
      | pending => rw [hrt] at h; cases h
      | outOfFuel => rw [hrt] at h; cases h

/-- C24. Whenever `_read` returns a dataset, every entry it holds under the
key "00080005" has the Value `["ISO_IR 192"]`, and so has the entry a lookup
of that key finds: whatever the element declared (a recognized name, an empty
value, a value that is no array of strings), either `_read` fails or the
stored value is the rewritten one. -/
theorem read_character_set_rewritten (d : Dcmjs) (s s1 : DicomReadableBufferStream)
    (transferSyntax : String) (options : Options) (dict : List (String × Element))
    (h : DicomMessageAsync._read d s transferSyntax options = .ok dict s1) :
    (∀ p ∈ dict, p.1 = "00080005" → p.2.Value = .array [.string "ISO_IR 192"]) ∧
    (∀ e, dict.lookup "00080005" = some e → e.Value = .array [.string "ISO_IR 192"]) := by
  have hall := readElements_character_set d transferSyntax options _ s s1 [] dict
    (fun p hp => by cases hp) h
  refine ⟨hall, fun e he => ?_⟩
  have hmem : ("00080005", e) ∈ dict := by
    clear hall h
    induction dict with
    | nil => cases he
    | cons q qs ih =>
      obtain ⟨k, v⟩ := q
      by_cases hk : "00080005" = k
      · subst hk
        simp only [List.lookup_cons, beq_self_eq_true, Option.some.injEq] at he
        subst he
        exact List.mem_cons_self _ _
      · have : ("00080005" == k) = false := by simpa using hk
        simp only [List.lookup_cons, this] at he
        exact List.mem_cons_of_mem _ (ih he)
  exact hall _ hmem rfl

/-- A dataset that declares "ISO_IR 100" is stored with `["ISO_IR 192"]`; the
raw value keeps what the file declared. -/
theorem read_character_set_rewritten_witness :
    ∃ dict s1,
      DicomMessageAsync._read exampleDcmjs
        (readerOf (explicitElement 0x00080005 "CS" (asciiBytes "ISO_IR 100") ++
          explicitElement 0x00080060 "CS" [77, 82])) "1.2.840.10008.1.2.1"
        { ignoreErrors := false, untilTag := some "00080060", includeUntilTagValue := true,
          forceStoreRaw := false } = .ok dict s1 ∧
      dict.map Prod.fst = ["00080005", "00080060"] ∧
      (dict.lookup "00080005").map Element.rawValue = some (.array [.string "ISO_IR 100"]) ∧
      ((∀ p ∈ dict, p.1 = "00080005" → p.2.Value = .array [.string "ISO_IR 192"]) ∧
        (∀ e, dict.lookup "00080005" = some e → e.Value = .array [.string "ISO_IR 192"])) :=
  ⟨_, _, rfl, rfl, rfl, read_character_set_rewritten exampleDcmjs
    (readerOf (explicitElement 0x00080005 "CS" (asciiBytes "ISO_IR 100") ++
      explicitElement 0x00080060 "CS" [77, 82])) _ "1.2.840.10008.1.2.1"
    { ignoreErrors := false, untilTag := some "00080060", includeUntilTagValue := true,
      forceStoreRaw := false } _ rfl⟩

/-- C25. With `ignoreErrors = true`, `_read` fails on a character-set element
whose first value is not a recognized name, and on one with several values:
the lenient branch evaluates `log.warn`, and `log` is bound nowhere in the
module, so a ReferenceError is thrown in place of the error of the strict
mode.  The four evaluations are on datasets whose second element is
(0008,0060) CS "MR"; the last part holds for every collaborator `d`: with
`ignoreErrors = true` the character-set block never completes on an
unrecognized first value. -/
theorem read_lenient_character_set_fails :
    (∃ s1, DicomMessageAsync._read exampleDcmjs
        (readerOf (explicitElement 0x00080005 "CS" (asciiBytes "ISO_IR 999 ") ++
          explicitElement 0x00080060 "CS" [77, 82])) "1.2.840.10008.1.2.1"
        { ignoreErrors := true, untilTag := none, includeUntilTagValue := false,
          forceStoreRaw := false } = .error .referenceError s1) ∧
    (∃ s1, DicomMessageAsync._read exampleDcmjs
        (readerOf (explicitElement 0x00080005 "CS" (asciiBytes "ISO_IR 100\\ISO_IR 101 ") ++
          explicitElement 0x00080060 "CS" [77, 82])) "1.2.840.10008.1.2.1"
        { ignoreErrors := true, untilTag := none, includeUntilTagValue := false,
          forceStoreRaw := false } = .error .referenceError s1) ∧
    (∃ s1, DicomMessageAsync._read exampleDcmjs
        (readerOf (explicitElement 0x00080005 "CS" (asciiBytes "ISO_IR 999 ") ++
          explicitElement 0x00080060 "CS" [77, 82])) "1.2.840.10008.1.2.1"
        defaultOptions = .error .unsupportedCharacterSet s1) ∧
    (∃ s1, DicomMessageAsync._read exampleDcmjs
        (readerOf (explicitElement 0x00080005 "CS" (asciiBytes "ISO_IR 100\\ISO_IR 101 ") ++
          explicitElement 0x00080060 "CS" [77, 82])) "1.2.840.10008.1.2.1"
        defaultOptions = .error .multipleCharacterSets s1) ∧
    (∀ (d : Dcmjs) (options : Options) (coding : String) (rest : List JsAtom)
        (s : DicomReadableBufferStream), options.ignoreErrors = true →
      encodingMapping.lookup (d.toLowerCase (dashes coding)) = none →
      ∀ s1, applyCharacterSet d options (.array (.string coding :: rest)) s ≠ .ok () s1) := by
  refine ⟨⟨_, rfl⟩, ⟨_, rfl⟩, ⟨_, rfl⟩, ⟨_, rfl⟩, ?_⟩
  intro d options coding rest s hign hnone s1
  simp only [applyCharacterSet, jsLength, Option.getD_some, List.length_cons, hnone, hign]
  rw [if_pos (Nat.succ_pos _)]
  by_cases hc : d.toLowerCase (dashes coding) = "constructor"
  · simp [hc, Res.bind]
  · simp [hc, Res.bind]

/-- C26. The dataset of a sequence item is decoded from a fresh
`ReadBufferStream` built from the item's bytes and the endianness only: the
value `SequenceOfItems.readBytes` returns for an item is the same whatever
decoder the reader carries ("utf-8", "shift-jis"), for items of explicit and
of undefined length, and `_read` stores the same item value for a sequence
that follows the element (0008,0005) = "ISO_IR 192", after which the reader's
decoder is "utf-8", as for the sequence alone, where it is "latin1".  The
item holds the LO element (0010,0020) with the bytes C3 A9. -/
theorem readBytes_item_ignores_decoder :
    (∃ s1, SequenceOfItems.readBytes exampleDcmjs
        ((readerOf (itemLayout true (explicitElement 0x00100020 "LO" [195, 169]) ++
          [9])).setDecoder "utf-8") (some 18) "1.2.840.10008.1.2.1"
        = .ok [.item "1.2.840.10008.1.2.1" true (explicitElement 0x00100020 "LO" [195, 169])] s1 ∧
      s1.decoder = "utf-8") ∧
    (∃ s1, SequenceOfItems.readBytes exampleDcmjs
        ((readerOf (itemLayout true (explicitElement 0x00100020 "LO" [195, 169]) ++
          [9])).setDecoder "shift-jis") (some 18) "1.2.840.10008.1.2.1"
        = .ok [.item "1.2.840.10008.1.2.1" true (explicitElement 0x00100020 "LO" [195, 169])] s1 ∧
      s1.decoder = "shift-jis") ∧
    (∃ s1, SequenceOfItems.readBytes exampleDcmjs
        ((readerOf (undefinedItemLayout true (explicitElement 0x00100020 "LO" [195, 169]) ++
          delimiterLayout true ++ [9])).setDecoder "utf-8") (some 0xffffffff)
          "1.2.840.10008.1.2.1"
        = .ok [.item "1.2.840.10008.1.2.1" true (explicitElement 0x00100020 "LO" [195, 169])] s1 ∧
      s1.decoder = "utf-8") ∧
    (∃ dict s1, DicomMessageAsync._read exampleDcmjs
        (readerOf (explicitElement 0x00080005 "CS" (asciiBytes "ISO_IR 192") ++
          sqUndefinedHeader 0x00081140 ++
          itemLayout true (explicitElement 0x00100020 "LO" [195, 169]) ++ delimiterLayout true))
        "1.2.840.10008.1.2.1"
        { ignoreErrors := false, untilTag := some "00081140", includeUntilTagValue := true,
          forceStoreRaw := false } = .ok dict s1 ∧
      s1.decoder = "utf-8" ∧
      (dict.lookup "00081140").map Element.Value
        = some (.array [.item "1.2.840.10008.1.2.1" true
            (explicitElement 0x00100020 "LO" [195, 169])])) ∧
    (∃ dict s1, DicomMessageAsync._read exampleDcmjs
        (readerOf (sqUndefinedHeader 0x00081140 ++
          itemLayout true (explicitElement 0x00100020 "LO" [195, 169]) ++ delimiterLayout true))
        "1.2.840.10008.1.2.1"
        { ignoreErrors := false, untilTag := some "00081140", includeUntilTagValue := true,
          forceStoreRaw := false } = .ok dict s1 ∧
      s1.decoder = "latin1" ∧
      (dict.lookup "00081140").map Element.Value
        = some (.array [.item "1.2.840.10008.1.2.1" true
            (explicitElement 0x00100020 "LO" [195, 169])])) :=
  ⟨⟨_, rfl, rfl⟩, ⟨_, rfl, rfl⟩, ⟨_, rfl, rfl⟩, ⟨_, _, rfl, rfl, rfl⟩, ⟨_, _, rfl, rfl, rfl⟩⟩

/-! ## Sequences of items -/

/-- C23. Where an item is required, `SequenceOfItems.readBytes` does not fail
on a tag that is neither (FFFE,E000) nor (FFFE,E0DD): it counts the 4 bytes
and reads the next tag.  A stray tag in front of an item is skipped and the
item is returned; a whole stray element misaligns the scan, which then returns
no item at all, without an error; in a sequence of explicit length two stray
tags are skipped and counted.  The loop of the encapsulated pixel data
(`BinaryRepresentation.readBytes`) throws "Invalid tag in sequence" in the same
situation. -/
theorem readBytes_skips_unexpected_tag :
    (∃ s1, SequenceOfItems.readBytes exampleDcmjs
        (readerOf (encTag true 0x00080060 ++
          itemLayout true (explicitElement 0x00080060 "CS" [77, 82]) ++ delimiterLayout true ++
          [7])) (some 0xffffffff) "1.2.840.10008.1.2.1"
        = .ok [.item "1.2.840.10008.1.2.1" true (explicitElement 0x00080060 "CS" [77, 82])] s1 ∧
      s1.unread = [7]) ∧
    (∃ s1, SequenceOfItems.readBytes exampleDcmjs
        (readerOf (explicitElement 0x00080060 "CS" [77, 82] ++
          itemLayout true (explicitElement 0x00080060 "CS" [77, 82]) ++ delimiterLayout true ++
          [7])) (some 0xffffffff) "1.2.840.10008.1.2.1" = .ok [] s1 ∧
      s1.unread = [7]) ∧
    (∃ s1, SequenceOfItems.readBytes exampleDcmjs
        (readerOf (encTag true 0x00080060 ++ encTag true 0x00080061 ++
          itemLayout true (explicitElement 0x00080060 "CS" [77, 82]) ++ [7, 7]))
        (some 26) "1.2.840.10008.1.2.1"
        = .ok [.item "1.2.840.10008.1.2.1" true (explicitElement 0x00080060 "CS" [77, 82])] s1 ∧
      s1.unread = [7, 7]) ∧
    (∃ t1, BinaryRepresentation.readBytes
        (readerOf (offsetTableLayout true [] ++ encTag true 0x00080060 ++
          itemLayout true [1, 2] ++ delimiterLayout true))
        (some 0xffffffff) = .error .invalidTagInSequence t1) :=
  ⟨⟨_, rfl, rfl⟩, ⟨_, rfl, rfl⟩, ⟨_, rfl, rfl⟩, ⟨_, rfl⟩⟩

/-- C22. The scan of an undefined-length item reads the 6 bytes that follow a
word 0xFFFE as an item header, wherever that word stands.  An item whose last
element is (0028,0106) US with the value 0xFFFE is well formed, but the scan
takes the value and the first 6 bytes of the item delimiter as one header,
misses the delimiter and runs to the end of the stream: the sequence fails,
alone and when another item and further elements follow.  When the same
element is followed by another element in the item the scan stops at the
right delimiter.  On a big-endian reader the captured range is not the item's
content: every 16-bit word of it is byte-swapped.  The nested case of the
scenario (an item holding an undefined-length sequence with one
undefined-length item) decodes to one item holding exactly its content. -/
theorem readBytes_scan_misses_delimiter :
    (∃ s1, SequenceOfItems.readBytes exampleDcmjs
        (readerOf (undefinedItemLayout true (explicitElement 0x00280106 "US" [254, 255]) ++
          delimiterLayout true)) (some 0xffffffff) "1.2.840.10008.1.2.1"
        = .error (.streamEnded 2) s1) ∧
    (∃ s1, SequenceOfItems.readBytes exampleDcmjs
        (readerOf (undefinedItemLayout true (explicitElement 0x00280106 "US" [254, 255]) ++
          undefinedItemLayout true (explicitElement 0x00080060 "CS" [77, 82]) ++
          delimiterLayout true ++ explicitElement 0x00080060 "CS" [77, 82]))
        (some 0xffffffff) "1.2.840.10008.1.2.1" = .error (.streamEnded 2) s1) ∧
    (∃ s1, SequenceOfItems.readBytes exampleDcmjs
        (readerOf (undefinedItemLayout true
            (explicitElement 0x00280106 "US" [254, 255] ++
              explicitElement 0x00080060 "CS" [77, 82]) ++
          delimiterLayout true ++ [7])) (some 0xffffffff) "1.2.840.10008.1.2.1"
        = .ok [.item "1.2.840.10008.1.2.1" true
            (explicitElement 0x00280106 "US" [254, 255] ++
              explicitElement 0x00080060 "CS" [77, 82])] s1 ∧
      s1.unread = [7]) ∧
    (∃ s1, SequenceOfItems.readBytes exampleDcmjs
        ((readerOf (undefinedItemLayout false [0, 8, 0, 96, 67, 83, 0, 2, 77, 82] ++
          delimiterLayout false ++ [7])).setEndian false) (some 0xffffffff) "1.2.840.10008.1.2.2"
        = .ok [.item "1.2.840.10008.1.2.2" false [8, 0, 96, 0, 83, 67, 2, 0, 82, 77]] s1 ∧
      s1.unread = [7]) ∧
    (∃ s1, SequenceOfItems.readBytes exampleDcmjs
        (readerOf (undefinedItemLayout true (sqUndefinedHeader 0x00081140 ++
            undefinedItemLayout true (explicitElement 0x00080060 "CS" [77, 82]) ++
            delimiterLayout true) ++
          delimiterLayout true ++ [7])) (some 0xffffffff) "1.2.840.10008.1.2.1"
        = .ok [.item "1.2.840.10008.1.2.1" true (sqUndefinedHeader 0x00081140 ++
            undefinedItemLayout true (explicitElement 0x00080060 "CS" [77, 82]) ++
            delimiterLayout true)] s1 ∧
      s1.unread = [7]) :=
  ⟨⟨_, rfl⟩, ⟨_, rfl⟩, ⟨_, rfl, rfl⟩, ⟨_, rfl, rfl⟩, ⟨_, rfl, rfl⟩⟩

theorem scanToken_bytes_length (le : Bool) (t : ScanToken) :
    (t.bytes le).length = (t.bytes true).length ∧ 2 ≤ (t.bytes le).length := by
  cases t <;> simp [ScanToken.bytes, enc16_length, enc32_length]

theorem tokens_bytes_length (le : Bool) (tokens : List ScanToken) :
    (tokens.map (ScanToken.bytes le)).flatten.length
        = (tokens.map (ScanToken.bytes true)).flatten.length ∧
      tokens.length ≤ (tokens.map (ScanToken.bytes le)).flatten.length := by
  induction tokens with
  | nil => simp
  | cons t ts ih =>
    have h := scanToken_bytes_length le t
    simp only [List.map_cons, List.flatten_cons, List.length_append, List.length_cons]
    omega

theorem wordBytes_enc16 (g : Nat) : wordBytes g = enc16 true g := rfl

theorem lengthBytes_enc32 (n : Nat) (h : n < 4294967296) : lengthBytes n = enc32 true n := by
  have hm : n % 4294967296 = n := Nat.mod_eq_of_lt h
  unfold lengthBytes toInt32
  rw [hm]
  simp only [enc32, if_true]
  split <;>
    (simp only [List.cons.injEq, and_true]
     refine ⟨?_, ?_, ?_, ?_⟩ <;> omega)

/-- The scan of an undefined-length item over well-formed tokens that close
every level they open: it stops at the item delimiter behind them, with the
tokens and the delimiter stored in little-endian order. -/
theorem scanItem_tokens (le : Bool) (rest : List Nat) :
    ∀ (tokens : List ScanToken) (fuel : Nat) (s : DicomReadableBufferStream) (stack : Nat)
      (buf : List Nat),
      (∀ t ∈ tokens, t.wellFormed = true) → scanDepth stack tokens = some 0 →
      s.isLittleEndian = le →
      s.unread = (tokens.map (ScanToken.bytes le)).flatten ++ (itemDelimiterLayout le ++ rest) →
      tokens.length < fuel →
      ∃ s1, scanItem fuel s (stack : Int) buf
          = .ok (buf ++ (tokens.map (ScanToken.bytes true)).flatten ++ itemDelimiterLayout true,
              (buf ++ (tokens.map (ScanToken.bytes true)).flatten).length) s1 ∧
        s1.unread = rest ∧ Same s s1 := by
  intro tokens
  induction tokens with
  | nil =>
    intro fuel s stack buf _ hdepth hle hs hfuel
    obtain ⟨fuel, rfl⟩ : ∃ f, fuel = f + 1 := ⟨fuel - 1, by simp at hfuel; omega⟩
    simp only [scanDepth, Option.some.injEq] at hdepth
    subst hdepth
    simp only [List.map_nil, List.flatten_nil, List.nil_append, itemDelimiterLayout, encTag,
      List.append_assoc] at hs
    rw [← hle] at hs
    obtain ⟨s1, e1, e2, e3⟩ := readUint16_layout s _ _ hs (by norm_num)
    rw [← e3.1] at e2
    obtain ⟨s2, f1, f2, f3⟩ := readUint16_layout s1 _ _ e2 (by norm_num)
    rw [← f3.1] at f2
    obtain ⟨s3, g1, g2, g3⟩ := readUint32_layout s2 _ _ f2 (by norm_num)
    refine ⟨s3, ?_, g2, same_trans (same_trans e3 f3) g3⟩
    simp only [scanItem, e1, Res.bind, f1, g1]
    rw [lengthBytes_enc32 0 (by norm_num)]
    norm_num [itemDelimiterLayout, encTag, enc16, enc32, wordBytes]
  | cons t ts ih =>
    intro fuel s stack buf hwf hdepth hle hs hfuel
    obtain ⟨fuel, rfl⟩ : ∃ f, fuel = f + 1 := ⟨fuel - 1, by simp at hfuel; omega⟩
    have hfuel2 : ts.length < fuel := by simpa using hfuel
    have hwf2 : ∀ t ∈ ts, t.wellFormed = true := fun x hx => hwf x (List.mem_cons_of_mem _ hx)
    have hwt := hwf t (List.mem_cons_self _ _)
    cases t with
    | word g =>
      simp only [ScanToken.wellFormed, Bool.and_eq_true, decide_eq_true_eq] at hwt
      simp only [List.map_cons, List.flatten_cons, ScanToken.bytes, List.append_assoc] at hs
      rw [← hle] at hs
      obtain ⟨s1, e1, e2, e3⟩ := readUint16_layout s g _ hs hwt.1
      rw [hle] at e2
      obtain ⟨s2, f1, f2, f3⟩ := ih fuel s1 stack (buf ++ wordBytes g) hwf2
        (by simpa [scanDepth] using hdepth) (e3.1.trans hle) e2 hfuel2
      refine ⟨s2, ?_, f2, same_trans e3 f3⟩
      simp only [scanItem, e1, Res.bind, if_neg hwt.2, f1]
      simp [ScanToken.bytes, wordBytes_enc16]
    | control ge len =>
      simp only [ScanToken.wellFormed, Bool.and_eq_true, decide_eq_true_eq] at hwt
      simp only [List.map_cons, List.flatten_cons, ScanToken.bytes, List.append_assoc] at hs
      rw [← hle] at hs
      obtain ⟨s1, e1, e2, e3⟩ := readUint16_layout s _ _ hs (by norm_num)
      rw [← e3.1] at e2
      obtain ⟨s2, f1, f2, f3⟩ := readUint16_layout s1 ge _ e2 hwt.1
      rw [← f3.1] at f2
      obtain ⟨s3, g1, g2, g3⟩ := readUint32_layout s2 len _ f2 hwt.2
      have hle3 : s3.isLittleEndian = le := by
        rw [g3.1, f3.1, e3.1, hle]
      have hs3 : s3.unread = (ts.map (ScanToken.bytes le)).flatten ++
          (itemDelimiterLayout le ++ rest) := by
        rw [g2, f3.1, e3.1, hle]
      have hsame := same_trans (same_trans e3 f3) g3
      have hbuf : buf ++ [0xfe, 0xff] ++ wordBytes ge ++ lengthBytes len
          = buf ++ ScanToken.bytes true (.control ge len) := by
        simp [ScanToken.bytes, wordBytes_enc16, lengthBytes_enc32 len hwt.2, enc16]
      have hstep : ∀ (k : Nat), scanDepth k ts = some 0 →
          ∃ s4, scanItem fuel s3 (k : Int) (buf ++ [0xfe, 0xff] ++ wordBytes ge ++ lengthBytes len)
            = .ok (buf ++ ((ScanToken.control ge len :: ts).map (ScanToken.bytes true)).flatten ++
                itemDelimiterLayout true,
              (buf ++ ((ScanToken.control ge len :: ts).map
                (ScanToken.bytes true)).flatten).length) s4 ∧
            s4.unread = rest ∧ Same s s4 := by
        intro k hk
        obtain ⟨s4, h1, h2, h3⟩ := ih fuel s3 k _ hwf2 hk hle3 hs3 hfuel2
        refine ⟨s4, ?_, h2, same_trans hsame h3⟩
        rw [h1, hbuf]
        simp
      simp only [scanItem, e1, Res.bind, f1, g1, if_true]
      simp only [scanDepth] at hdepth
      by_cases hd : ge = 0xe00d
      · by_cases hl : len = 0
        · rw [if_pos ⟨hd, hl⟩] at hdepth
          by_cases h0 : stack = 0
          · rw [if_pos h0] at hdepth
            cases hdepth
          · rw [if_neg h0] at hdepth
            obtain ⟨s4, h1, h2, h3⟩ := hstep (stack - 1) hdepth
            refine ⟨s4, ?_, h2, h3⟩
            have hcast : ((stack : Int) - 1) = ((stack - 1 : Nat) : Int) := by omega
            have hneg : ¬ ((stack : Int) - 1 < 0) := by omega
            rw [if_pos hd, if_pos hl, if_neg hneg, hcast]
            exact h1
        · rw [if_neg (fun h => hl h.2)] at hdepth
          have hne : ¬ (ge = 0xe000 ∧ len = 0xffffffff) := by
            intro h; rw [hd] at h; exact absurd h.1 (by norm_num)
          rw [if_neg hne] at hdepth
          obtain ⟨s4, h1, h2, h3⟩ := hstep stack hdepth
          refine ⟨s4, ?_, h2, h3⟩
          rw [if_pos hd, if_neg hl]
          exact h1
      · rw [if_neg (fun h => hd h.1)] at hdepth
        by_cases ho : ge = 0xe000
        · by_cases hl : len = 0xffffffff
          · rw [if_pos ⟨ho, hl⟩] at hdepth
            obtain ⟨s4, h1, h2, h3⟩ := hstep (stack + 1) hdepth
            refine ⟨s4, ?_, h2, h3⟩
            rw [if_neg hd, if_pos ho, if_pos hl]
            exact h1
          · rw [if_neg (fun h => hl h.2)] at hdepth
            obtain ⟨s4, h1, h2, h3⟩ := hstep stack hdepth
            refine ⟨s4, ?_, h2, h3⟩
            rw [if_neg hd, if_pos ho, if_neg hl]
            exact h1
        · rw [if_neg (fun h => ho h.1)] at hdepth
          obtain ⟨s4, h1, h2, h3⟩ := hstep stack hdepth
          refine ⟨s4, ?_, h2, h3⟩
          rw [if_neg hd, if_neg ho]
          exact h1


theorem seqItem_bytes_length (le : Bool) (i : SeqItem) :
    8 ≤ (i.bytes le).length ∧ (i ≠ .undefined [] → (i.bytes le).length = i.counted) := by
  cases i with
  | defined content =>
    simp [SeqItem.bytes, SeqItem.counted, itemLayout, encTag_length, enc32_length]
    omega
  | undefined tokens =>
    have h := tokens_bytes_length le tokens
    refine ⟨?_, fun hne => ?_⟩
    · simp [SeqItem.bytes, undefinedItemLayout, itemDelimiterLayout, encTag_length,
        enc32_length]
      omega
    · have hne2 : tokens ≠ [] := fun h => hne (by rw [h])
      simp only [SeqItem.bytes, undefinedItemLayout, itemDelimiterLayout, SeqItem.counted,
        if_neg hne2, List.length_append, encTag_length, enc32_length]
      omega

theorem itemDatasets_cons (ts : String) (le : Bool) (i : SeqItem) (items : List SeqItem) :
    itemDatasets ts le (i :: items) = itemDatasets ts le [i] ++ itemDatasets ts le items := by
  unfold itemDatasets
  by_cases h : i.captured = [] <;> simp [List.filter_cons, h]

/-- One round of the item loop over a well-formed item: the item is consumed,
its dataset is pushed when its content is not empty, and the loop goes on or
stops on the count. -/
theorem readItems_item (d : Dcmjs) (ts : String) (sqlength : Option Nat) (undef : Bool)
    (fuel : Nat) (s : DicomReadableBufferStream) (read : Nat) (elements : List JsAtom)
    (i : SeqItem) (r : List Nat) (hwf : i.wellFormed = true)
    (hthrow : i.captured ≠ [] → d.itemThrows ts s.isLittleEndian i.captured = false)
    (hs : s.unread = i.bytes s.isLittleEndian ++ r)
    (hearly : (!undef && readEquals (read + 4) sqlength) = false) :
    ∃ s3 : DicomReadableBufferStream, s3.unread = r ∧ Same s s3 ∧
      readItems d ts sqlength undef (fuel + 1) s read elements
        = if (!undef && readEquals (read + i.counted) sqlength) = true
          then .ok (elements ++ itemDatasets ts s.isLittleEndian [i]) s3
          else readItems d ts sqlength undef fuel s3 (read + i.counted)
            (elements ++ itemDatasets ts s.isLittleEndian [i]) := by
  have hearly2 : ¬ ((!undef && readEquals (read + 4) sqlength) = true) := by
    rw [hearly]; exact Bool.false_ne_true
  cases i with
  | defined content =>
    simp only [SeqItem.wellFormed, decide_eq_true_eq] at hwf
    simp only [SeqItem.bytes, itemLayout, List.append_assoc] at hs
    obtain ⟨s1, e1, e2, e3⟩ := readTag_layout s SequenceItemTag _ hs (by norm_num [SequenceItemTag])
    rw [← e3.1] at e2
    obtain ⟨s2, f1, f2, f3⟩ := readUint32_layout s1 content.length _ e2 (by omega)
    have hnd : ¬ (SequenceItemTag = 0xfffee0dd) := by norm_num [SequenceItemTag]
    have hit : SequenceItemTag = 0xfffee000 := rfl
    have hnu : ¬ (content.length = 0xffffffff) := by omega
    have hcount : read + 4 + 4 + content.length = read + (SeqItem.defined content).counted := by
      simp only [SeqItem.counted]; omega
    by_cases hc : content = []
    · subst hc
      refine ⟨s2, by simpa using f2, same_trans e3 f3, ?_⟩
      simp only [readItems, e1, Res.bind, if_neg hnd, if_neg hearly2, if_pos hit, f1,
        List.length_nil, if_neg hnu, Nat.lt_irrefl, gt_iff_lt, if_false]
      simp [itemDatasets, SeqItem.captured, SeqItem.counted, Nat.add_assoc]
    · have hpos : content.length > 0 := List.length_pos.mpr hc
      obtain ⟨s3, g1, g2, g3⟩ := readNBytes_layout s2 content r content.length f2 rfl
      have hle3 : s3.isLittleEndian = s.isLittleEndian := by rw [g3.1, f3.1, e3.1]
      have hth : d.itemThrows ts s.isLittleEndian content = false := hthrow hc
      refine ⟨s3, g2, same_trans (same_trans e3 f3) g3, ?_⟩
      simp only [readItems, e1, Res.bind, if_neg hnd, if_neg hearly2, if_pos hit, f1,
        if_neg hnu, if_pos hpos, g1, hth, Bool.false_eq_true, if_false, hcount, hle3]
      simp [itemDatasets, SeqItem.captured, hc]
  | undefined tokens =>
    simp only [SeqItem.wellFormed, Bool.and_eq_true, List.all_eq_true, beq_iff_eq] at hwf
    simp only [SeqItem.bytes, undefinedItemLayout, List.append_assoc] at hs
    obtain ⟨s1, e1, e2, e3⟩ := readTag_layout s SequenceItemTag _ hs (by norm_num [SequenceItemTag])
    rw [← e3.1] at e2
    obtain ⟨s2, f1, f2, f3⟩ := readUint32_layout s1 0xffffffff _ e2 (by norm_num)
    have hle2 : s2.isLittleEndian = s.isLittleEndian := by rw [f3.1, e3.1]
    have hlen := tokens_bytes_length s.isLittleEndian tokens
    obtain ⟨s3, g1, g2, g3⟩ := scanItem_tokens s.isLittleEndian r tokens (s2.unread.length + 1) s2
      0 [] hwf.1 hwf.2 hle2 (by rw [f2, e3.1])
      (by
        rw [f2, e3.1]
        simp only [List.length_append]
        omega)
    have hle3 : s3.isLittleEndian = s.isLittleEndian := by rw [g3.1, hle2]
    have hnd : ¬ (SequenceItemTag = 0xfffee0dd) := by norm_num [SequenceItemTag]
    have hit : SequenceItemTag = 0xfffee000 := rfl
    have g1b : scanItem (s2.unread.length + 1) s2 0 []
        = .ok ((tokens.map (ScanToken.bytes true)).flatten ++ itemDelimiterLayout true,
            (tokens.map (ScanToken.bytes true)).flatten.length) s3 := by
      simpa using g1
    refine ⟨s3, g2, same_trans (same_trans e3 f3) g3, ?_⟩
    simp only [readItems, e1, Res.bind, if_neg hnd, if_neg hearly2, if_pos hit, f1, if_true,
      g1b, List.take_left', hle3]
    by_cases hc : tokens = []
    · subst hc
      simp [itemDatasets, SeqItem.captured, SeqItem.counted, Nat.add_assoc]
    · have hflat : (tokens.map (ScanToken.bytes true)).flatten ≠ [] := by
        intro h
        have h1 := hlen.2
        rw [hlen.1, h] at h1
        exact hc (List.length_eq_zero.mp (by simpa using h1))
      have hpos : (tokens.map (ScanToken.bytes true)).flatten.length > 0 :=
        List.length_pos.mpr hflat
      have hth : d.itemThrows ts s.isLittleEndian (tokens.map (ScanToken.bytes true)).flatten
          = false := hthrow hflat
      have hcount : read + 4 + 4 + ((tokens.map (ScanToken.bytes true)).flatten.length + 8)
          = read + (SeqItem.undefined tokens).counted := by
        simp only [SeqItem.counted, if_neg hc]; omega
      simp only [if_pos hpos, hth, Bool.false_eq_true, if_false, hcount]
      simp [itemDatasets, SeqItem.captured, hflat]


theorem flatten_items_length (le : Bool) (items : List SeqItem) :
    8 * items.length ≤ (items.map (SeqItem.bytes le)).flatten.length := by
  induction items with
  | nil => simp
  | cons i items ih =>
    have h := (seqItem_bytes_length le i).1
    simp only [List.map_cons, List.flatten_cons, List.length_append, List.length_cons]
    omega

/-- The item loop over the items of a sequence of undefined length. -/
theorem readItems_undefined (d : Dcmjs) (ts : String) (le : Bool) (rest : List Nat) :
    ∀ (items : List SeqItem) (fuel : Nat) (s : DicomReadableBufferStream) (read : Nat)
      (elements : List JsAtom), s.isLittleEndian = le →
      (∀ i ∈ items, i.wellFormed = true) →
      (∀ i ∈ items, i.captured ≠ [] → d.itemThrows ts le i.captured = false) →
      s.unread = (items.map (SeqItem.bytes le)).flatten ++ (delimiterLayout le ++ rest) →
      items.length < fuel →
      ∃ s1, readItems d ts (some 0xffffffff) true fuel s read elements
          = .ok (elements ++ itemDatasets ts le items) s1 ∧
        s1.unread = rest ∧ Same s s1 := by
  intro items
  induction items with
  | nil =>
    intro fuel s read elements hle _ _ hs hfuel
    obtain ⟨fuel, rfl⟩ : ∃ f, fuel = f + 1 := ⟨fuel - 1, by simp at hfuel; omega⟩
    simp only [List.map_nil, List.flatten_nil, List.nil_append, delimiterLayout,
      List.append_assoc] at hs
    rw [← hle] at hs
    obtain ⟨s1, e1, e2, e3⟩ := readTag_layout s SequenceDelimiterTag _ hs
      (by norm_num [SequenceDelimiterTag])
    rw [← e3.1] at e2
    obtain ⟨s2, f1, f2, f3⟩ := readUint32_layout s1 0 _ e2 (by norm_num)
    refine ⟨s2, ?_, f2, same_trans e3 f3⟩
    have hd : SequenceDelimiterTag = 0xfffee0dd := rfl
    simp only [readItems, e1, Res.bind, if_pos hd, f1]
    simp [itemDatasets]
  | cons i items ih =>
    intro fuel s read elements hle hwf hthrow hs hfuel
    obtain ⟨fuel, rfl⟩ : ∃ f, fuel = f + 1 := ⟨fuel - 1, by simp at hfuel; omega⟩
    subst hle
    simp only [List.map_cons, List.flatten_cons, List.append_assoc] at hs
    obtain ⟨s3, e1, e2, e3⟩ := readItems_item d ts (some 0xffffffff) true fuel s read elements i _
      (hwf i (List.mem_cons_self _ _)) (hthrow i (List.mem_cons_self _ _)) hs (by simp)
    obtain ⟨s4, f1, f2, f3⟩ := ih fuel s3 (read + i.counted)
      (elements ++ itemDatasets ts s.isLittleEndian [i]) e2.1
      (fun x hx => hwf x (List.mem_cons_of_mem _ hx))
      (fun x hx => hthrow x (List.mem_cons_of_mem _ hx)) e1 (by simpa using hfuel)
    refine ⟨s4, ?_, f2, same_trans e2 f3⟩
    rw [e3, if_neg (by simp), f1, itemDatasets_cons ts _ i items, List.append_assoc]

/-- The item loop over the items of a sequence of explicit length, none of
them an empty item of undefined length. -/
theorem readItems_explicit (d : Dcmjs) (ts : String) (le : Bool) (rest : List Nat) (n : Nat) :
    ∀ (items : List SeqItem) (fuel : Nat) (s : DicomReadableBufferStream) (read : Nat)
      (elements : List JsAtom), items ≠ [] → s.isLittleEndian = le →
      (∀ i ∈ items, i.wellFormed = true) →
      (∀ i ∈ items, i.captured ≠ [] → d.itemThrows ts le i.captured = false) →
      (∀ i ∈ items, i ≠ .undefined []) →
      s.unread = (items.map (SeqItem.bytes le)).flatten ++ rest →
      n = read + (items.map (SeqItem.bytes le)).flatten.length →
      items.length < fuel + 1 →
      ∃ s1, readItems d ts (some n) false fuel s read elements
          = .ok (elements ++ itemDatasets ts le items) s1 ∧
        s1.unread = rest ∧ Same s s1 := by
  intro items
  induction items with
  | nil => intro fuel s read elements hne; exact absurd rfl hne
  | cons i items ih =>
    intro fuel s read elements _ hle hwf hthrow hfull hs hn hfuel
    obtain ⟨fuel, rfl⟩ : ∃ f, fuel = f + 1 := ⟨fuel - 1, by simp at hfuel; omega⟩
    subst hle
    have hsize := seqItem_bytes_length s.isLittleEndian i
    have hcounted := hsize.2 (hfull i (List.mem_cons_self _ _))
    simp only [List.map_cons, List.flatten_cons, List.append_assoc, List.length_append] at hs hn
    obtain ⟨s3, e1, e2, e3⟩ := readItems_item d ts (some n) false fuel s read elements i _
      (hwf i (List.mem_cons_self _ _)) (hthrow i (List.mem_cons_self _ _)) hs
      (by
        simp only [readEquals, Bool.not_false, Bool.true_and, decide_eq_false_iff_not]
        omega)
    rw [e3]
    by_cases hlast : items = []
    · subst hlast
      have hcond : (!false && readEquals (read + i.counted) (some n)) = true := by
        simp only [readEquals, Bool.not_false, Bool.true_and, decide_eq_true_eq]
        simp only [List.map_nil, List.flatten_nil, List.length_nil] at hn
        omega
      rw [if_pos hcond]
      exact ⟨s3, rfl, by simpa using e1, e2⟩
    · have hrest := flatten_items_length s.isLittleEndian items
      have hpos : 0 < items.length := List.length_pos.mpr hlast
      have hcond : ¬ ((!false && readEquals (read + i.counted) (some n)) = true) := by
        simp only [readEquals, Bool.not_false, Bool.true_and, decide_eq_true_eq]
        omega
      rw [if_neg hcond]
      obtain ⟨s4, f1, f2, f3⟩ := ih fuel s3 (read + i.counted)
        (elements ++ itemDatasets ts s.isLittleEndian [i]) hlast e2.1
        (fun x hx => hwf x (List.mem_cons_of_mem _ hx))
        (fun x hx => hthrow x (List.mem_cons_of_mem _ hx))
        (fun x hx => hfull x (List.mem_cons_of_mem _ hx)) e1 (by omega)
        (by simpa using hfuel)
      refine ⟨s4, ?_, f2, same_trans e2 f3⟩
      rw [f1, itemDatasets_cons ts _ i items, List.append_assoc]

/-- C21 (amended). Take a sequence of well-formed items: items of explicit
length, and items of undefined length whose content the scan reads as
well-formed tokens that close every level they open.  The sequence is of
undefined length and closed by the sequence delimiter, or of an explicit
length equal to the size of its items, none of them an empty item of undefined
length.  Then `SequenceOfItems.readBytes` returns one dataset per item whose
content is not empty, in item order, each decoded from the content of its item
(stored in little-endian word order for an item of undefined length), and
leaves the reader right behind the sequence.  An item with an empty content
contributes no dataset: the number of datasets is the number of items with a
non-empty content. -/
theorem readBytes_dataset_per_nonempty_item (d : Dcmjs) (s : DicomReadableBufferStream)
    (transferSyntax : String) (items : List SeqItem) (rest : List Nat) (sqlength : Nat)
    (hwf : ∀ i ∈ items, i.wellFormed = true)
    (hthrow : ∀ i ∈ items, i.captured ≠ [] →
      d.itemThrows transferSyntax s.isLittleEndian i.captured = false)
    (hlen : sqlength = 0xffffffff ∨
      (sqlength = (items.map (SeqItem.bytes s.isLittleEndian)).flatten.length ∧
        ∀ i ∈ items, i ≠ .undefined []))
    (hs : s.unread = (items.map (SeqItem.bytes s.isLittleEndian)).flatten ++
      ((if sqlength = 0xffffffff then delimiterLayout s.isLittleEndian else []) ++ rest)) :
    ∃ s1, SequenceOfItems.readBytes d s (some sqlength) transferSyntax
        = .ok (itemDatasets transferSyntax s.isLittleEndian items) s1 ∧
      (itemDatasets transferSyntax s.isLittleEndian items).length
        = (items.filter fun i => decide (i.captured ≠ [])).length ∧
      s1.unread = rest ∧ Same s s1 := by
  have hsizes := flatten_items_length s.isLittleEndian items
  have hcount : (itemDatasets transferSyntax s.isLittleEndian items).length
      = (items.filter fun i => decide (i.captured ≠ [])).length := by
    simp [itemDatasets]
  unfold SequenceOfItems.readBytes
  by_cases hu : sqlength = 0xffffffff
  · subst hu
    simp only [if_true] at hs
    obtain ⟨s1, e1, e2, e3⟩ := readItems_undefined d transferSyntax s.isLittleEndian rest items
      (s.unread.length + 1) s 0 [] rfl hwf hthrow hs
      (by
        rw [hs]
        simp only [List.length_append]
        omega)
    refine ⟨s1, ?_, hcount, e2, e3⟩
    simpa using e1
  · rcases hlen with h | ⟨hn, hfull⟩
    · exact absurd h hu
    · simp only [if_neg hu, List.nil_append] at hs
      by_cases h0 : sqlength = 0
      · have hitems : items = [] := by
          rw [h0] at hn
          apply List.length_eq_zero.mp
          omega
        subst hitems
        subst h0
        refine ⟨s, ?_, hcount, by simpa using hs, same_refl s⟩
        simp [itemDatasets]
      · have hne : items ≠ [] := by
          intro h
          subst h
          simp at hn
          exact h0 hn
        obtain ⟨s1, e1, e2, e3⟩ := readItems_explicit d transferSyntax s.isLittleEndian rest
          sqlength items (s.unread.length + 1) s 0 [] hne rfl hwf hthrow hfull hs
          (by omega)
          (by
            rw [hs]
            simp only [List.length_append]
            omega)
        refine ⟨s1, ?_, hcount, e2, e3⟩
        have hc1 : ¬ (some sqlength = some 0) := by
          intro h; injection h with h; exact h0 h
        have hc2 : decide (some sqlength = some 0xffffffff) = false := by
          simp only [decide_eq_false_iff_not]
          intro h; injection h with h; exact hu h
        rw [if_neg hc1, hc2]
        simpa using e1


/-- C21 (counterexample). A sequence of explicit length with an empty item and
a non-empty one, and a sequence of undefined length with two empty items and
a non-empty one, both decode to a single dataset. -/
theorem readBytes_empty_item_not_returned :
    (∃ s1, SequenceOfItems.readBytes exampleDcmjs
        (readerOf (itemLayout true [] ++
          itemLayout true (explicitElement 0x00080060 "CS" [77, 82]) ++ [5, 5]))
        (some 26) "1.2.840.10008.1.2.1"
        = .ok [.item "1.2.840.10008.1.2.1" true (explicitElement 0x00080060 "CS" [77, 82])] s1 ∧
      s1.unread = [5, 5]) ∧
    (∃ s1, SequenceOfItems.readBytes exampleDcmjs
        (readerOf (undefinedItemLayout true [] ++
          undefinedItemLayout true (explicitElement 0x00080060 "CS" [77, 82]) ++
          itemLayout true [] ++ delimiterLayout true ++ [5, 5]))
        (some 0xffffffff) "1.2.840.10008.1.2.1"
        = .ok [.item "1.2.840.10008.1.2.1" true (explicitElement 0x00080060 "CS" [77, 82])] s1 ∧
      s1.unread = [5, 5]) ∧
    [JsAtom.item "1.2.840.10008.1.2.1" true (explicitElement 0x00080060 "CS" [77, 82])].length
      ≠ 2 ∧
    [JsAtom.item "1.2.840.10008.1.2.1" true (explicitElement 0x00080060 "CS" [77, 82])].length
      ≠ 3 :=
  ⟨⟨_, rfl, rfl⟩, ⟨_, rfl, rfl⟩, by decide, by decide⟩

/-- A sequence of undefined length with four items, two of them empty: two
datasets, both decoded from the CS element (0008,0060) "MR". -/
theorem readBytes_dataset_per_nonempty_item_witness :
    (∃ s1, SequenceOfItems.readBytes exampleDcmjs
        (readerOf (([SeqItem.defined [],
            .undefined [.word 8, .word 96, .word 21315, .word 2, .word 21069],
            .undefined [],
            .defined (explicitElement 0x00080060 "CS" [77, 82])].map
              (SeqItem.bytes true)).flatten ++ (delimiterLayout true ++ [5, 5])))
        (some 0xffffffff) "1.2.840.10008.1.2.1"
        = .ok (itemDatasets "1.2.840.10008.1.2.1" true [SeqItem.defined [],
            .undefined [.word 8, .word 96, .word 21315, .word 2, .word 21069],
            .undefined [],
            .defined (explicitElement 0x00080060 "CS" [77, 82])]) s1 ∧
      (itemDatasets "1.2.840.10008.1.2.1" true [SeqItem.defined [],
          .undefined [.word 8, .word 96, .word 21315, .word 2, .word 21069],
          .undefined [],
          .defined (explicitElement 0x00080060 "CS" [77, 82])]).length
        = ([SeqItem.defined [],
          .undefined [.word 8, .word 96, .word 21315, .word 2, .word 21069],
          .undefined [],
          .defined (explicitElement 0x00080060 "CS" [77, 82])].filter
            fun i => decide (i.captured ≠ [])).length ∧
      s1.unread = [5, 5] ∧
      Same (readerOf (([SeqItem.defined [],
            .undefined [.word 8, .word 96, .word 21315, .word 2, .word 21069],
            .undefined [],
            .defined (explicitElement 0x00080060 "CS" [77, 82])].map
              (SeqItem.bytes true)).flatten ++ (delimiterLayout true ++ [5, 5]))) s1) ∧
    itemDatasets "1.2.840.10008.1.2.1" true [SeqItem.defined [],
        .undefined [.word 8, .word 96, .word 21315, .word 2, .word 21069],
        .undefined [],
        .defined (explicitElement 0x00080060 "CS" [77, 82])]
      = [.item "1.2.840.10008.1.2.1" true (explicitElement 0x00080060 "CS" [77, 82]),
         .item "1.2.840.10008.1.2.1" true (explicitElement 0x00080060 "CS" [77, 82])] :=
  ⟨readBytes_dataset_per_nonempty_item exampleDcmjs
    (readerOf (([SeqItem.defined [],
      .undefined [.word 8, .word 96, .word 21315, .word 2, .word 21069],
      .undefined [],
      .defined (explicitElement 0x00080060 "CS" [77, 82])].map
        (SeqItem.bytes true)).flatten ++ (delimiterLayout true ++ [5, 5])))
    "1.2.840.10008.1.2.1" _ [5, 5] 0xffffffff (by decide) (fun _ _ _ => rfl) (Or.inl rfl) rfl,
   by decide⟩

/-! ## Multi-valued text -/

/-- The header of an element with a registered descriptor: `_readTag` is the
value read behind the header. -/
theorem readTag_registered (d : Dcmjs) (s : DicomReadableBufferStream)
    (transferSyntax : String) (options : Options) (tag L : Nat)
    (vrBytes reserved rest : List Nat) (c : VRCode)
    (htag : tag < 4294967296) (hvr : vrBytes.length = 2) (hres : reserved.length = 2)
    (hinst : (if d.implicit transferSyntax
        then VRInst.registered (createByTypeString (implicitVrType d tag L))
        else explicitVr d tag (toAscii vrBytes)) = .registered c)
    (hstop : ¬ (options.untilTag = some (toCleanString tag) ∧
      options.includeUntilTagValue = false))
    (hLb : L < 4294967296)
    (hshort : d.implicit transferSyntax = false → c.isExplicit = false → L < 65536)
    (hs : s.unread = elementHeader (d.implicit transferSyntax) (d.littleEndian transferSyntax)
      tag vrBytes reserved c.isExplicit L ++ rest) :
    ∃ s3 : DicomReadableBufferStream, s3.unread = rest ∧ s3.decoder = s.decoder ∧
      s3.isLittleEndian = d.littleEndian transferSyntax ∧
      DicomMessageAsync._readTag d s transferSyntax options
        = (readValues d (.registered c) (some L) transferSyntax options s3).bind
            fun p s4 => .ok { tag := tag
                              vr := some (.registered c)
                              values := p.2
                              rawValues := p.1 } (s4.setEndian s.isLittleEndian) := by
  have h0 : (s.setEndian (d.littleEndian transferSyntax)).unread
      = encTag (s.setEndian (d.littleEndian transferSyntax)).isLittleEndian tag ++
        ((if d.implicit transferSyntax then enc32 (d.littleEndian transferSyntax) L
          else vrBytes ++ (if c.isExplicit then reserved ++ enc32 (d.littleEndian transferSyntax) L
            else enc16 (d.littleEndian transferSyntax) L)) ++ rest) := by
    have : (s.setEndian (d.littleEndian transferSyntax)).unread = s.unread := rfl
    rw [this, hs]
    simp only [elementHeader, DicomReadableBufferStream.setEndian, List.append_assoc]
  obtain ⟨s1, e1, e2, e3⟩ := readTag_layout _ tag _ h0 htag
  have hle1 : s1.isLittleEndian = d.littleEndian transferSyntax := e3.1
  rw [← hle1] at e2
  obtain ⟨s3, f1, f2, f3⟩ := readVrAndLength_layout d (d.implicit transferSyntax) s1 tag L
    vrBytes reserved rest c hvr hres hinst hLb hshort e2
  refine ⟨s3, f2, ?_, ?_, ?_⟩
  · exact (same_trans e3 f3).2.1
  · rw [f3.1, hle1]
  · simp only [DicomMessageAsync._readTag, e1, Res.bind, if_neg hstop, f1]

theorem map_string_format (f : String → JsAtom) (xs : List String) :
    (xs.map JsAtom.string).map (fun a =>
      match a with
      | .string str => f str
      | other => other) = xs.map f := by
  induction xs with
  | nil => rfl
  | cons x xs ih => simp [ih]

/-- The value part of `_readTag` for a multi-valued text VR other than UI. -/
theorem readValues_text (d : Dcmjs) (c : VRCode) (s3 : DicomReadableBufferStream)
    (value rest : List Nat) (transferSyntax : String) (options : Options)
    (hc : c ∈ [VRCode.AE, .CS, .DA, .DT, .TM, .LO, .PN, .SH, .UC, .DS, .IS])
    (hraw : c ∈ [VRCode.AE, .DA, .DT, .TM, .LO, .SH, .UC] →
      d.storeRaw c = true ∨ options.forceStoreRaw = true)
    (hs : s3.unread = value ++ rest) :
    ∃ raw s4, readValues d (.registered c) (some value.length) transferSyntax options s3
        = .ok (raw, .array (textComponents d c (textOf d c s3.decoder value))) s4 ∧
      s4.unread = rest ∧ Same s3 s4 := by
  obtain ⟨s4, e1, e2, e3⟩ := readNBytes_layout s3 value rest value.length hs rfl
  have hdec : s4.decoder = s3.decoder := e3.2.1
  have hkeep : c ∈ [VRCode.AE, .DA, .DT, .TM, .LO, .SH, .UC] →
      (!d.storeRaw c && !options.forceStoreRaw) = false := by
    intro h
    rcases hraw h with h | h <;> simp [h]
  suffices h : ∃ raw, readValues d (.registered c) (some value.length) transferSyntax options s3
      = .ok (raw, .array (textComponents d c (textOf d c s3.decoder value))) s4 by
    obtain ⟨raw, h⟩ := h
    exact ⟨raw, s4, h, e2, e3⟩
  by_cases hstr : c ∈ [VRCode.AE, .DA, .DT, .TM, .LO, .SH, .UC]
  · have hk := hkeep hstr
    simp only [List.mem_cons, List.mem_singleton, List.not_mem_nil, or_false] at hstr
    rcases hstr with rfl | rfl | rfl | rfl | rfl | rfl | rfl <;>
      simp [readValues, VRInst.isBinary, VRCode.isBinary, VRInst.read, VRCode.read, VRCode.fixed,
        VRCode.readBytes, DicomReadableBufferStream.readAsciiString,
        DicomReadableBufferStream.readEncodedString, e1, Res.bind, hk, hdec,
        VRCode.applyFormatting, mapStrings, destructure, assemble, singleVRs, VRInst.type,
        VRCode.type, textComponents, textOf]
  · simp only [List.mem_cons, List.mem_singleton, List.not_mem_nil, or_false] at hc hstr
    rcases hc with rfl | rfl | rfl | rfl | rfl | rfl | rfl | rfl | rfl | rfl | rfl
    all_goals first
      | (exfalso; simp at hstr; done)
      | skip
    -- CS
    · simp [readValues, VRInst.isBinary, VRCode.isBinary, VRInst.read, VRCode.read, VRCode.fixed,
        VRCode.readBytes, DicomReadableBufferStream.readAsciiString, e1, Res.bind,
        VRCode.applyFormatting, mapStrings, destructure, assemble, singleVRs, VRInst.type,
        VRCode.type, textComponents, textOf, map_string_format]
    -- PN
    · cases value with
      | nil =>
        have e0 : s4 = s3 := by
          simp [DicomReadableBufferStream.readNBytes] at e1
          exact e1.symm
        subst e0
        simp [readValues, VRInst.isBinary, VRCode.isBinary, VRInst.read, VRCode.read,
          VRCode.fixed, VRCode.readBytes, readPaddedEncodedString, Res.bind,
          VRCode.applyFormatting, mapStrings, destructure, assemble, singleVRs, VRInst.type,
          VRCode.type, textComponents, textOf, map_string_format]
      | cons v vs =>
        simp only [List.length_cons] at e1 ⊢
        by_cases hpad : (d.decode s3.decoder (v :: vs)).data ≠ [] ∧
            (d.decode s3.decoder (v :: vs)).data.getLast? ≠ some (Char.ofNat VRCode.PN.padByte)
        · simp [readValues, VRInst.isBinary, VRCode.isBinary, VRInst.read, VRCode.read,
            VRCode.fixed, VRCode.readBytes, readPaddedEncodedString,
            DicomReadableBufferStream.readEncodedString, e1, Res.bind, hdec, hpad,
            VRCode.applyFormatting, mapStrings, destructure, assemble, singleVRs, VRInst.type,
            VRCode.type, textComponents, textOf, map_string_format]
        · simp [readValues, VRInst.isBinary, VRCode.isBinary, VRInst.read, VRCode.read,
            VRCode.fixed, VRCode.readBytes, readPaddedEncodedString,
            DicomReadableBufferStream.readEncodedString, e1, Res.bind, hdec, hpad,
            VRCode.applyFormatting, mapStrings, destructure, assemble, singleVRs, VRInst.type,
            VRCode.type, textComponents, textOf, map_string_format]
    -- DS, IS
    all_goals
      simp [readValues, VRInst.isBinary, VRCode.isBinary, VRInst.read, VRCode.read, VRCode.fixed,
        VRCode.readBytes, DicomReadableBufferStream.readAsciiString, e1, Res.bind,
        VRCode.applyFormatting, mapStrings, destructure, assemble, singleVRs, VRInst.type,
        VRCode.type, textComponents, textOf, map_string_format]

theorem isDigit_toNat (ch : Char) (h : ch.isDigit = true) : 48 ≤ ch.toNat ∧ ch.toNat ≤ 57 := by
  simp only [Char.isDigit, Bool.and_eq_true, decide_eq_true_eq] at h
  obtain ⟨h1, h2⟩ := h
  have h1' : (48 : UInt32).toNat ≤ ch.val.toNat := h1
  have h2' : ch.val.toNat ≤ (57 : UInt32).toNat := h2
  exact ⟨h1', h2'⟩

theorem numeric_not_space (ch : Char)
    (h : (ch.isDigit || ch = '.' || ch = '\\' || ch = '-' || ch = '+' || ch = 'e' || ch = 'E')
      = true) : isJsSpace ch = false := by
  simp only [Bool.or_eq_true, decide_eq_true_eq] at h
  rcases h with (((((h | h) | h) | h) | h) | h) | h
  · have := isDigit_toNat ch h
    simp only [isJsSpace, Bool.or_eq_false_iff, Bool.and_eq_false_imp, decide_eq_false_iff_not,
      decide_eq_true_eq]
    omega
  all_goals (subst h; decide)

theorem mem_dropWhile_of_false {α : Type} (p : α → Bool) (x : α) :
    ∀ l : List α, x ∈ l → p x = false → x ∈ l.dropWhile p := by
  intro l
  induction l with
  | nil => intro h; cases h
  | cons a l ih =>
    intro h hp
    by_cases ha : p a = true
    · rw [List.dropWhile_cons_of_pos ha]
      rcases List.mem_cons.mp h with rfl | h
      · rw [hp] at ha; cases ha
      · exact ih h hp
    · rw [List.dropWhile_cons_of_neg ha]
      exact h

theorem mem_jsTrim (str : String) (x : Char) (hx : x ∈ str.data) (hp : isJsSpace x = false) :
    x ∈ (jsTrim str).data := by
  unfold jsTrim
  simp only [List.mem_reverse]
  apply mem_dropWhile_of_false
  · rw [List.mem_reverse]
    exact mem_dropWhile_of_false _ _ _ hx hp
  · exact hp

theorem jsTrim_subset (str : String) (x : Char) (hx : x ∈ (jsTrim str).data) : x ∈ str.data := by
  unfold jsTrim at hx
  simp only [List.mem_reverse] at hx
  have h1 := (List.dropWhile_sublist _).subset hx
  rw [List.mem_reverse] at h1
  exact (List.dropWhile_sublist _).subset h1

/-- `formatNumber` gives `null` exactly for a string without any of the
characters it keeps. -/
theorem formatNumber_null_iff (str : String) :
    formatNumber str = .null ↔
      ∀ ch ∈ str.data, (ch.isDigit || ch = '.' || ch = '\\' || ch = '-' || ch = '+' ||
        ch = 'e' || ch = 'E') = false := by
  unfold formatNumber
  simp only
  constructor
  · intro h ch hch
    by_contra hk
    have hk : (ch.isDigit || ch = '.' || ch = '\\' || ch = '-' || ch = '+' ||
        ch = 'e' || ch = 'E') = true := by
      cases hb : (ch.isDigit || decide (ch = '.') || decide (ch = '\\') || decide (ch = '-') ||
        decide (ch = '+') || decide (ch = 'e') || decide (ch = 'E'))
      · exact absurd hb hk
      · rfl
    have hmem := mem_jsTrim str ch hch (numeric_not_space ch hk)
    split at h
    · rename_i he
      have he2 := congrArg String.data he
      simp only at he2
      have : ch ∈ List.filter (fun c => c.isDigit || c = '.' || c = '\\' || c = '-' || c = '+' ||
          c = 'e' || c = 'E') (jsTrim str).data := List.mem_filter.mpr ⟨hmem, hk⟩
      rw [he2] at this
      cases this
    · cases h
  · intro h
    have : List.filter (fun c => c.isDigit || c = '.' || c = '\\' || c = '-' || c = '+' ||
        c = 'e' || c = 'E') (jsTrim str).data = [] := by
      rw [List.filter_eq_nil_iff]
      intro ch hch
      have := h ch (jsTrim_subset str ch hch)
      simp only [this, Bool.false_eq_true, not_false_eq_true]
    rw [this]
    rfl

theorem splitChars_length (d : Char) (cs : List Char) :
    (splitChars d cs).length = cs.count d + 1 := by
  induction cs with
  | nil => rfl
  | cons c cs ih =>
    unfold splitChars
    by_cases h : c = d
    · subst h
      simp [ih]
    · rw [if_neg h, List.count_cons_of_ne (fun e => h e.symm)]
      cases hsp : splitChars d cs with
      | nil => rw [hsp] at ih; simp at ih
      | cons w ws => rw [hsp] at ih; simpa using ih

theorem splitVM_length (str : String) :
    (splitVM str).length = str.data.count (Char.ofNat VM_DELIMITER) + 1 := by
  simp [splitVM, splitChars_length]

theorem count_dropWhile {α : Type} [DecidableEq α] (p : α → Bool) (x : α) (hp : p x = false) :
    ∀ l : List α, (l.dropWhile p).count x = l.count x := by
  intro l
  induction l with
  | nil => rfl
  | cons a l ih =>
    by_cases ha : p a = true
    · rw [List.dropWhile_cons_of_pos ha, ih]
      have : a ≠ x := by
        intro e; subst e; rw [hp] at ha; cases ha
      rw [List.count_cons_of_ne (fun e => this e.symm)]
    · rw [List.dropWhile_cons_of_neg ha]

theorem count_jsTrim (str : String) (x : Char) (hp : isJsSpace x = false) :
    (jsTrim str).data.count x = str.data.count x := by
  simp [jsTrim, List.count_reverse, count_dropWhile _ _ hp]

theorem count_rtrim (str : String) (x : Char) (hp : isJsSpace x = false) :
    (rtrim str).data.count x = str.data.count x := by
  simp [rtrim, List.count_reverse, count_dropWhile _ _ hp]


theorem readNBytes_buffered (s : DicomReadableBufferStream) (n : Nat)
    (h : n ≤ s.remainingBuffer.length) :
    s.readNBytes n = .ok (s.remainingBuffer.take n)
      { s with remainingBuffer := s.remainingBuffer.drop n } := by
  simp [DicomReadableBufferStream.readNBytes, h]

theorem byteAt_of_unread (s : DicomReadableBufferStream) (value rest : List Nat) (n : Nat)
    (hs : s.unread = value ++ rest) (h1 : n < s.remainingBuffer.length)
    (h2 : n < value.length) : byteAt s.remainingBuffer n = byteAt value n := by
  unfold byteAt
  have e1 : (s.remainingBuffer ++ s.fileStream.chunks.flatten).getD n 0
      = s.remainingBuffer.getD n 0 := List.getD_append _ _ _ _ h1
  have e2 : (value ++ rest).getD n 0 = value.getD n 0 := List.getD_append _ _ _ _ h2
  have e3 : s.remainingBuffer ++ s.fileStream.chunks.flatten = value ++ rest := hs
  rw [← e1, e3, e2]

/-- The padded ASCII read of UI: the peek at the last byte, then the string
without a trailing NUL byte. -/
theorem readPaddedAsciiString_uid (s : DicomReadableBufferStream) (value rest : List Nat)
    (hs : s.unread = value ++ rest) :
    ∃ s4, readPaddedAsciiString .UI s (some value.length)
      = .ok (if value = [] then ""
          else if byteAt value (value.length - 1) ≠ VRCode.UI.padByte then toAscii value
          else toAscii (value.take (value.length - 1))) s4 := by
  rcases List.eq_nil_or_concat value with hnil | ⟨front, last, hval⟩
  · subst hnil
    exact ⟨s, rfl⟩
  · have hne : value ≠ [] := by rw [hval]; simp
    have hlen : value.length = front.length + 1 := by rw [hval]; simp
    have htake : value.take front.length = front := by rw [hval]; simp
    have hdrop : value.drop front.length = [last] := by rw [hval]; simp
    rw [if_neg hne]
    simp only [hlen, readPaddedAsciiString, Nat.add_sub_cancel]
    have hsplit : s.unread = front ++ ([last] ++ rest) := by rw [hs, hval]; simp
    by_cases hb : front.length < s.remainingBuffer.length
    · have hpeek : s.peekUint8 front.length = .ok (byteAt value front.length) s := by
        simp only [DicomReadableBufferStream.peekUint8, if_pos hb]
        rw [byteAt_of_unread s value rest front.length hs hb (by omega)]
      rw [hpeek]
      simp only [Res.bind]
      by_cases hp : byteAt value front.length ≠ VRCode.UI.padByte
      · rw [if_pos hp, if_pos hp]
        obtain ⟨s1, e1, _, _⟩ := readNBytes_layout s value rest (front.length + 1) hs hlen
        exact ⟨s1, by simp only [DicomReadableBufferStream.readAsciiString, e1, Res.bind]⟩
      · rw [if_neg hp, if_neg hp, htake]
        obtain ⟨s1, e1, e2, _⟩ := readNBytes_layout s front _ front.length hsplit rfl
        obtain ⟨s2, f1, _, _⟩ := increment_layout s1 [last] rest 1 e2 rfl
        exact ⟨s2, by simp only [DicomReadableBufferStream.readAsciiString, e1, Res.bind, f1]⟩
    · obtain ⟨s1, e1, _, _⟩ := readNBytes_layout s value rest (front.length + 1) hs hlen
      have hpeek : s.peekUint8 front.length
          = .ok (byteAt value front.length) { s1 with remainingBuffer := value } := by
        simp only [DicomReadableBufferStream.peekUint8, if_neg hb, e1, Res.bind]
      rw [hpeek]
      simp only [Res.bind]
      by_cases hp : byteAt value front.length ≠ VRCode.UI.padByte
      · rw [if_pos hp, if_pos hp]
        apply Exists.intro
        simp only [DicomReadableBufferStream.readAsciiString]
        rw [readNBytes_buffered _ _ (by simp [hlen])]
        simp only [Res.bind, ← hlen, List.take_length]
        rfl
      · rw [if_neg hp, if_neg hp, htake]
        apply Exists.intro
        simp only [DicomReadableBufferStream.readAsciiString,
          DicomReadableBufferStream.increment]
        rw [readNBytes_buffered _ _ (by simp [hlen])]
        simp only [Res.bind, htake, hdrop]
        rw [readNBytes_buffered _ _ (by simp)]

/-- The value part of `_readTag` for UI. -/
theorem readValues_uid (d : Dcmjs) (s3 : DicomReadableBufferStream)
    (value rest : List Nat) (transferSyntax : String) (options : Options)
    (hraw : d.storeRaw .UI = true ∨ options.forceStoreRaw = true)
    (hs : s3.unread = value ++ rest) :
    ∃ raw s4, readValues d (.registered .UI) (some value.length) transferSyntax options s3
        = .ok (raw, .array (textComponents d .UI (textOf d .UI s3.decoder value))) s4 := by
  obtain ⟨s4, e1⟩ := readPaddedAsciiString_uid s3 value rest hs
  have hk : (!d.storeRaw .UI && !options.forceStoreRaw) = false := by
    rcases hraw with h | h <;> simp [h]
  suffices h : ∃ raw, readValues d (.registered .UI) (some value.length) transferSyntax options s3
      = .ok (raw, .array (textComponents d .UI (textOf d .UI s3.decoder value))) s4 by
    obtain ⟨raw, h⟩ := h
    exact ⟨raw, s4, h⟩
  have htext : textOf d .UI s3.decoder value
      = (if value = [] then ""
          else if byteAt value (value.length - 1) ≠ VRCode.UI.padByte then toAscii value
          else toAscii (value.take (value.length - 1))) := rfl
  rw [htext]
  generalize (if value = [] then ""
          else if byteAt value (value.length - 1) ≠ VRCode.UI.padByte then toAscii value
          else toAscii (value.take (value.length - 1))) = str at e1 ⊢
  by_cases hbs : Char.ofNat VM_DELIMITER ∈ str.data
  · simp [readValues, VRInst.isBinary, VRCode.isBinary, VRInst.read, VRCode.read, VRCode.fixed,
      VRCode.readBytes, e1, Res.bind, hk, hbs, VRCode.applyFormatting, mapStrings, destructure,
      assemble, singleVRs, VRInst.type, VRCode.type, textComponents, map_string_format]
  · simp [readValues, VRInst.isBinary, VRCode.isBinary, VRInst.read, VRCode.read, VRCode.fixed,
      VRCode.readBytes, e1, Res.bind, hk, hbs, VRCode.applyFormatting, mapStrings, destructure,
      assemble, singleVRs, VRInst.type, VRCode.type, textComponents, map_string_format]

theorem textComponents_length (d : Dcmjs) (c : VRCode) (str : String)
    (hc : c ∈ [VRCode.AE, .CS, .DA, .DT, .TM, .UI, .LO, .PN, .SH, .UC, .DS, .IS])
    (hpad : ∀ xs, (d.dropPadByte c xs).length = xs.length) :
    (textComponents d c str).length = str.data.count (Char.ofNat VM_DELIMITER) + 1 := by
  have hsp : isJsSpace (Char.ofNat VM_DELIMITER) = false := by decide
  simp only [List.mem_cons, List.mem_singleton, List.not_mem_nil, or_false] at hc
  rcases hc with rfl | rfl | rfl | rfl | rfl | rfl | rfl | rfl | rfl | rfl | rfl | rfl
  all_goals first
    | (simp only [textComponents, List.length_map, hpad, splitVM_length, count_jsTrim _ _ hsp,
        count_rtrim _ _ hsp]; done)
    | skip
  -- UI
  simp only [textComponents]
  by_cases hbs : Char.ofNat VM_DELIMITER ∈ str.data
  · rw [if_pos hbs]
    simp only [List.length_map, hpad, splitVM_length]
  · rw [if_neg hbs]
    simp only [List.length_map, hpad, splitVM_length]
    have h1 : str.data.count (Char.ofNat VM_DELIMITER) = 0 := List.count_eq_zero.mpr hbs
    have h2 : (removeInvalidUidChars str).data.count (Char.ofNat VM_DELIMITER) = 0 := by
      apply List.count_eq_zero.mpr
      intro h
      exact hbs (List.mem_filter.mp h).1
    rw [h1, h2]


/-- C28 (counterexample). The PN value "A \\B" decodes to the components "A "
and "B": the first keeps its trailing space, since PN removes one pad
character from the end of the whole value only.  With a `dropPadByte` that
returns its argument, the LO value "A \\B " decodes to "A " and "B": LO
trims the whole text before it is split. -/
theorem readTag_inner_pad_kept :
    DicomMessageAsync._readTag exampleDcmjs
        (readerOf (explicitElement 0x00100010 "PN" (asciiBytes "A \\B") ++ [9]))
        "1.2.840.10008.1.2.1" defaultOptions
      = .ok { tag := 0x00100010, vr := some (.registered .PN),
              values := .array [.personName "A ", .personName "B"],
              rawValues := .array [.string "A ", .string "B"] }
          { isLittleEndian := true, remainingBuffer := [9], fileStream := .flowing [],
            decoder := "latin1" } ∧
    "A ".data.getLast? = some (Char.ofNat VRCode.PN.padByte) ∧
    DicomMessageAsync._readTag exampleDcmjs
        (readerOf (explicitElement 0x00100020 "LO" (asciiBytes "A \\B ") ++ [9]))
        "1.2.840.10008.1.2.1" defaultOptions
      = .ok { tag := 0x00100020, vr := some (.registered .LO),
              values := .array [.string "A ", .string "B"],
              rawValues := .array [.string "A ", .string "B "] }
          { isLittleEndian := true, remainingBuffer := [9], fileStream := .flowing [],
            decoder := "latin1" } :=
  ⟨rfl, rfl, rfl⟩

/-- C28 (amended). For an element of a multi-valued text VR (AE, CS, DA, DT,
TM, UI, LO, PN, SH, UC, DS, IS) with the value bytes `value`, `_readTag`
returns the components `textComponents` of the text `textOf` decoded from the
value: the text is split on the backslash after AE, LO and SH have trimmed it
as a whole, TM and UC have trimmed its right end, PN has removed one trailing
pad character and UI one trailing NUL byte; CS trims every component, DS and
IS turn every component into a number, UI deletes from every component the
characters that are neither digits nor dots; the pad byte is dropped by the
library's `dropPadByte` (not for PN).  When `dropPadByte` keeps the number of
components, a text with j backslashes gives exactly j + 1 components.  The
string-valued VRs need the raw value to be stored. -/
theorem readTag_text_components (d : Dcmjs) (s : DicomReadableBufferStream)
    (transferSyntax : String) (options : Options) (tag : Nat)
    (vrBytes reserved value rest : List Nat) (c : VRCode)
    (hc : c ∈ [VRCode.AE, .CS, .DA, .DT, .TM, .UI, .LO, .PN, .SH, .UC, .DS, .IS])
    (htag : tag < 4294967296) (hvr : vrBytes.length = 2) (hres : reserved.length = 2)
    (hinst : (if d.implicit transferSyntax
        then VRInst.registered (createByTypeString (implicitVrType d tag value.length))
        else explicitVr d tag (toAscii vrBytes)) = .registered c)
    (hstop : ¬ (options.untilTag = some (toCleanString tag) ∧
      options.includeUntilTagValue = false))
    (hLb : value.length < 4294967296)
    (hshort : d.implicit transferSyntax = false → c.isExplicit = false → value.length < 65536)
    (hraw : c ∈ [VRCode.AE, .DA, .DT, .TM, .UI, .LO, .SH, .UC] →
      d.storeRaw c = true ∨ options.forceStoreRaw = true)
    (hs : s.unread = elementHeader (d.implicit transferSyntax) (d.littleEndian transferSyntax)
      tag vrBytes reserved c.isExplicit value.length ++ value ++ rest) :
    ∃ info s1, DicomMessageAsync._readTag d s transferSyntax options = .ok info s1 ∧
      info.tag = tag ∧
      info.values = .array (textComponents d c (textOf d c s.decoder value)) ∧
      ((∀ xs, (d.dropPadByte c xs).length = xs.length) →
        (textComponents d c (textOf d c s.decoder value)).length
          = (textOf d c s.decoder value).data.count (Char.ofNat VM_DELIMITER) + 1) ∧
      (c ≠ .UI → s1.unread = rest) := by
  rw [List.append_assoc] at hs
  obtain ⟨s3, e1, e2, _, e4⟩ := readTag_registered d s transferSyntax options tag value.length
    vrBytes reserved (value ++ rest) c htag hvr hres hinst hstop hLb hshort hs
  rw [e4, ← e2]
  by_cases hui : c = .UI
  · subst hui
    obtain ⟨raw, s4, f1⟩ := readValues_uid d s3 value rest transferSyntax options
      (hraw (by decide)) e1
    rw [f1]
    exact ⟨_, _, rfl, rfl, rfl, fun hpad => textComponents_length d _ _ hc hpad,
      fun h => absurd rfl h⟩
  · have hc2 : c ∈ [VRCode.AE, .CS, .DA, .DT, .TM, .LO, .PN, .SH, .UC, .DS, .IS] := by
      simp only [List.mem_cons, List.mem_singleton, List.not_mem_nil, or_false] at hc
      rcases hc with rfl | rfl | rfl | rfl | rfl | rfl | rfl | rfl | rfl | rfl | rfl | rfl <;>
        first
          | exact absurd rfl hui
          | decide
    obtain ⟨raw, s4, f1, f2, _⟩ := readValues_text d c s3 value rest transferSyntax options hc2
      (fun h => hraw (by
        simp only [List.mem_cons, List.mem_singleton, List.not_mem_nil, or_false] at h
        rcases h with rfl | rfl | rfl | rfl | rfl | rfl | rfl <;> decide)) e1
    rw [f1]
    exact ⟨_, _, rfl, rfl, rfl, fun hpad => textComponents_length d _ _ hc hpad, fun _ => f2⟩

/-- The CS value "A \\ B\\C " has two backslashes and decodes to three
components. -/
theorem readTag_text_components_witness :
    ∃ info s1,
      DicomMessageAsync._readTag exampleDcmjs
        (readerOf (explicitElement 0x00080008 "CS" (asciiBytes "A \\ B\\C ") ++ [9]))
        "1.2.840.10008.1.2.1" defaultOptions = .ok info s1 ∧
      info.tag = 0x00080008 ∧
      info.values = .array (textComponents exampleDcmjs .CS
        (textOf exampleDcmjs .CS "latin1" (asciiBytes "A \\ B\\C "))) ∧
      ((∀ xs, (exampleDcmjs.dropPadByte .CS xs).length = xs.length) →
        (textComponents exampleDcmjs .CS
            (textOf exampleDcmjs .CS "latin1" (asciiBytes "A \\ B\\C "))).length
          = (textOf exampleDcmjs .CS "latin1" (asciiBytes "A \\ B\\C ")).data.count
              (Char.ofNat VM_DELIMITER) + 1) ∧
      (VRCode.CS ≠ .UI → s1.unread = [9]) :=
  readTag_text_components exampleDcmjs
    (readerOf (explicitElement 0x00080008 "CS" (asciiBytes "A \\ B\\C ") ++ [9]))
    "1.2.840.10008.1.2.1" defaultOptions 0x00080008 [67, 83] [0, 0] (asciiBytes "A \\ B\\C ")
    [9] .CS (by decide) (by decide) rfl rfl rfl (by decide) (by decide)
    (fun _ _ => by decide) (fun h => absurd h (by decide)) rfl

theorem foldl_digits (ds : List Char) : ∀ acc : Nat,
    ds.foldl (fun acc c => 10 * acc + (c.toNat - 48)) acc
      = acc * 10 ^ ds.length + ds.foldl (fun acc c => 10 * acc + (c.toNat - 48)) 0 := by
  induction ds with
  | nil => intro acc; simp
  | cons d ds ih =>
    intro acc
    simp only [List.foldl_cons, List.length_cons]
    rw [ih (10 * acc + (d.toNat - 48)), ih (10 * 0 + (d.toNat - 48))]
    ring

theorem digitsValue_append (a b : List Char) :
    digitsValue (a ++ b) = digitsValue a * 10 ^ b.length + digitsValue b := by
  unfold digitsValue
  rw [List.foldl_append, foldl_digits b]

theorem digitsValue_zeros (zs : List Char) (h : ∀ c ∈ zs, c = '0') : digitsValue zs = 0 := by
  induction zs with
  | nil => rfl
  | cons z zs ih =>
    have hz : z = '0' := h z (by simp)
    subst hz
    have := digitsValue_append ['0'] zs
    simp only [List.singleton_append] at this
    have h0 : digitsValue ['0'] = 0 := by decide
    rw [this, ih (fun c hc => h c (by simp [hc])), h0]
    simp

theorem ofDigits_value (negative : Bool) (digits : List Char) (exponent : Int) :
    (JsNumber.ofDigits negative digits exponent).value
      = some ((if negative then -1 else 1) * (digitsValue digits : ℚ) * (10 : ℚ) ^ exponent) := by
  have hsplit : digits = (digits.reverse.dropWhile fun c => c = '0').reverse ++
      (digits.reverse.takeWhile fun c => c = '0').reverse := by
    rw [← List.reverse_append, List.takeWhile_append_dropWhile, List.reverse_reverse]
  have hz : ∀ c ∈ (digits.reverse.takeWhile fun c => c = '0').reverse, c = '0' := by
    intro c hc
    rw [List.mem_reverse] at hc
    simpa using List.mem_takeWhile_imp hc
  have hv := digitsValue_append (digits.reverse.dropWhile fun c => c = '0').reverse
    (digits.reverse.takeWhile fun c => c = '0').reverse
  rw [← hsplit, digitsValue_zeros _ hz, Nat.add_zero] at hv
  have hlen : digits.length - (digits.reverse.dropWhile fun c => c = '0').reverse.length
      = (digits.reverse.takeWhile fun c => c = '0').reverse.length := by
    conv => lhs; lhs; rw [hsplit]
    simp
  unfold JsNumber.ofDigits
  simp only
  split
  · rename_i hk
    rw [hk] at hv
    simp only [JsNumber.value]
    rw [hv]
    simp [digitsValue]
  · simp only [JsNumber.value]
    rw [hlen]
    conv => rhs; rw [hv]
    rw [zpow_add₀ (by norm_num : (10 : ℚ) ≠ 0)]
    push_cast
    rw [zpow_natCast]
    ring_nf

theorem takeWhile_digits (ds rest : List Char) (hd : ∀ c ∈ ds, c.isDigit = true)
    (hr : ∀ c, rest.head? = some c → c.isDigit = false) :
    (ds ++ rest).takeWhile Char.isDigit = ds ∧ (ds ++ rest).dropWhile Char.isDigit = rest := by
  induction ds with
  | nil =>
    cases rest with
    | nil => simp
    | cons c r =>
      have := hr c rfl
      simp [List.takeWhile_cons, List.dropWhile_cons, this]
  | cons d ds ih =>
    have hd1 := hd d (by simp)
    have := ih (fun c hc => hd c (by simp [hc]))
    simp [List.takeWhile_cons, List.dropWhile_cons, hd1, this]

theorem digit_ne (c : Char) (h : c.isDigit = true) :
    c ≠ '+' ∧ c ≠ '-' ∧ c ≠ '.' ∧ c ≠ 'e' ∧ c ≠ 'E' := by
  refine ⟨?_, ?_, ?_, ?_, ?_⟩ <;> (rintro rfl; revert h; decide)

theorem dropSign_signed (sign body : List Char)
    (hs : sign = [] ∨ sign = ['+'] ∨ sign = ['-'])
    (hb : ∀ c, body.head? = some c → c ≠ '+' ∧ c ≠ '-') :
    dropSign (sign ++ body) = body ∧ startsWithMinus (sign ++ body) = decide (sign = ['-']) := by
  rcases hs with rfl | rfl | rfl
  · cases body with
    | nil => exact ⟨rfl, rfl⟩
    | cons c r =>
      obtain ⟨h1, h2⟩ := hb c rfl
      simp [dropSign, startsWithMinus, h1, h2]
  · simp [dropSign, startsWithMinus]
  · simp [dropSign, startsWithMinus]

/-- The number `Number` makes of a well-formed literal. -/
theorem jsNumber_numeral (n : Numeral) (h : n.wellFormed) :
    jsNumber (String.mk n.text)
      = JsNumber.ofDigits (decide (n.sign = ['-'])) (n.integer ++ n.fraction)
          ((if n.exponentSign = ['-'] then -((digitsValue n.exponent : ℕ) : ℤ)
            else ((digitsValue n.exponent : ℕ) : ℤ)) - ((n.fraction.length : ℕ) : ℤ)) := by
  obtain ⟨hsign, hint, hpoint, hfrac, hpf, hne, hmark, hesign, hexp, hm0, hm1⟩ := h
  have htail : ∀ c, (n.exponentMark ++ (n.exponentSign ++ n.exponent)).head? = some c →
      c = 'e' ∨ c = 'E' := by
    intro c hc
    rcases hmark with hm | hm | hm
    · obtain ⟨h1, h2⟩ := hm0 hm
      rw [hm, h1, h2] at hc
      cases hc
    · rw [hm] at hc
      simp at hc
      exact Or.inl hc.symm
    · rw [hm] at hc
      simp at hc
      exact Or.inr hc.symm
  have htail2 : ∀ c, (n.exponentMark ++ (n.exponentSign ++ n.exponent)).head? = some c →
      c.isDigit = false := by
    intro c hc
    rcases htail c hc with rfl | rfl <;> decide
  have hptail : ∀ c, (n.point ++ (n.fraction ++
      (n.exponentMark ++ (n.exponentSign ++ n.exponent)))).head? = some c →
      c.isDigit = false ∧ c ≠ '+' ∧ c ≠ '-' := by
    intro c hc
    rcases hpoint with hp | hp
    · rw [hp, hpf hp] at hc
      simp only [List.nil_append] at hc
      rcases htail c hc with rfl | rfl <;> decide
    · rw [hp] at hc
      simp at hc
      subst hc
      decide
  have hbody : ∀ c, (n.integer ++ (n.point ++ (n.fraction ++
      (n.exponentMark ++ (n.exponentSign ++ n.exponent))))).head? = some c →
      c ≠ '+' ∧ c ≠ '-' := by
    intro c hc
    cases hi : n.integer with
    | nil =>
      rw [hi] at hc
      exact (hptail c hc).2
    | cons d ds =>
      rw [hi] at hc
      simp at hc
      subst hc
      have := digit_ne d (hint d (by rw [hi]; simp))
      exact ⟨this.1, this.2.1⟩
  obtain ⟨hds, hsm⟩ := dropSign_signed n.sign _ hsign hbody
  obtain ⟨htw, hdw⟩ := takeWhile_digits n.integer _ hint (fun c hc => (hptail c hc).1)
  have hnonempty : ¬ (String.mk n.text = "") := by
    intro h0
    have h1 := congrArg String.data h0
    simp only [Numeral.text] at h1
    have h2 : n.integer = [] ∧ n.fraction = [] := by
      simp only [List.append_eq_nil] at h1
      exact ⟨h1.2.1, h1.2.2.2.1⟩
    rcases hne with h3 | h3
    · exact h3 h2.1
    · exact h3 h2.2
  unfold jsNumber
  rw [if_neg hnonempty]
  dsimp only
  unfold Numeral.text
  rw [hds, hsm, htw, hdw]
  obtain ⟨hfw, hfd⟩ := takeWhile_digits n.fraction _ hfrac htail2
  have hexpPart : ∀ c, c = 'e' ∨ c = 'E' → n.exponentMark = [c] →
      signedInteger (n.exponentSign ++ n.exponent)
        = some (if n.exponentSign = ['-'] then -((digitsValue n.exponent : ℕ) : ℤ)
            else ((digitsValue n.exponent : ℕ) : ℤ)) := by
    intro c _ hm
    have hne2 : n.exponent ≠ [] := hm1 (by rw [hm]; simp)
    have hhead : ∀ c, n.exponent.head? = some c → c ≠ '+' ∧ c ≠ '-' := by
      intro c hc
      have hmem : c ∈ n.exponent := List.mem_of_mem_head? hc
      have := digit_ne c (hexp c hmem)
      exact ⟨this.1, this.2.1⟩
    obtain ⟨k1, k2⟩ := dropSign_signed n.exponentSign n.exponent hesign hhead
    unfold signedInteger
    rw [k1, k2]
    have hall : n.exponent.all Char.isDigit = true := by
      rw [List.all_eq_true]
      exact hexp
    rw [if_pos ⟨hne2, hall⟩]
    simp
  rcases hpoint with hp | hp
  · have hf := hpf hp
    have hi : n.integer ≠ [] := by
      rcases hne with h3 | h3
      · exact h3
      · exact absurd hf h3
    rw [hp, hf]
    simp only [List.nil_append, List.append_nil, List.length_nil]
    have hnp : ¬ ((n.exponentMark ++ (n.exponentSign ++ n.exponent)).head? = some '.') := by
      intro hc
      rcases htail _ hc with h4 | h4 <;> revert h4 <;> decide
    simp only [if_neg hnp]
    rw [if_neg (fun hc => hi hc.1)]
    rcases hmark with hm | hm | hm
    · obtain ⟨h1, h2⟩ := hm0 hm
      rw [hm, h1, h2]
      simp [digitsValue]
    · rw [hm]
      simp [hexpPart 'e' (Or.inl rfl) hm]
    · rw [hm]
      simp [hexpPart 'E' (Or.inr rfl) hm]
  · rw [hp]
    simp only [List.singleton_append, List.head?_cons, List.drop_succ_cons, List.drop_zero,
      if_true, hfw, hfd]
    have hcond : ¬ (n.integer = [] ∧ (¬ True ∨ n.fraction = [])) := by
      intro hc
      rcases hne with h3 | h3
      · exact h3 hc.1
      · rcases hc.2 with h4 | h4
        · exact h4 trivial
        · exact h3 h4
    rw [if_neg hcond]
    rcases hmark with hm | hm | hm
    · obtain ⟨h1, h2⟩ := hm0 hm
      rw [hm, h1, h2]
      simp [digitsValue]
    · rw [hm]
      simp [hexpPart 'e' (Or.inl rfl) hm]
    · rw [hm]
      simp [hexpPart 'E' (Or.inr rfl) hm]

/-- The number `Number` makes of a well-formed literal has the value the
literal denotes. -/
theorem jsNumber_numeral_value (n : Numeral) (h : n.wellFormed) :
    (jsNumber (String.mk n.text)).value = some n.value := by
  rw [jsNumber_numeral n h, ofDigits_value, digitsValue_append]
  unfold Numeral.value
  congr 1
  have h10 : (10 : ℚ) ≠ 0 := by norm_num
  rw [zpow_sub₀ h10, zpow_natCast]
  have hs : (if decide (n.sign = ['-']) = true then (-1 : ℚ) else 1)
      = (if n.sign = ['-'] then (-1 : ℚ) else 1) := by
    by_cases hc : n.sign = ['-'] <;> simp [hc]
  rw [hs]
  push_cast
  field_simp

theorem filter_dropWhile {α : Type} (p q : α → Bool) (hpq : ∀ x, q x = true → p x = false) :
    ∀ l : List α, (l.dropWhile p).filter q = l.filter q := by
  intro l
  induction l with
  | nil => rfl
  | cons a l ih =>
    by_cases ha : p a = true
    · rw [List.dropWhile_cons_of_pos ha, ih]
      have hq : q a = false := by
        cases hqa : q a with
        | false => rfl
        | true => rw [hpq a hqa] at ha; cases ha
      rw [List.filter_cons_of_neg (by simp [hq])]
    · rw [List.dropWhile_cons_of_neg ha]

theorem filter_jsTrim (str : String) :
    (jsTrim str).data.filter (fun c =>
        c.isDigit || c = '.' || c = '\\' || c = '-' || c = '+' || c = 'e' || c = 'E')
      = str.data.filter (fun c =>
        c.isDigit || c = '.' || c = '\\' || c = '-' || c = '+' || c = 'e' || c = 'E') := by
  unfold jsTrim
  simp only
  rw [List.filter_reverse, filter_dropWhile _ _ numeric_not_space, List.filter_reverse,
    List.reverse_reverse, filter_dropWhile _ _ numeric_not_space]

theorem filter_numeral (n : Numeral) (h : n.wellFormed) :
    n.text.filter (fun c =>
        c.isDigit || c = '.' || c = '\\' || c = '-' || c = '+' || c = 'e' || c = 'E')
      = n.text := by
  obtain ⟨hsign, hint, hpoint, hfrac, hpf, hne, hmark, hesign, hexp, hm0, hm1⟩ := h
  rw [List.filter_eq_self]
  intro c hc
  simp only [Numeral.text, List.mem_append] at hc
  rcases hc with hc | hc | hc | hc | hc | hc | hc
  · rcases hsign with hs | hs | hs <;> rw [hs] at hc <;> simp at hc <;> subst hc <;> decide
  · simp [hint c hc]
  · rcases hpoint with hs | hs
    · rw [hs] at hc
      cases hc
    · rw [hs] at hc
      simp at hc
      subst hc
      decide
  · simp [hfrac c hc]
  · rcases hmark with hs | hs | hs <;> rw [hs] at hc <;> simp at hc <;> subst hc <;> decide
  · rcases hesign with hs | hs | hs <;> rw [hs] at hc <;> simp at hc <;> subst hc <;> decide
  · simp [hexp c hc]

/-- A component whose kept characters spell a well-formed literal decodes to
the number the literal denotes. -/
theorem formatNumber_numeral (n : Numeral) (h : n.wellFormed) (str : String)
    (hstr : str.data.filter (fun c =>
        c.isDigit || c = '.' || c = '\\' || c = '-' || c = '+' || c = 'e' || c = 'E')
      = n.text) :
    formatNumber str = .numberOf (jsNumber (String.mk n.text)) := by
  unfold formatNumber
  simp only
  rw [filter_jsTrim, hstr]
  have hne : ¬ (String.mk n.text = "") := by
    intro h0
    have h1 := congrArg String.data h0
    simp only [Numeral.text] at h1
    simp only [List.append_eq_nil] at h1
    rcases h.2.2.2.2.2.1 with h3 | h3
    · exact h3 h1.2.1
    · exact h3 h1.2.2.2.1
  rw [if_neg hne]

theorem dropSign_split (cs : List Char) :
    ∃ sign, (sign = [] ∨ sign = ['+'] ∨ sign = ['-']) ∧ cs = sign ++ dropSign cs := by
  cases cs with
  | nil => exact ⟨[], Or.inl rfl, rfl⟩
  | cons c r =>
    by_cases h1 : c = '+'
    · subst h1
      exact ⟨['+'], Or.inr (Or.inl rfl), by simp [dropSign]⟩
    · by_cases h2 : c = '-'
      · subst h2
        exact ⟨['-'], Or.inr (Or.inr rfl), by simp [dropSign]⟩
      · exact ⟨[], Or.inl rfl, by simp [dropSign, h1, h2]⟩

theorem signedInteger_some (r : List Char) (e : Int) (h : signedInteger r = some e) :
    ∃ esign digits, (esign = [] ∨ esign = ['+'] ∨ esign = ['-']) ∧ r = esign ++ digits ∧
      digits ≠ [] ∧ ∀ c ∈ digits, c.isDigit = true := by
  unfold signedInteger at h
  split at h
  · rename_i hc
    obtain ⟨sign, h1, h2⟩ := dropSign_split r
    exact ⟨sign, dropSign r, h1, h2, hc.1, List.all_eq_true.mp hc.2⟩
  · cases h

/-- A string that `Number` does not turn into `NaN` is a well-formed
literal. -/
theorem jsNumber_ne_nan (str : String) (hs : str ≠ "") (h : jsNumber str ≠ .nan) :
    ∃ n : Numeral, n.wellFormed ∧ n.text = str.data := by
  unfold jsNumber at h
  rw [if_neg hs] at h
  dsimp only at h
  obtain ⟨sign, hsign, hcs⟩ := dropSign_split str.data
  have hbody := (List.takeWhile_append_dropWhile Char.isDigit (dropSign str.data)).symm
  have hint : ∀ c ∈ (dropSign str.data).takeWhile Char.isDigit, c.isDigit = true :=
    fun c hc => List.mem_takeWhile_imp hc
  generalize hI : (dropSign str.data).takeWhile Char.isDigit = integer at h hbody hint
  generalize hA : (dropSign str.data).dropWhile Char.isDigit = afterInteger at h hbody
  by_cases hpt : afterInteger.head? = some '.'
  · obtain ⟨rest1, hr1⟩ : ∃ rest1, afterInteger = '.' :: rest1 := by
      cases afterInteger with
      | nil => cases hpt
      | cons c r =>
        simp at hpt
        exact ⟨r, by rw [hpt]⟩
    subst hr1
    simp only [List.head?_cons, List.drop_succ_cons, List.drop_zero, if_true, not_true_eq_false,
      false_or] at h
    have hfrac : ∀ c ∈ rest1.takeWhile Char.isDigit, c.isDigit = true :=
      fun c hc => List.mem_takeWhile_imp hc
    have hrest := (List.takeWhile_append_dropWhile Char.isDigit rest1).symm
    generalize hF : rest1.takeWhile Char.isDigit = fraction at h hfrac hrest
    generalize hT : rest1.dropWhile Char.isDigit = tail at h hrest
    by_cases hcond : integer = [] ∧ fraction = []
    · rw [if_pos hcond] at h
      exact absurd rfl h
    · rw [if_neg hcond] at h
      have hne : integer ≠ [] ∨ fraction ≠ [] := by
        by_cases hi : integer = []
        · exact Or.inr (fun hf => hcond ⟨hi, hf⟩)
        · exact Or.inl hi
      cases tail with
      | nil =>
        refine ⟨⟨sign, integer, ['.'], fraction, [], [], []⟩, ?_, ?_⟩
        · exact ⟨hsign, hint, Or.inr rfl, hfrac, (fun hc => by cases hc), hne, Or.inl rfl,
            Or.inl rfl, (fun c hc => by cases hc), fun _ => ⟨rfl, rfl⟩, fun hc => absurd rfl hc⟩
        · rw [hcs, hbody, hrest]
          simp [Numeral.text]
      | cons c r =>
        simp only at h
        by_cases hce : c = 'e' ∨ c = 'E'
        · rw [if_pos hce] at h
          cases hsi : signedInteger r with
          | none =>
            rw [hsi] at h
            exact absurd rfl h
          | some e =>
            obtain ⟨esign, digits, k1, k2, k3, k4⟩ := signedInteger_some r e hsi
            refine ⟨⟨sign, integer, ['.'], fraction, [c], esign, digits⟩, ?_, ?_⟩
            · refine ⟨hsign, hint, Or.inr rfl, hfrac, (fun hc => by cases hc), hne, ?_, k1, k4,
                (fun hc => by cases hc), fun _ => k3⟩
              rcases hce with rfl | rfl
              · exact Or.inr (Or.inl rfl)
              · exact Or.inr (Or.inr rfl)
            · rw [hcs, hbody, hrest, k2]
              simp [Numeral.text]
        · rw [if_neg hce] at h
          exact absurd rfl h
  · simp only [hpt, if_false, not_false_eq_true, true_or, and_true] at h
    by_cases hcond : integer = []
    · rw [if_pos hcond] at h
      exact absurd rfl h
    · rw [if_neg hcond] at h
      cases afterInteger with
      | nil =>
        refine ⟨⟨sign, integer, [], [], [], [], []⟩, ?_, ?_⟩
        · exact ⟨hsign, hint, Or.inl rfl, (fun c hc => by cases hc), fun _ => rfl, Or.inl hcond,
            Or.inl rfl, Or.inl rfl, (fun c hc => by cases hc), fun _ => ⟨rfl, rfl⟩,
            fun hc => absurd rfl hc⟩
        · rw [hcs, hbody]
          simp [Numeral.text]
      | cons c r =>
        simp only at h
        by_cases hce : c = 'e' ∨ c = 'E'
        · rw [if_pos hce] at h
          cases hsi : signedInteger r with
          | none =>
            rw [hsi] at h
            exact absurd rfl h
          | some e =>
            obtain ⟨esign, digits, k1, k2, k3, k4⟩ := signedInteger_some r e hsi
            refine ⟨⟨sign, integer, [], [], [c], esign, digits⟩, ?_, ?_⟩
            · refine ⟨hsign, hint, Or.inl rfl, (fun c hc => by cases hc), fun _ => rfl,
                Or.inl hcond, ?_, k1, k4, (fun hc => by cases hc), fun _ => k3⟩
              rcases hce with rfl | rfl
              · exact Or.inr (Or.inl rfl)
              · exact Or.inr (Or.inr rfl)
            · rw [hcs, hbody, k2]
              simp [Numeral.text]
        · rw [if_neg hce] at h
          exact absurd rfl h

/-- The entry is `NaN` exactly when characters remain and they do not spell
a well-formed literal. -/
theorem formatNumber_nan_iff (str : String) :
    formatNumber str = .numberOf .nan ↔
      str.data.filter (fun c =>
          c.isDigit || c = '.' || c = '\\' || c = '-' || c = '+' || c = 'e' || c = 'E') ≠ [] ∧
        ¬ ∃ n : Numeral, n.wellFormed ∧ n.text = str.data.filter (fun c =>
          c.isDigit || c = '.' || c = '\\' || c = '-' || c = '+' || c = 'e' || c = 'E') := by
  unfold formatNumber
  simp only
  rw [filter_jsTrim]
  generalize str.data.filter (fun c =>
    c.isDigit || c = '.' || c = '\\' || c = '-' || c = '+' || c = 'e' || c = 'E') = kept
  by_cases hk : kept = []
  · subst hk
    simp
  · have hne : ¬ (String.mk kept = "") := by
      intro h0
      exact hk (congrArg String.data h0)
    rw [if_neg hne]
    constructor
    · intro h
      refine ⟨hk, ?_⟩
      rintro ⟨n, hn, hnt⟩
      have hv := jsNumber_numeral_value n hn
      rw [hnt, JsAtom.numberOf.inj h] at hv
      cases hv
    · rintro ⟨_, h⟩
      by_contra hc
      have hc2 : jsNumber (String.mk kept) ≠ .nan := fun h2 => hc (by rw [h2])
      exact h (jsNumber_ne_nan (String.mk kept) hne hc2)

/-- C29 (counterexample). The DS value "1.5\\\\abc\\1.2.3\\12abc\\ 7 " decodes
to 1.5, `null`, `null`, `NaN`, 12 and 7: the malformed component "1.2.3" is
not `null` but the number JavaScript makes of "1.2.3", which is `NaN`, and
the malformed "12abc" is the number 12.  The same holds for IS. -/
theorem readTag_malformed_number_not_null :
    (∃ info s1, DicomMessageAsync._readTag exampleDcmjs
        (readerOf (explicitElement 0x00181050 "DS" (asciiBytes "1.5\\\\abc\\1.2.3\\12abc\\ 7 ") ++
          [9])) "1.2.840.10008.1.2.1" defaultOptions = .ok info s1 ∧
      info.values = .array [.numberOf (.decimal false 15 (-1)), .null, .null,
        .numberOf .nan, .numberOf (.decimal false 12 0), .numberOf (.decimal false 7 0)]) ∧
    formatNumber "1.2.3" = .numberOf .nan ∧ formatNumber "1.2.3" ≠ .null ∧
    formatNumber "12abc" = .numberOf (.decimal false 12 0) ∧ formatNumber "12abc" ≠ .null ∧
    (∃ info s1, DicomMessageAsync._readTag exampleDcmjs
        (readerOf (explicitElement 0x00200013 "IS" (asciiBytes "1.2.3 ") ++ [9]))
        "1.2.840.10008.1.2.1" defaultOptions = .ok info s1 ∧
      info.values = .array [.numberOf .nan]) :=
  ⟨⟨_, _, rfl, rfl⟩, rfl, by decide, rfl, by decide, ⟨_, _, rfl, rfl⟩⟩

/-- C29 (amended). For a DS or IS element with the value bytes `value`,
`_readTag` returns the element; its values are the components of the ASCII
text, split on the backslash and passed through the library's `dropPadByte`,
each turned into a number by `formatNumber`: one entry per component when
`dropPadByte` keeps their number.  An entry is `null` exactly when its
component holds none of the characters `0-9 . \\ - + e E`; every other entry
is `Number(...)` of the trimmed component with all other characters
deleted.  When the characters kept spell a well-formed decimal literal, the
entry is the number the literal denotes, and every well-formed literal is
made of kept characters only; the entry is `NaN` exactly when characters are
kept and they do not spell a well-formed literal.  So "12abc" gives 12 and
"1.2.3" gives `NaN`. -/
theorem readTag_numeric_components (d : Dcmjs) (s : DicomReadableBufferStream)
    (transferSyntax : String) (options : Options) (tag : Nat)
    (vrBytes reserved value rest : List Nat) (c : VRCode)
    (hc : c = .DS ∨ c = .IS)
    (htag : tag < 4294967296) (hvr : vrBytes.length = 2) (hres : reserved.length = 2)
    (hinst : (if d.implicit transferSyntax
        then VRInst.registered (createByTypeString (implicitVrType d tag value.length))
        else explicitVr d tag (toAscii vrBytes)) = .registered c)
    (hstop : ¬ (options.untilTag = some (toCleanString tag) ∧
      options.includeUntilTagValue = false))
    (hLb : value.length < 4294967296)
    (hshort : d.implicit transferSyntax = false → value.length < 65536)
    (hs : s.unread = elementHeader (d.implicit transferSyntax) (d.littleEndian transferSyntax)
      tag vrBytes reserved false value.length ++ value ++ rest) :
    ∃ info s1, DicomMessageAsync._readTag d s transferSyntax options = .ok info s1 ∧
      info.tag = tag ∧
      info.values = .array ((d.dropPadByte c (splitVM (toAscii value))).map formatNumber) ∧
      s1.unread = rest ∧
      ((∀ xs, (d.dropPadByte c xs).length = xs.length) →
        ((d.dropPadByte c (splitVM (toAscii value))).map formatNumber).length
          = (toAscii value).data.count (Char.ofNat VM_DELIMITER) + 1) ∧
      (∀ str, formatNumber str = .null ↔
        ∀ ch ∈ str.data, (ch.isDigit || ch = '.' || ch = '\\' || ch = '-' || ch = '+' ||
          ch = 'e' || ch = 'E') = false) ∧
      (∀ str, formatNumber str = .null ∨
        formatNumber str = .numberOf (jsNumber (String.mk ((jsTrim str).data.filter fun ch =>
          ch.isDigit || ch = '.' || ch = '\\' || ch = '-' || ch = '+' || ch = 'e' ||
            ch = 'E')))) ∧
      (∀ (n : Numeral) (str : String), n.wellFormed →
        str.data.filter (fun ch => ch.isDigit || ch = '.' || ch = '\\' || ch = '-' ||
          ch = '+' || ch = 'e' || ch = 'E') = n.text →
        formatNumber str = .numberOf (jsNumber (String.mk n.text)) ∧
          (jsNumber (String.mk n.text)).value = some n.value) ∧
      (∀ n : Numeral, n.wellFormed →
        n.text.filter (fun ch => ch.isDigit || ch = '.' || ch = '\\' || ch = '-' ||
          ch = '+' || ch = 'e' || ch = 'E') = n.text) ∧
      (∀ str, formatNumber str = .numberOf .nan ↔
        str.data.filter (fun ch => ch.isDigit || ch = '.' || ch = '\\' || ch = '-' ||
          ch = '+' || ch = 'e' || ch = 'E') ≠ [] ∧
        ¬ ∃ n : Numeral, n.wellFormed ∧
          n.text = str.data.filter (fun ch => ch.isDigit || ch = '.' || ch = '\\' ||
            ch = '-' || ch = '+' || ch = 'e' || ch = 'E')) ∧
      formatNumber "12abc" = .numberOf (.decimal false 12 0) ∧
      formatNumber "1.2.3" = .numberOf .nan := by
  have hx : c.isExplicit = false := by rcases hc with rfl | rfl <;> rfl
  have hmem : c ∈ [VRCode.AE, .CS, .DA, .DT, .TM, .LO, .PN, .SH, .UC, .DS, .IS] := by
    rcases hc with rfl | rfl <;> decide
  have hmem2 : c ∈ [VRCode.AE, .CS, .DA, .DT, .TM, .UI, .LO, .PN, .SH, .UC, .DS, .IS] := by
    rcases hc with rfl | rfl <;> decide
  have htc : ∀ str, textComponents d c str
      = (d.dropPadByte c (splitVM str)).map formatNumber := by
    intro str
    rcases hc with rfl | rfl <;> rfl
  have hto : textOf d c s.decoder value = toAscii value := by
    rcases hc with rfl | rfl <;> rfl
  rw [List.append_assoc, ← hx] at hs
  obtain ⟨s3, e1, e2, _, e4⟩ := readTag_registered d s transferSyntax options tag value.length
    vrBytes reserved (value ++ rest) c htag hvr hres hinst hstop hLb (fun h _ => hshort h) hs
  obtain ⟨raw, s4, f1, f2, _⟩ := readValues_text d c s3 value rest transferSyntax options hmem
    (fun h => by
      exfalso
      rcases hc with rfl | rfl <;> simp at h) e1
  rw [e4, f1, e2, hto, htc]
  refine ⟨_, _, rfl, rfl, rfl, f2, fun hpad => ?_, formatNumber_null_iff, fun str => ?_,
    fun n str hn hstr => ⟨formatNumber_numeral n hn str hstr, jsNumber_numeral_value n hn⟩,
    filter_numeral, formatNumber_nan_iff, by decide, by decide⟩
  · rw [← htc, textComponents_length d c _ hmem2 hpad]
  · unfold formatNumber
    simp only
    split
    · exact Or.inl rfl
    · exact Or.inr rfl

/-- The DS value "1.5\\abc\\ 7 " decodes to the three entries 1.5, `null` and
7, and the component " -12.50e+3 " spells a well-formed literal and decodes
to -12500. -/
theorem readTag_numeric_components_witness :
    (∃ info s1,
      DicomMessageAsync._readTag exampleDcmjs
        (readerOf (explicitElement 0x00181050 "DS" (asciiBytes "1.5\\abc\\ 7 ") ++ [9]))
        "1.2.840.10008.1.2.1" defaultOptions = .ok info s1 ∧
      info.tag = 0x00181050 ∧
      info.values = .array [.numberOf (.decimal false 15 (-1)), .null,
        .numberOf (.decimal false 7 0)] ∧
      s1.unread = [9]) ∧
    (formatNumber " -12.50e+3 " = .numberOf (jsNumber "-12.50e+3") ∧
      (jsNumber "-12.50e+3").value
        = some (Numeral.mk ['-'] ['1', '2'] ['.'] ['5', '0'] ['e'] ['+'] ['3']).value) ∧
    jsNumber "-12.50e+3" = .decimal true 125 2 ∧
    (JsNumber.decimal true 125 2).value = some (-12500) ∧
    (JsNumber.decimal false 15 (-1)).value = some (3 / 2) := by
  obtain ⟨info, s1, h1, h2, h3, h4, _, _, _, h8, _⟩ :=
    readTag_numeric_components exampleDcmjs
      (readerOf (explicitElement 0x00181050 "DS" (asciiBytes "1.5\\abc\\ 7 ") ++ [9]))
      "1.2.840.10008.1.2.1" defaultOptions 0x00181050 [68, 83] [0, 0]
      (asciiBytes "1.5\\abc\\ 7 ") [9] .DS (Or.inl rfl) (by decide) rfl rfl rfl (by decide)
      (by decide) (fun _ => by decide) (by decide)
  exact ⟨⟨info, s1, h1, h2, h3, h4⟩,
    h8 (Numeral.mk ['-'] ['1', '2'] ['.'] ['5', '0'] ['e'] ['+'] ['3']) " -12.50e+3 "
      (by decide) (by decide),
    by decide, by norm_num [JsNumber.value], by norm_num [JsNumber.value]⟩

/-! ## Elements declared as UN that the dictionary resolves -/

theorem readNBytes_of_buffer (s : DicomReadableBufferStream) (xs r : List Nat)
    (h : s.remainingBuffer = xs ++ r) :
    s.readNBytes xs.length = .ok xs { s with remainingBuffer := r } := by
  rw [readNBytes_buffered s xs.length (by rw [h]; simp), h]
  simp

theorem readUint16_of_buffer (s : DicomReadableBufferStream) (v : Nat) (r : List Nat)
    (h : s.remainingBuffer = enc16 s.isLittleEndian v ++ r) (hv : v < 65536) :
    s.readUint16 = .ok v { s with remainingBuffer := r } := by
  have e := readNBytes_of_buffer s _ r h
  rw [enc16_length] at e
  simp only [DicomReadableBufferStream.readUint16, e, Res.bind]
  rw [getUint16_enc16 _ _ hv]

theorem readUint32_of_buffer (s : DicomReadableBufferStream) (v : Nat) (r : List Nat)
    (h : s.remainingBuffer = enc32 s.isLittleEndian v ++ r) (hv : v < 4294967296) :
    s.readUint32 = .ok v { s with remainingBuffer := r } := by
  have e := readNBytes_of_buffer s _ r h
  rw [enc32_length] at e
  simp only [DicomReadableBufferStream.readUint32, e, Res.bind]
  rw [getUint32_enc32 _ _ hv]

theorem readTag_of_buffer (s : DicomReadableBufferStream) (tag : Nat) (r : List Nat)
    (h : s.remainingBuffer = encTag s.isLittleEndian tag ++ r) (hv : tag < 4294967296) :
    TagAsync.readTag s = .ok tag { s with remainingBuffer := r } := by
  unfold encTag at h
  rw [List.append_assoc] at h
  have e1 := readUint16_of_buffer s _ _ h (by omega)
  have e2 := readUint16_of_buffer
    { s with remainingBuffer := enc16 s.isLittleEndian (tag % 65536) ++ r } (tag % 65536) r rfl
    (by omega)
  simp only [TagAsync.readTag, e1, Res.bind, e2]
  rw [fromNumbers_split tag hv]

/-- The element of a tag the dictionary knows, declared as UN, when the whole
element is buffered: what `_readTag` returns is made of the tag, the
dictionary's VR, the declared length and the bytes behind the value. -/
theorem readTag_parsed_unknown (d : Dcmjs) (s : DicomReadableBufferStream)
    (transferSyntax : String) (options : Options) (tag : Nat) (dictVr : String)
    (reserved value rest : List Nat)
    (hdict : d.lookupTag tag = some dictVr) (hne : dictVr ≠ "")
    (hexp : d.implicit transferSyntax = false) (htag : tag < 4294967296)
    (hres : reserved.length = 2) (hL : value.length < 0xffffffff)
    (hstop : ¬ (options.untilTag = some (toCleanString tag) ∧
      options.includeUntilTagValue = false))
    (hs : s.remainingBuffer = elementHeader false (d.littleEndian transferSyntax) tag [85, 78]
      reserved true value.length ++ value ++ rest) :
    DicomMessageAsync._readTag d s transferSyntax options
      = match d.parsedUnknownOnEmpty dictVr (some value.length) transferSyntax
          options.forceStoreRaw with
        | some p =>
          (assemble d (.parsedUnknown dictVr) p.1 p.2
            { s with isLittleEndian := d.littleEndian transferSyntax, remainingBuffer := rest }).bind
            fun q s4 => .ok { tag := tag
                              vr := some (.parsedUnknown dictVr)
                              values := q.2
                              rawValues := q.1 } (s4.setEndian s.isLittleEndian)
        | none => .error .external
            { s with isLittleEndian := d.littleEndian transferSyntax, remainingBuffer := rest } := by
  have hvr : explicitVr d tag (toAscii [85, 78]) = .parsedUnknown dictVr := by
    have : toAscii [85, 78] = "UN" := by decide
    rw [this]
    simp [explicitVr, hdict, hne]
  simp only [elementHeader, Bool.false_eq_true, if_false, if_true, List.append_assoc] at hs
  have e1 := readTag_of_buffer (s.setEndian (d.littleEndian transferSyntax)) tag _ hs htag
  have e2 := readNBytes_of_buffer
    { s.setEndian (d.littleEndian transferSyntax) with
      remainingBuffer := [85, 78] ++ (reserved ++
        (enc32 (d.littleEndian transferSyntax) value.length ++ (value ++ rest))) }
    [85, 78] _ rfl
  have e3 := readNBytes_of_buffer
    { s.setEndian (d.littleEndian transferSyntax) with
      remainingBuffer := reserved ++
        (enc32 (d.littleEndian transferSyntax) value.length ++ (value ++ rest)) }
    reserved _ rfl
  rw [hres] at e3
  have e4 := readUint32_of_buffer
    { s.setEndian (d.littleEndian transferSyntax) with
      remainingBuffer := enc32 (d.littleEndian transferSyntax) value.length ++ (value ++ rest) }
    value.length (value ++ rest) rfl (by omega)
  have hnu : ¬ (some value.length = some 0xffffffff) := by
    intro h; injection h with h; omega
  simp only [DicomMessageAsync._readTag, e1, Res.bind, if_neg hstop, readVrAndLength, hexp,
    Bool.false_eq_true, if_false, DicomReadableBufferStream.readVR, List.length_cons,
    List.length_nil] at e2 ⊢
  simp only [e2, hvr, readExplicitLength, VRInst.isExplicit, if_true,
    DicomReadableBufferStream.increment, e3, Res.bind, e4, readValues, VRInst.isBinary,
    VRInst.noMultiple, Bool.not_true, Bool.and_false, Bool.false_eq_true, if_false, VRInst.read,
    ParsedUnknownValue.read, Option.getD_some]
  have hcond : some value.length ≠ some 0xffffffff ∧ value.length ≤ (value ++ rest).length :=
    ⟨hnu, by simp⟩
  simp only [DicomReadableBufferStream.setEndian] at hcond ⊢
  rw [if_pos hcond]
  cases d.parsedUnknownOnEmpty dictVr (some value.length) transferSyntax options.forceStoreRaw with
  | none => simp
  | some p => simp


/-- C27. For an element declared as UN whose tag the dictionary maps to a VR,
buffered as a whole, what `_readTag` returns does not depend on the value
bytes: `ParsedUnknownValue.read` applies `[0]` to the promise of `readBytes`,
so the sub-reader is built from `undefined` and holds no bytes, and the
dictionary's VR decodes from that empty reader.  One result serves every
value of the declared length `L`. -/
theorem readTag_parsed_unknown_ignores_value (d : Dcmjs) (s : DicomReadableBufferStream)
    (transferSyntax : String) (options : Options) (tag L : Nat) (dictVr : String)
    (reserved rest : List Nat)
    (hdict : d.lookupTag tag = some dictVr) (hne : dictVr ≠ "")
    (hexp : d.implicit transferSyntax = false) (htag : tag < 4294967296)
    (hres : reserved.length = 2) (hL : L < 0xffffffff)
    (hstop : ¬ (options.untilTag = some (toCleanString tag) ∧
      options.includeUntilTagValue = false)) :
    ∃ result : Res ReadInfo, ∀ value : List Nat, value.length = L →
      DicomMessageAsync._readTag d
        { s with remainingBuffer := (elementHeader false (d.littleEndian transferSyntax) tag
            [85, 78] reserved true L ++ value ++ rest) } transferSyntax options = result := by
  refine ⟨match d.parsedUnknownOnEmpty dictVr (some L) transferSyntax options.forceStoreRaw with
    | some p =>
      (assemble d (.parsedUnknown dictVr) p.1 p.2
        { s with isLittleEndian := d.littleEndian transferSyntax, remainingBuffer := rest }).bind
        fun q s4 => .ok { tag := tag
                          vr := some (.parsedUnknown dictVr)
                          values := q.2
                          rawValues := q.1 } (s4.setEndian s.isLittleEndian)
    | none => .error .external
        { s with isLittleEndian := d.littleEndian transferSyntax, remainingBuffer := rest },
    fun value hval => ?_⟩
  subst hval
  exact readTag_parsed_unknown d _ transferSyntax options tag dictVr reserved value rest hdict hne
    hexp htag hres hL hstop rfl

/-- The element (0010,0020), LO in the dictionary, declared as UN: the values
"AB" and "CD" both decode to the empty string, where the same bytes declared
as LO decode to "AB"; the element (0028,0010), US in the dictionary, declared
as UN with the value 512 fails in the library's read of a reader without
bytes.  The live reader has advanced by the declared length. -/
theorem readTag_parsed_unknown_ignores_value_witness :
    (∃ result : Res ReadInfo, ∀ value : List Nat, value.length = 2 →
      DicomMessageAsync._readTag dictDcmjs
        { bufferedReaderOf [] with
          remainingBuffer := (elementHeader false (dictDcmjs.littleEndian "1.2.840.10008.1.2.1")
            0x00100020 [85, 78] [0, 0] true 2 ++ value ++ [9]) }
        "1.2.840.10008.1.2.1" defaultOptions = result) ∧
    DicomMessageAsync._readTag dictDcmjs
        (bufferedReaderOf (explicitElement 0x00100020 "UN" (asciiBytes "AB") ++ [9]))
        "1.2.840.10008.1.2.1" defaultOptions
      = .ok { tag := 0x00100020, vr := some (.parsedUnknown "LO"),
              values := .array [.string ""], rawValues := .array [.string ""] }
          (bufferedReaderOf [9]) ∧
    DicomMessageAsync._readTag dictDcmjs
        (bufferedReaderOf (explicitElement 0x00100020 "UN" (asciiBytes "CD") ++ [9]))
        "1.2.840.10008.1.2.1" defaultOptions
      = .ok { tag := 0x00100020, vr := some (.parsedUnknown "LO"),
              values := .array [.string ""], rawValues := .array [.string ""] }
          (bufferedReaderOf [9]) ∧
    DicomMessageAsync._readTag dictDcmjs
        (readerOf (explicitElement 0x00280010 "UN" [0, 2] ++ [9]))
        "1.2.840.10008.1.2.1" defaultOptions
      = .error .external (bufferedReaderOf [9]) ∧
    DicomMessageAsync._readTag exampleDcmjs
        (readerOf (explicitElement 0x00100020 "LO" (asciiBytes "AB") ++ [9]))
        "1.2.840.10008.1.2.1" defaultOptions
      = .ok { tag := 0x00100020, vr := some (.registered .LO),
              values := .array [.string "AB"], rawValues := .array [.string "AB"] }
          (bufferedReaderOf [9]) :=
  ⟨readTag_parsed_unknown_ignores_value dictDcmjs (bufferedReaderOf []) "1.2.840.10008.1.2.1"
    defaultOptions 0x00100020 2 "LO" [0, 0] [9] rfl (by decide) rfl (by decide) rfl (by decide)
    (by decide), rfl, rfl, rfl, rfl⟩

/-! ## Tags and typed reads -/

theorem fromNumbers_value (g e : Nat) (hg : g < 65536) (he : e < 65536) :
    TagAsync.fromNumbers g e = g * 65536 + e ∧ TagAsync.fromNumbers g e < 4294967296 := by
  have h := fromNumbers_split (g * 65536 + e) (by omega)
  have h1 : (g * 65536 + e) / 65536 = g := by omega
  have h2 : (g * 65536 + e) % 65536 = e := by omega
  rw [h1, h2] at h
  exact ⟨h, by omega⟩

theorem getUint16_lt (b : List Nat) (le : Bool) : getUint16 b le < 65536 := by
  unfold getUint16 byteAt
  split <;> omega

theorem readTag_any (s : DicomReadableBufferStream) (xs r : List Nat)
    (h : s.unread = xs ++ r) (hx : xs.length = 4) :
    ∃ s1, TagAsync.readTag s
        = .ok (getUint16 (xs.take 2) s.isLittleEndian * 65536 +
            getUint16 (xs.drop 2) s.isLittleEndian) s1 ∧
      s1.unread = r ∧ Same s s1 := by
  have hsplit : xs = xs.take 2 ++ xs.drop 2 := (List.take_append_drop 2 xs).symm
  rw [hsplit, List.append_assoc] at h
  obtain ⟨s1, e1, e2, e3⟩ := readNBytes_layout s (xs.take 2) _ 2 h (by simp [hx])
  obtain ⟨s2, f1, f2, f3⟩ := readNBytes_layout s1 (xs.drop 2) r 2 e2 (by simp [hx])
  refine ⟨s2, ?_, f2, same_trans e3 f3⟩
  simp only [TagAsync.readTag, DicomReadableBufferStream.readUint16, e1, Res.bind, f1, e3.1,
    f3.1]
  rw [(fromNumbers_value _ _ (getUint16_lt _ _) (getUint16_lt _ _)).1]

/-- C31. On a reader whose unread bytes start with the four bytes `xs` and the
four bytes `ys`, `readTag` returns the tag of `xs` and leaves the reader four
bytes further, and a second `readTag` returns the tag of `ys` and leaves it
eight bytes from the start; each tag is group * 65536 + element for the two
16-bit words read in the endianness of the reader, and lies below 2^32:
`fromNumbers` yields the unsigned number also for a group of 0x8000 or
more. -/
theorem readTag_twice (s : DicomReadableBufferStream) (xs ys rest : List Nat)
    (hx : xs.length = 4) (hy : ys.length = 4) (hs : s.unread = xs ++ ys ++ rest) :
    ∃ s1 s2 : DicomReadableBufferStream,
      TagAsync.readTag s
        = .ok (getUint16 (xs.take 2) s.isLittleEndian * 65536 +
            getUint16 (xs.drop 2) s.isLittleEndian) s1 ∧
      s1.unread = ys ++ rest ∧ s1.unread = s.unread.drop 4 ∧ Same s s1 ∧
      TagAsync.readTag s1
        = .ok (getUint16 (ys.take 2) s.isLittleEndian * 65536 +
            getUint16 (ys.drop 2) s.isLittleEndian) s2 ∧
      s2.unread = rest ∧ s2.unread = s.unread.drop 8 ∧ Same s1 s2 ∧
      getUint16 (xs.take 2) s.isLittleEndian * 65536 + getUint16 (xs.drop 2) s.isLittleEndian
        < 4294967296 ∧
      getUint16 (ys.take 2) s.isLittleEndian * 65536 + getUint16 (ys.drop 2) s.isLittleEndian
        < 4294967296 ∧
      (∀ group element, group < 65536 → element < 65536 →
        TagAsync.fromNumbers group element = group * 65536 + element) := by
  rw [List.append_assoc] at hs
  obtain ⟨s1, e1, e2, e3⟩ := readTag_any s xs _ hs hx
  obtain ⟨s2, f1, f2, f3⟩ := readTag_any s1 ys rest e2 hy
  rw [e3.1] at f1
  have h1 := getUint16_lt (xs.take 2) s.isLittleEndian
  have h2 := getUint16_lt (xs.drop 2) s.isLittleEndian
  have h3 := getUint16_lt (ys.take 2) s.isLittleEndian
  have h4 := getUint16_lt (ys.drop 2) s.isLittleEndian
  refine ⟨s1, s2, e1, e2, ?_, e3, f1, f2, ?_, f3, by omega, by omega,
    fun g e hg he => (fromNumbers_value g e hg he).1⟩
  · rw [e2, hs, ← hx, List.drop_left]
  · rw [f2, hs, ← List.append_assoc]
    have : (xs ++ ys).length = 8 := by simp [hx, hy]
    rw [← this, List.drop_left]

theorem readTag_twice_witness :
    (∃ s1 s2 : DicomReadableBufferStream,
      TagAsync.readTag (readerOf [0xfe, 0xff, 0x00, 0xe0, 0x08, 0x00, 0x60, 0x00, 9])
        = .ok (getUint16 ([0xfe, 0xff, 0x00, 0xe0].take 2) true * 65536 +
            getUint16 ([0xfe, 0xff, 0x00, 0xe0].drop 2) true) s1 ∧
      s1.unread = [0x08, 0x00, 0x60, 0x00] ++ [9] ∧
      s1.unread = (readerOf [0xfe, 0xff, 0x00, 0xe0, 0x08, 0x00, 0x60, 0x00, 9]).unread.drop 4 ∧
      Same (readerOf [0xfe, 0xff, 0x00, 0xe0, 0x08, 0x00, 0x60, 0x00, 9]) s1 ∧
      TagAsync.readTag s1
        = .ok (getUint16 ([0x08, 0x00, 0x60, 0x00].take 2) true * 65536 +
            getUint16 ([0x08, 0x00, 0x60, 0x00].drop 2) true) s2 ∧
      s2.unread = [9] ∧
      s2.unread = (readerOf [0xfe, 0xff, 0x00, 0xe0, 0x08, 0x00, 0x60, 0x00, 9]).unread.drop 8 ∧
      Same s1 s2 ∧
      getUint16 ([0xfe, 0xff, 0x00, 0xe0].take 2) true * 65536 +
        getUint16 ([0xfe, 0xff, 0x00, 0xe0].drop 2) true < 4294967296 ∧
      getUint16 ([0x08, 0x00, 0x60, 0x00].take 2) true * 65536 +
        getUint16 ([0x08, 0x00, 0x60, 0x00].drop 2) true < 4294967296 ∧
      (∀ group element, group < 65536 → element < 65536 →
        TagAsync.fromNumbers group element = group * 65536 + element)) ∧
    getUint16 ([0xfe, 0xff, 0x00, 0xe0].take 2) true * 65536 +
      getUint16 ([0xfe, 0xff, 0x00, 0xe0].drop 2) true = 0xfffee000 ∧
    TagAsync.fromNumbers 0xfffe 0xe000 = 0xfffee000 :=
  ⟨readTag_twice (readerOf [0xfe, 0xff, 0x00, 0xe0, 0x08, 0x00, 0x60, 0x00, 9])
    [0xfe, 0xff, 0x00, 0xe0] [0x08, 0x00, 0x60, 0x00] [9] rfl rfl rfl, by decide, by decide⟩

/-- C32. With `b0 .. b3` bytes: `readUint16` and `readInt16` take the two bytes
`b0 b1` off the reader, `readUint32` and `readInt32` the four bytes
`b0 b1 b2 b3`, and nothing else changes.  The unsigned value is the
little-endian one on a little-endian reader and the big-endian one
otherwise; the signed value is the unsigned one when the most significant
byte is below 128 and the unsigned one minus 2^16, or 2^32, when the top
bit is set. -/
theorem typed_readers_values (s : DicomReadableBufferStream) (b0 b1 b2 b3 : Nat)
    (rest : List Nat) (h0 : b0 < 256) (h1 : b1 < 256) (h2 : b2 < 256) (h3 : b3 < 256) :
    (s.unread = [b0, b1] ++ rest →
      (∃ s1, s.readUint16
          = .ok (if s.isLittleEndian then b0 + 256 * b1 else 256 * b0 + b1) s1 ∧
        s1.unread = rest ∧ Same s s1) ∧
      (∃ s1, s.readInt16
          = .ok (if (if s.isLittleEndian then b1 else b0) < 128
              then ((if s.isLittleEndian then b0 + 256 * b1 else 256 * b0 + b1 : Nat) : Int)
              else ((if s.isLittleEndian then b0 + 256 * b1 else 256 * b0 + b1 : Nat) : Int)
                - 65536) s1 ∧
        s1.unread = rest ∧ Same s s1)) ∧
    (s.unread = [b0, b1, b2, b3] ++ rest →
      (∃ s1, s.readUint32
          = .ok (if s.isLittleEndian then b0 + 256 * b1 + 65536 * b2 + 16777216 * b3
              else 16777216 * b0 + 65536 * b1 + 256 * b2 + b3) s1 ∧
        s1.unread = rest ∧ Same s s1) ∧
      (∃ s1, s.readInt32
          = .ok (if (if s.isLittleEndian then b3 else b0) < 128
              then ((if s.isLittleEndian then b0 + 256 * b1 + 65536 * b2 + 16777216 * b3
                else 16777216 * b0 + 65536 * b1 + 256 * b2 + b3 : Nat) : Int)
              else ((if s.isLittleEndian then b0 + 256 * b1 + 65536 * b2 + 16777216 * b3
                else 16777216 * b0 + 65536 * b1 + 256 * b2 + b3 : Nat) : Int)
                - 4294967296) s1 ∧
        s1.unread = rest ∧ Same s s1)) := by
  have m0 : b0 % 256 = b0 := Nat.mod_eq_of_lt h0
  have m1 : b1 % 256 = b1 := Nat.mod_eq_of_lt h1
  have m2 : b2 % 256 = b2 := Nat.mod_eq_of_lt h2
  have m3 : b3 % 256 = b3 := Nat.mod_eq_of_lt h3
  constructor
  · intro hs
    obtain ⟨s1, e1, e2, e3⟩ := readNBytes_layout s [b0, b1] rest 2 hs rfl
    have hu : getUint16 [b0, b1] s.isLittleEndian
        = if s.isLittleEndian then b0 + 256 * b1 else 256 * b0 + b1 := by
      simp [getUint16, byteAt, m0, m1]
    refine ⟨⟨s1, ?_, e2, e3⟩, ⟨s1, ?_, e2, e3⟩⟩
    · simp only [DicomReadableBufferStream.readUint16, e1, Res.bind, e3.1, hu]
    · simp only [DicomReadableBufferStream.readInt16, e1, Res.bind, e3.1, getInt16, hu]
      cases s.isLittleEndian <;> simp only [Bool.false_eq_true, if_false, if_true] <;>
        split <;> split <;> first | rfl | omega
  · intro hs
    obtain ⟨s1, e1, e2, e3⟩ := readNBytes_layout s [b0, b1, b2, b3] rest 4 hs rfl
    have hu : getUint32 [b0, b1, b2, b3] s.isLittleEndian
        = if s.isLittleEndian then b0 + 256 * b1 + 65536 * b2 + 16777216 * b3
          else 16777216 * b0 + 65536 * b1 + 256 * b2 + b3 := by
      simp [getUint32, byteAt, m0, m1, m2, m3]
    refine ⟨⟨s1, ?_, e2, e3⟩, ⟨s1, ?_, e2, e3⟩⟩
    · simp only [DicomReadableBufferStream.readUint32, e1, Res.bind, e3.1, hu]
    · simp only [DicomReadableBufferStream.readInt32, e1, Res.bind, e3.1, getInt32, hu]
      cases s.isLittleEndian <;> simp only [Bool.false_eq_true, if_false, if_true] <;>
        split <;> split <;> first | rfl | omega

theorem typed_readers_values_witness :
    ((∃ s1, (bufferedReaderOf [0xfe, 0xff, 9]).readUint16 = .ok 0xfffe s1 ∧ s1.unread = [9] ∧
        Same (bufferedReaderOf [0xfe, 0xff, 9]) s1) ∧
      (∃ s1, (bufferedReaderOf [0xfe, 0xff, 9]).readInt16 = .ok (-2) s1 ∧ s1.unread = [9] ∧
        Same (bufferedReaderOf [0xfe, 0xff, 9]) s1)) ∧
    ((∃ s1, (bufferedReaderOf [0, 0, 0, 128, 9]).readUint32 = .ok 0x80000000 s1 ∧
        s1.unread = [9] ∧ Same (bufferedReaderOf [0, 0, 0, 128, 9]) s1) ∧
      (∃ s1, (bufferedReaderOf [0, 0, 0, 128, 9]).readInt32 = .ok (-2147483648) s1 ∧
        s1.unread = [9] ∧ Same (bufferedReaderOf [0, 0, 0, 128, 9]) s1)) ∧
    ((∃ s1, ((bufferedReaderOf [0, 0, 0, 128, 9]).setEndian false).readUint32 = .ok 128 s1 ∧
        s1.unread = [9] ∧ Same ((bufferedReaderOf [0, 0, 0, 128, 9]).setEndian false) s1) ∧
      (∃ s1, ((bufferedReaderOf [0, 0, 0, 128, 9]).setEndian false).readInt32 = .ok 128 s1 ∧
        s1.unread = [9] ∧ Same ((bufferedReaderOf [0, 0, 0, 128, 9]).setEndian false) s1)) :=
  ⟨(typed_readers_values (bufferedReaderOf [0xfe, 0xff, 9]) 0xfe 0xff 0 0 [9] (by decide)
      (by decide) (by decide) (by decide)).1 rfl,
    (typed_readers_values (bufferedReaderOf [0, 0, 0, 128, 9]) 0 0 0 128 [9] (by decide)
      (by decide) (by decide) (by decide)).2 rfl,
    (typed_readers_values ((bufferedReaderOf [0, 0, 0, 128, 9]).setEndian false) 0 0 0 128 [9]
      (by decide) (by decide) (by decide) (by decide)).2 rfl⟩

/-! ## The end of the reader -/

/-- C33. The method `end()` answers true exactly when the file stream has
signalled its end and the buffered remainder is empty; the end flag is set
exactly when the file stream has ended, so `end()` is false while buffered
bytes remain and false while the file stream still flows. -/
theorem streamEnd_iff (s : DicomReadableBufferStream) :
    (s.streamEnd = true ↔ s.isStreamEnded = true ∧ s.remainingBuffer = []) ∧
    (s.isStreamEnded = true ↔ s.fileStream = .ended) ∧
    (s.remainingBuffer ≠ [] → s.streamEnd = false) ∧
    (∀ chunks, s.fileStream = .flowing chunks → s.streamEnd = false) := by
  have h1 : s.streamEnd = true ↔ s.isStreamEnded = true ∧ s.remainingBuffer = [] := by
    simp [DicomReadableBufferStream.streamEnd, List.length_eq_zero]
  have h2 : s.isStreamEnded = true ↔ s.fileStream = .ended := by
    unfold DicomReadableBufferStream.isStreamEnded
    cases s.fileStream <;> simp
  refine ⟨h1, h2, fun hne => ?_, fun chunks hc => ?_⟩
  · cases hse : s.streamEnd with
    | false => rfl
    | true => exact absurd (h1.mp hse).2 hne
  · cases hse : s.streamEnd with
    | false => rfl
    | true =>
      have := h2.mp (h1.mp hse).1
      rw [hc] at this
      cases this

theorem streamEnd_iff_witness :
    ((endedReaderOf []).streamEnd = true ↔
      (endedReaderOf []).isStreamEnded = true ∧ (endedReaderOf []).remainingBuffer = []) ∧
    (endedReaderOf []).streamEnd = true ∧
    (endedReaderOf [7]).streamEnd = false ∧
    (bufferedReaderOf []).streamEnd = false :=
  ⟨(streamEnd_iff (endedReaderOf [])).1, rfl,
    (streamEnd_iff (endedReaderOf [7])).2.2.1 (by decide),
    (streamEnd_iff (bufferedReaderOf [])).2.2.2 [] rfl⟩

/-! ## The endianness around an element -/

/-- C34. When `_readTag` meets the stop tag and its value is not requested, it
returns right after the tag, before `stream.setEndian(oldEndian)`: on a
reader whose endianness differs from the one of the transfer syntax, the
call returns and leaves the reader with the endianness of the syntax, not
with the one it had before the call. -/
theorem readTag_stop_tag_keeps_override (d : Dcmjs) (s : DicomReadableBufferStream)
    (transferSyntax : String) (options : Options) (tag : Nat) (rest : List Nat)
    (htag : tag < 4294967296)
    (hstop : options.untilTag = some (toCleanString tag) ∧ options.includeUntilTagValue = false)
    (hdiff : s.isLittleEndian ≠ d.littleEndian transferSyntax)
    (hs : s.unread = encTag (d.littleEndian transferSyntax) tag ++ rest) :
    ∃ info s1, DicomMessageAsync._readTag d s transferSyntax options = .ok info s1 ∧
      info.tag = tag ∧ info.vr = none ∧ s1.unread = rest ∧
      s1.isLittleEndian = d.littleEndian transferSyntax ∧
      s1.isLittleEndian ≠ s.isLittleEndian := by
  obtain ⟨s1, e1, e2, e3⟩ := readTag_layout (s.setEndian (d.littleEndian transferSyntax)) tag rest
    hs htag
  refine ⟨{ tag := tag, vr := none, values := .one (.number 0), rawValues := .one .undefined },
    s1, ?_, rfl, rfl, e2, e3.1, ?_⟩
  · simp only [DicomMessageAsync._readTag, e1, Res.bind, if_pos hstop]
  · rw [e3.1]
    exact fun h => hdiff h.symm

theorem readTag_stop_tag_keeps_override_witness :
    (∃ info s1, DicomMessageAsync._readTag exampleDcmjs
        ((readerOf (encTag true 0x7fe00010 ++ [79, 66, 0, 0])).setEndian false)
        "1.2.840.10008.1.2.1" untilPixelData = .ok info s1 ∧
      info.tag = 0x7fe00010 ∧ info.vr = none ∧ s1.unread = [79, 66, 0, 0] ∧
      s1.isLittleEndian = exampleDcmjs.littleEndian "1.2.840.10008.1.2.1" ∧
      s1.isLittleEndian ≠
        ((readerOf (encTag true 0x7fe00010 ++ [79, 66, 0, 0])).setEndian false).isLittleEndian) ∧
    DicomMessageAsync._readTag exampleDcmjs
        ((readerOf (explicitElement 0x00080060 "CS" [77, 82] ++ [9])).setEndian false)
        "1.2.840.10008.1.2.1"
        { ignoreErrors := false, untilTag := some "00080060", includeUntilTagValue := false,
          forceStoreRaw := false }
      = .ok { tag := 0x00080060, vr := none, values := .one (.number 0),
              rawValues := .one .undefined }
          { isLittleEndian := true, remainingBuffer := [67, 83, 2, 0, 77, 82, 9],
            fileStream := .flowing [], decoder := "latin1" } ∧
    DicomMessageAsync._readTag exampleDcmjs
        ((readerOf (explicitElement 0x00080060 "CS" [77, 82] ++ [9])).setEndian false)
        "1.2.840.10008.1.2.1" defaultOptions
      = .ok { tag := 0x00080060, vr := some (.registered .CS), values := .array [.string "MR"],
              rawValues := .array [.string "MR"] }
          { isLittleEndian := false, remainingBuffer := [9], fileStream := .flowing [],
            decoder := "latin1" } :=
  ⟨readTag_stop_tag_keeps_override exampleDcmjs
    ((readerOf (encTag true 0x7fe00010 ++ [79, 66, 0, 0])).setEndian false)
    "1.2.840.10008.1.2.1" untilPixelData 0x7fe00010 [79, 66, 0, 0] (by decide)
    ⟨by decide, rfl⟩ (by decide) rfl, rfl, rfl⟩

/-! ## A source that ends inside the header of an element -/

/-- C35. Explicit little-endian elements whose source ends inside the length
field: for AT the call throws a TypeError, for SQ it never settles, with the
length cut short as well as with the reserved bytes cut short; for CS, US
and OB it returns an element for the tag.  A source that ends inside the
four bytes of the tag makes the call fail with the error of the
reader. -/
theorem readTag_truncated_length_not_always_soft :
    DicomMessageAsync._readTag exampleDcmjs
        (readerOf (encTag true 0x00280009 ++ [65, 84] ++ [4])) "1.2.840.10008.1.2.1"
        defaultOptions
      = .error .typeError
          (endedReaderOf [4]) ∧
    DicomMessageAsync._readTag exampleDcmjs
        (readerOf (encTag true 0x00081140 ++ [83, 81] ++ [0, 0, 255, 255]))
        "1.2.840.10008.1.2.1" defaultOptions = .pending ∧
    DicomMessageAsync._readTag exampleDcmjs
        (readerOf (encTag true 0x00081140 ++ [83, 81] ++ [0])) "1.2.840.10008.1.2.1"
        defaultOptions = .pending ∧
    DicomMessageAsync._readTag exampleDcmjs
        (readerOf (encTag true 0x00080060 ++ [67, 83] ++ [2])) "1.2.840.10008.1.2.1"
        defaultOptions
      = .ok { tag := 0x00080060, vr := some (.registered .CS), values := .array [.string ""],
              rawValues := .array [.string ""] }
          (endedReaderOf [2]) ∧
    DicomMessageAsync._readTag exampleDcmjs
        (readerOf (encTag true 0x00280010 ++ [85, 83] ++ [2])) "1.2.840.10008.1.2.1"
        defaultOptions
      = .ok { tag := 0x00280010, vr := some (.registered .US), values := .array [.undefined],
              rawValues := .array [.undefined] }
          (endedReaderOf [2]) ∧
    DicomMessageAsync._readTag exampleDcmjs
        (readerOf (encTag true 0x7fe00010 ++ [79, 66] ++ [0, 0, 4])) "1.2.840.10008.1.2.1"
        defaultOptions
      = .ok { tag := 0x7fe00010, vr := some (.registered .OB), values := .array [.buffer []],
              rawValues := .array [.buffer []] }
          (endedReaderOf [4]) ∧
    DicomMessageAsync._readTag exampleDcmjs (readerOf [8, 0, 96]) "1.2.840.10008.1.2.1"
        defaultOptions
      = .error (.streamEnded 2)
          (endedReaderOf [96]) :=
  ⟨rfl, rfl, rfl, rfl, rfl, rfl, rfl⟩

/-! ## The buffered remainder -/

theorem onData_last_chunk (n : Nat) :
    ∀ (chunks : List (List Nat)) (acc buffer : List Nat) (rest : List (List Nat)),
      acc.length < n → onData n acc chunks = some (buffer, rest) →
      ∃ pulled last, chunks = pulled ++ [last] ++ rest ∧
        buffer = acc ++ pulled.flatten ++ last ∧ (acc ++ pulled.flatten).length < n ∧
        n ≤ buffer.length := by
  intro chunks
  induction chunks with
  | nil => intro acc buffer rest _ h; cases h
  | cons c cs ih =>
    intro acc buffer rest hacc h
    unfold onData at h
    by_cases hc : n ≤ (acc ++ c).length
    · rw [if_pos hc] at h
      simp only [Option.some.injEq, Prod.mk.injEq] at h
      obtain ⟨hb, hr⟩ := h
      subst hb hr
      exact ⟨[], c, by simp, by simp, by simpa using hacc, hc⟩
    · rw [if_neg hc] at h
      obtain ⟨pulled, last, h1, h2, h3, h4⟩ := ih (acc ++ c) buffer rest (by omega) h
      refine ⟨c :: pulled, last, ?_, ?_, ?_, h4⟩
      · rw [h1]; simp
      · rw [h2]; simp
      · simpa [List.append_assoc] using h3

/-- One `readNBytes` that resolves: served from the buffer, or by pulling
chunks up to the one that satisfies the request. -/
theorem readNBytes_step (s s1 : DicomReadableBufferStream) (n : Nat) (b : List Nat)
    (h : s.readNBytes n = .ok b s1) :
    (n ≤ s.remainingBuffer.length ∧ s1.fileStream = s.fileStream ∧
      s1.remainingBuffer = s.remainingBuffer.drop n) ∨
    (¬ n ≤ s.remainingBuffer.length ∧
      ∃ pulled last, s.fileStream.chunks = pulled ++ [last] ++ s1.fileStream.chunks ∧
        s1.remainingBuffer.length < last.length ∧
        (s.remainingBuffer ++ pulled.flatten).length < n) := by
  unfold DicomReadableBufferStream.readNBytes at h
  by_cases hb : n ≤ s.remainingBuffer.length
  · rw [if_pos hb] at h
    cases h
    exact Or.inl ⟨hb, rfl, rfl⟩
  · rw [if_neg hb] at h
    right
    refine ⟨hb, ?_⟩
    rcases hfs : s.fileStream with chunks | _
    · rw [hfs] at h
      simp only at h
      cases hod : onData n s.remainingBuffer chunks with
      | none => rw [hod] at h; cases h
      | some p =>
        obtain ⟨buffer, rest⟩ := p
        rw [hod] at h
        simp only [Res.ok.injEq] at h
        obtain ⟨_, hs1⟩ := h
        subst hs1
        obtain ⟨pulled, last, h1, h2, h3, h4⟩ := onData_last_chunk n chunks s.remainingBuffer
          buffer rest (by omega) hod
        refine ⟨pulled, last, by simpa [FileStream.chunks] using h1, ?_, h3⟩
        simp only [List.length_drop]
        rw [h2] at h4 ⊢
        simp only [List.length_append] at h3 h4 ⊢
        omega
    · rw [hfs] at h
      cases h

/-- The invariant of a sequence of reads: the chunks delivered, and the
remainder against the last of them. -/
theorem readAll_remainder :
    ∀ (ns : List Nat) (s s2 : DicomReadableBufferStream) (bs : List (List Nat)),
      readAll s ns = .ok bs s2 →
      ∃ delivered, s.fileStream.chunks = delivered ++ s2.fileStream.chunks ∧
        (delivered = [] → s2.remainingBuffer.length ≤ s.remainingBuffer.length) ∧
        (∀ last, delivered.getLast? = some last → s2.remainingBuffer.length < last.length) := by
  intro ns
  induction ns with
  | nil =>
    intro s s2 bs h
    simp only [readAll, Res.ok.injEq] at h
    obtain ⟨_, hs⟩ := h
    subst hs
    exact ⟨[], by simp, fun _ => Nat.le_refl _, fun last hl => by simp at hl⟩
  | cons n ns ih =>
    intro s s2 bs h
    simp only [readAll] at h
    cases hr : s.readNBytes n with
    | ok b s1 =>
      rw [hr] at h
      simp only [Res.bind] at h
      cases hra : readAll s1 ns with
      | ok bs1 t =>
        rw [hra] at h
        simp only [Res.ok.injEq] at h
        obtain ⟨_, ht⟩ := h
        subst ht
        obtain ⟨d2, k1, k2, k3⟩ := ih s1 t bs1 hra
        rcases readNBytes_step s s1 n b hr with ⟨_, g1, g2⟩ | ⟨_, pulled, last1, g1, g2, _⟩
        · refine ⟨d2, by rw [← g1, k1], fun hd => ?_, k3⟩
          have := k2 hd
          rw [g2, List.length_drop] at this
          omega
        · refine ⟨pulled ++ [last1] ++ d2, by rw [g1, k1]; simp, fun hd => by simp at hd,
            fun last hl => ?_⟩
          by_cases hd2 : d2 = []
          · subst hd2
            have hlast : last = last1 := by simpa using hl.symm
            subst hlast
            have := k2 rfl
            omega
          · rw [List.getLast?_append_of_ne_nil _ hd2] at hl
            exact k3 last hl
      | error e t => rw [hra] at h; cases h
      | pending => rw [hra] at h; cases h
      | outOfFuel => rw [hra] at h; cases h
    | error e t => rw [hr] at h; cases h
    | pending => rw [hr] at h; cases h
    | outOfFuel => rw [hr] at h; cases h

/-- C36. Starting from an empty buffer, a sequence of `readNBytes` calls that
all resolve has taken a prefix `delivered` of the chunks of the file stream;
the buffered remainder is then no longer than any bound on the chunks
delivered, strictly shorter than the last chunk delivered, and empty when
none was.  For one call that resolves, from any reader: either the buffer
held the bytes, the file stream is untouched and the remainder shrinks by
the bytes handed out, or the call pulled the chunks `pulled` and `last`, the
bytes before `last` did not satisfy the request, and the remainder is
strictly shorter than `last`. -/
theorem readNBytes_backpressure (s s2 : DicomReadableBufferStream) (ns : List Nat)
    (bs : List (List Nat)) (hempty : s.remainingBuffer = [])
    (h : readAll s ns = .ok bs s2) :
    (∃ delivered, s.fileStream.chunks = delivered ++ s2.fileStream.chunks ∧
      (∀ M, (∀ c ∈ delivered, c.length ≤ M) → s2.remainingBuffer.length ≤ M) ∧
      (∀ last, delivered.getLast? = some last → s2.remainingBuffer.length < last.length) ∧
      (delivered = [] → s2.remainingBuffer = [])) ∧
    (∀ (t t1 : DicomReadableBufferStream) (n : Nat) (b : List Nat),
      t.readNBytes n = .ok b t1 →
      (n ≤ t.remainingBuffer.length ∧ t1.fileStream = t.fileStream ∧
        t1.remainingBuffer = t.remainingBuffer.drop n ∧
        t1.remainingBuffer.length ≤ t.remainingBuffer.length) ∨
      (¬ n ≤ t.remainingBuffer.length ∧
        ∃ pulled last, t.fileStream.chunks = pulled ++ [last] ++ t1.fileStream.chunks ∧
          t1.remainingBuffer.length < last.length ∧
          (t.remainingBuffer ++ pulled.flatten).length < n)) := by
  constructor
  · obtain ⟨delivered, k1, k2, k3⟩ := readAll_remainder ns s s2 bs h
    refine ⟨delivered, k1, fun M hM => ?_, k3, fun hd => ?_⟩
    · rcases List.eq_nil_or_concat delivered with hd | ⟨front, last, hd⟩
      · have := k2 hd
        rw [hempty, List.length_nil] at this
        omega
      · have hl : delivered.getLast? = some last := by rw [hd]; simp
        have h1 := k3 last hl
        have h2 := hM last (by rw [hd]; simp)
        omega
    · have := k2 hd
      rw [hempty, List.length_nil] at this
      exact List.length_eq_zero.mp (by omega)
  · intro t t1 n b ht
    rcases readNBytes_step t t1 n b ht with ⟨g0, g1, g2⟩ | g
    · exact Or.inl ⟨g0, g1, g2, by rw [g2, List.length_drop]; omega⟩
    · exact Or.inr g

theorem readNBytes_backpressure_witness :
    (∃ delivered,
      (openFile [[1, 2], [3, 4, 5], [6, 7]]).fileStream.chunks
        = delivered ++ (openFile [[6, 7]]).fileStream.chunks ∧
      (∀ M, (∀ c ∈ delivered, c.length ≤ M) →
        { openFile [[6, 7]] with remainingBuffer := [5] }.remainingBuffer.length ≤ M) ∧
      (∀ last, delivered.getLast? = some last →
        { openFile [[6, 7]] with remainingBuffer := [5] }.remainingBuffer.length < last.length) ∧
      (delivered = [] → { openFile [[6, 7]] with remainingBuffer := [5] }.remainingBuffer = [])) ∧
    readAll (openFile [[1, 2], [3, 4, 5], [6, 7]]) [3, 1]
      = .ok [[1, 2, 3], [4]] { openFile [[6, 7]] with remainingBuffer := [5] } :=
  ⟨(readNBytes_backpressure (openFile [[1, 2], [3, 4, 5], [6, 7]])
    { openFile [[6, 7]] with remainingBuffer := [5] } [3, 1] [[1, 2, 3], [4]] rfl rfl).1, rfl⟩

/-! ## The VR of an unknown tag in implicit syntax -/

/-- C37. In implicit syntax, for a tag that the dictionary does not hold and a
length field `L`, the header read returns the length and the VR of the
chain: SQ when `L` is 0xFFFFFFFF, else OW for the pixel-data tag, else LO for
a private creator, else UN.  The type string is never "xs" nor "US": the
branch for "xs" needs `vrType` to be "xs" already, and `vrType` is still
unassigned there.  A dictionary entry "xs" gives US and an entry "ox" gives
OW through `createByTypeString`. -/
theorem readTag_implicit_unknown_tag_vr (d : Dcmjs) (s1 : DicomReadableBufferStream)
    (tag L : Nat) (r : List Nat) (hdict : d.lookupTag tag = none) (hL : L < 4294967296)
    (hs : s1.unread = enc32 s1.isLittleEndian L ++ r) :
    (∃ s2, readVrAndLength d true tag s1
        = .ok (.registered (if L = 0xffffffff then .SQ
            else if isPixelDataTag tag then .OW
            else if d.isPrivateCreator tag then .LO
            else .UN), some L) s2 ∧ s2.unread = r) ∧
    implicitVrType d tag L
      = (if L = 0xffffffff then "SQ" else if isPixelDataTag tag then "OW"
          else if d.isPrivateCreator tag then "LO" else "UN") ∧
    implicitVrType d tag L ≠ "xs" ∧ implicitVrType d tag L ≠ "US" ∧
    createByTypeString (implicitVrType d tag L) ≠ .US ∧
    (∀ vrType, unknownTagVrType d tag L vrType = "US" → vrType = some "xs") ∧
    (∀ (tag2 : Nat), d.lookupTag tag2 = some "xs" →
      createByTypeString (implicitVrType d tag2 L) = .US) ∧
    (∀ (tag2 : Nat), d.lookupTag tag2 = some "ox" →
      createByTypeString (implicitVrType d tag2 L) = .OW) := by
  have hty : implicitVrType d tag L
      = (if L = 0xffffffff then "SQ" else if isPixelDataTag tag then "OW"
          else if d.isPrivateCreator tag then "LO" else "UN") := by
    simp [implicitVrType, hdict, unknownTagVrType]
  have hvr : createByTypeString (implicitVrType d tag L)
      = (if L = 0xffffffff then VRCode.SQ else if isPixelDataTag tag then .OW
          else if d.isPrivateCreator tag then .LO else .UN) := by
    rw [hty]
    split
    · rfl
    · split
      · rfl
      · split <;> rfl
  refine ⟨?_, hty, ?_, ?_, ?_, ?_, ?_, ?_⟩
  · obtain ⟨s2, e1, e2, _⟩ := readUint32_layout s1 L r hs hL
    refine ⟨s2, ?_, e2⟩
    simp only [readVrAndLength, if_true, e1, Res.bind, hvr]
  · rw [hty]; split_ifs <;> decide
  · rw [hty]; split_ifs <;> decide
  · rw [hvr]; split_ifs <;> decide
  · intro vrType h
    unfold unknownTagVrType at h
    split_ifs at h with h1 h2 h3 h4
    · exact absurd h (by decide)
    · exact absurd h (by decide)
    · exact h3
    · exact absurd h (by decide)
    · exact absurd h (by decide)
  · intro tag2 h
    simp [implicitVrType, h]
    rfl
  · intro tag2 h
    simp [implicitVrType, h]
    rfl

theorem readTag_implicit_unknown_tag_vr_witness :
    (∃ s2, readVrAndLength exampleDcmjs true 0x00091001
        (bufferedReaderOf (enc32 true 4 ++ [1, 2, 3, 4]))
        = .ok (.registered .UN, some 4) s2 ∧ s2.unread = [1, 2, 3, 4]) ∧
    (∃ s2, readVrAndLength exampleDcmjs true 0x00091001
        (bufferedReaderOf (enc32 true 0xffffffff ++ [1, 2, 3, 4]))
        = .ok (.registered .SQ, some 0xffffffff) s2 ∧ s2.unread = [1, 2, 3, 4]) ∧
    (∃ s2, readVrAndLength exampleDcmjs true 0x7fe00010
        (bufferedReaderOf (enc32 true 4 ++ [1, 2, 3, 4]))
        = .ok (.registered .OW, some 4) s2 ∧ s2.unread = [1, 2, 3, 4]) :=
  ⟨(readTag_implicit_unknown_tag_vr exampleDcmjs (bufferedReaderOf (enc32 true 4 ++ [1, 2, 3, 4]))
      0x00091001 4 [1, 2, 3, 4] rfl (by decide) (by decide)).1,
    (readTag_implicit_unknown_tag_vr exampleDcmjs
      (bufferedReaderOf (enc32 true 0xffffffff ++ [1, 2, 3, 4])) 0x00091001 0xffffffff
      [1, 2, 3, 4] rfl (by decide) (by decide)).1,
    (readTag_implicit_unknown_tag_vr exampleDcmjs (bufferedReaderOf (enc32 true 4 ++ [1, 2, 3, 4]))
      0x7fe00010 4 [1, 2, 3, 4] rfl (by decide) (by decide)).1⟩

/-! ## The temporary buffer of the item scan -/

theorem readNBytes_ok_full (s s1 : DicomReadableBufferStream) (n : Nat) (b : List Nat)
    (h : s.readNBytes n = .ok b s1) :
    s.unread = b ++ s1.unread ∧ b.length = n ∧ s1.isLittleEndian = s.isLittleEndian := by
  obtain ⟨hle, _⟩ := readNBytes_ok_inv s s1 n b h
  obtain ⟨s2, e1, e2⟩ := readNBytes_take s n hle
  rw [h] at e1
  simp only [Res.ok.injEq] at e1
  obtain ⟨hb, hs⟩ := e1
  subst hs
  rw [← hb] at e2
  exact ⟨e2.1, readNBytes_length s s1 n b h, e2.2.1⟩

theorem readUint16_ok_full (s s1 : DicomReadableBufferStream) (g : Nat)
    (h : s.readUint16 = .ok g s1) :
    ∃ b0 b1, s.unread = [b0, b1] ++ s1.unread ∧ g = getUint16 [b0, b1] s.isLittleEndian ∧
      s1.isLittleEndian = s.isLittleEndian := by
  unfold DicomReadableBufferStream.readUint16 at h
  cases hr : s.readNBytes 2 with
  | ok b s2 =>
    rw [hr] at h
    simp only [Res.bind, Res.ok.injEq] at h
    obtain ⟨hg, hs⟩ := h
    subst hs
    obtain ⟨k1, k2, k3⟩ := readNBytes_ok_full s s2 2 b hr
    match b, k2 with
    | [b0, b1], _ => exact ⟨b0, b1, k1, by rw [← hg, k3], k3⟩
  | error e s2 => rw [hr] at h; cases h
  | pending => rw [hr] at h; cases h
  | outOfFuel => rw [hr] at h; cases h

theorem readUint32_ok_full (s s1 : DicomReadableBufferStream) (v : Nat)
    (h : s.readUint32 = .ok v s1) :
    ∃ b0 b1 b2 b3, s.unread = [b0, b1, b2, b3] ++ s1.unread ∧
      v = getUint32 [b0, b1, b2, b3] s.isLittleEndian ∧
      s1.isLittleEndian = s.isLittleEndian := by
  unfold DicomReadableBufferStream.readUint32 at h
  cases hr : s.readNBytes 4 with
  | ok b s2 =>
    rw [hr] at h
    simp only [Res.bind, Res.ok.injEq] at h
    obtain ⟨hg, hs⟩ := h
    subst hs
    obtain ⟨k1, k2, k3⟩ := readNBytes_ok_full s s2 4 b hr
    match b, k2 with
    | [b0, b1, b2, b3], _ => exact ⟨b0, b1, b2, b3, k1, by rw [← hg, k3], k3⟩
  | error e s2 => rw [hr] at h; cases h
  | pending => rw [hr] at h; cases h
  | outOfFuel => rw [hr] at h; cases h

theorem wordBytes_getUint16 (b0 b1 : Nat) (h0 : b0 < 256) (h1 : b1 < 256) :
    wordBytes (getUint16 [b0, b1] true) = [b0, b1] ∧
      (getUint16 [b0, b1] true = 0xfffe → [0xfe, 0xff] = [b0, b1]) := by
  have e : getUint16 [b0, b1] true = b0 + 256 * b1 := by
    simp [getUint16, byteAt, Nat.mod_eq_of_lt h0, Nat.mod_eq_of_lt h1]
  rw [e]
  refine ⟨?_, fun h => ?_⟩
  · simp only [wordBytes, List.cons.injEq, and_true]
    constructor <;> omega
  · simp only [List.cons.injEq, and_true]
    constructor <;> omega

theorem lengthBytes_getUint32 (b0 b1 b2 b3 : Nat) (h0 : b0 < 256) (h1 : b1 < 256)
    (h2 : b2 < 256) (h3 : b3 < 256) :
    lengthBytes (getUint32 [b0, b1, b2, b3] true) = [b0, b1, b2, b3] := by
  have e : getUint32 [b0, b1, b2, b3] true = b0 + 256 * b1 + 65536 * b2 + 16777216 * b3 := by
    simp [getUint32, byteAt, Nat.mod_eq_of_lt h0, Nat.mod_eq_of_lt h1, Nat.mod_eq_of_lt h2,
      Nat.mod_eq_of_lt h3]
  rw [e, lengthBytes_enc32 _ (by omega)]
  simp only [enc32, if_true, List.cons.injEq, and_true]
  refine ⟨?_, ?_, ?_, ?_⟩ <;> omega

/-- The invariant of the scan on a little-endian reader: the temporary buffer
followed by the unread bytes is the same before any round and at the
`break`. -/
theorem scanItem_invariant :
    ∀ (fuel : Nat) (s s1 : DicomReadableBufferStream) (stack : Int) (buf tb : List Nat)
      (n : Nat), s.isLittleEndian = true → (∀ b ∈ s.unread, b < 256) →
      scanItem fuel s stack buf = .ok (tb, n) s1 → buf ++ s.unread = tb ++ s1.unread := by
  intro fuel
  induction fuel with
  | zero => intro s s1 stack buf tb n _ _ h; cases h
  | succ fuel ih =>
    intro s s1 stack buf tb n hle hbytes h
    unfold scanItem at h
    cases hg : s.readUint16 with
    | ok g t1 =>
      rw [hg] at h
      simp only [Res.bind] at h
      obtain ⟨b0, b1, k1, k2, k3⟩ := readUint16_ok_full s t1 g hg
      rw [hle] at k2 k3
      have hb0 : b0 < 256 := hbytes b0 (by rw [k1]; simp)
      have hb1 : b1 < 256 := hbytes b1 (by rw [k1]; simp)
      have hbytes1 : ∀ b ∈ t1.unread, b < 256 := fun b hb => hbytes b (by rw [k1]; simp [hb])
      have hw := wordBytes_getUint16 b0 b1 hb0 hb1
      rw [← k2] at hw
      by_cases hfe : g = 0xfffe
      · rw [if_pos hfe] at h
        cases hge : t1.readUint16 with
        | ok ge t2 =>
          rw [hge] at h
          simp only at h
          obtain ⟨c0, c1, m1, m2, m3⟩ := readUint16_ok_full t1 t2 ge hge
          rw [k3] at m2 m3
          have hc0 : c0 < 256 := hbytes1 c0 (by rw [m1]; simp)
          have hc1 : c1 < 256 := hbytes1 c1 (by rw [m1]; simp)
          have hbytes2 : ∀ b ∈ t2.unread, b < 256 :=
            fun b hb => hbytes1 b (by rw [m1]; simp [hb])
          have hw2 := (wordBytes_getUint16 c0 c1 hc0 hc1).1
          rw [← m2] at hw2
          cases hlen : t2.readUint32 with
          | ok len t3 =>
            rw [hlen] at h
            simp only at h
            obtain ⟨d0, d1, d2, d3, p1, p2, p3⟩ := readUint32_ok_full t2 t3 len hlen
            rw [m3] at p2 p3
            have hd0 : d0 < 256 := hbytes2 d0 (by rw [p1]; simp)
            have hd1 : d1 < 256 := hbytes2 d1 (by rw [p1]; simp)
            have hd2 : d2 < 256 := hbytes2 d2 (by rw [p1]; simp)
            have hd3 : d3 < 256 := hbytes2 d3 (by rw [p1]; simp)
            have hbytes3 : ∀ b ∈ t3.unread, b < 256 :=
              fun b hb => hbytes2 b (by rw [p1]; simp [hb])
            have hl := lengthBytes_getUint32 d0 d1 d2 d3 hd0 hd1 hd2 hd3
            rw [← p2] at hl
            have hcons : buf ++ [0xfe, 0xff] ++ wordBytes ge ++ lengthBytes len ++ t3.unread
                = buf ++ s.unread := by
              rw [k1, m1, p1, hw2, hl, hw.2 hfe]
              simp
            have hrec : ∀ (st : Int), scanItem fuel t3 st
                (buf ++ [0xfe, 0xff] ++ wordBytes ge ++ lengthBytes len) = .ok (tb, n) s1 →
                buf ++ s.unread = tb ++ s1.unread := by
              intro st hst
              rw [← hcons]
              exact ih t3 s1 st _ tb n p3 hbytes3 hst
            split at h
            · split at h
              · split at h
                · simp only [Res.ok.injEq, Prod.mk.injEq] at h
                  obtain ⟨⟨htb, _⟩, hs1⟩ := h
                  subst hs1
                  rw [← htb, hcons]
                · exact hrec _ h
              · exact hrec _ h
            · split at h
              · split at h
                · exact hrec _ h
                · exact hrec _ h
              · exact hrec _ h
          | error e t3 => rw [hlen] at h; cases h
          | pending => rw [hlen] at h; cases h
          | outOfFuel => rw [hlen] at h; cases h
        | error e t2 => rw [hge] at h; cases h
        | pending => rw [hge] at h; cases h
        | outOfFuel => rw [hge] at h; cases h
      · rw [if_neg hfe] at h
        have := ih t1 s1 stack (buf ++ wordBytes g) tb n k3 hbytes1 h
        rw [← this, k1, hw.1]
        simp
    | error e t1 => rw [hg] at h; cases h
    | pending => rw [hg] at h; cases h
    | outOfFuel => rw [hg] at h; cases h

/-- C38. On a little-endian reader holding bytes, when the scan of an item of
undefined length returns, its temporary buffer followed by what is left
unread is what was unread at the start: the buffer is the bytes consumed, in
order.  The same holds from any round of the scan, with the buffer and the
depth of that round.  The re-encoding of a 16-bit word inverts `readUint16`
and the re-encoding of a 32-bit length inverts `readUint32`, for every value
below 2^32, 0xFFFFFFFF included. -/
theorem scanItem_buffer_is_consumed (fuel : Nat) (s s1 : DicomReadableBufferStream)
    (tempBuffer : List Nat) (toRead : Nat) (hle : s.isLittleEndian = true)
    (hbytes : ∀ b ∈ s.unread, b < 256)
    (h : scanItem fuel s 0 [] = .ok (tempBuffer, toRead) s1) :
    s.unread = tempBuffer ++ s1.unread ∧
    (∀ (fuel2 : Nat) (t t1 : DicomReadableBufferStream) (stack : Int) (buf tb : List Nat)
      (n : Nat), t.isLittleEndian = true → (∀ b ∈ t.unread, b < 256) →
      scanItem fuel2 t stack buf = .ok (tb, n) t1 → buf ++ t.unread = tb ++ t1.unread) ∧
    (∀ b0 b1, b0 < 256 → b1 < 256 → wordBytes (getUint16 [b0, b1] true) = [b0, b1]) ∧
    (∀ b0 b1 b2 b3, b0 < 256 → b1 < 256 → b2 < 256 → b3 < 256 →
      lengthBytes (getUint32 [b0, b1, b2, b3] true) = [b0, b1, b2, b3]) ∧
    (∀ n, n < 4294967296 → lengthBytes n = enc32 true n ∧ getUint32 (lengthBytes n) true = n) ∧
    lengthBytes 0xffffffff = [255, 255, 255, 255] := by
  refine ⟨by simpa using scanItem_invariant fuel s s1 0 [] tempBuffer toRead hle hbytes h,
    scanItem_invariant, fun b0 b1 h0 h1 => (wordBytes_getUint16 b0 b1 h0 h1).1,
    lengthBytes_getUint32, fun n hn => ?_, by decide⟩
  rw [lengthBytes_enc32 n hn]
  exact ⟨rfl, getUint32_enc32 true n hn⟩

theorem scanItem_buffer_is_consumed_witness :
    (bufferedReaderOf ([8, 0, 254, 255, 0, 224, 0, 0, 0, 128] ++ itemDelimiterLayout true ++
        [9])).unread
      = ([8, 0, 254, 255, 0, 224, 0, 0, 0, 128] ++ itemDelimiterLayout true) ++
          (bufferedReaderOf [9]).unread ∧
    scanItem 30 (bufferedReaderOf ([8, 0, 254, 255, 0, 224, 0, 0, 0, 128] ++
        itemDelimiterLayout true ++ [9])) 0 []
      = .ok ([8, 0, 254, 255, 0, 224, 0, 0, 0, 128] ++ itemDelimiterLayout true, 10)
          (bufferedReaderOf [9]) ∧
    getUint32 [0, 0, 0, 128] true = 0x80000000 ∧ lengthBytes 0x80000000 = [0, 0, 0, 128] :=
  ⟨(scanItem_buffer_is_consumed 30 (bufferedReaderOf ([8, 0, 254, 255, 0, 224, 0, 0, 0, 128] ++
      itemDelimiterLayout true ++ [9])) (bufferedReaderOf [9])
    ([8, 0, 254, 255, 0, 224, 0, 0, 0, 128] ++ itemDelimiterLayout true) 10 rfl (by decide)
    (by decide)).1, by decide, rfl, by decide⟩

/-! ## Fixed-length values of another length -/

/-- C39. For a fixed-length VR (AS, AT, FL, FD, SL, SS, UL, US) and a declared
length that is neither zero nor the width of the VR, `read` reaches
`log.error`, and the module binds no `log`: the call throws a
ReferenceError before any byte is read and returns no value. -/
theorem read_fixed_length_mismatch_throws (d : Dcmjs) (c : VRCode)
    (s : DicomReadableBufferStream) (L : Nat) (transferSyntax : String) (forceStoreRaw : Bool)
    (hfixed : c ∈ [VRCode.AS, .AT, .FL, .FD, .SL, .SS, .UL, .US]) (h0 : L ≠ 0)
    (hne : c.maxLength ≠ some L) :
    c.read d s (some L) transferSyntax forceStoreRaw = .error .referenceError s ∧
    ∀ r s1, c.read d s (some L) transferSyntax forceStoreRaw ≠ .ok r s1 := by
  have hf : c.fixed = true ∧ c.maxLength.getD 0 ≠ 0 := by
    simp only [List.mem_cons, List.mem_singleton, List.not_mem_nil, or_false] at hfixed
    rcases hfixed with rfl | rfl | rfl | rfl | rfl | rfl | rfl | rfl <;> exact ⟨rfl, by decide⟩
  have h : c.read d s (some L) transferSyntax forceStoreRaw = .error .referenceError s := by
    simp [VRCode.read, hf.1, hf.2, h0, hne]
  refine ⟨h, fun r s1 h2 => ?_⟩
  rw [h] at h2
  cases h2

theorem read_fixed_length_mismatch_throws_witness :
    (VRCode.read exampleDcmjs .US (bufferedReaderOf [1, 2, 3, 4]) (some 1) "1.2.840.10008.1.2.1"
        false = .error .referenceError (bufferedReaderOf [1, 2, 3, 4]) ∧
      ∀ r s1, VRCode.read exampleDcmjs .US (bufferedReaderOf [1, 2, 3, 4]) (some 1)
        "1.2.840.10008.1.2.1" false ≠ .ok r s1) ∧
    DicomMessageAsync._readTag exampleDcmjs
        (readerOf (explicitElement 0x00101010 "AS" [48, 49] ++ [9])) "1.2.840.10008.1.2.1"
        defaultOptions
      = .error .referenceError (bufferedReaderOf [48, 49, 9]) ∧
    DicomMessageAsync._readTag exampleDcmjs
        (readerOf (explicitElement 0x00280010 "US" [48] ++ [9])) "1.2.840.10008.1.2.1"
        defaultOptions
      = .error .referenceError (bufferedReaderOf [48, 9]) :=
  ⟨read_fixed_length_mismatch_throws exampleDcmjs .US (bufferedReaderOf [1, 2, 3, 4]) 1
    "1.2.840.10008.1.2.1" false (by decide) (by decide) (by decide), rfl, rfl⟩

end DcmjsStream
